import Mathlib

/-!
# Turing codec: picture reordering and GOP structure planning

A shallow embedding of `InputQueue.cpp` (the input queue of the Turing HEVC
encoder) together with theorems about it.

Conventions of the embedding

* C++ `int`, `int64_t` and `size_t` values are unbounded integers (`Int`, `Nat`);
  no run considered here comes near the machine limits.
* `std::shared_ptr<T>` is `Option T` (`none` is the null pointer).  A docket is
  shared between the window entry and the caller of `getDocket`; every write the
  code makes through the pointer is applied to the window's copy as well.
* `std::deque<T>` is `List T` (front of the deque is the head of the list).
* `std::set<int>` is a strictly ascending `List Int`.
* A failed `assert`, an exception and undefined behaviour end the run: the
  operations return `Except Failure _`.
* The literal `double` quantisation factors (0.4420, 0.3536, 0.6800) are kept in
  ten-thousandths (4420, 3536, 6800).
-/

namespace Turing

/-! ## Types declared outside `InputQueue.cpp` -/

/-- Modelled from the spec: `HevcTypes.h` is not among the sources.  The NAL unit
type codes are those of the HEVC standard (Rec. ITU-T H.265, table 7-1), which the
spec calls the standard trailing, leading-skip and intra-refresh classes. -/
def TRAIL_N : Int := 0

/-- Modelled from the spec: trailing picture, reference (H.265 table 7-1). -/
def TRAIL_R : Int := 1

/-- Modelled from the spec: random access skipped leading picture, non-reference. -/
def RASL_N : Int := 8

/-- Modelled from the spec: random access skipped leading picture, reference. -/
def RASL_R : Int := 9

/-- Modelled from the spec: instantaneous decoding refresh without leading pictures. -/
def IDR_N_LP : Int := 20

/-- Modelled from the spec: clean random access picture. -/
def CRA_NUT : Int := 21

/-- Modelled from the spec: `isIrap` of `HevcTypes.h` is not among the sources; an
intra random access point is a NAL unit type in the range 16..23 (H.265, 3.69). -/
def isIrap (nut : Int) : Bool :=
  decide (16 ≤ nut ∧ nut ≤ 23)

/-- Slice types of `HevcTypes.h`. -/
inductive SliceType
  | B
  | P
  | I
  deriving DecidableEq, Repr

/-- The fields of `PictureWrapper` that the queue reads; `handle` stands for the
identity of the object behind the shared pointer. -/
structure PictureWrapper where
  pts : Int
  sampleSize : Nat
  handle : Nat
  deriving DecidableEq, Repr

/-- Adaptive quantisation side information, passed through unmodified. -/
structure AdaptiveQuantisation where
  handle : Nat
  deriving DecidableEq, Repr

/-- The struct `LookaheadAnalysisResults` is empty. -/
structure LookaheadAnalysisResults where
  deriving DecidableEq, Repr

/-- The two sets of reference deltas of a docket (`std::set<int>`, ascending). -/
structure References where
  negative : List Int := []
  positive : List Int := []
  deriving DecidableEq, Repr

/-- Scheduling decision for one picture (`InputQueue::Docket`). -/
structure Docket where
  poc : Int := 0
  nut : Int := 0
  qpOffset : Int := 0
  qpFactor : Nat := 0
  currentGopSize : Int := 0
  sliceType : SliceType := SliceType.B
  references : References := {}
  picture : Option PictureWrapper := none
  aqInfo : Option AdaptiveQuantisation := none
  dts : Int := 0
  deriving DecidableEq, Repr

/-- Ways in which an operation can fail to return. -/
inductive Failure
  /-- The exception `std::runtime_error("max-gop-m must be either 1 or 8")`. -/
  | configuration
  /-- A failed `assert`. -/
  | assertion
  /-- The exception `std::out_of_range` thrown by `at`. -/
  | outOfRange
  /-- Undefined behaviour, such as `front()` of an empty deque. -/
  | undefinedBehaviour
  deriving DecidableEq, Repr

/-! ## `InputQueue.cpp` -/

/-- Window entry (`struct Piece`). -/
structure Piece where
  docket : Option Docket := none
  picture : Option PictureWrapper
  aqInfo : Option AdaptiveQuantisation := none
  lookaheadAnalysisResults : Option LookaheadAnalysisResults := none
  deriving DecidableEq, Repr

/-- `Piece::done`: the picture pointer is null. -/
def Piece.done (p : Piece) : Bool :=
  p.picture.isNone

/-- `std::set<int>::insert`. -/
def setInsert (x : Int) : List Int → List Int
  | [] => [x]
  | y :: ys =>
    if x < y then x :: y :: ys
    else if x = y then y :: ys
    else y :: setInsert x ys

/-- `addReference`. -/
def addReference (docket : Docket) (ref : Int) : Docket :=
  let docket :=
    if ref < 0 then
      { docket with references :=
          { docket.references with negative := setInsert ref docket.references.negative } }
    else docket
  if ref > 0 then
    { docket with references :=
        { docket.references with positive := setInsert ref docket.references.positive } }
  else docket

/-- `InputQueue::State::Timestamp`. -/
structure Timestamp where
  timestamp : Int
  sequence : Nat
  deriving DecidableEq, Repr

/-- `InputQueue::State`. -/
structure State where
  maxGopN : Int
  maxGopM : Int
  fieldCoding : Bool
  shotChange : Bool
  entriesPreanalysis : List Piece := []
  entries : List Piece := []
  timestamps : List Timestamp := []
  pictureInputCount : Nat := 0
  sequenceFront : Int := 0
  sequenceIdr : Int := 0
  finish : Bool := false
  gopSize : Int := 0
  m_shotChangeList : List Int := []
  deriving DecidableEq, Repr

/-- `std::deque::at` with an `int` index converted to `size_t`: a negative index
becomes a huge one and is out of range. -/
def atE (es : List Piece) (k : Int) : Except Failure Piece :=
  if 0 ≤ k then
    match es[k.toNat]? with
    | some p => pure p
    | none => throw Failure.outOfRange
  else throw Failure.outOfRange

/-- `InputQueue::State::isValidReference` (built without `FORCE_P_SLICES`).  In
`entries.size() > offset` the `int` is converted to `size_t`, so that a negative
`offset` compares greater than every size. -/
def State.isValidReference (s : State) (i delta : Int) : Except Failure Bool :=
  if ¬ (i > 0) then throw Failure.assertion
  else if delta < 0 then pure true
  else if delta = 0 then pure false
  else
    let offset := s.sequenceIdr - s.sequenceFront + 1
    let deltaLimit : Int :=
      if 0 ≤ offset ∧ (s.entries.length : Int) > offset then offset
      else (s.entries.length : Int)
    if i - 1 + delta ≥ deltaLimit then pure false
    else do
      let p ← atE s.entries (i - 1 + delta)
      pure p.docket.isSome

/-- The loop of `InputQueue::State::computeNextIdr`, started at `i`; the first
argument bounds the number of iterations left. -/
def computeNextIdrLoop (list : List Int) (fieldCoding : Bool) (nextDefaultIdr : Int) :
    Nat → Int → Int
  | 0, _ => nextDefaultIdr
  | fuel + 1, i =>
    if i < nextDefaultIdr then
      let scale : Nat := if fieldCoding then 1 else 0
      let index : Int := i >>> scale
      let index : Int := if index < 0 then 0 else index
      if index ≥ (list.length : Int) then nextDefaultIdr
      else if Int.tmod i ((if fieldCoding then 1 else 0) + 1) = 0
          ∧ list.getD index.toNat 0 ≠ 0 then i
      else computeNextIdrLoop list fieldCoding nextDefaultIdr fuel (i + 1)
    else nextDefaultIdr

/-- `InputQueue::State::computeNextIdr`. -/
def State.computeNextIdr (s : State) (sequenceFront nextDefaultIdr : Int)
    (fieldCoding : Bool) : Int :=
  computeNextIdrLoop s.m_shotChangeList fieldCoding nextDefaultIdr
    (nextDefaultIdr - sequenceFront).toNat sequenceFront

/-- `InputQueue::State::setShotChangeList`: the two vectors are swapped when the
argument is not empty; the result is the new state and the new value of the
argument. -/
def State.setShotChangeList (s : State) (shotChangeList : List Int) : State × List Int :=
  if shotChangeList.length ≠ 0 then
    ({ s with m_shotChangeList := shotChangeList }, s.m_shotChangeList)
  else (s, shotChangeList)

/-- `InputQueue::State::createDocket`. -/
def State.createDocket (s : State) (max i nut qpOffset : Int) (qpFactor : Nat)
    (ref1 ref2 ref3 ref4 : Int) : Except Failure State :=
  if ¬ (i > 0) then throw Failure.assertion
  else if i ≤ max then do
    let docket : Docket :=
      { poc := s.sequenceFront + i - 1
        nut := nut
        qpOffset := qpOffset
        qpFactor := qpFactor
        currentGopSize := s.gopSize }
    let v1 ← s.isValidReference i ref1
    let docket := if v1 then addReference docket ref1 else docket
    let v2 ← s.isValidReference i ref2
    let docket := if v2 then addReference docket ref2 else docket
    let v3 ← s.isValidReference i ref3
    let docket := if v3 then addReference docket ref3 else docket
    let v4 ← s.isValidReference i ref4
    let docket := if v4 then addReference docket ref4 else docket
    let docket := { docket with sliceType := if isIrap nut then SliceType.I else SliceType.B }
    let p ← atE s.entries (i - 1)
    pure { s with entries := s.entries.set (i - 1).toNat { p with docket := some docket } }
  else pure s

/-- The value of the local variable `lastPicture` of `process`. -/
inductive LastPicture
  /-- The initial value `'P'`. -/
  | P
  /-- The value `0`. -/
  | zero
  /-- The value `'I'`. -/
  | I
  deriving DecidableEq, Repr

/-- The part of `InputQueue::State::process` from `int max = gopSize;` to the end:
the docket of the last position, then the hierarchical pattern. -/
def State.synthesise (s : State) (lastPicture : LastPicture) : Except Failure State := do
  let gopSize := s.gopSize
  let (s, max, nutR, nutN) ←
    match lastPicture with
    | LastPicture.I => do
      let nut := if s.sequenceFront ≠ 0 then CRA_NUT else IDR_N_LP
      let s ← s.createDocket gopSize gopSize nut 0 4420 (-gopSize) 0 0 0
      pure (s, gopSize - 1, RASL_R, RASL_N)
    | LastPicture.P => do
      let s ← s.createDocket gopSize gopSize TRAIL_R 1 4420 (-gopSize) (-gopSize) 0 0
      pure (s, gopSize - 1, TRAIL_R, TRAIL_N)
    | LastPicture.zero => pure (s, gopSize, TRAIL_R, TRAIL_N)
  if ¬ s.finish ∧ gopSize ≠ 8 then
    if gopSize = 2 then
      s.createDocket max 1 nutR 2 6800 (-1) 1 0 0
    else if gopSize = 3 then do
      let s ← s.createDocket max 2 nutR 2 3536 (-2) 1 0 0
      s.createDocket max 1 nutN 3 6800 (-1) 2 1 0
    else if gopSize = 4 then do
      let s ← s.createDocket max 2 nutR 2 3536 (-2) 2 0 0
      let s ← s.createDocket max 1 nutN 3 6800 (-1) 3 1 0
      s.createDocket max 3 nutN 3 6800 (-1) 1 0 0
    else if gopSize = 5 then do
      let s ← s.createDocket max 3 nutR 2 3536 (-3) 2 0 0
      let s ← s.createDocket max 1 nutR 2 3536 (-1) 4 2 0
      let s ← s.createDocket max 2 nutN 3 6800 (-2) 3 (-1) 1
      s.createDocket max 4 nutN 3 6800 (-4) 1 (-1) 0
    else if gopSize = 6 then do
      let s ← s.createDocket max 3 nutR 2 3536 (-3) 3 0 0
      let s ← s.createDocket max 1 nutR 3 3536 (-1) 5 2 0
      let s ← s.createDocket max 2 nutN 4 6800 (-2) 4 1 (-1)
      let s ← s.createDocket max 5 nutR 3 3536 (-5) 1 (-2) 0
      s.createDocket max 4 nutN 4 6800 (-4) 2 (-1) 1
    else if gopSize = 7 then do
      let s ← s.createDocket max 4 nutR 2 3536 (-4) 3 0 0
      let s ← s.createDocket max 2 nutR 3 3536 (-2) 5 2 0
      let s ← s.createDocket max 1 nutN 4 6800 (-1) 6 3 1
      let s ← s.createDocket max 3 nutN 4 6800 (-3) 4 1 (-1)
      let s ← s.createDocket max 6 nutR 3 3536 (-2) 1 0 0
      s.createDocket max 5 nutN 4 6800 (-1) 2 1 0
    else pure s
  else do
    let s ← s.createDocket max 4 nutR 2 3536 (-4) 4 0 0
    let s ← s.createDocket max 2 nutR 3 3536 (-2) 2 6 0
    let s ← s.createDocket max 1 nutN 4 6800 (-1) 1 3 7
    let s ← s.createDocket max 3 nutN 4 6800 (-1) 1 (-3) 5
    let s ← s.createDocket max 6 nutR 3 3536 (-2) 2 (-6) 0
    let s ← s.createDocket max 5 nutN 4 6800 (-1) 1 3 (-5)
    s.createDocket max 7 nutN 4 6800 (-1) 1 (-7) 0

/-- The intra-refresh decision at the head of `process`. -/
def State.decideIdr (s : State) : State :=
  if s.shotChange then
    if s.sequenceIdr - s.sequenceFront < 0 then
      { s with sequenceIdr :=
          s.computeNextIdr s.sequenceFront (s.sequenceIdr + s.maxGopN) s.fieldCoding }
    else s
  else
    if s.sequenceIdr - s.sequenceFront < 0 then
      { s with sequenceIdr := s.sequenceIdr + s.maxGopN }
    else s

/-- `InputQueue::State::process`. -/
def State.process (s : State) : Except Failure State :=
  if s.entries.isEmpty ∨ (s.entries.head?.bind Piece.docket).isSome then pure s
  else do
    let s := s.decideIdr
    let s := { s with gopSize := s.maxGopM }
    if s.gopSize ≠ 1 ∧ s.gopSize ≠ 8 then throw Failure.configuration
    else
      let (s, lastPicture) :=
        if s.finish ∧ (s.entries.length : Int) < s.gopSize then
          ({ s with gopSize := (s.entries.length : Int) }, LastPicture.zero)
        else (s, LastPicture.P)
      let gopSizeIdr := s.sequenceIdr - s.sequenceFront + 1
      let (s, lastPicture) :=
        if gopSizeIdr ≤ s.gopSize then ({ s with gopSize := gopSizeIdr }, LastPicture.I)
        else (s, lastPicture)
      if (s.entries.length : Int) < s.gopSize then pure s
      else s.synthesise lastPicture

/-- `InputQueue`: the state and the member `m_shotChangeList` that the caller
refreshes between pulls. -/
structure InputQueue where
  state : State
  m_shotChangeList : List Int := []
  deriving DecidableEq, Repr

/-- The constructor `InputQueue::InputQueue`. -/
def InputQueue.new (maxGopN maxGopM : Int) (fieldCoding shotChange : Bool) : InputQueue :=
  { state :=
      { maxGopN := maxGopN, maxGopM := maxGopM, fieldCoding := fieldCoding,
        shotChange := shotChange } }

/-- The three `push_front` of `append`: each new slot is one period before the
front. -/
def pushSynthetic (period : Int) : Nat → Nat → List Timestamp → Except Failure (List Timestamp)
  | 0, _, ts => pure ts
  | n + 1, i, ts =>
    match ts with
    | [] => throw Failure.undefinedBehaviour
    | t :: rest =>
      pushSynthetic period n (i + 1) ({ timestamp := t.timestamp - period, sequence := i } :: t :: rest)

/-- `InputQueue::append`; the picture pointer is dereferenced and so not null. -/
def InputQueue.append (q : InputQueue) (picture : PictureWrapper)
    (aqInfo : Option AdaptiveQuantisation) : Except Failure InputQueue := do
  let s := q.state
  if s.finish then throw Failure.assertion
  else
    let piece : Piece := { picture := some picture, aqInfo := aqInfo }
    let s := { s with entriesPreanalysis := s.entriesPreanalysis ++ [piece] }
    let reorderDelay : Nat := 3
    let timestamps ←
      if s.pictureInputCount = 1 then
        match s.timestamps with
        | [] => throw Failure.undefinedBehaviour
        | t :: rest => pushSynthetic (picture.pts - t.timestamp) reorderDelay 0 (t :: rest)
      else pure s.timestamps
    let timestamps :=
      timestamps ++ [{ timestamp := picture.pts, sequence := s.pictureInputCount + reorderDelay }]
    pure { q with state :=
      { s with timestamps := timestamps, pictureInputCount := s.pictureInputCount + 1 } }

/-- `InputQueue::endOfInput`. -/
def InputQueue.endOfInput (q : InputQueue) : InputQueue :=
  { q with state := { q.state with finish := true } }

/-- `InputQueue::eos`. -/
def InputQueue.eos (q : InputQueue) : Bool :=
  q.state.finish

/-- The last loop of `preanalyse`: `n` times, the front of the preanalysis queue is
pushed to the back of the window and popped. -/
def movePieces : Nat → List Piece → List Piece → Except Failure (List Piece × List Piece)
  | 0, pre, es => pure (pre, es)
  | n + 1, pre, es =>
    match pre with
    | [] => throw Failure.undefinedBehaviour
    | p :: rest => movePieces n rest (es ++ [p])

/-- The first loop of `preanalyse`, which reads the sample size (and, for 8-bit pictures,
one sample) of the first `n` pictures of the preanalysis queue: `at` throws beyond
the end of the queue, and reading through a null picture pointer is undefined. -/
def readPictures : Nat → List Piece → Except Failure Unit
  | 0, _ => pure ()
  | n + 1, pre =>
    match pre with
    | [] => throw Failure.outOfRange
    | p :: rest =>
      match p.picture with
      | none => throw Failure.undefinedBehaviour
      | some _ => readPictures n rest

/-- `InputQueue::preanalyse`.  The placeholder sum over the sample data is only
printed; of its loop the model keeps the reads of the pictures. -/
def InputQueue.preanalyse (q : InputQueue) : Except Failure InputQueue := do
  let s := q.state
  let n := s.entriesPreanalysis.length
  if n ≥ 10 ∨ s.finish then
    let n := if n > 10 then 10 else n
    readPictures n s.entriesPreanalysis
    let (pre, es) ← movePieces n s.entriesPreanalysis s.entries
    pure { q with state := { s with entriesPreanalysis := pre, entries := es } }
  else pure q

/-- The first loop of `getDocket`, over the entries from index `i` on: the index of
the last intra docket met before the first entry that has no docket or is done. -/
def intraScan : List Piece → Nat → Nat → Option Nat → Option Nat
  | [], _, _, found => found
  | p :: rest, size, i, found =>
    if i < size then
      match p.docket with
      | none => found
      | some d =>
        if p.done then found
        else intraScan rest size (i + 1) (if d.sliceType = SliceType.I then some i else found)
    else found

/-- The inner loop of `getDocket` over the positive reference deltas of the docket
at index `i`. -/
def canEncodeRefs (es : List Piece) (i : Int) : List Int → Except Failure Bool
  | [] => pure true
  | deltaPoc :: rest => do
    let p ← atE es (i + deltaPoc)
    let r ← canEncodeRefs es i rest
    pure (p.done && r)

/-- Outcome of the second loop of `getDocket`. -/
inductive Selection
  /-- The variable `docket` is null when the loop ends. -/
  | null
  /-- The loop left at `canEncode` with the entry at this index. -/
  | selected (i : Nat)
  /-- The loop ran to the end: `docket` is the docket of the last entry, which was
  not selected. -/
  | unselected (i : Nat)
  deriving DecidableEq, Repr

/-- The second loop of `getDocket`, over the entries `rest` from index `i` on. -/
def selectLoop (es : List Piece) (isIntraFrame : Option Nat) :
    List Piece → Nat → Selection → Except Failure Selection
  | [], _, last => pure last
  | p :: rest, i, _ =>
    match p.docket with
    | none => pure Selection.null
    | some docket => do
      let canEncode ← canEncodeRefs es (i : Int) docket.references.positive
      let canEncode :=
        match isIntraFrame with
        | some k => decide (i = k)
        | none => canEncode
      if canEncode then pure (Selection.selected i)
      else selectLoop es isIntraFrame rest (i + 1) (Selection.unselected i)

/-- The loop of `getDocket` that retires the released entries at the front. -/
def retire : List Piece → Int → Nat → List Piece × Int × Nat
  | [], sequenceFront, n => ([], sequenceFront, n)
  | p :: rest, sequenceFront, n =>
    if p.done then retire rest (sequenceFront + 1) (n + 1)
    else (p :: rest, sequenceFront, n)

/-- The body of `if (canEncode)`: the picture and its annotation move into the
docket and the picture pointer of the entry is cleared. -/
def Piece.release (p : Piece) : Piece :=
  { p with
    docket := p.docket.map (fun d => { d with picture := p.picture, aqInfo := p.aqInfo })
    picture := none }

/-- Write through the shared docket pointer of the entry at index `i`. -/
def updateDocket (es : List Piece) (i : Nat) (f : Docket → Docket) : List Piece :=
  es.modify (fun p => { p with docket := p.docket.map f }) i

/-- The part of `InputQueue::getDocket` that follows the call of `process`: the
choice of the entry to release, the retirement of the released entries at the front
and the decode timestamp. -/
def State.pull (s : State) : Except Failure (State × Option Docket) := do
  let size := if s.entries.length > 8 then 8 else s.entries.length
  let isIntraFrame := intraScan s.entries size 0 none
  let sel ← selectLoop s.entries isIntraFrame s.entries 0 Selection.null
  -- the index of the entry that the variable `docket` points into, and the window
  -- after the body of `if (canEncode)`
  let (at?, es) :=
    match sel with
    | Selection.null => ((none : Option Nat), s.entries)
    | Selection.unselected i => (some i, s.entries)
    | Selection.selected i => (some i, s.entries.modify Piece.release i)
  let docket := at?.bind (fun i => es[i]?.bind Piece.docket)
  let (rest, sequenceFront, retired) := retire es s.sequenceFront 0
  match docket, at? with
  | some docket, some i =>
    match s.timestamps with
    | [] => throw Failure.undefinedBehaviour
    | t :: timestamps =>
      let docket := { docket with dts := t.timestamp }
      let rest :=
        if retired ≤ i then updateDocket rest (i - retired) (fun d => { d with dts := t.timestamp })
        else rest
      pure ({ s with entries := rest, sequenceFront := sequenceFront, timestamps := timestamps },
        some docket)
  | _, _ => pure ({ s with entries := rest, sequenceFront := sequenceFront }, none)

/-- `InputQueue::getDocket`. -/
def InputQueue.getDocket (q : InputQueue) : Except Failure (InputQueue × Option Docket) := do
  if q.state.pictureInputCount = 1 ∧ ¬ q.eos then pure (q, none)
  else
    let (s, outer) := q.state.setShotChangeList q.m_shotChangeList
    let s ← s.process
    let (s, docket) ← s.pull
    pure ({ state := s, m_shotChangeList := outer }, docket)

/-! ## Runs of the queue -/

/-- One call of the driver.  `shotChanges` is the caller refreshing the member
`InputQueue::m_shotChangeList` between pulls. -/
inductive Op
  | append (picture : PictureWrapper) (aqInfo : Option AdaptiveQuantisation)
  | endOfInput
  | preanalyse
  | getDocket
  | shotChanges (list : List Int)
  deriving DecidableEq, Repr

/-- Effect of one call: the new queue and what `getDocket` returned, if it was
called and returned a docket. -/
def InputQueue.step (q : InputQueue) : Op → Except Failure (InputQueue × Option Docket)
  | Op.append picture aqInfo => do
    let q ← q.append picture aqInfo
    pure (q, none)
  | Op.endOfInput => pure (q.endOfInput, none)
  | Op.preanalyse => do
    let q ← q.preanalyse
    pure (q, none)
  | Op.getDocket => q.getDocket
  | Op.shotChanges list => pure ({ q with m_shotChangeList := list }, none)

/-- A sequence of calls: the final queue and the dockets returned, in order. -/
def InputQueue.run (q : InputQueue) : List Op → Except Failure (InputQueue × List Docket)
  | [] => pure (q, [])
  | op :: ops => do
    let (q, d) ← q.step op
    let (q, ds) ← q.run ops
    pure (q, d.toList ++ ds)

/-- The driver loop at the end of the stream: `preanalyse` followed by `getDocket`,
repeated until `getDocket` returns null or the bound on the number of rounds is
reached.  The flag tells that `getDocket` returned null. -/
def InputQueue.drain : Nat → InputQueue → Except Failure (InputQueue × List Docket × Bool)
  | 0, q => pure (q, [], false)
  | n + 1, q => do
    let q ← q.preanalyse
    let (q, d) ← q.getDocket
    match d with
    | none => pure (q, [], true)
    | some d => do
      let (q, ds, finished) ← InputQueue.drain n q
      pure (q, d :: ds, finished)

/-- The pictures accepted by a sequence of calls, in order. -/
def accepted : List Op → List PictureWrapper
  | [] => []
  | Op.append picture _ :: ops => picture :: accepted ops
  | _ :: ops => accepted ops

/-- A position at which the scan of `computeNextIdr` stops with a cut. -/
def cutAt (list : List Int) (fieldCoding : Bool) (f nextDefaultIdr i : Int) : Prop :=
  f ≤ i ∧ i < nextDefaultIdr ∧ i % (if fieldCoding then 2 else 1) = 0 ∧
    (i >>> (if fieldCoding then 1 else 0 : Nat)) < (list.length : Int) ∧
    list.getD (i >>> (if fieldCoding then 1 else 0 : Nat)).toNat 0 ≠ 0 ∧
    ∀ j, f ≤ j → j < i → (j >>> (if fieldCoding then 1 else 0 : Nat)) < (list.length : Int)

/-! ## The hierarchical patterns as tables -/

/-- Arguments of one call of `createDocket` in a pattern: the position, whether the
NAL class is the reference one (`nutR`) or not (`nutN`), the quantisation offset and
factor, and the four reference deltas. -/
structure Row where
  i : Int
  reference : Bool
  qpOffset : Int
  qpFactor : Nat
  ref1 : Int
  ref2 : Int
  ref3 : Int
  ref4 : Int
  deriving DecidableEq, Repr

/-- The calls of the `else` branch of `process` (the canonical pattern of 8). -/
def canonicalRows : List Row :=
  [⟨4, true, 2, 3536, -4, 4, 0, 0⟩,
   ⟨2, true, 3, 3536, -2, 2, 6, 0⟩,
   ⟨1, false, 4, 6800, -1, 1, 3, 7⟩,
   ⟨3, false, 4, 6800, -1, 1, -3, 5⟩,
   ⟨6, true, 3, 3536, -2, 2, -6, 0⟩,
   ⟨5, false, 4, 6800, -1, 1, 3, -5⟩,
   ⟨7, false, 4, 6800, -1, 1, -7, 0⟩]

/-- The calls of the branch `gopSize == n` of `process`, for `n` from 2 to 7. -/
def sizeRows (gopSize : Int) : List Row :=
  if gopSize = 2 then
    [⟨1, true, 2, 6800, -1, 1, 0, 0⟩]
  else if gopSize = 3 then
    [⟨2, true, 2, 3536, -2, 1, 0, 0⟩,
     ⟨1, false, 3, 6800, -1, 2, 1, 0⟩]
  else if gopSize = 4 then
    [⟨2, true, 2, 3536, -2, 2, 0, 0⟩,
     ⟨1, false, 3, 6800, -1, 3, 1, 0⟩,
     ⟨3, false, 3, 6800, -1, 1, 0, 0⟩]
  else if gopSize = 5 then
    [⟨3, true, 2, 3536, -3, 2, 0, 0⟩,
     ⟨1, true, 2, 3536, -1, 4, 2, 0⟩,
     ⟨2, false, 3, 6800, -2, 3, -1, 1⟩,
     ⟨4, false, 3, 6800, -4, 1, -1, 0⟩]
  else if gopSize = 6 then
    [⟨3, true, 2, 3536, -3, 3, 0, 0⟩,
     ⟨1, true, 3, 3536, -1, 5, 2, 0⟩,
     ⟨2, false, 4, 6800, -2, 4, 1, -1⟩,
     ⟨5, true, 3, 3536, -5, 1, -2, 0⟩,
     ⟨4, false, 4, 6800, -4, 2, -1, 1⟩]
  else if gopSize = 7 then
    [⟨4, true, 2, 3536, -4, 3, 0, 0⟩,
     ⟨2, true, 3, 3536, -2, 5, 2, 0⟩,
     ⟨1, false, 4, 6800, -1, 6, 3, 1⟩,
     ⟨3, false, 4, 6800, -3, 4, 1, -1⟩,
     ⟨6, true, 3, 3536, -2, 1, 0, 0⟩,
     ⟨5, false, 4, 6800, -1, 2, 1, 0⟩]
  else []

/-- The pattern that `process` applies after the docket of the last position. -/
def patternRows (finish : Bool) (gopSize : Int) : List Row :=
  if ¬ finish ∧ gopSize ≠ 8 then sizeRows gopSize else canonicalRows

/-- The calls of `createDocket` of a table, in order. -/
def State.applyRows (max nutR nutN : Int) : List Row → State → Except Failure State
  | [], s => pure s
  | r :: rows, s => do
    let s ← s.createDocket max r.i (if r.reference then nutR else nutN) r.qpOffset r.qpFactor
      r.ref1 r.ref2 r.ref3 r.ref4
    State.applyRows max nutR nutN rows s

/-- The docket of the last position of the group, with the bound `max` and the two
NAL classes that the pattern is applied with. -/
def State.lastDocket (s : State) (lastPicture : LastPicture) :
    Except Failure (State × Int × Int × Int) :=
  match lastPicture with
  | LastPicture.I => do
    let nut := if s.sequenceFront ≠ 0 then CRA_NUT else IDR_N_LP
    let s' ← s.createDocket s.gopSize s.gopSize nut 0 4420 (-s.gopSize) 0 0 0
    pure (s', s.gopSize - 1, RASL_R, RASL_N)
  | LastPicture.P => do
    let s' ← s.createDocket s.gopSize s.gopSize TRAIL_R 1 4420 (-s.gopSize) (-s.gopSize) 0 0
    pure (s', s.gopSize - 1, TRAIL_R, TRAIL_N)
  | LastPicture.zero => pure (s, s.gopSize, TRAIL_R, TRAIL_N)

/-! ## Planning on the dockets of a group alone -/

/-- The window `ps` with the dockets of its first entries replaced by `ds`. -/
def overlay : List (Option Docket) → List Piece → List Piece
  | d :: ds, p :: ps => { p with docket := d } :: overlay ds ps
  | [], ps => ps
  | _ :: _, [] => []

/-- The docket at an index of a list of docket slots, if there is one. -/
def slotAt (slots : List (Option Docket)) (k : Nat) : Option Docket :=
  (slots[k]?).join

/-- `isValidReference` on the docket slots of a group that is being planned. -/
def slotValid (slots : List (Option Docket)) (i delta : Int) : Bool :=
  if delta < 0 then true
  else if delta = 0 then false
  else (slotAt slots (i - 1 + delta).toNat).isSome

/-- The docket that `createDocket` builds. -/
def slotDocket (sequenceFront gopSize : Int) (slots : List (Option Docket))
    (i nut qpOffset : Int) (qpFactor : Nat) (ref1 ref2 ref3 ref4 : Int) : Docket :=
  let docket : Docket :=
    { poc := sequenceFront + i - 1
      nut := nut
      qpOffset := qpOffset
      qpFactor := qpFactor
      currentGopSize := gopSize }
  let docket := if slotValid slots i ref1 then addReference docket ref1 else docket
  let docket := if slotValid slots i ref2 then addReference docket ref2 else docket
  let docket := if slotValid slots i ref3 then addReference docket ref3 else docket
  let docket := if slotValid slots i ref4 then addReference docket ref4 else docket
  { docket with sliceType := if isIrap nut then SliceType.I else SliceType.B }

/-- `createDocket` on the docket slots of a group. -/
def slotCreate (sequenceFront gopSize : Int) (slots : List (Option Docket))
    (max i nut qpOffset : Int) (qpFactor : Nat) (ref1 ref2 ref3 ref4 : Int) :
    List (Option Docket) :=
  if i ≤ max then
    slots.set (i - 1).toNat
      (some (slotDocket sequenceFront gopSize slots i nut qpOffset qpFactor ref1 ref2 ref3 ref4))
  else slots

/-- The calls of a table on the docket slots of a group. -/
def slotRows (sequenceFront gopSize max nutR nutN : Int) :
    List Row → List (Option Docket) → List (Option Docket)
  | [], slots => slots
  | r :: rows, slots =>
    slotRows sequenceFront gopSize max nutR nutN rows
      (slotCreate sequenceFront gopSize slots max r.i (if r.reference then nutR else nutN)
        r.qpOffset r.qpFactor r.ref1 r.ref2 r.ref3 r.ref4)

/-- The hypotheses under which planning acts on the docket slots alone: the window is
a window without dockets overlaid with the slots of the group, and the group fits
in the window and before the next intra picture. -/
structure Planning (s : State) (slots : List (Option Docket)) (base : List Piece) : Prop where
  window : s.entries = overlay slots base
  blank : ∀ p ∈ base, p.docket = none
  fits : slots.length ≤ base.length
  offset : (slots.length : Int) ≤ s.sequenceIdr - s.sequenceFront + 1

/-- The dockets of a group after `process`, from the slots before the docket of the
last position is made. -/
def slotSynthesise (sequenceFront gopSize : Int) (finish : Bool) (lastPicture : LastPicture)
    (slots : List (Option Docket)) : List (Option Docket) :=
  match lastPicture with
  | LastPicture.I =>
    slotRows sequenceFront gopSize (gopSize - 1) RASL_R RASL_N (patternRows finish gopSize)
      (slotCreate sequenceFront gopSize slots gopSize gopSize
        (if sequenceFront ≠ 0 then CRA_NUT else IDR_N_LP) 0 4420 (-gopSize) 0 0 0)
  | LastPicture.P =>
    slotRows sequenceFront gopSize (gopSize - 1) TRAIL_R TRAIL_N (patternRows finish gopSize)
      (slotCreate sequenceFront gopSize slots gopSize gopSize TRAIL_R 1 4420
        (-gopSize) (-gopSize) 0 0)
  | LastPicture.zero =>
    slotRows sequenceFront gopSize gopSize TRAIL_R TRAIL_N (patternRows finish gopSize) slots

/-- The effective GOP size and the kind of the last picture that `process` computes,
from the state after the intra-refresh decision. -/
def State.effective (s : State) : Int × LastPicture :=
  let first : Int × LastPicture :=
    if s.finish ∧ (s.entries.length : Int) < s.maxGopM then
      ((s.entries.length : Int), LastPicture.zero)
    else (s.maxGopM, LastPicture.P)
  if s.sequenceIdr - s.sequenceFront + 1 ≤ first.1 then
    (s.sequenceIdr - s.sequenceFront + 1, LastPicture.I)
  else first

/-- Every entry of the window is without docket. -/
def Blank (es : List Piece) : Prop :=
  ∀ p ∈ es, p.docket = none

/-- The dockets of the group that `process` plans, from the state after the
intra-refresh decision. -/
def State.plan (s : State) : List (Option Docket) :=
  slotSynthesise s.sequenceFront s.effective.1 s.finish s.effective.2
    (List.replicate s.effective.1.toNat none)

/-! ## The choice of `getDocket` on the planned part of the window -/

/-- What the loops of `getDocket` read of a window entry that has a docket. -/
structure View where
  positive : List Int
  intra : Bool
  done : Bool
  deriving DecidableEq, Repr

/-- The view of an entry, if it has a docket. -/
def Piece.view (p : Piece) : Option View :=
  p.docket.map (fun d =>
    { positive := d.references.positive
      intra := decide (d.sliceType = SliceType.I)
      done := p.done })

/-- The first loop of `getDocket` on views. -/
def viewIntraScan : List View → Nat → Option Nat → Option Nat
  | [], _, found => found
  | v :: rest, i, found =>
    if i < 8 then
      if v.done then found
      else viewIntraScan rest (i + 1) (if v.intra then some i else found)
    else found

/-- The loop over the positive deltas on views; `none` when a delta leaves the
planned part. -/
def viewRefsDone (vs : List View) (i : Nat) : List Int → Option Bool
  | [] => some true
  | deltaPoc :: rest =>
    if 0 ≤ (i : Int) + deltaPoc then
      match vs[((i : Int) + deltaPoc).toNat]?, viewRefsDone vs i rest with
      | some v, some r => some (v.done && r)
      | _, _ => none
    else none

/-- The second loop of `getDocket` on views: the index selected, `none` when the loop
fails or selects nothing. -/
def viewSelect (vs : List View) (isIntraFrame : Option Nat) : List View → Nat → Option Nat
  | [], _ => none
  | v :: rest, i =>
    match viewRefsDone vs i v.positive with
    | none => none
    | some canEncode =>
      if (match isIntraFrame with
          | some k => decide (i = k)
          | none => canEncode) then some i
      else viewSelect vs isIntraFrame rest (i + 1)

/-- One pull on views: the selected entry must not be done yet and the targets of
its positive deltas must all be done; it becomes done and the released entries at the
front are retired. -/
def viewStep (vs : List View) : Option (Nat × List View) :=
  match viewSelect vs (viewIntraScan vs 0 none) vs 0 with
  | none => none
  | some i =>
    match vs[i]? with
    | none => none
    | some v =>
      if v.done = true ∨ viewRefsDone vs i v.positive ≠ some true then none
      else some (i, (vs.set i { v with done := true }).dropWhile View.done)

/-- Repeated pulls release every entry of the planned part. -/
def viewDrains : Nat → List View → Bool
  | _, [] => true
  | 0, _ :: _ => false
  | n + 1, v :: vs =>
    match viewStep (v :: vs) with
    | none => false
    | some (_, rest) => viewDrains n rest

/-- The unplanned part of the window: no docket, picture present. -/
def Unplanned (es : List Piece) : Prop :=
  ∀ p ∈ es, p.docket = none ∧ p.done = false

/-- The number of entries that `getDocket` retires when it releases entry `i`. -/
def retiredBy (planned : List Piece) (i : Nat) : Nat :=
  ((planned.modify Piece.release i).takeWhile Piece.done).length

/-- The planned part of the window after `getDocket` has released entry `i` with the
decode timestamp `dts`. -/
def afterPull (planned : List Piece) (i : Nat) (dts : Int) : List Piece :=
  if retiredBy planned i ≤ i then
    updateDocket ((planned.modify Piece.release i).dropWhile Piece.done) (i - retiredBy planned i)
      (fun d => { d with dts := dts })
  else (planned.modify Piece.release i).dropWhile Piece.done

/-! ## The views of a planned group -/

/-- What the loops of `getDocket` read of a docket slot: the positive deltas and
whether the slice type is `I`. -/
def slotView (d : Option Docket) : Option (List Int × Bool) :=
  d.map (fun d => (d.references.positive, decide (d.sliceType = SliceType.I)))

/-- `isValidReference` on the views of the docket slots. -/
def viewValid (vs : List (Option (List Int × Bool))) (i delta : Int) : Bool :=
  if delta < 0 then true
  else if delta = 0 then false
  else ((vs[(i - 1 + delta).toNat]?).join).isSome

/-- The positive set after one guarded call of `addReference`. -/
def addPositive (positive : List Int) (valid : Bool) (ref : Int) : List Int :=
  if valid = true ∧ ref > 0 then setInsert ref positive else positive

/-- `createDocket` on the views of the docket slots. -/
def viewCreate (vs : List (Option (List Int × Bool))) (max i : Int) (intra : Bool)
    (ref1 ref2 ref3 ref4 : Int) : List (Option (List Int × Bool)) :=
  if i ≤ max then
    vs.set (i - 1).toNat
      (some (addPositive (addPositive (addPositive (addPositive [] (viewValid vs i ref1) ref1)
        (viewValid vs i ref2) ref2) (viewValid vs i ref3) ref3) (viewValid vs i ref4) ref4, intra))
  else vs

/-- The calls of a table on the views of the docket slots. -/
def viewRows (max : Int) (intraR intraN : Bool) :
    List Row → List (Option (List Int × Bool)) → List (Option (List Int × Bool))
  | [], vs => vs
  | r :: rows, vs =>
    viewRows max intraR intraN rows
      (viewCreate vs max r.i (if r.reference then intraR else intraN) r.ref1 r.ref2 r.ref3 r.ref4)

/-- The views of the dockets of a group after `process`. -/
def viewSynthesise (gopSize : Int) (finish : Bool) (lastPicture : LastPicture)
    (vs : List (Option (List Int × Bool))) : List (Option (List Int × Bool)) :=
  match lastPicture with
  | LastPicture.I =>
    viewRows (gopSize - 1) false false (patternRows finish gopSize)
      (viewCreate vs gopSize gopSize true (-gopSize) 0 0 0)
  | LastPicture.P =>
    viewRows (gopSize - 1) false false (patternRows finish gopSize)
      (viewCreate vs gopSize gopSize false (-gopSize) (-gopSize) 0 0)
  | LastPicture.zero =>
    viewRows gopSize false false (patternRows finish gopSize) vs

/-- The views of the entries of a freshly planned group: no entry is done. -/
def freshViews (vs : List (Option (List Int × Bool))) : List View :=
  vs.filterMap (fun v => v.map (fun x => { positive := x.1, intra := x.2, done := false }))

/-- The group sizes and kinds of last picture that `process` can commit. -/
def feasible (g : Nat) (finish : Bool) (lastPicture : LastPicture) : Bool :=
  decide (1 ≤ g ∧ g ≤ 8) &&
    (match lastPicture with
     | LastPicture.I => true
     | LastPicture.P => decide (g = 1 ∨ g = 8)
     | LastPicture.zero => finish && decide (g ≤ 7))

/-- Every slot of the group has a docket and repeated pulls release the group. -/
def groupDrains (g : Nat) (finish : Bool) (lastPicture : LastPicture) : Bool :=
  let vs := viewSynthesise (g : Int) finish lastPicture (List.replicate g none)
  vs.all Option.isSome && viewDrains g (freshViews vs)

/-! ## The window of a reachable state -/

/-- The shape of the window in every reachable state: a planned part, whose entries
all have a docket and which repeated pulls release completely, followed by entries
without docket. -/
structure Window (s : State) (planned unplanned : List Piece) (vs : List View) : Prop where
  window : s.entries = planned ++ unplanned
  views : planned.map Piece.view = vs.map some
  unplanned : Unplanned unplanned
  pre : Unplanned s.entriesPreanalysis
  drains : ∃ n, viewDrains n vs = true
  idr : (planned.length : Int) ≤ s.sequenceIdr - s.sequenceFront + 1
  front : 0 ≤ s.sequenceFront

/-- The state that `getDocket` hands to `process`. -/
def InputQueue.swapped (q : InputQueue) : State :=
  (q.state.setShotChangeList q.m_shotChangeList).1

/-- The member `m_shotChangeList` of the queue after `getDocket`. -/
def InputQueue.outer (q : InputQueue) : List Int :=
  (q.state.setShotChangeList q.m_shotChangeList).2

/-- How `process` leaves the window before the pull: the planned part is kept, or a
group is committed on a window without dockets. -/
def Staged (s s2 : State) (planned unplanned planned0 unplanned0 : List Piece) : Prop :=
  (planned ≠ [] ∧ s2 = s ∧ planned0 = planned ∧ unplanned0 = unplanned) ∨
  (planned = [] ∧ s.decideIdr.sequenceFront ≤ s.decideIdr.sequenceIdr ∧
    ∃ g : Nat, s.decideIdr.effective.1 = (g : Int) ∧ 1 ≤ g ∧ g ≤ unplanned.length ∧
      feasible g s.finish s.decideIdr.effective.2 = true ∧
      s2 = { s.decideIdr with
              gopSize := (g : Int)
              entries := overlay s.decideIdr.plan unplanned } ∧
      planned0 = overlay s.decideIdr.plan (unplanned.take g) ∧
      unplanned0 = unplanned.drop g)

/-- A call of `getDocket` that returns null leaves the queue as it is, but for the
shot change lists, the next intra position and the effective GOP size. -/
def Idle (q q' : InputQueue) (planned unplanned : List Piece) : Prop :=
  q' = q ∨
  (planned = [] ∧
    (q' = { state := q.swapped, m_shotChangeList := q.outer } ∨
     (unplanned ≠ [] ∧ q.swapped.finish = false ∧
      q.swapped.decideIdr.sequenceFront ≤ q.swapped.decideIdr.sequenceIdr ∧
      (unplanned.length : Int) < q.swapped.decideIdr.effective.1 ∧
      q' = { state := { q.swapped.decideIdr with gopSize := q.swapped.decideIdr.effective.1 }
             m_shotChangeList := q.outer })))

/-- A call of `getDocket` that returns the docket `D`. -/
structure Released (q q' : InputQueue) (D : Docket) (planned unplanned : List Piece)
    (s2 : State) (planned0 unplanned0 : List Piece) (vs0 vs' : List View) (i : Nat)
    (p : Piece) (d : Docket) (t : Timestamp) (ts : List Timestamp) : Prop where
  staged : Staged q.swapped s2 planned unplanned planned0 unplanned0
  processed : q.swapped.process = .ok s2
  before : Window s2 planned0 unplanned0 vs0
  step : viewStep vs0 = some (i, vs')
  entry : planned0[i]? = some p
  docket : p.docket = some d
  undone : p.done = false
  stamps : s2.timestamps = t :: ts
  result : D = { d with picture := p.picture, aqInfo := p.aqInfo, dts := t.timestamp }
  queue : q' =
    { state :=
        { s2 with
            entries := afterPull planned0 i t.timestamp ++ unplanned0
            sequenceFront := s2.sequenceFront + (retiredBy planned0 i : Int)
            timestamps := ts }
      m_shotChangeList := q.outer }
  after : Window q'.state (afterPull planned0 i t.timestamp) unplanned0 vs'

/-- The entry of the planned part after a pull, from the entry before the pull. -/
def pulled (i k : Nat) (dts : Int) (p : Piece) : Piece :=
  if i = k then
    { p.release with docket := p.release.docket.map (fun d => { d with dts := dts }) }
  else p

/-- The fields of a docket that `createDocket` writes. -/
def Docket.written (d : Docket) : Docket :=
  { d with picture := none, aqInfo := none, dts := 0 }

/-! ## What the planner writes in a docket -/

/-- The docket of the window entry at index `k`, with the front of the window at
`front`: the POC is the position of the entry; the slice type follows the NAL class;
POC 0 is an `IDR_N_LP` picture alone in its group; every other intra picture is a
`CRA_NUT` picture. -/
def Sound (front : Int) (k : Nat) (d : Docket) : Prop :=
  d.poc = front + (k : Int) ∧
  d.sliceType = (if isIrap d.nut then SliceType.I else SliceType.B) ∧
  (d.poc = 0 → d.nut = IDR_N_LP ∧ d.currentGopSize = 1) ∧
  (d.sliceType = SliceType.I → d.poc ≠ 0 → d.nut = CRA_NUT)

/-- The arguments of a call of `createDocket` agree with `Sound`. -/
def GoodCall (f g i nut : Int) : Prop :=
  0 < i ∧ (f = 0 → i = 1 → nut = IDR_N_LP ∧ g = 1) ∧
    (isIrap nut = true → f + i - 1 ≠ 0 → nut = CRA_NUT)

/-- Every docket of the slots agrees with `Sound`. -/
def SoundSlots (f : Int) (slots : List (Option Docket)) : Prop :=
  ∀ k d, slots[k]? = some (some d) → Sound f k d

/-! ## Runs: what holds after every sequence of calls -/

/-- The decode timestamps in the order in which the queue hands them out: once a
second picture has been accepted, three slots extrapolated backwards from the first
two presentation timestamps, then the presentation timestamps in acceptance order. -/
def slotValues : List PictureWrapper → List Int
  | a0 :: a1 :: rest =>
    [a0.pts - 3 * (a1.pts - a0.pts), a0.pts - 2 * (a1.pts - a0.pts), a0.pts - (a1.pts - a0.pts)]
      ++ (a0 :: a1 :: rest).map PictureWrapper.pts
  | acc => acc.map PictureWrapper.pts

/-- Every positive delta of a returned docket points at the POC of a docket returned
earlier. -/
def DependencyOrder (out : List Docket) : Prop :=
  ∀ (j : Nat) (D : Docket), out[j]? = some D → ∀ delta ∈ D.references.positive,
    ∃ (j' : Nat) (D' : Docket), j' < j ∧ out[j']? = some D' ∧ D'.poc = D.poc + delta

/-- The NAL class and slice type of a returned docket. -/
def Classed (D : Docket) : Prop :=
  D.sliceType = (if isIrap D.nut then SliceType.I else SliceType.B) ∧
  (D.poc = 0 → D.nut = IDR_N_LP ∧ D.currentGopSize = 1) ∧
  (D.sliceType = SliceType.I → D.poc ≠ 0 → D.nut = CRA_NUT)

/-- What holds of the queue after a run that returned the dockets `out` and accepted
the pictures `acc`. -/
structure Trace (q : InputQueue) (out : List Docket) (acc : List PictureWrapper)
    (planned unplanned : List Piece) (vs : List View) : Prop where
  shape : Window q.state planned unplanned vs
  count : q.state.pictureInputCount = acc.length
  stamps : q.state.timestamps.map Timestamp.timestamp = (slotValues acc).drop out.length
  dts : out.map Docket.dts = (slotValues acc).take out.length
  started : out ≠ [] → 2 ≤ acc.length ∨ q.state.finish = true
  pictures : (out.filterMap Docket.picture ++ (q.state.entries.filterMap Piece.picture ++
    q.state.entriesPreanalysis.filterMap Piece.picture)).Perm acc
  attached : ∀ D ∈ out, D.picture.isSome = true
  pocs : ∀ (k : Nat) (p : Piece) (d : Docket), planned[k]? = some p → p.docket = some d →
    Sound q.state.sequenceFront k d
  released : ∀ (k : Nat) (p : Piece) (d : Docket), planned[k]? = some p → p.docket = some d →
    p.done = true → ∃ D ∈ out, D.poc = d.poc
  order : DependencyOrder out
  classes : ∀ D ∈ out, Classed D
  first : ∀ D : Docket, out.head? = some D → D.poc = 0
  fresh : out = [] → planned = [] ∧ q.state.sequenceFront = 0
  origin : q.state.sequenceFront = 0 → q.state.sequenceIdr = 0

/-- The invariant of runs. -/
def Reach (q : InputQueue) (out : List Docket) (acc : List PictureWrapper) : Prop :=
  ∃ planned unplanned vs, Trace q out acc planned unplanned vs

/-- The queue after `append`, with the timestamp slots `ts` before the new one. -/
def appended (q : InputQueue) (x : PictureWrapper) (aq : Option AdaptiveQuantisation)
    (ts : List Timestamp) : InputQueue :=
  { q with state := { q.state with
      entriesPreanalysis := q.state.entriesPreanalysis ++ [{ picture := some x, aqInfo := aq }]
      timestamps :=
        ts ++ [{ timestamp := x.pts, sequence := q.state.pictureInputCount + 3 }]
      pictureInputCount := q.state.pictureInputCount + 1 } }

/-- What a call of `getDocket` keeps of the state, whatever it returns, up to the
pull. -/
structure Kept (s s2 : State) : Prop where
  pre : s2.entriesPreanalysis = s.entriesPreanalysis
  timestamps : s2.timestamps = s.timestamps
  count : s2.pictureInputCount = s.pictureInputCount
  finish : s2.finish = s.finish
  front : s2.sequenceFront = s.sequenceFront
  pictures : s2.entries.filterMap Piece.picture = s.entries.filterMap Piece.picture
  origin : s.sequenceFront = 0 → s.sequenceIdr = 0 → s2.sequenceIdr = 0
  config : s2.maxGopN = s.maxGopN ∧ s2.maxGopM = s.maxGopM ∧ s2.fieldCoding = s.fieldCoding ∧
    s2.shotChange = s.shotChange

/-- The configuration is not changed by a call, and end-of-input is not reset. -/
def SameConfig (q q' : InputQueue) : Prop :=
  q'.state.maxGopN = q.state.maxGopN ∧ q'.state.maxGopM = q.state.maxGopM ∧
  q'.state.fieldCoding = q.state.fieldCoding ∧ q'.state.shotChange = q.state.shotChange ∧
  (q.state.finish = true → q'.state.finish = true)

/-- The pictures of the witness runs: picture `k` has presentation timestamp
`10 * k + 7`. -/
def witnessPicture (k : Nat) : PictureWrapper :=
  { pts := 10 * (k : Int) + 7, sampleSize := 8, handle := k }

/-- The calls of the witness run: nine pictures are accepted, the end of the input
is signalled, and the driver pulls ten times. -/
def witnessOps : List Op :=
  (List.range 9).map (fun k => Op.append (witnessPicture k) none) ++
    [Op.endOfInput, Op.preanalyse] ++ List.replicate 10 Op.getDocket

/-- The queue at the end of the witness run (base GOP size 8, intra period 100). -/
def witnessQueue : InputQueue :=
  match (InputQueue.new 100 8 false false).run witnessOps with
  | .ok (q, _) => q
  | .error _ => InputQueue.new 100 8 false false

/-- The dockets returned by the witness run. -/
def witnessOut : List Docket :=
  match (InputQueue.new 100 8 false false).run witnessOps with
  | .ok (_, out) => out
  | .error _ => []

deriving instance DecidableEq for Except

/-- The sixth docket that the witness run returns. -/
def witnessDocket : Docket :=
  { poc := 3
    nut := 0
    qpOffset := 4
    qpFactor := 6800
    currentGopSize := 8
    sliceType := SliceType.B
    references := { negative := [-3, -1], positive := [1, 5] }
    picture := some (witnessPicture 3)
    aqInfo := none
    dts := 27 }

/-- The calls of the witness run without its last six pulls: the next call of
`getDocket` returns the docket of POC 1, whose positive deltas are 1, 3 and 7. -/
def witnessPrefix : List Op :=
  witnessOps.take 15

/-- The queue after the calls of `witnessPrefix`. -/
def witnessPrefixQueue : InputQueue :=
  match (InputQueue.new 100 8 false false).run witnessPrefix with
  | .ok (q, _) => q
  | .error _ => InputQueue.new 100 8 false false

/-- The dockets returned by the calls of `witnessPrefix`. -/
def witnessPrefixOut : List Docket :=
  match (InputQueue.new 100 8 false false).run witnessPrefix with
  | .ok (_, out) => out
  | .error _ => []

/-! ## The order in which a planned group is released -/

/-- The docket that `getDocket` returns for the window entry `p` with the timestamp
slot `t`. -/
def Piece.handOver (p : Piece) (t : Timestamp) : Option Docket :=
  p.docket.map (fun d => { d with picture := p.picture, aqInfo := p.aqInfo, dts := t.timestamp })

/-- The queue after a call of `getDocket` that, after `process` has left the state `s`
with the planned part `planned`, releases the entry at index `i`. -/
def InputQueue.pulled (q : InputQueue) (s : State) (planned unplanned : List Piece) (i : Nat)
    (t : Timestamp) (ts : List Timestamp) : InputQueue :=
  { state :=
      { s with
          entries := afterPull planned i t.timestamp ++ unplanned
          sequenceFront := s.sequenceFront + (retiredBy planned i : Int)
          timestamps := ts }
    m_shotChangeList := q.outer }

/-- The indices, in the group as it was planned, of the entries that the next `n`
pulls release; `offset` is the number of entries of the group retired so far. -/
def viewOrder : Nat → Nat → List View → Option (List Nat)
  | 0, _, _ => some []
  | n + 1, offset, vs =>
    match viewStep vs with
    | none => none
    | some (i, vs') =>
      (viewOrder n (offset + (vs.length - vs'.length)) vs').map (fun l => (i + offset) :: l)

/-! ## The steady-state pyramid -/

/-- A docket of slice type `B` in a group of eight. -/
def pyramidDocket (sequenceFront i nut qpOffset : Int) (qpFactor : Nat)
    (negative positive : List Int) : Docket :=
  { poc := sequenceFront + i - 1
    nut := nut
    qpOffset := qpOffset
    qpFactor := qpFactor
    currentGopSize := 8
    sliceType := SliceType.B
    references := { negative := negative, positive := positive } }

/-- The dockets of positions 1 to 8 of the steady-state pyramid, in display order. -/
def pyramid (sequenceFront : Int) : List Docket :=
  [ pyramidDocket sequenceFront 1 TRAIL_N 4 6800 [-1] [1, 3, 7],
    pyramidDocket sequenceFront 2 TRAIL_R 3 3536 [-2] [2, 6],
    pyramidDocket sequenceFront 3 TRAIL_N 4 6800 [-3, -1] [1, 5],
    pyramidDocket sequenceFront 4 TRAIL_R 2 3536 [-4] [4],
    pyramidDocket sequenceFront 5 TRAIL_N 4 6800 [-5, -1] [1, 3],
    pyramidDocket sequenceFront 6 TRAIL_R 3 3536 [-6, -2] [2],
    pyramidDocket sequenceFront 7 TRAIL_N 4 6800 [-7, -1] [1],
    pyramidDocket sequenceFront 8 TRAIL_R 1 4420 [-8] [] ]

/-- The docket returned for position `i` of the group: the docket of the pyramid with
the picture and annotation of the window entry and the timestamp slot `t`. -/
def pyramidRelease (sequenceFront : Int) (group : List Piece) (i : Nat) (t : Timestamp) :
    Option Docket := do
  let d ← (pyramid sequenceFront)[i - 1]?
  let p ← group[i - 1]?
  some { d with picture := p.picture, aqInfo := p.aqInfo, dts := t.timestamp }

/-- What the loops of `getDocket` read of the dockets of the pyramid. -/
def pyramidViews : List View :=
  [ { positive := [1, 3, 7], intra := false, done := false },
    { positive := [2, 6], intra := false, done := false },
    { positive := [1, 5], intra := false, done := false },
    { positive := [4], intra := false, done := false },
    { positive := [1, 3], intra := false, done := false },
    { positive := [2], intra := false, done := false },
    { positive := [1], intra := false, done := false },
    { positive := [], intra := false, done := false } ]

/-- The queue of the witness of the steady-state pyramid (base GOP size 8, intra period
100): nine pictures have been accepted, the end of the input has been signalled and the
first picture has been released, so that the window holds eight pictures without
docket. -/
def pyramidQueue : InputQueue :=
  match (InputQueue.new 100 8 false false).run (witnessOps.take 12) with
  | .ok (q, _) => q
  | .error _ => InputQueue.new 100 8 false false

/-- A queue with the unsupported base GOP size 3: two pictures have been accepted and
moved to the window after the end of the input. -/
def configQueue : InputQueue :=
  match (InputQueue.new 100 3 false false).run
      [Op.append (witnessPicture 0) none, Op.append (witnessPicture 1) none, Op.endOfInput,
        Op.preanalyse] with
  | .ok (q, _) => q
  | .error _ => InputQueue.new 100 3 false false

/-- The queue of the witness of the scene-cut placement (scene-cut mode, base GOP size 8,
intra period 100): cuts are flagged at the positions 0 and 3, nine pictures have been
accepted and the first one has been released, so that the baseline is 1. -/
def sceneQueue : InputQueue :=
  match (InputQueue.new 100 8 false true).run
      (Op.shotChanges [1, 0, 0, 1, 0, 0, 0, 0, 0, 0, 0, 0] :: witnessOps.take 12) with
  | .ok (q, _) => q
  | .error _ => InputQueue.new 100 8 false true

/-! ## The scenario of nine pictures -/

/-- The pictures of the scenario: picture `k` has presentation timestamp `k`. -/
def scenarioPicture (k : Nat) : PictureWrapper :=
  { pts := (k : Int), sampleSize := 8, handle := k }

/-- The calls of the scenario: nine pictures with the presentation timestamps 0 to 8 are
accepted, the end of the input is signalled, `preanalyse` runs and the driver pulls ten
times. -/
def scenarioOps : List Op :=
  (List.range 9).map (fun k => Op.append (scenarioPicture k) none) ++
    [Op.endOfInput, Op.preanalyse] ++ List.replicate 10 Op.getDocket

/-- The queue at the end of the scenario (base GOP size 8, no scene cuts, intra period
100). -/
def scenarioQueue : InputQueue :=
  match (InputQueue.new 100 8 false false).run scenarioOps with
  | .ok (q, _) => q
  | .error _ => InputQueue.new 100 8 false false

/-- The dockets returned in the scenario. -/
def scenarioOut : List Docket :=
  match (InputQueue.new 100 8 false false).run scenarioOps with
  | .ok (_, out) => out
  | .error _ => []

/-- The position in its group of a docket planned at the baseline `sequenceFront`:
`createDocket` sets `poc = sequenceFront + i - 1` for the position `i`. -/
def Docket.position (d : Docket) (sequenceFront : Int) : Int :=
  d.poc - sequenceFront + 1

/-! ## The truncated group at the end of the stream -/

/-- A docket of slice type `B` at position `i` of a group truncated to `n` positions: of
the positive deltas only those that stay inside the group are kept. -/
def truncatedDocket (sequenceFront : Int) (n : Nat) (i nut qpOffset : Int) (qpFactor : Nat)
    (negative positive : List Int) : Docket :=
  { poc := sequenceFront + i - 1
    nut := nut
    qpOffset := qpOffset
    qpFactor := qpFactor
    currentGopSize := (n : Int)
    sliceType := SliceType.B
    references :=
      { negative := negative
        positive := positive.filter (fun delta => decide (i + delta ≤ (n : Int))) } }

/-- The positions 1 to `n` of the pattern of 8, truncated to a group of `n` positions. -/
def truncatedPyramid (sequenceFront : Int) (n : Nat) : List Docket :=
  [ truncatedDocket sequenceFront n 1 TRAIL_N 4 6800 [-1] [1, 3, 7],
    truncatedDocket sequenceFront n 2 TRAIL_R 3 3536 [-2] [2, 6],
    truncatedDocket sequenceFront n 3 TRAIL_N 4 6800 [-3, -1] [1, 5],
    truncatedDocket sequenceFront n 4 TRAIL_R 2 3536 [-4] [4],
    truncatedDocket sequenceFront n 5 TRAIL_N 4 6800 [-5, -1] [1, 3],
    truncatedDocket sequenceFront n 6 TRAIL_R 3 3536 [-6, -2] [2],
    truncatedDocket sequenceFront n 7 TRAIL_N 4 6800 [-7, -1] [1] ].take n

/-- The queue of the witness of the truncated group (base GOP size 8, intra period 100):
six pictures have been accepted, the end of the input has been signalled and the first
picture has been released, so that five pictures without docket remain in the window. -/
def truncatedQueue : InputQueue :=
  match (InputQueue.new 100 8 false false).run
      ((List.range 6).map (fun k => Op.append (witnessPicture k) none) ++
        [Op.endOfInput, Op.preanalyse, Op.getDocket]) with
  | .ok (q, _) => q
  | .error _ => InputQueue.new 100 8 false false

/-- The state of the witness queue after `process`. -/
def truncatedPlanned : State :=
  match truncatedQueue.state.process with
  | .ok s => s
  | .error _ => truncatedQueue.state

/-- The queue of the witness of the batching: nine pictures have been accepted and the end
of the input has been signalled, so that the preanalysis queue holds nine pictures. -/
def batchQueue : InputQueue :=
  match (InputQueue.new 100 8 false false).run (witnessOps.take 10) with
  | .ok (q, _) => q
  | .error _ => InputQueue.new 100 8 false false

/-- The queue of the witness of the deferral: one picture has been accepted. -/
def deferQueue : InputQueue :=
  match (InputQueue.new 100 8 false false).run (witnessOps.take 1) with
  | .ok (q, _) => q
  | .error _ => InputQueue.new 100 8 false false

/-! ## The patterns of the sizes 2 to 7 -/

/-- The docket that `createDocket` builds from a row of a pattern when every delta of
the row passes `isValidReference`. -/
def Row.docket (r : Row) (sequenceFront gopSize nutR nutN : Int) : Docket :=
  let nut := if r.reference then nutR else nutN
  let docket : Docket :=
    { poc := sequenceFront + r.i - 1
      nut := nut
      qpOffset := r.qpOffset
      qpFactor := r.qpFactor
      currentGopSize := gopSize }
  let docket := addReference (addReference (addReference (addReference docket r.ref1) r.ref2)
    r.ref3) r.ref4
  { docket with sliceType := if isIrap nut then SliceType.I else SliceType.B }

/-- The docket of the last position of a group of `n` positions that ends with an intra
picture. -/
def intraDocket (sequenceFront : Int) (n : Nat) : Docket :=
  { poc := sequenceFront + (n : Int) - 1
    nut := if sequenceFront ≠ 0 then CRA_NUT else IDR_N_LP
    qpOffset := 0
    qpFactor := 4420
    currentGopSize := (n : Int)
    sliceType := SliceType.I
    references := { negative := [-(n : Int)], positive := [] } }

/-- The dockets of a group of `n` positions (2 to 7) that ends with an intra picture,
planned before the end of the input: the position `k + 1 < n` has the docket of the row of
the size pattern for that position, with every delta kept. -/
def sizePlan (sequenceFront : Int) (n : Nat) : List (Option Docket) :=
  (List.range (n - 1)).map (fun k =>
    ((sizeRows (n : Int)).find? (fun r => decide (r.i = (k : Int) + 1))).map
      (fun r => r.docket sequenceFront (n : Int) RASL_R RASL_N)) ++
    [some (intraDocket sequenceFront n)]

/-- The docket that `createDocket` builds from a row of a pattern in a group of `n`
positions when exactly the deltas of the row that do not point beyond position `n` pass
`isValidReference`. -/
def Row.truncated (r : Row) (sequenceFront : Int) (n : Nat) (nutR nutN : Int) : Docket :=
  let nut := if r.reference then nutR else nutN
  let keep : Docket → Int → Docket := fun docket delta =>
    if r.i + delta ≤ (n : Int) then addReference docket delta else docket
  let docket : Docket :=
    { poc := sequenceFront + r.i - 1
      nut := nut
      qpOffset := r.qpOffset
      qpFactor := r.qpFactor
      currentGopSize := (n : Int) }
  let docket := keep (keep (keep (keep docket r.ref1) r.ref2) r.ref3) r.ref4
  { docket with sliceType := if isIrap nut then SliceType.I else SliceType.B }

/-- The dockets of a group of `n` positions (2 to 7) that ends with an intra picture,
planned after the end of the input: the position `k + 1 < n` has the docket of the row of
the pattern of 8 for that position, with the deltas that point beyond position `n`
dropped. -/
def finishedPlan (sequenceFront : Int) (n : Nat) : List (Option Docket) :=
  (List.range (n - 1)).map (fun k =>
    (canonicalRows.find? (fun r => decide (r.i = (k : Int) + 1))).map
      (fun r => r.truncated sequenceFront n RASL_R RASL_N)) ++
    [some (intraDocket sequenceFront n)]

/-- A docket of slice type `B` given by its fields. -/
def groupDocket (sequenceFront gopSize i nut qpOffset : Int) (qpFactor : Nat)
    (negative positive : List Int) : Docket :=
  { poc := sequenceFront + i - 1
    nut := nut
    qpOffset := qpOffset
    qpFactor := qpFactor
    currentGopSize := gopSize
    sliceType := SliceType.B
    references := { negative := negative, positive := positive } }

/-- The queue of the witness of the size patterns (base GOP size 8, intra period 4):
eleven pictures have been accepted, `preanalyse` has moved ten of them to the window and
the first picture has been released; the end of the input has not been signalled. -/
def sizeQueue : InputQueue :=
  match (InputQueue.new 4 8 false false).run
      ((List.range 11).map (fun k => Op.append (witnessPicture k) none) ++
        [Op.preanalyse, Op.getDocket]) with
  | .ok (q, _) => q
  | .error _ => InputQueue.new 4 8 false false

/-- The queue of the counterexample (base GOP size 8, intra period 4): nine pictures have
been accepted, the end of the input has been signalled and the first picture has been
released. -/
def finishedQueue : InputQueue :=
  match (InputQueue.new 4 8 false false).run (witnessOps.take 12) with
  | .ok (q, _) => q
  | .error _ => InputQueue.new 4 8 false false

/-- The state of the counterexample after `process`. -/
def finishedPlanned : State :=
  match finishedQueue.state.process with
  | .ok s => s
  | .error _ => finishedQueue.state

/-! ## No reference is dropped before the end of the input -/

/-- The deltas of a row. -/
def Row.deltas (r : Row) : List Int :=
  [r.ref1, r.ref2, r.ref3, r.ref4]

/-- In a group of `g` positions planned before the end of the input, every call of the
pattern creates a docket and every positive delta of the call is in the positive set of
that docket. -/
def keepsDeltas (g : Nat) (lastPicture : LastPicture) : Bool :=
  (patternRows false (g : Int)).all (fun r =>
    decide (0 < r.i ∧ r.i < (g : Int)) &&
      match (viewSynthesise (g : Int) false lastPicture (List.replicate g none))[(r.i - 1).toNat]? with
      | some (some v) => r.deltas.all (fun delta => decide (0 < delta → delta ∈ v.1))
      | _ => false)

/-- The calls that lead to the witness queue of the size patterns. -/
def sizeOps : List Op :=
  (List.range 11).map (fun k => Op.append (witnessPicture k) none) ++
    [Op.preanalyse, Op.getDocket]

/-- The first docket of the witness runs: the intra docket of POC 0. -/
def witnessFirst : Docket :=
  { poc := 0
    nut := IDR_N_LP
    qpOffset := 0
    qpFactor := 4420
    currentGopSize := 1
    sliceType := SliceType.I
    references := { negative := [-1], positive := [] }
    picture := some (witnessPicture 0)
    aqInfo := none
    dts := -23 }

/-- The queue and the docket after one more call of `getDocket` on the witness queue of
the steady-state pyramid. -/
def pyramidStep : InputQueue × Option Docket :=
  match pyramidQueue.getDocket with
  | .ok r => r
  | .error _ => (pyramidQueue, none)

/-! ## The views of the window in reachable states -/

/-- The views of the entries of the window that have a docket. -/
def State.views (s : State) : List View :=
  s.entries.filterMap Piece.view

/-! ## Intra priority -/

/-- No entry of the views is an intra picture that has not been released. -/
def noPendingIntra (vs : List View) : Bool :=
  vs.all (fun v => !v.intra || v.done)

/-- In a freshly planned group the first loop of `getDocket` finds the intra picture, if
there is one, the first pull selects it, and no intra picture is left pending. -/
def intraFirst (g : Nat) (finish : Bool) (lastPicture : LastPicture) : Bool :=
  let vs := freshViews (viewSynthesise (g : Int) finish lastPicture (List.replicate g none))
  match viewStep vs with
  | none => false
  | some (i, vs') =>
    noPendingIntra vs' && decide (vs.length ≤ 8) &&
      (List.range vs.length).all (fun k =>
        match vs[k]? with
        | some v => !v.intra || (decide (k = i) && decide (viewIntraScan vs 0 none = some k))
        | none => true)

/-- The queue of the witness of the intra priority (base GOP size 8, intra period 100):
nine pictures have been accepted and moved to the window at the end of the input. -/
def intraQueue : InputQueue :=
  match (InputQueue.new 100 8 false false).run (witnessOps.take 11) with
  | .ok (q, _) => q
  | .error _ => InputQueue.new 100 8 false false

/-- The state of the witness queue after `process`. -/
def intraPlanned : State :=
  match intraQueue.swapped.process with
  | .ok s => s
  | .error _ => intraQueue.state

/-- The docket that `process` gives the first picture of the witness. -/
def intraPlannedDocket : Docket :=
  { poc := 0
    nut := IDR_N_LP
    qpOffset := 0
    qpFactor := 4420
    currentGopSize := 1
    sliceType := SliceType.I
    references := { negative := [-1], positive := [] } }

/-- The first entry of the window of the witness after `process`. -/
def intraPiece : Piece :=
  { docket := some intraPlannedDocket, picture := some (witnessPicture 0), aqInfo := none }

/-! ## Positive deltas stay inside the window -/

/-- Every positive delta of the views is positive and points at an entry of the
views. -/
def RefsInside (vs : List View) : Prop :=
  ∀ (k : Nat) (v : View), vs[k]? = some v → ∀ delta ∈ v.positive,
    0 < delta ∧ (k : Int) + delta < (vs.length : Int)

/-- The check of `RefsInside` on the views of a freshly planned group. -/
def refsInside (g : Nat) (finish : Bool) (lastPicture : LastPicture) : Bool :=
  let vs := freshViews (viewSynthesise (g : Int) finish lastPicture (List.replicate g none))
  (List.range vs.length).all (fun k =>
    match vs[k]? with
    | some v => v.positive.all (fun delta =>
        decide (0 < delta ∧ (k : Int) + delta < (vs.length : Int)))
    | none => true)

/-! ## The POC is the display index -/

/-- The picture of a window entry: the picture it still holds or, once the entry has been
released, the picture that was moved into its docket. -/
def Piece.held (p : Piece) : Option PictureWrapper :=
  match p.picture with
  | some x => some x
  | none => p.docket.bind Docket.picture

/-- The pictures in the queue, in order: those of the window, then those of the
preanalysis queue. -/
def InputQueue.timeline (q : InputQueue) : List (Option PictureWrapper) :=
  q.state.entries.map Piece.held ++ q.state.entriesPreanalysis.map Piece.picture

/-- The accepted pictures along the queue: `sequenceFront` of them have left the window,
the others are those of the window and of the preanalysis queue, in order; and every
returned docket carries the accepted picture whose index is its POC. -/
def Timeline (q : InputQueue) (out : List Docket) (acc : List PictureWrapper) : Prop :=
  q.state.sequenceFront.toNat + q.state.entries.length + q.state.entriesPreanalysis.length =
    acc.length ∧
  (acc.map some).drop q.state.sequenceFront.toNat = q.timeline ∧
  ∀ D ∈ out, 0 ≤ D.poc ∧ acc[D.poc.toNat]? = D.picture

/-! ## The reorder delay -/

/-- The number of released entries among the views of the planned part. -/
def doneCount (vs : List View) : Nat :=
  (vs.filter View.done).length

/-- Repeated pulls on views: at every pull the number of released entries still in
the planned part is at most the index of the selected entry plus 3. -/
def viewDelay : Nat → List View → Bool
  | 0, vs => vs.isEmpty
  | n + 1, vs =>
    match viewStep vs with
    | none => true
    | some (i, rest) => decide (doneCount vs ≤ i + 3) && viewDelay n rest

/-- The delay check on the views of a freshly planned group. -/
def groupDelay (g : Nat) (finish : Bool) (lastPicture : LastPicture) : Bool :=
  viewDelay g (freshViews (viewSynthesise (g : Int) finish lastPicture (List.replicate g none)))

/-- The presentation timestamps of the accepted pictures form an arithmetic progression. -/
def Progression (acc : List PictureWrapper) (base period : Int) : Prop :=
  ∀ (j : Nat) (x : PictureWrapper), acc[j]? = some x → x.pts = base + (j : Int) * period

/-! ## Periodic intra positions -/

/-- The next intra position in periodic mode: a multiple of the intra period, with the
multiple before it behind the front of the window. -/
def Periodic (s : State) : Prop :=
  s.maxGopN ∣ s.sequenceIdr ∧ s.sequenceIdr - s.maxGopN < s.sequenceFront

/-- The views that are intra are those whose POC is a multiple of the intra period. -/
def IntraAt (period front : Int) (vs : List View) : Prop :=
  ∀ (k : Nat) (v : View), vs[k]? = some v → (v.intra = true ↔ period ∣ front + (k : Int))

/-- Whether the last picture of a group is planned as an intra picture. -/
def LastPicture.isIntra : LastPicture → Bool
  | LastPicture.I => true
  | _ => false

/-- On the views of a freshly planned group, every entry has a view and the intra views
are exactly the last one of a group that ends on an intra picture. -/
def intraLast (g : Nat) (finish : Bool) (lastPicture : LastPicture) : Bool :=
  let vs := freshViews (viewSynthesise (g : Int) finish lastPicture (List.replicate g none))
  decide (vs.length = g) &&
    (List.range g).all (fun k =>
      match vs[k]? with
      | some v => v.intra == (lastPicture.isIntra && decide (k + 1 = g))
      | none => false)

/-- The queue and the dockets of the witness run with an intra period of 4. -/
def periodicRun : InputQueue × List Docket :=
  match (InputQueue.new 4 8 false false).run witnessOps with
  | .ok r => r
  | .error _ => (InputQueue.new 4 8 false false, [])

theorem movePieces_eq (n : Nat) (pre es : List Piece) (h : n ≤ pre.length) :
    movePieces n pre es = .ok (pre.drop n, es ++ pre.take n) := by
  induction n generalizing pre es with
  | zero => simp [movePieces, pure, Except.pure]
  | succ n ih =>
    cases pre with
    | nil => simp at h
    | cons p rest =>
      simp only [List.length_cons, Nat.add_le_add_iff_right] at h
      simp [movePieces, ih rest (es ++ [p]) h]

theorem readPictures_eq (n : Nat) (pre : List Piece) (h : n ≤ pre.length)
    (hpic : ∀ p ∈ pre, p.done = false) : readPictures n pre = .ok () := by
  induction n generalizing pre with
  | zero => rfl
  | succ n ih =>
    cases pre with
    | nil => simp at h
    | cons p rest =>
      simp only [List.length_cons, Nat.add_le_add_iff_right] at h
      have hp := hpic p (List.mem_cons_self _ _)
      unfold readPictures
      cases hpp : p.picture with
      | none => simp [Piece.done, hpp] at hp
      | some w =>
        simp only [hpp]
        exact ih rest h (fun p' hp' => hpic p' (List.mem_cons_of_mem _ hp'))

theorem preanalyse_eq (q : InputQueue)
    (hpic : ∀ p ∈ q.state.entriesPreanalysis, p.done = false) :
    q.preanalyse =
      .ok (if q.state.entriesPreanalysis.length ≥ 10 ∨ q.state.finish = true then
        { q with state := { q.state with
            entriesPreanalysis :=
              q.state.entriesPreanalysis.drop (min q.state.entriesPreanalysis.length 10)
            entries := q.state.entries ++
              q.state.entriesPreanalysis.take (min q.state.entriesPreanalysis.length 10) } }
      else q) := by
  unfold InputQueue.preanalyse
  by_cases hc : q.state.entriesPreanalysis.length ≥ 10 ∨ q.state.finish = true
  · have hle : min q.state.entriesPreanalysis.length 10 ≤ q.state.entriesPreanalysis.length :=
      Nat.min_le_left _ _
    have hmin : (if q.state.entriesPreanalysis.length > 10 then 10
        else q.state.entriesPreanalysis.length) = min q.state.entriesPreanalysis.length 10 := by
      split <;> omega
    simp only [hc, if_true, bind, Except.bind, hmin, movePieces_eq _ _ _ hle,
      readPictures_eq _ _ hle hpic, pure, Except.pure]
  · simp only [hc, if_false, pure, Except.pure]

/-- Claim C10: for every state whose preanalysis queue holds `n` pictures (no entry of the
queue has a null picture pointer), `preanalyse` returns; it leaves the state as it is when
`n < 10` and the end of the input has not been signalled, and otherwise removes exactly
`min n 10` entries from the head of the preanalysis queue and appends them unchanged and
in the same order to the tail of the window.  In both cases the concatenation of the
window and the preanalysis queue is unchanged. -/
theorem preanalyse_batching (q : InputQueue)
    (hpic : ∀ p ∈ q.state.entriesPreanalysis, p.done = false) :
    ∃ q', q.preanalyse = .ok q' ∧
      (q.state.entriesPreanalysis.length < 10 ∧ q.state.finish = false → q' = q) ∧
      (¬ (q.state.entriesPreanalysis.length < 10 ∧ q.state.finish = false) →
        q' = { q with state := { q.state with
          entriesPreanalysis :=
            q.state.entriesPreanalysis.drop (min q.state.entriesPreanalysis.length 10)
          entries :=
            q.state.entries ++
              q.state.entriesPreanalysis.take (min q.state.entriesPreanalysis.length 10) } }) ∧
      q'.state.entries ++ q'.state.entriesPreanalysis
        = q.state.entries ++ q.state.entriesPreanalysis := by
  rw [preanalyse_eq q hpic]
  by_cases hc : q.state.entriesPreanalysis.length ≥ 10 ∨ q.state.finish = true
  · rw [if_pos hc]
    refine ⟨_, rfl, ?_, ?_, ?_⟩
    · rintro ⟨h1, h2⟩
      rcases hc with hc | hc
      · omega
      · simp [h2] at hc
    · intro _; rfl
    · simp [List.append_assoc]
  · have h1 : q.state.entriesPreanalysis.length < 10 ∧ q.state.finish = false := by
      constructor
      · omega
      · cases hf : q.state.finish <;> simp_all
    rw [if_neg hc]
    exact ⟨_, rfl, fun _ => rfl, fun h => absurd h1 h, rfl⟩

theorem nonneg_shift (i : Int) (k : Nat) (h : 0 ≤ i) : 0 ≤ i >>> k := by
  rw [Int.shiftRight_eq_div_pow]
  exact Int.ediv_nonneg h (by positivity)

theorem tmod_stride (i : Int) (fc : Bool) (h : 0 ≤ i) :
    Int.tmod i ((if fc then 1 else 0) + 1) = i % (if fc then 2 else 1) := by
  cases fc <;> simp [Int.tmod_eq_emod h]

theorem computeNextIdrLoop_spec (list : List Int) (fc : Bool) (D : Int) (fuel : Nat) (i : Int)
    (hi : 0 ≤ i) (hfuel : (D - i).toNat ≤ fuel) :
    (cutAt list fc i D (computeNextIdrLoop list fc D fuel i) ∧
      ∀ j, cutAt list fc i D j → computeNextIdrLoop list fc D fuel i ≤ j) ∨
    (computeNextIdrLoop list fc D fuel i = D ∧ ∀ j, ¬ cutAt list fc i D j) := by
  induction fuel generalizing i with
  | zero =>
    right
    refine ⟨rfl, ?_⟩
    rintro j ⟨h1, h2, _⟩
    omega
  | succ fuel ih =>
    unfold computeNextIdrLoop
    by_cases hlt : i < D
    · have hsh := nonneg_shift i (if fc then 1 else 0) hi
      simp only [hlt, if_true, not_lt.mpr hsh, if_false, tmod_stride i fc hi]
      generalize hsc : (if fc = true then 1 else 0 : Nat) = sc at *
      generalize hst : (if fc = true then 2 else 1 : Int) = st at *
      have hcut : ∀ a j, cutAt list fc a D j ↔ (a ≤ j ∧ j < D ∧ j % st = 0 ∧
          (j >>> sc) < (list.length : Int) ∧ list.getD (j >>> sc).toNat 0 ≠ 0 ∧
          ∀ k, a ≤ k → k < j → (k >>> sc) < (list.length : Int)) := by
        intro a j; subst hsc hst; exact Iff.rfl
      simp only [hcut] at ih ⊢
      split_ifs with hr hh
      · right
        refine ⟨rfl, ?_⟩
        rintro j ⟨h1, h2, _, h4, _, h6⟩
        rcases eq_or_lt_of_le h1 with h | h
        · subst h; omega
        · have := h6 i le_rfl h; omega
      · left
        refine ⟨⟨le_rfl, hlt, hh.1, by omega, hh.2, ?_⟩, ?_⟩
        · intro j h1 h2; omega
        · rintro j ⟨h1, _⟩; exact h1
      · rcases ih (i + 1) (by omega) (by omega) with ⟨⟨c1, c2, c3, c4, c5, c6⟩, hmin⟩ | ⟨he, hno⟩
        · left
          refine ⟨⟨by omega, c2, c3, c4, c5, ?_⟩, ?_⟩
          · intro j h1 h2
            rcases eq_or_lt_of_le h1 with h | h
            · subst h; omega
            · exact c6 j (by omega) h2
          · rintro j ⟨h1, h2, h3, h4, h5, h6⟩
            rcases eq_or_lt_of_le h1 with h | h
            · subst h; exact absurd ⟨h3, h5⟩ hh
            · exact hmin j ⟨by omega, h2, h3, h4, h5, fun k hk1 hk2 => h6 k (by omega) hk2⟩
        · right
          refine ⟨he, ?_⟩
          rintro j ⟨h1, h2, h3, h4, h5, h6⟩
          rcases eq_or_lt_of_le h1 with h | h
          · subst h; exact absurd ⟨h3, h5⟩ hh
          · exact hno j ⟨by omega, h2, h3, h4, h5, fun k hk1 hk2 => h6 k (by omega) hk2⟩
    · rw [if_neg hlt]
      right
      refine ⟨rfl, ?_⟩
      rintro j ⟨h1, h2, _⟩
      omega

theorem synthesise_eq (s : State) (lastPicture : LastPicture) :
    s.synthesise lastPicture = (do
      let (s', max, nutR, nutN) ← s.lastDocket lastPicture
      s'.applyRows max nutR nutN (patternRows s'.finish s.gopSize)) := by
  unfold State.synthesise State.lastDocket
  have key : ∀ (s' : State) (max nutR nutN : Int),
      (if ¬ s'.finish ∧ s.gopSize ≠ 8 then
        if s.gopSize = 2 then
          s'.createDocket max 1 nutR 2 6800 (-1) 1 0 0
        else if s.gopSize = 3 then do
          let s' ← s'.createDocket max 2 nutR 2 3536 (-2) 1 0 0
          s'.createDocket max 1 nutN 3 6800 (-1) 2 1 0
        else if s.gopSize = 4 then do
          let s' ← s'.createDocket max 2 nutR 2 3536 (-2) 2 0 0
          let s' ← s'.createDocket max 1 nutN 3 6800 (-1) 3 1 0
          s'.createDocket max 3 nutN 3 6800 (-1) 1 0 0
        else if s.gopSize = 5 then do
          let s' ← s'.createDocket max 3 nutR 2 3536 (-3) 2 0 0
          let s' ← s'.createDocket max 1 nutR 2 3536 (-1) 4 2 0
          let s' ← s'.createDocket max 2 nutN 3 6800 (-2) 3 (-1) 1
          s'.createDocket max 4 nutN 3 6800 (-4) 1 (-1) 0
        else if s.gopSize = 6 then do
          let s' ← s'.createDocket max 3 nutR 2 3536 (-3) 3 0 0
          let s' ← s'.createDocket max 1 nutR 3 3536 (-1) 5 2 0
          let s' ← s'.createDocket max 2 nutN 4 6800 (-2) 4 1 (-1)
          let s' ← s'.createDocket max 5 nutR 3 3536 (-5) 1 (-2) 0
          s'.createDocket max 4 nutN 4 6800 (-4) 2 (-1) 1
        else if s.gopSize = 7 then do
          let s' ← s'.createDocket max 4 nutR 2 3536 (-4) 3 0 0
          let s' ← s'.createDocket max 2 nutR 3 3536 (-2) 5 2 0
          let s' ← s'.createDocket max 1 nutN 4 6800 (-1) 6 3 1
          let s' ← s'.createDocket max 3 nutN 4 6800 (-3) 4 1 (-1)
          let s' ← s'.createDocket max 6 nutR 3 3536 (-2) 1 0 0
          s'.createDocket max 5 nutN 4 6800 (-1) 2 1 0
        else pure s'
      else do
        let s' ← s'.createDocket max 4 nutR 2 3536 (-4) 4 0 0
        let s' ← s'.createDocket max 2 nutR 3 3536 (-2) 2 6 0
        let s' ← s'.createDocket max 1 nutN 4 6800 (-1) 1 3 7
        let s' ← s'.createDocket max 3 nutN 4 6800 (-1) 1 (-3) 5
        let s' ← s'.createDocket max 6 nutR 3 3536 (-2) 2 (-6) 0
        let s' ← s'.createDocket max 5 nutN 4 6800 (-1) 1 3 (-5)
        s'.createDocket max 7 nutN 4 6800 (-1) 1 (-7) 0)
      = s'.applyRows max nutR nutN (patternRows s'.finish s.gopSize) := by
    intro s' max nutR nutN
    simp only [patternRows, sizeRows, canonicalRows]
    split_ifs <;> simp only [State.applyRows, bind_assoc, bind_pure, if_true, if_false,
      Bool.false_eq_true]
  cases lastPicture
  · simp only [bind_assoc, pure_bind]
    congr 1
    funext s'
    exact key s' _ _ _
  · simp only [pure_bind]
    exact key s _ _ _
  · simp only [bind_assoc, pure_bind]
    congr 1
    funext s'
    exact key s' _ _ _

theorem overlay_length (ds : List (Option Docket)) (ps : List Piece) :
    (overlay ds ps).length = ps.length := by
  induction ds generalizing ps with
  | nil => simp [overlay]
  | cons d ds ih =>
    cases ps with
    | nil => simp [overlay]
    | cons p ps => simp [overlay, ih]

theorem overlay_getElem? (ds : List (Option Docket)) (ps : List Piece) (k : Nat) :
    (overlay ds ps)[k]? =
      (ps[k]?).map (fun p => if k < ds.length then { p with docket := slotAt ds k } else p) := by
  induction ds generalizing ps k with
  | nil => simp [overlay]
  | cons d ds ih =>
    cases ps with
    | nil => simp [overlay]
    | cons p ps =>
      cases k with
      | zero => simp [overlay, slotAt]
      | succ k =>
        simp only [overlay, List.getElem?_cons_succ, ih, List.length_cons,
          Nat.add_lt_add_iff_right, slotAt]

theorem overlay_set (ds : List (Option Docket)) (ps : List Piece) (k : Nat) (p : Piece)
    (d : Docket) (hk : k < ds.length) (hp : (overlay ds ps)[k]? = some p) :
    (overlay ds ps).set k { p with docket := some d } = overlay (ds.set k (some d)) ps := by
  induction ds generalizing ps k with
  | nil => simp at hk
  | cons e ds ih =>
    cases ps with
    | nil => simp [overlay] at hp
    | cons x ps =>
      cases k with
      | zero =>
        simp only [overlay, List.getElem?_cons_zero, Option.some.injEq] at hp
        subst hp
        simp [overlay]
      | succ k =>
        simp only [overlay, List.getElem?_cons_succ] at hp
        simp only [List.length_cons, Nat.add_lt_add_iff_right] at hk
        simp [overlay, ih ps k hk hp]

theorem overlay_docket_none (ds : List (Option Docket)) (ps : List Piece) (k : Nat) (p : Piece)
    (hps : ∀ x ∈ ps, x.docket = none) (hk : ds.length ≤ k) (hp : (overlay ds ps)[k]? = some p) :
    p.docket = none := by
  rw [overlay_getElem?] at hp
  cases hx : ps[k]? with
  | none => simp [hx] at hp
  | some x =>
    simp only [hx, Option.map_some', not_lt.mpr hk, if_false, Option.some.injEq] at hp
    subst hp
    exact hps x (List.getElem?_mem hx)

theorem isValidReference_planning {s : State} {slots : List (Option Docket)} {base : List Piece}
    (h : Planning s slots base) (i delta : Int) (hi : 0 < i) :
    s.isValidReference i delta = .ok (slotValid slots i delta) := by
  unfold State.isValidReference slotValid
  have hlen : s.entries.length = base.length := by rw [h.window, overlay_length]
  have hf := h.fits
  have ho := h.offset
  simp only [gt_iff_lt, hi, not_true_eq_false, if_false]
  by_cases h1 : delta < 0
  · simp [h1, pure, Except.pure]
  by_cases h2 : delta = 0
  · simp [h2, pure, Except.pure]
  simp only [h1, h2, if_false]
  have ht : 0 ≤ i - 1 + delta := by omega
  split_ifs with hc hge hge
  · -- limit is the offset, target beyond
    have : slots.length ≤ (i - 1 + delta).toNat := by omega
    simp [slotAt, List.getElem?_eq_none this, pure, Except.pure]
  · -- limit is the offset, target inside
    rw [hlen] at hc
    have hin : (i - 1 + delta).toNat < base.length := by omega
    simp only [atE, ht, if_true, h.window, overlay_getElem?, List.getElem?_eq_getElem hin,
      Option.map_some', bind, Except.bind, pure, Except.pure]
    split_ifs with hs
    · simp
    · simp only [h.blank _ (List.getElem_mem hin)]
      simp [slotAt, List.getElem?_eq_none (not_lt.mp hs)]
  · rw [hlen] at hge
    have : slots.length ≤ (i - 1 + delta).toNat := by omega
    simp [slotAt, List.getElem?_eq_none this, pure, Except.pure]
  · rw [hlen] at hge
    have hin : (i - 1 + delta).toNat < base.length := by omega
    simp only [atE, ht, if_true, h.window, overlay_getElem?, List.getElem?_eq_getElem hin,
      Option.map_some', bind, Except.bind, pure, Except.pure]
    split_ifs with hs
    · simp
    · simp only [h.blank _ (List.getElem_mem hin)]
      simp [slotAt, List.getElem?_eq_none (not_lt.mp hs)]

theorem slotCreate_length (f g : Int) (slots : List (Option Docket))
    (max i nut qo : Int) (qf : Nat) (r1 r2 r3 r4 : Int) :
    (slotCreate f g slots max i nut qo qf r1 r2 r3 r4).length = slots.length := by
  unfold slotCreate
  split <;> simp

theorem slotRows_length (f g max nutR nutN : Int) (rows : List Row)
    (slots : List (Option Docket)) :
    (slotRows f g max nutR nutN rows slots).length = slots.length := by
  induction rows generalizing slots with
  | nil => rfl
  | cons r rows ih => simp [slotRows, ih, slotCreate_length]

theorem Planning.replace {s : State} {slots : List (Option Docket)} {base : List Piece}
    (h : Planning s slots base) (slots' : List (Option Docket))
    (hl : slots'.length = slots.length) :
    Planning { s with entries := overlay slots' base } slots' base :=
  ⟨rfl, h.blank, hl ▸ h.fits, hl ▸ h.offset⟩

theorem createDocket_planning {s : State} {slots : List (Option Docket)} {base : List Piece}
    (h : Planning s slots base) (max i nut qo : Int) (qf : Nat) (r1 r2 r3 r4 : Int)
    (hi : 0 < i) (hmax : max ≤ slots.length) :
    s.createDocket max i nut qo qf r1 r2 r3 r4 =
      .ok { s with entries :=
            overlay (slotCreate s.sequenceFront s.gopSize slots max i nut qo qf r1 r2 r3 r4) base } := by
  unfold State.createDocket slotCreate
  simp only [gt_iff_lt, hi, not_true_eq_false, if_false]
  by_cases hle : i ≤ max
  · have hk : (i - 1).toNat < slots.length := by omega
    have hkb : (i - 1).toNat < base.length := lt_of_lt_of_le hk h.fits
    have hat : atE s.entries (i - 1) =
        .ok { base[(i - 1).toNat] with docket := slotAt slots (i - 1).toNat } := by
      have h0 : 0 ≤ i - 1 := by omega
      simp only [atE, h0, if_true, h.window, overlay_getElem?, List.getElem?_eq_getElem hkb,
        Option.map_some', hk, pure, Except.pure]
    simp only [hle, if_true, isValidReference_planning h _ _ hi, bind, Except.bind, hat, pure,
      Except.pure, Except.ok.injEq]
    have hget : (overlay slots base)[(i - 1).toNat]? =
        some { base[(i - 1).toNat] with docket := slotAt slots (i - 1).toNat } := by
      simp only [overlay_getElem?, List.getElem?_eq_getElem hkb, Option.map_some', hk, if_true]
    have := overlay_set slots base (i - 1).toNat _
      (slotDocket s.sequenceFront s.gopSize slots i nut qo qf r1 r2 r3 r4) hk hget
    simp only [h.window]
    rw [← this]
    rfl
  · simp only [hle, if_false, pure, Except.pure, Except.ok.injEq]
    rw [← h.window]

theorem applyRows_planning {s : State} {slots : List (Option Docket)} {base : List Piece}
    (h : Planning s slots base) (max nutR nutN : Int) (rows : List Row)
    (hrows : ∀ r ∈ rows, 0 < r.i) (hmax : max ≤ slots.length) :
    s.applyRows max nutR nutN rows =
      .ok { s with entries :=
            overlay (slotRows s.sequenceFront s.gopSize max nutR nutN rows slots) base } := by
  induction rows generalizing s slots with
  | nil =>
    simp only [State.applyRows, slotRows, pure, Except.pure, Except.ok.injEq]
    rw [← h.window]
  | cons r rows ih =>
    have hr := hrows r (List.mem_cons_self _ _)
    simp only [State.applyRows, createDocket_planning h max r.i _ r.qpOffset r.qpFactor r.ref1
      r.ref2 r.ref3 r.ref4 hr hmax, bind, Except.bind, slotRows]
    have h' := h.replace (slotCreate s.sequenceFront s.gopSize slots max r.i
      (if r.reference then nutR else nutN) r.qpOffset r.qpFactor r.ref1 r.ref2 r.ref3 r.ref4)
      (slotCreate_length _ _ _ _ _ _ _ _ _ _ _ _)
    rw [ih h' (fun x hx => hrows x (List.mem_cons_of_mem _ hx))
      (by rw [slotCreate_length]; exact hmax)]

theorem patternRows_pos (finish : Bool) (gopSize : Int) :
    ∀ r ∈ patternRows finish gopSize, 0 < r.i := by
  unfold patternRows sizeRows canonicalRows
  split_ifs <;> simp

theorem synthesise_planning {s : State} {slots : List (Option Docket)} {base : List Piece}
    (h : Planning s slots base) (lastPicture : LastPicture)
    (hpos : 0 < s.gopSize) (hfit : s.gopSize ≤ slots.length) :
    s.synthesise lastPicture =
      .ok { s with entries :=
            overlay (slotSynthesise s.sequenceFront s.gopSize s.finish lastPicture slots) base } := by
  rw [synthesise_eq]
  cases lastPicture with
  | P =>
    simp only [State.lastDocket, createDocket_planning h _ _ _ _ _ _ _ _ _ hpos hfit, bind,
      Except.bind, pure, Except.pure, slotSynthesise]
    rw [applyRows_planning (h.replace _ (slotCreate_length _ _ _ _ _ _ _ _ _ _ _ _)) _ _ _ _
      (patternRows_pos _ _) (by rw [slotCreate_length]; omega)]
  | zero =>
    simp only [State.lastDocket, bind, Except.bind, pure, Except.pure, slotSynthesise]
    rw [applyRows_planning h _ _ _ _ (patternRows_pos _ _) hfit]
  | I =>
    simp only [State.lastDocket, createDocket_planning h _ _ _ _ _ _ _ _ _ hpos hfit, bind,
      Except.bind, pure, Except.pure, slotSynthesise]
    rw [applyRows_planning (h.replace _ (slotCreate_length _ _ _ _ _ _ _ _ _ _ _ _)) _ _ _ _
      (patternRows_pos _ _) (by rw [slotCreate_length]; omega)]

theorem decideIdr_entries (s : State) : s.decideIdr.entries = s.entries := by
  unfold State.decideIdr
  split_ifs <;> rfl

theorem decideIdr_frame (s : State) :
    s.decideIdr = { s with sequenceIdr := s.decideIdr.sequenceIdr } := by
  unfold State.decideIdr
  split_ifs <;> rfl

theorem process_noop (s : State)
    (h : s.entries = [] ∨ (s.entries.head?.bind Piece.docket).isSome = true) :
    s.process = .ok s := by
  unfold State.process
  rw [if_pos]
  · rfl
  · rcases h with h | h
    · left; simp [h]
    · right; exact h

theorem process_unfold (s : State) (hne : s.entries ≠ [])
    (hfront : (s.entries.head?.bind Piece.docket) = none)
    (hm : s.maxGopM = 1 ∨ s.maxGopM = 8) :
    s.process =
      if (s.entries.length : Int) < s.decideIdr.effective.1 then
        .ok { s.decideIdr with gopSize := s.decideIdr.effective.1 }
      else
        State.synthesise { s.decideIdr with gopSize := s.decideIdr.effective.1 }
          s.decideIdr.effective.2 := by
  unfold State.process
  have h1 : ¬ (s.entries.isEmpty = true ∨ (s.entries.head?.bind Piece.docket).isSome = true) := by
    rw [hfront]
    simp [hne]
  have h2 : ¬ (s.maxGopM ≠ 1 ∧ s.maxGopM ≠ 8) := by
    rcases hm with h | h <;> simp [h]
  rw [if_neg h1]
  simp only [if_neg h2, State.effective, decideIdr_entries, pure_bind]
  have hM : s.decideIdr.maxGopM = s.maxGopM := by rw [decideIdr_frame]
  have hF : s.decideIdr.finish = s.finish := by rw [decideIdr_frame]
  simp only [hM, hF, if_neg h2]
  split_ifs <;> simp_all <;> rfl

theorem overlay_blank (n : Nat) (es : List Piece) (h : Blank es) :
    overlay (List.replicate n none) es = es := by
  induction n generalizing es with
  | zero => rfl
  | succ n ih =>
    cases es with
    | nil => rfl
    | cons p ps =>
      have hp : p.docket = none := h p (List.mem_cons_self _ _)
      have hps : Blank ps := fun x hx => h x (List.mem_cons_of_mem _ hx)
      simp only [List.replicate_succ, overlay, ih ps hps]
      congr 1
      cases p
      simp_all

theorem plan_length (s : State) : s.plan.length = s.effective.1.toNat := by
  unfold State.plan slotSynthesise
  cases s.effective.2 <;> simp [slotRows_length, slotCreate_length]

/-- On a window without dockets `process` either waits for more pictures or
writes the dockets of one group over the first entries of the window. -/
theorem process_planning (s : State) (hne : s.entries ≠ []) (hblank : Blank s.entries)
    (hm : s.maxGopM = 1 ∨ s.maxGopM = 8)
    (hidr : s.decideIdr.sequenceFront ≤ s.decideIdr.sequenceIdr) :
    s.process =
      if (s.entries.length : Int) < s.decideIdr.effective.1 then
        .ok { s.decideIdr with gopSize := s.decideIdr.effective.1 }
      else
        .ok { s.decideIdr with
              gopSize := s.decideIdr.effective.1
              entries := overlay s.decideIdr.plan s.entries } := by
  have hfront : (s.entries.head?.bind Piece.docket) = none := by
    cases hs : s.entries with
    | nil => rfl
    | cons p ps =>
      have := hblank p (by rw [hs]; exact List.mem_cons_self _ _)
      simp [this]
  rw [process_unfold s hne hfront hm]
  split_ifs with hlt
  · rfl
  · have hlen : 0 < s.entries.length := List.length_pos.mpr hne
    have hM : s.decideIdr.maxGopM = s.maxGopM := by rw [decideIdr_frame]
    have hpos : 0 < s.decideIdr.effective.1 := by
      unfold State.effective
      simp only [decideIdr_entries, hM]
      split_ifs <;> simp only <;> omega
    have hoff : s.decideIdr.effective.1 ≤ s.decideIdr.sequenceIdr - s.decideIdr.sequenceFront + 1 := by
      unfold State.effective
      simp only [decideIdr_entries, hM]
      split_ifs <;> simp only <;> omega
    have hP : Planning { s.decideIdr with gopSize := s.decideIdr.effective.1 }
        (List.replicate s.decideIdr.effective.1.toNat none) s.entries := by
      refine ⟨?_, hblank, ?_, ?_⟩
      · show s.decideIdr.entries = _
        rw [decideIdr_entries, overlay_blank _ _ hblank]
      · simp only [List.length_replicate]; omega
      · simp only [List.length_replicate]
        show ((s.decideIdr.effective.1.toNat : Nat) : Int) ≤
          s.decideIdr.sequenceIdr - s.decideIdr.sequenceFront + 1
        omega
    rw [synthesise_planning hP _ hpos (by simp only [List.length_replicate]; show _ ≤ ((s.decideIdr.effective.1.toNat : Nat) : Int); omega)]
    rfl

theorem intraScan_size (es : List Piece) (size i : Nat) (found : Option Nat)
    (h : size = 8 ∨ (i + es.length ≤ size ∧ i + es.length ≤ 8)) :
    intraScan es size i found = intraScan es 8 i found := by
  induction es generalizing i found with
  | nil => rfl
  | cons p ps ih =>
    unfold intraScan
    rcases h with h | ⟨h1, h2⟩
    · subst h; rfl
    · simp only [List.length_cons] at h1 h2
      have c1 : i < size := by omega
      have c2 : i < 8 := by omega
      simp only [c1, c2, if_true]
      cases p.docket with
      | none => rfl
      | some d =>
        simp only
        split
        · rfl
        · exact ih (i + 1) _ (Or.inr ⟨by omega, by omega⟩)

theorem intraScan_view (planned unplanned : List Piece) (vs : List View)
    (hv : planned.map Piece.view = vs.map some) (hu : Unplanned unplanned)
    (i : Nat) (found : Option Nat) :
    intraScan (planned ++ unplanned) 8 i found = viewIntraScan vs i found := by
  induction planned generalizing vs i found with
  | nil =>
    cases vs with
    | cons v vs => simp at hv
    | nil =>
      simp only [List.nil_append, viewIntraScan]
      cases unplanned with
      | nil => rfl
      | cons p ps =>
        have := (hu p (List.mem_cons_self _ _)).1
        unfold intraScan
        simp [this]
  | cons p ps ih =>
    cases vs with
    | nil => simp at hv
    | cons v vs =>
      simp only [List.map_cons, List.cons.injEq] at hv
      obtain ⟨hp, hps⟩ := hv
      simp only [List.cons_append, intraScan, viewIntraScan]
      unfold Piece.view at hp
      cases hd : p.docket with
      | none => simp [hd] at hp
      | some d =>
        simp only [hd, Option.map_some', Option.some.injEq] at hp
        subst hp
        simp only [decide_eq_true_eq]
        split_ifs <;> first | rfl | exact ih vs hps _ _

theorem view_getElem? {planned : List Piece} {vs : List View}
    (hv : planned.map Piece.view = vs.map some) {k : Nat} {v : View} (h : vs[k]? = some v) :
    ∃ p, planned[k]? = some p ∧ p.view = some v := by
  have := congrArg (fun l => l[k]?) hv
  simp only [List.getElem?_map, h, Option.map_some'] at this
  cases hp : planned[k]? with
  | none => simp [hp] at this
  | some p =>
    simp only [hp, Option.map_some', Option.some.injEq] at this
    exact ⟨p, rfl, this⟩

theorem view_length {planned : List Piece} {vs : List View}
    (hv : planned.map Piece.view = vs.map some) : planned.length = vs.length := by
  have := congrArg List.length hv
  simpa using this

theorem view_done {p : Piece} {v : View} (h : p.view = some v) : p.done = v.done := by
  unfold Piece.view at h
  cases hd : p.docket with
  | none => simp [hd] at h
  | some d =>
    simp only [hd, Option.map_some', Option.some.injEq] at h
    subst h
    rfl

theorem canEncodeRefs_view {planned : List Piece} {vs : List View}
    (hv : planned.map Piece.view = vs.map some) (unplanned : List Piece) (i : Nat)
    (refs : List Int) (b : Bool) (h : viewRefsDone vs i refs = some b) :
    canEncodeRefs (planned ++ unplanned) (i : Int) refs = .ok b := by
  induction refs generalizing b with
  | nil =>
    simp only [viewRefsDone, Option.some.injEq] at h
    subst h
    rfl
  | cons d ds ih =>
    unfold viewRefsDone at h
    by_cases h0 : 0 ≤ (i : Int) + d
    · simp only [h0, if_true] at h
      cases hk : vs[((i : Int) + d).toNat]? with
      | none => simp [hk] at h
      | some v =>
        cases hr : viewRefsDone vs i ds with
        | none => simp [hk, hr] at h
        | some r =>
          simp only [hk, hr, Option.some.injEq] at h
          obtain ⟨p, hp, hpv⟩ := view_getElem? hv hk
          have hlt : ((i : Int) + d).toNat < planned.length := by
            rcases List.getElem?_eq_some.mp hp with ⟨hlt, _⟩
            exact hlt
          have hget : (planned ++ unplanned)[((i : Int) + d).toNat]? = some p := by
            rw [List.getElem?_append_left hlt, hp]
          simp only [canEncodeRefs, atE, h0, if_true, hget, ih r hr, bind, Except.bind, pure,
            Except.pure, view_done hpv, h]
    · simp [h0] at h

theorem selectLoop_view {planned : List Piece} {vs : List View}
    (hv : planned.map Piece.view = vs.map some) (unplanned : List Piece)
    (isIntraFrame : Option Nat) (ps : List Piece) (ws : List View)
    (hs : ps.map Piece.view = ws.map some) (rest : List Piece) (i : Nat) (last : Selection)
    (k : Nat) (h : viewSelect vs isIntraFrame ws i = some k) :
    selectLoop (planned ++ unplanned) isIntraFrame (ps ++ rest) i last =
      .ok (Selection.selected k) := by
  induction ps generalizing ws i last with
  | nil =>
    cases ws with
    | nil => simp [viewSelect] at h
    | cons w ws => simp at hs
  | cons p ps ih =>
    cases ws with
    | nil => simp at hs
    | cons w ws =>
      simp only [List.map_cons, List.cons.injEq] at hs
      obtain ⟨hp, hps⟩ := hs
      unfold viewSelect at h
      have hp' := hp
      unfold Piece.view at hp
      cases hd : p.docket with
      | none => simp [hd] at hp
      | some d =>
        simp only [hd, Option.map_some', Option.some.injEq] at hp
        have hpos : w.positive = d.references.positive := by rw [← hp]
        cases hc : viewRefsDone vs i w.positive with
        | none => simp [hc] at h
        | some c =>
          simp only [hc] at h
          rw [hpos] at hc
          simp only [List.cons_append, selectLoop, hd, canEncodeRefs_view hv unplanned i _ c hc,
            bind, Except.bind]
          cases isIntraFrame with
          | none =>
            simp only at h ⊢
            split_ifs at h with hsel
            · simp only [Option.some.injEq] at h
              subst h
              rw [if_pos hsel]
              rfl
            · rw [if_neg hsel]
              exact ih ws hps (i + 1) _ h
          | some j =>
            simp only at h ⊢
            split_ifs at h with hsel
            · simp only [Option.some.injEq] at h
              subst h
              rw [if_pos hsel]
              rfl
            · rw [if_neg hsel]
              exact ih ws hps (i + 1) _ h

theorem retire_eq (es : List Piece) (f : Int) (n : Nat) :
    retire es f n =
      (es.dropWhile Piece.done, f + ((es.takeWhile Piece.done).length : Int),
        n + (es.takeWhile Piece.done).length) := by
  induction es generalizing f n with
  | nil => simp [retire]
  | cons p ps ih =>
    unfold retire
    by_cases hd : p.done = true
    · simp only [hd, if_true, ih, List.dropWhile_cons_of_pos, List.takeWhile_cons_of_pos,
        List.length_cons, Nat.cast_add, Nat.cast_one, Prod.mk.injEq, true_and]
      constructor <;> omega
    · simp [hd]

theorem dropWhile_unplanned (unplanned : List Piece) (hu : Unplanned unplanned) :
    unplanned.dropWhile Piece.done = unplanned ∧ unplanned.takeWhile Piece.done = [] := by
  cases unplanned with
  | nil => simp
  | cons p ps =>
    have := (hu p (List.mem_cons_self _ _)).2
    simp [this]

theorem dropWhile_append_unplanned (es unplanned : List Piece) (hu : Unplanned unplanned) :
    (es ++ unplanned).dropWhile Piece.done = es.dropWhile Piece.done ++ unplanned ∧
    ((es ++ unplanned).takeWhile Piece.done).length = (es.takeWhile Piece.done).length := by
  induction es with
  | nil => simp [dropWhile_unplanned unplanned hu]
  | cons p ps ih =>
    by_cases hd : p.done = true
    · simp [hd, ih]
    · simp [hd]

theorem viewStep_some {vs vs' : List View} {i : Nat} (h : viewStep vs = some (i, vs')) :
    viewSelect vs (viewIntraScan vs 0 none) vs 0 = some i ∧
    ∃ v, vs[i]? = some v ∧ v.done = false ∧ viewRefsDone vs i v.positive = some true ∧
      vs' = (vs.set i { v with done := true }).dropWhile View.done := by
  unfold viewStep at h
  cases hs : viewSelect vs (viewIntraScan vs 0 none) vs 0 with
  | none => simp [hs] at h
  | some k =>
    simp only [hs] at h
    cases hk : vs[k]? with
    | none => simp [hk] at h
    | some v =>
      simp only [hk] at h
      split_ifs at h with hd
      simp only [Option.some.injEq, Prod.mk.injEq] at h
      obtain ⟨h1, h2⟩ := h
      subst h1
      simp only [not_or, Bool.not_eq_true, ne_eq, not_not] at hd
      exact ⟨rfl, v, hk, hd.1, hd.2, h2.symm⟩

theorem modify_append_left {α : Type} (f : α → α) (as bs : List α) (i : Nat)
    (h : i < as.length) : (as ++ bs).modify f i = as.modify f i ++ bs := by
  induction as generalizing i with
  | nil => simp at h
  | cons a as ih =>
    cases i with
    | zero => simp [List.modify, List.modifyHead]
    | succ i =>
      simp only [List.length_cons, Nat.add_lt_add_iff_right] at h
      simp [List.modify_succ_cons, ih i h]

theorem pull_planned (s : State) (planned unplanned : List Piece) (vs vs' : List View)
    (i : Nat) (t : Timestamp) (ts : List Timestamp)
    (hw : s.entries = planned ++ unplanned) (hv : planned.map Piece.view = vs.map some)
    (hu : Unplanned unplanned) (hstep : viewStep vs = some (i, vs'))
    (ht : s.timestamps = t :: ts) :
    ∃ p d, planned[i]? = some p ∧ p.docket = some d ∧ p.done = false ∧
      s.pull = .ok
        ({ s with
            entries := afterPull planned i t.timestamp ++ unplanned
            sequenceFront := s.sequenceFront + (retiredBy planned i : Int)
            timestamps := ts },
          some { d with picture := p.picture, aqInfo := p.aqInfo, dts := t.timestamp }) := by
  obtain ⟨hsel, v, hvi, hvd, -, -⟩ := viewStep_some hstep
  obtain ⟨p, hp, hpv⟩ := view_getElem? hv hvi
  have hpd : p.done = false := by rw [view_done hpv, hvd]
  have hilt : i < planned.length := (List.getElem?_eq_some.mp hp).1
  obtain ⟨d, hd⟩ : ∃ d, p.docket = some d := by
    unfold Piece.view at hpv
    cases hd : p.docket with
    | none => simp [hd] at hpv
    | some d => exact ⟨d, rfl⟩
  refine ⟨p, d, hp, hd, hpd, ?_⟩
  have hscan : intraScan (planned ++ unplanned)
      (if (planned ++ unplanned).length > 8 then 8 else (planned ++ unplanned).length) 0 none
      = viewIntraScan vs 0 none := by
    rw [intraScan_size, intraScan_view planned unplanned vs hv hu]
    split_ifs with h8
    · left; rfl
    · right; omega
  have hloop := selectLoop_view hv unplanned (viewIntraScan vs 0 none) planned vs hv unplanned 0
    Selection.null i hsel
  have hmod : (planned ++ unplanned).modify Piece.release i =
      planned.modify Piece.release i ++ unplanned := modify_append_left _ _ _ _ hilt
  have hrel : (planned.modify Piece.release i)[i]? = some p.release := by
    rw [List.getElem?_modify_eq, hp]; rfl
  have hrel' : (planned.modify Piece.release i ++ unplanned)[i]? = some p.release := by
    rw [List.getElem?_append_left (by rw [List.length_modify]; exact hilt), hrel]
  obtain ⟨hdrop, htake⟩ := dropWhile_append_unplanned (planned.modify Piece.release i) unplanned hu
  unfold State.pull
  simp only [hw, hscan, hloop, bind, Except.bind, hmod, Option.bind, hrel', retire_eq,
    hdrop, htake, ht, Piece.release, hd, Option.map_some', pure, Except.pure, Nat.zero_add]
  congr 2
  unfold afterPull retiredBy
  split_ifs with hr
  · have : i - ((planned.modify Piece.release i).takeWhile Piece.done).length <
        ((planned.modify Piece.release i).dropWhile Piece.done).length := by
      have h1 := List.takeWhile_append_dropWhile Piece.done (planned.modify Piece.release i)
      have h2 := congrArg List.length h1
      simp only [List.length_append, List.length_modify] at h2
      omega
    unfold updateDocket
    rw [modify_append_left _ _ _ _ this]
  · rfl

theorem slotValid_view (slots : List (Option Docket)) (i delta : Int) :
    slotValid slots i delta = viewValid (slots.map slotView) i delta := by
  unfold slotValid viewValid slotAt
  split_ifs
  · rfl
  · rfl
  · simp only [List.getElem?_map]
    cases slots[(i - 1 + delta).toNat]? with
    | none => rfl
    | some d => cases d <;> rfl

theorem addReference_positive (d : Docket) (ref : Int) :
    (addReference d ref).references.positive = addPositive d.references.positive true ref := by
  unfold addReference addPositive
  by_cases h1 : ref < 0
  · have : ¬ ref > 0 := by omega
    simp [h1, this]
  · by_cases h2 : ref > 0 <;> simp [h1, h2]

theorem addReference_core (d : Docket) (ref : Int) :
    (addReference d ref).poc = d.poc ∧ (addReference d ref).nut = d.nut ∧
    (addReference d ref).qpOffset = d.qpOffset ∧ (addReference d ref).qpFactor = d.qpFactor ∧
    (addReference d ref).currentGopSize = d.currentGopSize ∧
    (addReference d ref).picture = d.picture ∧ (addReference d ref).aqInfo = d.aqInfo ∧
    (addReference d ref).dts = d.dts := by
  unfold addReference
  split_ifs <;> simp

theorem guarded_positive (d : Docket) (valid : Bool) (ref : Int) :
    (if valid = true then addReference d ref else d).references.positive =
      addPositive d.references.positive valid ref := by
  cases valid
  · simp [addPositive]
  · simp [addReference_positive]

theorem slotDocket_view (f g : Int) (slots : List (Option Docket)) (i nut qo : Int) (qf : Nat)
    (r1 r2 r3 r4 : Int) :
    slotView (some (slotDocket f g slots i nut qo qf r1 r2 r3 r4)) =
      some (addPositive (addPositive (addPositive (addPositive []
        (viewValid (slots.map slotView) i r1) r1) (viewValid (slots.map slotView) i r2) r2)
        (viewValid (slots.map slotView) i r3) r3) (viewValid (slots.map slotView) i r4) r4,
        isIrap nut) := by
  simp only [slotView, Option.map_some', Option.some.injEq, Prod.mk.injEq]
  refine ⟨?_, ?_⟩
  · unfold slotDocket
    simp only [guarded_positive, slotValid_view]
  · unfold slotDocket
    cases isIrap nut <;> simp

theorem slotCreate_view (f g : Int) (slots : List (Option Docket)) (max i nut qo : Int)
    (qf : Nat) (r1 r2 r3 r4 : Int) :
    (slotCreate f g slots max i nut qo qf r1 r2 r3 r4).map slotView =
      viewCreate (slots.map slotView) max i (isIrap nut) r1 r2 r3 r4 := by
  unfold slotCreate viewCreate
  split_ifs
  · rw [List.map_set, slotDocket_view]
  · rfl

theorem slotRows_view (f g max nutR nutN : Int) (rows : List Row) (slots : List (Option Docket)) :
    (slotRows f g max nutR nutN rows slots).map slotView =
      viewRows max (isIrap nutR) (isIrap nutN) rows (slots.map slotView) := by
  induction rows generalizing slots with
  | nil => rfl
  | cons r rows ih =>
    simp only [slotRows, viewRows, ih, slotCreate_view]
    cases r.reference <;> rfl

theorem slotSynthesise_view (f g : Int) (finish : Bool) (lastPicture : LastPicture)
    (slots : List (Option Docket)) :
    (slotSynthesise f g finish lastPicture slots).map slotView =
      viewSynthesise g finish lastPicture (slots.map slotView) := by
  unfold slotSynthesise viewSynthesise
  cases lastPicture
  · simp only [slotRows_view, slotCreate_view]; rfl
  · simp only [slotRows_view]; rfl
  · simp only [slotRows_view, slotCreate_view]
    have : isIrap (if f ≠ 0 then CRA_NUT else IDR_N_LP) = true := by
      split_ifs <;> rfl
    rw [this]; rfl

set_option maxRecDepth 100000 in
theorem groupDrains_all :
    ∀ g ∈ List.range 9, ∀ finish ∈ [false, true],
      ∀ lastPicture ∈ [LastPicture.I, LastPicture.P, LastPicture.zero],
        feasible g finish lastPicture = true → groupDrains g finish lastPicture = true := by
  decide

theorem release_view (p : Piece) (v : View) (h : p.view = some v) :
    p.release.view = some { v with done := true } := by
  unfold Piece.view at h ⊢
  cases hd : p.docket with
  | none => simp [hd] at h
  | some d =>
    simp only [hd, Option.map_some', Option.some.injEq] at h
    subst h
    simp [Piece.release, hd, Piece.done]

theorem modify_release_view {planned : List Piece} {vs : List View}
    (hv : planned.map Piece.view = vs.map some) (i : Nat) (v : View) (hi : vs[i]? = some v) :
    (planned.modify Piece.release i).map Piece.view =
      (vs.set i { v with done := true }).map some := by
  induction planned generalizing vs i with
  | nil =>
    cases vs with
    | nil => simp at hi
    | cons w ws => simp at hv
  | cons p ps ih =>
    cases vs with
    | nil => simp at hv
    | cons w ws =>
      simp only [List.map_cons, List.cons.injEq] at hv
      cases i with
      | zero =>
        simp only [List.getElem?_cons_zero, Option.some.injEq] at hi
        subst hi
        simp [release_view p w hv.1, hv.2]
      | succ i =>
        simp only [List.getElem?_cons_succ] at hi
        simp [List.modify_succ_cons, hv.1, ih hv.2 i hi]

theorem dropWhile_view {es : List Piece} {ws : List View}
    (h : es.map Piece.view = ws.map some) :
    (es.dropWhile Piece.done).map Piece.view = (ws.dropWhile View.done).map some := by
  induction es generalizing ws with
  | nil =>
    cases ws with
    | nil => rfl
    | cons w ws => simp at h
  | cons p ps ih =>
    cases ws with
    | nil => simp at h
    | cons w ws =>
      simp only [List.map_cons, List.cons.injEq] at h
      have hd := view_done h.1
      by_cases hw : w.done = true
      · simp [List.dropWhile_cons, hd, hw, ih h.2]
      · simp [List.dropWhile_cons, hd, hw, h.1, h.2]

theorem updateDocket_view (es : List Piece) (k : Nat) (dts : Int) :
    (updateDocket es k (fun d => { d with dts := dts })).map Piece.view = es.map Piece.view := by
  unfold updateDocket
  induction es generalizing k with
  | nil => simp
  | cons p ps ih =>
    cases k with
    | zero =>
      simp only [List.modify_zero_cons, List.map_cons, List.cons.injEq, and_true]
      unfold Piece.view
      cases p.docket <;> rfl
    | succ k => simp [List.modify_succ_cons, ih k]

theorem afterPull_view {planned : List Piece} {vs : List View}
    (hv : planned.map Piece.view = vs.map some) (i : Nat) (v : View) (hi : vs[i]? = some v)
    (dts : Int) :
    (afterPull planned i dts).map Piece.view =
      ((vs.set i { v with done := true }).dropWhile View.done).map some := by
  unfold afterPull
  split_ifs
  · rw [updateDocket_view, dropWhile_view (modify_release_view hv i v hi)]
  · rw [dropWhile_view (modify_release_view hv i v hi)]

/-- On a window whose front entry has no docket `getDocket` releases nothing. -/
theorem pull_unplanned (s : State) (hu : Unplanned s.entries) : s.pull = .ok (s, none) := by
  unfold State.pull
  have hscan : ∀ size, intraScan s.entries size 0 none = none := by
    intro size
    cases hs : s.entries with
    | nil => rfl
    | cons p ps =>
      have := (hu p (by rw [hs]; exact List.mem_cons_self _ _)).1
      unfold intraScan
      simp [this]
  have hloop : selectLoop s.entries none s.entries 0 Selection.null = .ok Selection.null := by
    cases hs : s.entries with
    | nil => rfl
    | cons p ps =>
      have := (hu p (by rw [hs]; exact List.mem_cons_self _ _)).1
      unfold selectLoop
      simp [this, pure, Except.pure]
  obtain ⟨hdrop, htake⟩ := dropWhile_unplanned s.entries hu
  simp only [hscan, hloop, bind, Except.bind, Option.bind, retire_eq, hdrop, htake, pure,
    Except.pure, List.length_nil, Nat.cast_zero, add_zero]

theorem overlay_split (ds : List (Option Docket)) (ps : List Piece) (h : ds.length ≤ ps.length) :
    overlay ds ps = overlay ds (ps.take ds.length) ++ ps.drop ds.length := by
  induction ds generalizing ps with
  | nil => simp [overlay]
  | cons d ds ih =>
    cases ps with
    | nil => simp at h
    | cons p ps =>
      simp only [List.length_cons, Nat.add_le_add_iff_right] at h
      simp only [overlay, List.length_cons, List.take_succ_cons, List.drop_succ_cons,
        List.cons_append, List.cons.injEq, true_and]
      exact ih ps h

theorem overlay_view (ds : List (Option Docket)) (ps : List Piece) (hl : ds.length = ps.length)
    (hp : ∀ p ∈ ps, p.done = false) (hs : (ds.map slotView).all Option.isSome = true) :
    (overlay ds ps).map Piece.view = (freshViews (ds.map slotView)).map some := by
  induction ds generalizing ps with
  | nil =>
    cases ps with
    | nil => rfl
    | cons p ps => simp at hl
  | cons d ds ih =>
    cases ps with
    | nil => simp at hl
    | cons p ps =>
      simp only [List.length_cons, Nat.add_right_cancel_iff] at hl
      simp only [List.map_cons, List.all_cons, Bool.and_eq_true] at hs
      have hpd := hp p (List.mem_cons_self _ _)
      have ih' := ih ps hl (fun x hx => hp x (List.mem_cons_of_mem _ hx)) hs.2
      cases d with
      | none => simp [slotView] at hs
      | some d =>
        have hhead : ({ p with docket := some d } : Piece).view =
            some { positive := d.references.positive
                   intra := decide (d.sliceType = SliceType.I)
                   done := false } := by
          simp only [Piece.view, Option.map_some', Option.some.injEq, View.mk.injEq, true_and]
          exact hpd
        simp only [overlay, List.map_cons, hhead, ih']
        rfl

theorem viewDrains_step {n : Nat} {vs : List View} (h : viewDrains n vs = true) (hne : vs ≠ []) :
    ∃ i vs', viewStep vs = some (i, vs') ∧ ∃ m, viewDrains m vs' = true := by
  cases vs with
  | nil => exact absurd rfl hne
  | cons v vs =>
    cases n with
    | zero => simp [viewDrains] at h
    | succ n =>
      unfold viewDrains at h
      cases hs : viewStep (v :: vs) with
      | none => simp [hs] at h
      | some r =>
        obtain ⟨i, vs'⟩ := r
        simp only [hs] at h
        exact ⟨i, vs', rfl, n, h⟩

theorem afterPull_length (planned : List Piece) (i : Nat) (dts : Int) :
    (afterPull planned i dts).length + retiredBy planned i = planned.length := by
  have h1 := List.takeWhile_append_dropWhile Piece.done (planned.modify Piece.release i)
  have h2 := congrArg List.length h1
  simp only [List.length_append, List.length_modify] at h2
  unfold afterPull retiredBy updateDocket
  split_ifs
  · rw [List.length_modify]; omega
  · omega

theorem front_docket_of_views {planned unplanned : List Piece} {vs : List View}
    (hv : planned.map Piece.view = vs.map some) (hne : planned ≠ []) :
    ((planned ++ unplanned).head?.bind Piece.docket).isSome = true := by
  cases planned with
  | nil => exact absurd rfl hne
  | cons p ps =>
    cases vs with
    | nil => simp at hv
    | cons v vs =>
      simp only [List.map_cons, List.cons.injEq] at hv
      have := hv.1
      unfold Piece.view at this
      cases hd : p.docket with
      | none => simp [hd] at this
      | some d => simp [hd]

/-- A pull on a window with a planned part releases the entry that the view step
selects; the window keeps its shape. -/
theorem Window.pull {s : State} {planned unplanned : List Piece} {vs : List View}
    (h : Window s planned unplanned vs) (hne : planned ≠ []) (t : Timestamp)
    (ts : List Timestamp) (ht : s.timestamps = t :: ts) :
    ∃ i vs' p d, viewStep vs = some (i, vs') ∧ planned[i]? = some p ∧ p.docket = some d ∧
      p.done = false ∧ s.process = .ok s ∧
      s.pull = .ok
        ({ s with
            entries := afterPull planned i t.timestamp ++ unplanned
            sequenceFront := s.sequenceFront + (retiredBy planned i : Int)
            timestamps := ts },
          some { d with picture := p.picture, aqInfo := p.aqInfo, dts := t.timestamp }) ∧
      Window
        { s with
            entries := afterPull planned i t.timestamp ++ unplanned
            sequenceFront := s.sequenceFront + (retiredBy planned i : Int)
            timestamps := ts }
        (afterPull planned i t.timestamp) unplanned vs' := by
  obtain ⟨n, hn⟩ := h.drains
  have hvne : vs ≠ [] := by
    intro hv
    have := view_length h.views
    rw [hv] at this
    exact hne (List.length_eq_zero.mp this)
  obtain ⟨i, vs', hstep, hdr⟩ := viewDrains_step hn hvne
  obtain ⟨p, d, hp, hd, hpd, hpull⟩ :=
    pull_planned s planned unplanned vs vs' i t ts h.window h.views h.unplanned hstep ht
  obtain ⟨-, v, hvi, -, -, hvs'⟩ := viewStep_some hstep
  refine ⟨i, vs', p, d, hstep, hp, hd, hpd, ?_, hpull, ?_⟩
  · apply process_noop
    right
    rw [h.window]
    exact front_docket_of_views h.views hne
  · refine ⟨rfl, ?_, h.unplanned, h.pre, hdr, ?_, ?_⟩
    · rw [hvs']; exact afterPull_view h.views i v hvi _
    · have := afterPull_length planned i t.timestamp
      have := h.idr
      simp only
      omega
    · have := h.front
      simp only
      omega

theorem decideIdr_fields (s : State) :
    s.decideIdr.sequenceFront = s.sequenceFront ∧ s.decideIdr.maxGopM = s.maxGopM ∧
    s.decideIdr.finish = s.finish ∧ s.decideIdr.entriesPreanalysis = s.entriesPreanalysis ∧
    s.decideIdr.timestamps = s.timestamps ∧
    s.decideIdr.pictureInputCount = s.pictureInputCount ∧
    s.decideIdr.maxGopN = s.maxGopN ∧ s.decideIdr.shotChange = s.shotChange ∧
    s.decideIdr.fieldCoding = s.fieldCoding ∧
    s.decideIdr.m_shotChangeList = s.m_shotChangeList := by
  unfold State.decideIdr
  split_ifs <;> simp

/-- When the next intra picture is still behind the front after the intra-refresh
decision, the assertion of `createDocket` fails. -/
theorem process_assertion (s : State) (hne : s.entries ≠ []) (hblank : Blank s.entries)
    (hm : s.maxGopM = 1 ∨ s.maxGopM = 8)
    (hidr : s.decideIdr.sequenceIdr < s.decideIdr.sequenceFront) :
    s.process = .error Failure.assertion := by
  have hfront : (s.entries.head?.bind Piece.docket) = none := by
    cases hs : s.entries with
    | nil => rfl
    | cons p ps =>
      have := hblank p (by rw [hs]; exact List.mem_cons_self _ _)
      simp [this]
  have hlen : 0 < s.entries.length := List.length_pos.mpr hne
  obtain ⟨-, hM, -⟩ := decideIdr_fields s
  have heff : s.decideIdr.effective =
      (s.decideIdr.sequenceIdr - s.decideIdr.sequenceFront + 1, LastPicture.I) := by
    unfold State.effective
    simp only [decideIdr_entries, hM]
    rw [if_pos]
    split_ifs <;> simp only <;> omega
  rw [process_unfold s hne hfront hm, heff]
  simp only
  rw [if_neg (by omega), synthesise_eq]
  simp only [State.lastDocket, State.createDocket, gt_iff_lt]
  rw [if_pos (by omega)]
  rfl

theorem effective_feasible (s : State) (hm : s.maxGopM = 1 ∨ s.maxGopM = 8)
    (hlen : 0 < s.entries.length) (hidr : s.sequenceFront ≤ s.sequenceIdr) :
    ∃ g : Nat, s.effective.1 = (g : Int) ∧ feasible g s.finish s.effective.2 = true ∧
      (g : Int) ≤ s.sequenceIdr - s.sequenceFront + 1 ∧
      (s.finish = true → g ≤ s.entries.length) := by
  refine ⟨s.effective.1.toNat, ?_⟩
  unfold State.effective feasible
  rcases hm with hm | hm <;> simp only [hm] <;> cases hf : s.finish <;>
    simp only [Bool.false_eq_true, false_and, and_false, if_false, true_and, if_true] <;>
    split_ifs <;> simp only [Bool.and_eq_true, decide_eq_true_eq, Bool.true_and, Bool.and_true,
      Bool.false_and, Bool.and_false] <;> (try omega) <;>
    (refine ⟨by omega, ?_, by omega, ?_⟩ <;> (try intro _) <;> (first | omega | contradiction))

theorem groupDrains_of_feasible (g : Nat) (finish : Bool) (lastPicture : LastPicture)
    (h : feasible g finish lastPicture = true) : groupDrains g finish lastPicture = true := by
  have hg : 1 ≤ g ∧ g ≤ 8 := by
    unfold feasible at h
    simp only [Bool.and_eq_true, decide_eq_true_eq] at h
    exact h.1
  apply groupDrains_all g (List.mem_range.mpr (by omega)) finish (by cases finish <;> simp)
    lastPicture (by cases lastPicture <;> simp) h

theorem plan_view (s : State) (g : Nat) (hg : s.effective.1 = (g : Int)) :
    s.plan.map slotView =
      viewSynthesise (g : Int) s.finish s.effective.2 (List.replicate g none) := by
  unfold State.plan
  rw [slotSynthesise_view, hg]
  simp [slotView]

/-- The planner on a window without dockets: it fails, waits for more pictures, or
commits one group, which repeated pulls release completely. -/
theorem Window.plan {s s2 : State} {unplanned : List Piece}
    (h : Window s [] unplanned []) (hne : unplanned ≠ [])
    (hm : s.maxGopM = 1 ∨ s.maxGopM = 8) (hp : s.process = .ok s2) :
    s.decideIdr.sequenceFront ≤ s.decideIdr.sequenceIdr ∧
    ((s2 = { s.decideIdr with gopSize := s.decideIdr.effective.1 } ∧
        (unplanned.length : Int) < s.decideIdr.effective.1 ∧ s.finish = false ∧
        Window s2 [] unplanned []) ∨
     (∃ g : Nat, s.decideIdr.effective.1 = (g : Int) ∧ 1 ≤ g ∧ g ≤ unplanned.length ∧
        feasible g s.finish s.decideIdr.effective.2 = true ∧
        s2 = { s.decideIdr with
                gopSize := (g : Int)
                entries := overlay s.decideIdr.plan unplanned } ∧
        Window s2 (overlay s.decideIdr.plan (unplanned.take g)) (unplanned.drop g)
          (freshViews (viewSynthesise (g : Int) s.finish s.decideIdr.effective.2
            (List.replicate g none))))) := by
  have hw : s.entries = unplanned := by rw [h.window]; rfl
  have hblank : Blank s.entries := by
    rw [hw]; exact fun p hp => (h.unplanned p hp).1
  have hne' : s.entries ≠ [] := by rw [hw]; exact hne
  have hlen : 0 < unplanned.length := List.length_pos.mpr hne
  obtain ⟨hF, hM, hfin, hpre, -⟩ := decideIdr_fields s
  by_cases hidr : s.decideIdr.sequenceFront ≤ s.decideIdr.sequenceIdr
  · refine ⟨hidr, ?_⟩
    rw [process_planning s hne' hblank hm hidr] at hp
    obtain ⟨g, hg, hfeas, hoff, hfit⟩ := effective_feasible s.decideIdr (by rw [hM]; exact hm)
      (by rw [decideIdr_entries, hw]; exact hlen) hidr
    rw [decideIdr_entries, hw, hfin] at hfit
    rw [hfin] at hfeas
    have hg1 : 1 ≤ g ∧ g ≤ 8 := by
      unfold feasible at hfeas
      simp only [Bool.and_eq_true, decide_eq_true_eq] at hfeas
      exact hfeas.1
    rw [hw] at hp
    split_ifs at hp with hlt
    · left
      simp only [Except.ok.injEq] at hp
      refine ⟨hp.symm, hlt, ?_, ?_⟩
      · cases hf : s.finish with
        | false => rfl
        | true => have := hfit hf; omega
      · rw [← hp]
        refine ⟨?_, rfl, h.unplanned, ?_, ⟨0, rfl⟩, ?_, ?_⟩
        · show s.decideIdr.entries = _
          rw [decideIdr_entries, hw]; rfl
        · show Unplanned s.decideIdr.entriesPreanalysis
          rw [hpre]; exact h.pre
        · show ((0 : Nat) : Int) ≤ s.decideIdr.sequenceIdr - s.decideIdr.sequenceFront + 1
          omega
        · show 0 ≤ s.decideIdr.sequenceFront
          rw [hF]; exact h.front
    · right
      simp only [Except.ok.injEq] at hp
      have hgn : g ≤ unplanned.length := by omega
      have hpl : s.decideIdr.plan.length = g := by rw [plan_length, hg]; simp
      have hdr := groupDrains_of_feasible g s.finish _ hfeas
      unfold groupDrains at hdr
      simp only [Bool.and_eq_true] at hdr
      have hviews := plan_view s.decideIdr g hg
      rw [hfin] at hviews
      refine ⟨g, hg, hg1.1, hgn, hfeas, ?_, ?_⟩
      · rw [← hp, hg]
      · rw [← hp]
        refine ⟨?_, ?_, ?_, ?_, ⟨g, hdr.2⟩, ?_, ?_⟩
        · show overlay s.decideIdr.plan unplanned = _
          have := overlay_split s.decideIdr.plan unplanned (by rw [hpl]; exact hgn)
          rw [hpl] at this
          exact this
        · rw [← hviews]
          apply overlay_view
          · rw [hpl, List.length_take]; omega
          · intro p hp
            exact (h.unplanned p (List.mem_of_mem_take hp)).2
          · rw [hviews]; exact hdr.1
        · intro p hp
          exact h.unplanned p (List.mem_of_mem_drop hp)
        · show Unplanned s.decideIdr.entriesPreanalysis
          rw [hpre]; exact h.pre
        · show ((overlay s.decideIdr.plan (unplanned.take g)).length : Int) ≤
            s.decideIdr.sequenceIdr - s.decideIdr.sequenceFront + 1
          rw [overlay_length, List.length_take]
          omega
        · show 0 ≤ s.decideIdr.sequenceFront
          rw [hF]; exact h.front
  · rw [process_assertion s hne' hblank hm (by omega)] at hp
    cases hp

/-- With no timestamp slot left, a pull that selects an entry reads the front of an
empty queue. -/
theorem pull_planned_empty (s : State) (planned unplanned : List Piece) (vs vs' : List View)
    (i : Nat) (hw : s.entries = planned ++ unplanned)
    (hv : planned.map Piece.view = vs.map some) (hu : Unplanned unplanned)
    (hstep : viewStep vs = some (i, vs')) (ht : s.timestamps = []) :
    s.pull = .error Failure.undefinedBehaviour := by
  obtain ⟨hsel, v, hvi, hvd, -, -⟩ := viewStep_some hstep
  obtain ⟨p, hp, hpv⟩ := view_getElem? hv hvi
  have hilt : i < planned.length := (List.getElem?_eq_some.mp hp).1
  obtain ⟨d, hd⟩ : ∃ d, p.docket = some d := by
    unfold Piece.view at hpv
    cases hd : p.docket with
    | none => simp [hd] at hpv
    | some d => exact ⟨d, rfl⟩
  have hscan : intraScan (planned ++ unplanned)
      (if (planned ++ unplanned).length > 8 then 8 else (planned ++ unplanned).length) 0 none
      = viewIntraScan vs 0 none := by
    rw [intraScan_size, intraScan_view planned unplanned vs hv hu]
    split_ifs with h8
    · left; rfl
    · right; omega
  have hloop := selectLoop_view hv unplanned (viewIntraScan vs 0 none) planned vs hv unplanned 0
    Selection.null i hsel
  have hmod : (planned ++ unplanned).modify Piece.release i =
      planned.modify Piece.release i ++ unplanned := modify_append_left _ _ _ _ hilt
  have hrel : (planned.modify Piece.release i)[i]? = some p.release := by
    rw [List.getElem?_modify_eq, hp]; rfl
  have hrel' : (planned.modify Piece.release i ++ unplanned)[i]? = some p.release := by
    rw [List.getElem?_append_left (by rw [List.length_modify]; exact hilt), hrel]
  unfold State.pull
  simp only [hw, hscan, hloop, bind, Except.bind, hmod, Option.bind, hrel', retire_eq,
    ht, Piece.release, hd, Option.map_some']
  rfl

theorem swapped_eq (q : InputQueue) :
    q.swapped = { q.state with m_shotChangeList := q.swapped.m_shotChangeList } := by
  unfold InputQueue.swapped State.setShotChangeList
  split_ifs <;> rfl

theorem Window.swapped {q : InputQueue} {planned unplanned : List Piece} {vs : List View}
    (h : Window q.state planned unplanned vs) : Window q.swapped planned unplanned vs := by
  rw [swapped_eq]
  exact ⟨h.window, h.views, h.unplanned, h.pre, h.drains, h.idr, h.front⟩

theorem getDocket_eq (q : InputQueue) :
    q.getDocket =
      if q.state.pictureInputCount = 1 ∧ q.state.finish = false then .ok (q, none)
      else
        match q.swapped.process with
        | .error e => .error e
        | .ok s =>
          match s.pull with
          | .error e => .error e
          | .ok (s', docket) => .ok ({ state := s', m_shotChangeList := q.outer }, docket) := by
  unfold InputQueue.getDocket InputQueue.eos InputQueue.swapped InputQueue.outer
  by_cases h : q.state.pictureInputCount = 1 ∧ q.state.finish = false
  · have h' : q.state.pictureInputCount = 1 ∧ ¬ q.state.finish = true := by
      simpa using h
    rw [if_pos h, if_pos h']
    rfl
  · have h' : ¬ (q.state.pictureInputCount = 1 ∧ ¬ q.state.finish = true) := by
      simpa using h
    rw [if_neg h, if_neg h']
    simp only [bind, Except.bind, pure, Except.pure]
    cases (q.state.setShotChangeList q.m_shotChangeList).1.process with
    | error e => rfl
    | ok s =>
      simp only
      cases s.pull with
      | error e => rfl
      | ok r => rfl

theorem Window.release {q q' : InputQueue} {s2 : State}
    {planned unplanned planned0 unplanned0 : List Piece} {vs0 : List View} {D : Docket}
    (hst : Staged q.swapped s2 planned unplanned planned0 unplanned0)
    (hproc : q.swapped.process = .ok s2)
    (h2 : Window s2 planned0 unplanned0 vs0) (hne : planned0 ≠ [])
    (hpull : (match s2.pull with
      | .error e => .error e
      | .ok (s', docket) => .ok ({ state := s', m_shotChangeList := q.outer }, docket))
      = Except.ok (q', some D)) :
    ∃ vs' i p d t ts,
      Released q q' D planned unplanned s2 planned0 unplanned0 vs0 vs' i p d t ts := by
  cases hts : s2.timestamps with
  | nil =>
    obtain ⟨n, hn⟩ := h2.drains
    have hvne : vs0 ≠ [] := by
      intro hv
      have := view_length h2.views
      rw [hv] at this
      exact hne (List.length_eq_zero.mp this)
    obtain ⟨i, vs', hstep, -⟩ := viewDrains_step hn hvne
    rw [pull_planned_empty s2 planned0 unplanned0 vs0 vs' i h2.window h2.views h2.unplanned hstep
      hts] at hpull
    cases hpull
  | cons t ts =>
    obtain ⟨i, vs', p, d, hstep, hp, hd, hpd, -, hpl, hwin⟩ := h2.pull hne t ts hts
    rw [hpl] at hpull
    simp only [Except.ok.injEq, Prod.mk.injEq, Option.some.injEq] at hpull
    obtain ⟨hq, hD⟩ := hpull
    refine ⟨vs', i, p, d, t, ts, hst, hproc, h2, hstep, hp, hd, hpd, hts, hD.symm, hq.symm, ?_⟩
    rw [← hq]
    exact hwin

/-- The two outcomes of `getDocket` on a window of the reachable shape. -/
theorem getDocket_spec {q q' : InputQueue} {planned unplanned : List Piece} {vs : List View}
    {od : Option Docket} (h : Window q.state planned unplanned vs)
    (hg : q.getDocket = .ok (q', od)) :
    (od = none ∧ Idle q q' planned unplanned ∧ Window q'.state planned unplanned vs) ∨
    (∃ D s2 planned0 unplanned0 vs0 vs' i p d t ts, od = some D ∧
      Released q q' D planned unplanned s2 planned0 unplanned0 vs0 vs' i p d t ts) := by
  rw [getDocket_eq] at hg
  split_ifs at hg with hdefer
  · simp only [Except.ok.injEq, Prod.mk.injEq] at hg
    left
    refine ⟨hg.2.symm, Or.inl hg.1.symm, ?_⟩
    rw [← hg.1]; exact h
  have h0 := h.swapped
  by_cases hne : planned = []
  · subst hne
    have hvs : vs = [] := by
      have := view_length h.views
      exact List.length_eq_zero.mp this.symm
    subst hvs
    have hw : q.swapped.entries = unplanned := by rw [h0.window]; rfl
    by_cases hun : unplanned = []
    · -- nothing in the window
      rw [process_noop q.swapped (Or.inl (by rw [hw, hun]))] at hg
      simp only at hg
      rw [pull_unplanned q.swapped (by rw [hw]; exact h0.unplanned)] at hg
      simp only [Except.ok.injEq, Prod.mk.injEq] at hg
      left
      refine ⟨hg.2.symm, Or.inr ⟨rfl, Or.inl hg.1.symm⟩, ?_⟩
      rw [← hg.1]; exact h0
    · by_cases hm : q.swapped.maxGopM = 1 ∨ q.swapped.maxGopM = 8
      · cases hproc : q.swapped.process with
        | error e => rw [hproc] at hg; cases hg
        | ok s2 =>
          rw [hproc] at hg
          simp only at hg
          obtain ⟨hidr, hplan⟩ := h0.plan hun hm hproc
          rcases hplan with ⟨hs2, hlt, hfin, hwin⟩ | ⟨g, hg1, hg2, hg3, hfeas, hs2, hwin⟩
          · rw [pull_unplanned s2 (by rw [hwin.window]; exact hwin.unplanned)] at hg
            simp only [Except.ok.injEq, Prod.mk.injEq] at hg
            left
            refine ⟨hg.2.symm, Or.inr ⟨rfl, Or.inr ⟨hun, hfin, hidr, hlt, ?_⟩⟩, ?_⟩
            · rw [← hg.1, hs2]
            · rw [← hg.1]; exact hwin
          · have hne0 : overlay q.swapped.decideIdr.plan (unplanned.take g) ≠ [] := by
              intro h
              have := congrArg List.length h
              rw [overlay_length, List.length_take] at this
              simp only [List.length_nil] at this
              omega
            cases od with
            | none =>
              exfalso
              obtain ⟨n, hn⟩ := hwin.drains
              cases hts : s2.timestamps with
              | nil =>
                have hvne : freshViews (viewSynthesise (g : Int) q.swapped.finish
                    q.swapped.decideIdr.effective.2 (List.replicate g none)) ≠ [] := by
                  intro hv
                  have := view_length hwin.views
                  rw [hv] at this
                  exact hne0 (List.length_eq_zero.mp this)
                obtain ⟨i, vs', hstep, -⟩ := viewDrains_step hn hvne
                rw [pull_planned_empty s2 _ _ _ vs' i hwin.window hwin.views hwin.unplanned hstep
                  hts] at hg
                cases hg
              | cons t ts =>
                obtain ⟨i, vs', p, d, -, -, -, -, -, hpl, -⟩ := hwin.pull hne0 t ts hts
                rw [hpl] at hg
                simp at hg
            | some D =>
              right
              obtain ⟨vs', i, p, d, t, ts, hrel⟩ := Window.release
                (Or.inr ⟨rfl, hidr, g, hg1, hg2, hg3, hfeas, hs2, rfl, rfl⟩) hproc hwin hne0 hg
              exact ⟨D, s2, _, _, _, vs', i, p, d, t, ts, rfl, hrel⟩
      · -- unsupported base GOP size
        have : q.swapped.process = .error Failure.configuration := by
          unfold State.process
          have h1 : ¬ (q.swapped.entries.isEmpty = true ∨
              (q.swapped.entries.head?.bind Piece.docket).isSome = true) := by
            rw [hw]
            cases unplanned with
            | nil => exact absurd rfl hun
            | cons p ps =>
              have := (h0.unplanned p (List.mem_cons_self _ _)).1
              simp [this]
          rw [if_neg h1]
          obtain ⟨-, hM, -⟩ := decideIdr_fields q.swapped
          have h2 : q.swapped.decideIdr.maxGopM ≠ 1 ∧ q.swapped.decideIdr.maxGopM ≠ 8 := by
            rw [hM]
            exact ⟨fun h => hm (Or.inl h), fun h => hm (Or.inr h)⟩
          simp only [pure_bind]
          rw [if_pos h2]
          rfl
        rw [this] at hg
        cases hg
  · have hproc := process_noop q.swapped (Or.inr (by
      rw [h0.window]; exact front_docket_of_views h0.views hne))
    rw [hproc] at hg
    simp only at hg
    cases od with
    | none =>
      exfalso
      obtain ⟨n, hn⟩ := h0.drains
      cases hts : q.swapped.timestamps with
      | nil =>
        have hvne : vs ≠ [] := by
          intro hv
          have := view_length h0.views
          rw [hv] at this
          exact hne (List.length_eq_zero.mp this)
        obtain ⟨i, vs', hstep, -⟩ := viewDrains_step hn hvne
        rw [pull_planned_empty q.swapped _ _ _ vs' i h0.window h0.views h0.unplanned hstep
          hts] at hg
        cases hg
      | cons t ts =>
        obtain ⟨i, vs', p, d, -, -, -, -, -, hpl, -⟩ := h0.pull hne t ts hts
        rw [hpl] at hg
        simp at hg
    | some D =>
      right
      obtain ⟨vs', i, p, d, t, ts, hrel⟩ := Window.release
        (Or.inl ⟨hne, rfl, rfl, rfl⟩) hproc h0 hne hg
      exact ⟨D, q.swapped, _, _, _, vs', i, p, d, t, ts, rfl, hrel⟩

theorem dropWhile_eq_drop {α : Type} (P : α → Bool) (es : List α) :
    es.dropWhile P = es.drop (es.takeWhile P).length := by
  induction es with
  | nil => rfl
  | cons a as ih =>
    by_cases h : P a = true
    · simp [List.dropWhile_cons, List.takeWhile_cons, h, ih]
    · simp [List.dropWhile_cons, List.takeWhile_cons, h]

theorem afterPull_getElem? (planned : List Piece) (i : Nat) (dts : Int) (k : Nat) :
    (afterPull planned i dts)[k]? =
      (planned[k + retiredBy planned i]?).map (pulled i (k + retiredBy planned i) dts) := by
  unfold afterPull
  have hdrop : ((planned.modify Piece.release i).dropWhile Piece.done)[k]? =
      (planned[k + retiredBy planned i]?).map
        (fun p => if i = k + retiredBy planned i then p.release else p) := by
    rw [dropWhile_eq_drop, List.getElem?_drop, List.getElem?_modify]
    unfold retiredBy
    rw [Nat.add_comm]
    rfl
  split_ifs with hr
  · unfold updateDocket
    rw [List.getElem?_modify, hdrop]
    cases planned[k + retiredBy planned i]? with
    | none => rfl
    | some p =>
      simp only [Option.map_some', Functor.map, pulled]
      by_cases hik : i = k + retiredBy planned i
      · have : i - retiredBy planned i = k := by omega
        rw [if_pos hik, if_pos this, if_pos hik]
      · have : ¬ i - retiredBy planned i = k := by omega
        rw [if_neg hik, if_neg this, if_neg hik]
  · rw [hdrop]
    cases planned[k + retiredBy planned i]? with
    | none => rfl
    | some p =>
      have hik : ¬ i = k + retiredBy planned i := by omega
      simp only [Option.map_some', pulled]
      rw [if_neg hik, if_neg hik]

theorem pulled_docket (i k : Nat) (dts : Int) (p : Piece) (d' : Docket)
    (h : (pulled i k dts p).docket = some d') :
    ∃ d, p.docket = some d ∧ d'.written = d.written := by
  unfold pulled at h
  split_ifs at h
  · cases hd : p.docket with
    | none => simp [Piece.release, hd] at h
    | some d =>
      simp only [Piece.release, hd, Option.map_some', Option.some.injEq] at h
      subst h
      exact ⟨d, rfl, rfl⟩
  · exact ⟨d', h, rfl⟩

theorem pulled_done (i k : Nat) (dts : Int) (p : Piece) (h : (pulled i k dts p).done = true) :
    p.done = true ∨ i = k := by
  unfold pulled at h
  split_ifs at h with hik
  · exact Or.inr hik
  · exact Or.inl h

theorem filterMap_picture_modify (planned : List Piece) (i : Nat) (p : Piece) (x : PictureWrapper)
    (hp : planned[i]? = some p) (hx : p.picture = some x) :
    (planned.filterMap Piece.picture).Perm
      (x :: (planned.modify Piece.release i).filterMap Piece.picture) := by
  induction planned generalizing i with
  | nil => simp at hp
  | cons a as ih =>
    cases i with
    | zero =>
      simp only [List.getElem?_cons_zero, Option.some.injEq] at hp
      subst hp
      simp [List.filterMap_cons, hx, Piece.release]
    | succ i =>
      simp only [List.getElem?_cons_succ] at hp
      have := ih i hp
      simp only [List.modify_succ_cons, List.filterMap_cons]
      cases a.picture with
      | none => exact this
      | some y => exact (List.Perm.cons y this).trans (List.Perm.swap x y _)

theorem filterMap_picture_dropWhile (es : List Piece) :
    (es.dropWhile Piece.done).filterMap Piece.picture = es.filterMap Piece.picture := by
  induction es with
  | nil => rfl
  | cons a as ih =>
    by_cases h : a.done = true
    · have hp : a.picture = none := by
        unfold Piece.done at h
        cases hpic : a.picture with
        | none => rfl
        | some x => simp [hpic] at h
      simp [List.dropWhile_cons, h, ih, List.filterMap_cons, hp]
    · simp [List.dropWhile_cons, h]

theorem filterMap_picture_updateDocket (es : List Piece) (k : Nat) (f : Docket → Docket) :
    (updateDocket es k f).filterMap Piece.picture = es.filterMap Piece.picture := by
  unfold updateDocket
  induction es generalizing k with
  | nil => simp
  | cons a as ih =>
    cases k with
    | zero => simp [List.filterMap_cons]
    | succ k => simp [List.filterMap_cons, ih k]

theorem afterPull_pictures (planned : List Piece) (i : Nat) (dts : Int) (p : Piece)
    (x : PictureWrapper) (hp : planned[i]? = some p) (hx : p.picture = some x) :
    (planned.filterMap Piece.picture).Perm
      (x :: (afterPull planned i dts).filterMap Piece.picture) := by
  have h := filterMap_picture_modify planned i p x hp hx
  unfold afterPull
  split_ifs
  · rw [filterMap_picture_updateDocket, filterMap_picture_dropWhile]; exact h
  · rw [filterMap_picture_dropWhile]; exact h

theorem overlay_pictures (ds : List (Option Docket)) (ps : List Piece) :
    (overlay ds ps).filterMap Piece.picture = ps.filterMap Piece.picture := by
  induction ds generalizing ps with
  | nil => rfl
  | cons d ds ih =>
    cases ps with
    | nil => rfl
    | cons p ps => simp [overlay, List.filterMap_cons, ih ps]

theorem guarded_core (d : Docket) (valid : Bool) (ref : Int) :
    (if valid = true then addReference d ref else d).poc = d.poc ∧
    (if valid = true then addReference d ref else d).nut = d.nut ∧
    (if valid = true then addReference d ref else d).qpOffset = d.qpOffset ∧
    (if valid = true then addReference d ref else d).qpFactor = d.qpFactor ∧
    (if valid = true then addReference d ref else d).currentGopSize = d.currentGopSize ∧
    (if valid = true then addReference d ref else d).picture = d.picture ∧
    (if valid = true then addReference d ref else d).aqInfo = d.aqInfo ∧
    (if valid = true then addReference d ref else d).dts = d.dts := by
  cases valid
  · simp
  · simpa using addReference_core d ref

theorem slotDocket_fields (f g : Int) (slots : List (Option Docket)) (i nut qo : Int) (qf : Nat)
    (r1 r2 r3 r4 : Int) :
    (slotDocket f g slots i nut qo qf r1 r2 r3 r4).poc = f + i - 1 ∧
    (slotDocket f g slots i nut qo qf r1 r2 r3 r4).nut = nut ∧
    (slotDocket f g slots i nut qo qf r1 r2 r3 r4).qpOffset = qo ∧
    (slotDocket f g slots i nut qo qf r1 r2 r3 r4).qpFactor = qf ∧
    (slotDocket f g slots i nut qo qf r1 r2 r3 r4).currentGopSize = g ∧
    (slotDocket f g slots i nut qo qf r1 r2 r3 r4).sliceType =
      (if isIrap nut then SliceType.I else SliceType.B) ∧
    (slotDocket f g slots i nut qo qf r1 r2 r3 r4).picture = none ∧
    (slotDocket f g slots i nut qo qf r1 r2 r3 r4).aqInfo = none := by
  unfold slotDocket
  simp only [guarded_core, and_self]

theorem slotDocket_sound (f g : Int) (slots : List (Option Docket)) (i nut qo : Int) (qf : Nat)
    (r1 r2 r3 r4 : Int) (hf : 0 ≤ f) (h : GoodCall f g i nut) :
    Sound f (i - 1).toNat (slotDocket f g slots i nut qo qf r1 r2 r3 r4) := by
  obtain ⟨h1, h2, -, -, h5, h6, -, -⟩ := slotDocket_fields f g slots i nut qo qf r1 r2 r3 r4
  obtain ⟨hi, hidr, hcra⟩ := h
  refine ⟨?_, ?_, ?_, ?_⟩
  · rw [h1]; omega
  · rw [h6, h2]
  · intro hp
    rw [h1] at hp
    rw [h2, h5]
    exact hidr (by omega) (by omega)
  · intro hs hp
    rw [h6] at hs
    rw [h1] at hp
    rw [h2]
    apply hcra _ hp
    by_contra hn
    simp [hn] at hs

theorem slotCreate_sound {f g : Int} {slots : List (Option Docket)} (hs : SoundSlots f slots)
    (max i nut qo : Int) (qf : Nat) (r1 r2 r3 r4 : Int) (hf : 0 ≤ f)
    (h : i ≤ max → GoodCall f g i nut) :
    SoundSlots f (slotCreate f g slots max i nut qo qf r1 r2 r3 r4) := by
  unfold slotCreate
  split_ifs with hle
  · intro k d hk
    rw [List.getElem?_set] at hk
    by_cases h1 : (i - 1).toNat = k
    · rw [if_pos h1] at hk
      by_cases h2 : (i - 1).toNat < slots.length
      · rw [if_pos h2] at hk
        simp only [Option.some.injEq] at hk
        subst hk
        rw [← h1]
        exact slotDocket_sound f g slots i nut qo qf r1 r2 r3 r4 hf (h hle)
      · rw [if_neg h2] at hk
        cases hk
    · rw [if_neg h1] at hk
      exact hs k d hk
  · exact hs

theorem slotRows_sound {f g : Int} (max nutR nutN : Int) (rows : List Row)
    {slots : List (Option Docket)} (hs : SoundSlots f slots) (hf : 0 ≤ f)
    (h : ∀ r ∈ rows, r.i ≤ max → GoodCall f g r.i (if r.reference then nutR else nutN)) :
    SoundSlots f (slotRows f g max nutR nutN rows slots) := by
  induction rows generalizing slots with
  | nil => exact hs
  | cons r rows ih =>
    unfold slotRows
    apply ih
    · exact slotCreate_sound hs _ _ _ _ _ _ _ _ _ hf (h r (List.mem_cons_self _ _))
    · exact fun x hx => h x (List.mem_cons_of_mem _ hx)

theorem slotSynthesise_sound (f g : Int) (finish : Bool) (lastPicture : LastPicture) (n : Nat)
    (hf : 0 ≤ f) (hg : 0 < g) (h0 : f = 0 → g = 1 ∧ lastPicture = LastPicture.I) :
    SoundSlots f (slotSynthesise f g finish lastPicture (List.replicate n none)) := by
  have hblank : SoundSlots f (List.replicate n (none : Option Docket)) := by
    intro k d hk
    have := List.getElem?_mem hk
    simp [List.mem_replicate] at this
  have hrows : ∀ (max nutR nutN : Int), isIrap nutR = false → isIrap nutN = false →
      (f = 0 → max ≤ 0) →
      ∀ r ∈ patternRows finish g, r.i ≤ max →
        GoodCall f g r.i (if r.reference then nutR else nutN) := by
    intro max nutR nutN hR hN hmax r hr hle
    have hpos := patternRows_pos finish g r hr
    have hnot : isIrap (if r.reference then nutR else nutN) = false := by
      cases r.reference <;> simp [hR, hN]
    refine ⟨hpos, ?_, ?_⟩
    · intro hf0 _
      have := hmax hf0
      omega
    · intro hir
      rw [hnot] at hir
      cases hir
  unfold slotSynthesise
  cases lastPicture with
  | I =>
    simp only
    apply slotRows_sound _ _ _ _ _ hf
    · exact hrows _ _ _ rfl rfl (fun hf0 => by have := (h0 hf0).1; omega)
    · apply slotCreate_sound hblank _ _ _ _ _ _ _ _ _ hf
      intro _
      refine ⟨hg, ?_, ?_⟩
      · intro hf0 hg1
        simp [hf0, hg1]
      · intro _ hne
        by_cases hf0 : f = 0
        · have := (h0 hf0).1
          omega
        · simp [hf0]
  | P =>
    simp only
    apply slotRows_sound _ _ _ _ _ hf
    · exact hrows _ _ _ rfl rfl (fun hf0 => by have := (h0 hf0).1; omega)
    · apply slotCreate_sound hblank _ _ _ _ _ _ _ _ _ hf
      intro _
      refine ⟨hg, ?_, ?_⟩
      · intro hf0 _
        have := (h0 hf0).2
        cases this
      · intro hir
        cases hir
  | zero =>
    simp only
    apply slotRows_sound _ _ _ _ _ hf
    · intro r hr hle
      have hpos := patternRows_pos finish g r hr
      refine ⟨hpos, ?_, ?_⟩
      · intro hf0 _
        have := (h0 hf0).2
        cases this
      · intro hir
        have hnot : isIrap (if r.reference then TRAIL_R else TRAIL_N) = false := by
          cases r.reference <;> rfl
        rw [hnot] at hir
        cases hir
    · exact hblank

theorem Trace.out_le {q : InputQueue} {out : List Docket} {acc : List PictureWrapper}
    {planned unplanned : List Piece} {vs : List View} (h : Trace q out acc planned unplanned vs) :
    out.length ≤ (slotValues acc).length := by
  have := congrArg List.length h.dts
  simp only [List.length_map, List.length_take] at this
  omega

theorem slotValues_append (a0 a1 : PictureWrapper) (rest : List PictureWrapper)
    (x : PictureWrapper) :
    slotValues (a0 :: a1 :: (rest ++ [x])) = slotValues (a0 :: a1 :: rest) ++ [x.pts] := by
  simp [slotValues]

theorem reach_new (maxGopN maxGopM : Int) (fieldCoding shotChange : Bool) :
    Reach (InputQueue.new maxGopN maxGopM fieldCoding shotChange) [] [] := by
  refine ⟨[], [], [], ?_⟩
  refine ⟨⟨rfl, rfl, ?_, ?_, ⟨0, rfl⟩, ?_, ?_⟩, rfl, rfl, rfl, ?_, ?_, ?_, ?_, ?_, ?_, ?_, ?_, ?_, ?_⟩
  · intro p hp; cases hp
  · intro p hp; cases hp
  · simp [InputQueue.new]
  · simp [InputQueue.new]
  · intro h; exact absurd rfl h
  · simp [InputQueue.new]
  · intro D hD; cases hD
  · intro k p d hk; simp at hk
  · intro k p d hk; simp at hk
  · intro j D hj; simp at hj
  · intro D hD; cases hD
  · intro D hD; simp at hD
  · intro _; exact ⟨rfl, rfl⟩
  · intro _; rfl

theorem append_eq (q : InputQueue) (x : PictureWrapper) (aq : Option AdaptiveQuantisation) :
    q.append x aq =
      if q.state.finish = true then .error Failure.assertion
      else if q.state.pictureInputCount = 1 then
        match q.state.timestamps with
        | [] => .error Failure.undefinedBehaviour
        | t :: rest =>
          .ok (appended q x aq
            ([{ timestamp := t.timestamp - (x.pts - t.timestamp) - (x.pts - t.timestamp)
                  - (x.pts - t.timestamp), sequence := 2 },
              { timestamp := t.timestamp - (x.pts - t.timestamp) - (x.pts - t.timestamp),
                sequence := 1 },
              { timestamp := t.timestamp - (x.pts - t.timestamp), sequence := 0 }, t] ++ rest))
      else .ok (appended q x aq q.state.timestamps) := by
  unfold InputQueue.append
  by_cases hfin : q.state.finish = true
  · simp only [hfin, if_true]; rfl
  · by_cases hc : q.state.pictureInputCount = 1
    · simp only [if_neg hfin, if_pos hc]
      cases hts : q.state.timestamps with
      | nil => simp only [bind, Except.bind]
      | cons t rest => simp only [bind, Except.bind, pushSynthetic]; rfl
    · simp only [if_neg hfin, if_neg hc]; rfl

theorem Trace.append {q q' : InputQueue} {out : List Docket} {acc : List PictureWrapper}
    {planned unplanned : List Piece} {vs : List View} (h : Trace q out acc planned unplanned vs)
    (x : PictureWrapper) (aq : Option AdaptiveQuantisation) (hq : q.append x aq = .ok q') :
    Trace q' out (acc ++ [x]) planned unplanned vs := by
  rw [append_eq] at hq
  by_cases hfin : q.state.finish = true
  · rw [if_pos hfin] at hq; cases hq
  rw [if_neg hfin] at hq
  have hout : acc.length ≤ 1 → out = [] := by
    intro hle
    by_contra hne
    rcases h.started hne with h2 | h2
    · omega
    · exact hfin h2
  have hstamps : ∃ ts, q' = appended q x aq ts ∧
      (ts ++ [({ timestamp := x.pts, sequence := q.state.pictureInputCount + 3 } :
        Timestamp)]).map Timestamp.timestamp = (slotValues (acc ++ [x])).drop out.length := by
    have hcount := h.count
    have hst := h.stamps
    have hle := h.out_le
    match acc, hcount, hst, hout, hle with
    | [], hcount, hst, hout, _ =>
      have hc : ¬ q.state.pictureInputCount = 1 := by rw [hcount]; simp
      rw [if_neg hc] at hq
      rw [hout (by simp)] at hst ⊢
      simp only [slotValues, List.map_nil, List.drop_nil, List.map_eq_nil_iff] at hst
      simp only [Except.ok.injEq] at hq
      refine ⟨q.state.timestamps, hq.symm, ?_⟩
      simp [slotValues, hst]
    | [a0], hcount, hst, hout, _ =>
      have hc : q.state.pictureInputCount = 1 := by rw [hcount]; simp
      rw [if_pos hc] at hq
      rw [hout (by simp)] at hst ⊢
      simp only [slotValues, List.map_cons, List.map_nil, List.drop_zero, List.length_nil] at hst
      cases hts : q.state.timestamps with
      | nil => rw [hts] at hst; simp at hst
      | cons t rest =>
        rw [hts] at hst hq
        simp only [List.map_cons, List.cons.injEq, List.map_eq_nil_iff] at hst
        obtain ⟨ht, hrest⟩ := hst
        subst hrest
        simp only [Except.ok.injEq] at hq
        refine ⟨_, hq.symm, ?_⟩
        simp only [slotValues, ht, List.cons_append, List.nil_append, List.map_cons, List.map_nil,
          List.length_nil, List.drop_zero, List.cons.injEq, and_true, true_and]
        refine ⟨by omega, by omega⟩
    | a0 :: a1 :: r, hcount, hst, hout, hle =>
      have hc : ¬ q.state.pictureInputCount = 1 := by rw [hcount]; simp
      rw [if_neg hc] at hq
      simp only [Except.ok.injEq] at hq
      refine ⟨q.state.timestamps, hq.symm, ?_⟩
      rw [List.map_append, hst]
      simp only [List.cons_append]
      rw [slotValues_append, List.drop_append_of_le_length hle]
      rfl
  obtain ⟨ts, hq', hts⟩ := hstamps
  subst hq'
  have hsh := h.shape
  refine ⟨⟨hsh.window, hsh.views, hsh.unplanned, ?_, hsh.drains, hsh.idr, hsh.front⟩, ?_, hts, ?_,
    ?_, ?_, h.attached, h.pocs, h.released, h.order, h.classes, h.first, h.fresh, h.origin⟩
  · intro p hp
    simp only [appended, List.mem_append, List.mem_singleton] at hp
    rcases hp with hp | hp
    · exact hsh.pre p hp
    · subst hp; exact ⟨rfl, rfl⟩
  · show q.state.pictureInputCount + 1 = (acc ++ [x]).length
    simp [h.count]
  · have hd := h.dts
    match acc, hd, hout, h.out_le with
    | [], hd, hout, _ => rw [hout (by simp)]; rfl
    | [a0], hd, hout, _ => rw [hout (by simp)]; rfl
    | a0 :: a1 :: r, hd, hout, hle =>
      rw [hd]
      simp only [List.cons_append]
      rw [slotValues_append, List.take_append_of_le_length hle]
  · intro hne
    rcases h.started hne with h2 | h2
    · left; simp only [List.length_append]; omega
    · exact absurd h2 hfin
  · have := h.pictures
    show (out.filterMap Docket.picture ++ (q.state.entries.filterMap Piece.picture ++
      (q.state.entriesPreanalysis ++ [({ picture := some x, aqInfo := aq } : Piece)]).filterMap
        Piece.picture)).Perm (acc ++ [x])
    simp only [List.filterMap_append, List.filterMap_cons, List.filterMap_nil]
    rw [← List.append_assoc, ← List.append_assoc]
    apply List.Perm.append_right
    rw [List.append_assoc]
    exact this

theorem Trace.endOfInput {q : InputQueue} {out : List Docket} {acc : List PictureWrapper}
    {planned unplanned : List Piece} {vs : List View} (h : Trace q out acc planned unplanned vs) :
    Trace q.endOfInput out acc planned unplanned vs := by
  have hsh := h.shape
  exact ⟨⟨hsh.window, hsh.views, hsh.unplanned, hsh.pre, hsh.drains, hsh.idr, hsh.front⟩, h.count,
    h.stamps, h.dts, fun _ => Or.inr rfl, h.pictures, h.attached, h.pocs, h.released, h.order,
    h.classes, h.first, h.fresh, h.origin⟩

theorem Trace.shotChanges {q : InputQueue} {out : List Docket} {acc : List PictureWrapper}
    {planned unplanned : List Piece} {vs : List View} (h : Trace q out acc planned unplanned vs)
    (list : List Int) :
    Trace { q with m_shotChangeList := list } out acc planned unplanned vs :=
  ⟨h.shape, h.count, h.stamps, h.dts, h.started, h.pictures, h.attached, h.pocs, h.released,
    h.order, h.classes, h.first, h.fresh, h.origin⟩

theorem Trace.preanalyse {q q' : InputQueue} {out : List Docket} {acc : List PictureWrapper}
    {planned unplanned : List Piece} {vs : List View} (h : Trace q out acc planned unplanned vs)
    (hq : q.preanalyse = .ok q') :
    ∃ unplanned', Trace q' out acc planned unplanned' vs := by
  rw [preanalyse_eq q (fun p hp => (h.shape.pre p hp).2)] at hq
  simp only [Except.ok.injEq] at hq
  split_ifs at hq with hc
  · subst hq
    have hsh := h.shape
    refine ⟨unplanned ++
      q.state.entriesPreanalysis.take (min q.state.entriesPreanalysis.length 10), ?_⟩
    refine ⟨⟨?_, hsh.views, ?_, ?_, hsh.drains, hsh.idr, hsh.front⟩, h.count,
      h.stamps, h.dts, h.started, ?_, h.attached, h.pocs, h.released, h.order,
      h.classes, h.first, h.fresh, h.origin⟩
    · show q.state.entries ++ _ = _
      rw [hsh.window, List.append_assoc]
    · intro p hp
      rcases List.mem_append.mp hp with hp | hp
      · exact hsh.unplanned p hp
      · exact hsh.pre p (List.mem_of_mem_take hp)
    · intro p hp
      exact hsh.pre p (List.mem_of_mem_drop hp)
    · show (out.filterMap Docket.picture ++ ((q.state.entries ++ _).filterMap Piece.picture ++
        (List.drop _ q.state.entriesPreanalysis).filterMap Piece.picture)).Perm acc
      rw [List.filterMap_append, List.append_assoc, ← List.filterMap_append,
        List.take_append_drop]
      exact h.pictures
  · subst hq
    exact ⟨unplanned, h⟩

theorem swapped_fields (q : InputQueue) :
    q.swapped.entries = q.state.entries ∧
    q.swapped.entriesPreanalysis = q.state.entriesPreanalysis ∧
    q.swapped.timestamps = q.state.timestamps ∧
    q.swapped.pictureInputCount = q.state.pictureInputCount ∧
    q.swapped.finish = q.state.finish ∧
    q.swapped.sequenceFront = q.state.sequenceFront ∧
    q.swapped.sequenceIdr = q.state.sequenceIdr ∧
    q.swapped.maxGopM = q.state.maxGopM ∧ q.swapped.maxGopN = q.state.maxGopN ∧
    q.swapped.shotChange = q.state.shotChange ∧ q.swapped.fieldCoding = q.state.fieldCoding := by
  rw [swapped_eq]
  simp

theorem decideIdr_origin (s : State) (hf : s.sequenceFront = 0) (hi : s.sequenceIdr = 0) :
    s.decideIdr = s := by
  unfold State.decideIdr
  have : ¬ s.sequenceIdr - s.sequenceFront < 0 := by omega
  simp [this]

theorem Kept.ofSwapped (q : InputQueue) : Kept q.state q.swapped := by
  obtain ⟨h1, h2, h3, h4, h5, h6, h7, h8, h9, h10, h11⟩ := swapped_fields q
  exact ⟨h2, h3, h4, h5, h6, by rw [h1], fun _ h => by rw [h7]; exact h, h9, h8, h11, h10⟩

theorem Kept.decided (q : InputQueue) (g : Int) (es : List Piece)
    (hes : es.filterMap Piece.picture = q.state.entries.filterMap Piece.picture) :
    Kept q.state { q.swapped.decideIdr with gopSize := g, entries := es } := by
  obtain ⟨h1, h2, h3, h4, h5, h6, h7, h8, h9, h10, h11⟩ := swapped_fields q
  obtain ⟨d1, d2, d3, d4, d5, d6, d7, d8, d9, -⟩ := decideIdr_fields q.swapped
  refine ⟨by show q.swapped.decideIdr.entriesPreanalysis = _; rw [d4, h2],
    by show q.swapped.decideIdr.timestamps = _; rw [d5, h3],
    by show q.swapped.decideIdr.pictureInputCount = _; rw [d6, h4],
    by show q.swapped.decideIdr.finish = _; rw [d3, h5],
    by show q.swapped.decideIdr.sequenceFront = _; rw [d1, h6], hes, ?_, ?_⟩
  · intro hf hi
    show q.swapped.decideIdr.sequenceIdr = 0
    rw [decideIdr_origin q.swapped (by rw [h6]; exact hf) (by rw [h7]; exact hi), h7]
    exact hi
  · exact ⟨by show q.swapped.decideIdr.maxGopN = _; rw [d7, h9],
      by show q.swapped.decideIdr.maxGopM = _; rw [d2, h8],
      by show q.swapped.decideIdr.fieldCoding = _; rw [d9, h11],
      by show q.swapped.decideIdr.shotChange = _; rw [d8, h10]⟩

theorem Idle.keeps {q q' : InputQueue} {planned unplanned : List Piece}
    (h : Idle q q' planned unplanned) : Kept q.state q'.state := by
  rcases h with h | ⟨-, h | ⟨-, -, -, -, h⟩⟩
  · subst h
    exact ⟨rfl, rfl, rfl, rfl, rfl, rfl, fun _ h => h, rfl, rfl, rfl, rfl⟩
  · subst h
    exact Kept.ofSwapped q
  · subst h
    have := Kept.decided q q.swapped.decideIdr.effective.1 q.swapped.decideIdr.entries (by
      rw [decideIdr_entries, (swapped_fields q).1])
    exact this

theorem Staged.kept {q : InputQueue} {s2 : State}
    {planned unplanned planned0 unplanned0 : List Piece} {vs : List View}
    (hw : Window q.state planned unplanned vs)
    (h : Staged q.swapped s2 planned unplanned planned0 unplanned0) : Kept q.state s2 := by
  rcases h with ⟨-, h, -, -⟩ | ⟨hp, -, g, -, -, -, -, h, -, -⟩
  · subst h
    exact Kept.ofSwapped q
  · subst h
    apply Kept.decided
    rw [overlay_pictures, hw.window, hp]
    rfl

theorem overlay_entry (ds : List (Option Docket)) (ps : List Piece) (k : Nat) (p : Piece)
    (hl : ds.length = ps.length) (h : (overlay ds ps)[k]? = some p) :
    ∃ p0, ps[k]? = some p0 ∧ p.docket = slotAt ds k ∧ p.picture = p0.picture := by
  rw [overlay_getElem?] at h
  cases hp : ps[k]? with
  | none => simp [hp] at h
  | some p0 =>
    have hk : k < ds.length := by
      rw [hl]; exact (List.getElem?_eq_some.mp hp).1
    simp only [hp, Option.map_some', hk, if_true, Option.some.injEq] at h
    subst h
    exact ⟨p0, rfl, rfl, rfl⟩

theorem slotAt_some {slots : List (Option Docket)} {k : Nat} {d : Docket}
    (h : slotAt slots k = some d) : slots[k]? = some (some d) := by
  unfold slotAt at h
  cases hs : slots[k]? with
  | none => simp [hs] at h
  | some o =>
    cases o with
    | none => simp [hs] at h
    | some d' =>
      simp only [hs, Option.join] at h
      have h' : some d' = some d := h
      rw [h']

theorem Staged.sound {q : InputQueue} {s2 : State} {out : List Docket}
    {acc : List PictureWrapper} {planned unplanned planned0 unplanned0 : List Piece}
    {vs : List View} (ht : Trace q out acc planned unplanned vs)
    (h : Staged q.swapped s2 planned unplanned planned0 unplanned0) :
    (∀ (k : Nat) (p : Piece) (d : Docket), planned0[k]? = some p → p.docket = some d →
      Sound s2.sequenceFront k d) ∧
    (∀ (k : Nat) (p : Piece) (d : Docket), planned0[k]? = some p → p.docket = some d →
      p.done = true → ∃ D ∈ out, D.poc = d.poc) ∧
    (out = [] → s2.sequenceFront = 0 ∧ planned0.length = 1) := by
  have hk := h.kept ht.shape
  obtain ⟨-, -, -, -, -, h6, h7, -⟩ := swapped_fields q
  rcases h with ⟨hne, h1, h2, -⟩ | ⟨hp, hidr, g, hg, hg1, hgn, hfeas, hs2, hp0, hu0⟩
  · subst h1 h2
    refine ⟨?_, ht.released, ?_⟩
    · rw [h6]; exact ht.pocs
    · intro ho
      exact absurd (ht.fresh ho).1 hne
  · obtain ⟨dF, -⟩ := decideIdr_fields q.swapped
    have hfront : s2.sequenceFront = q.swapped.decideIdr.sequenceFront := by rw [hs2]
    have hpl : q.swapped.decideIdr.plan.length = (unplanned.take g).length := by
      rw [plan_length, hg, List.length_take]
      simp only [Int.toNat_ofNat]
      omega
    have horigin : q.swapped.decideIdr.sequenceFront = 0 →
        (g : Int) = 1 ∧ q.swapped.decideIdr.effective.2 = LastPicture.I := by
      intro hf0
      rw [dF, h6] at hf0
      have hi0 := ht.origin hf0
      have hdec := decideIdr_origin q.swapped (by rw [h6]; exact hf0) (by rw [h7]; exact hi0)
      have hge : 1 ≤ (g : Int) := by omega
      rw [← hg] at hge ⊢
      rw [hdec] at hge ⊢
      unfold State.effective at hge ⊢
      rw [h6, h7, hf0, hi0] at hge ⊢
      simp only [sub_self, zero_add] at hge ⊢
      split_ifs at hge ⊢ <;> simp_all
    have hsound : SoundSlots q.swapped.decideIdr.sequenceFront q.swapped.decideIdr.plan := by
      unfold State.plan
      apply slotSynthesise_sound
      · rw [dF, h6]; exact ht.shape.front
      · rw [hg]; omega
      · intro hf0
        have := horigin hf0
        rw [hg]
        exact this
    refine ⟨?_, ?_, ?_⟩
    · intro k p d hkp hd
      rw [hp0] at hkp
      obtain ⟨p0, -, hdk, -⟩ := overlay_entry _ _ k p hpl hkp
      rw [hd] at hdk
      rw [hfront]
      exact hsound k d (slotAt_some hdk.symm)
    · intro k p d hkp hd hdone
      rw [hp0] at hkp
      obtain ⟨p0, hp0k, -, hpic⟩ := overlay_entry _ _ k p hpl hkp
      have hun := (ht.shape.unplanned p0 (List.mem_of_mem_take (List.getElem?_mem hp0k))).2
      unfold Piece.done at hdone hun
      rw [hpic, hun] at hdone
      cases hdone
    · intro ho
      have hf0 := (ht.fresh ho).2
      have hF : q.swapped.decideIdr.sequenceFront = 0 := by rw [dF, h6]; exact hf0
      refine ⟨by rw [hfront]; exact hF, ?_⟩
      have := (horigin hF).1
      rw [hp0, overlay_length, List.length_take]
      omega

theorem written_fields {d d' : Docket} (h : d'.written = d.written) :
    d'.poc = d.poc ∧ d'.nut = d.nut ∧ d'.qpOffset = d.qpOffset ∧ d'.qpFactor = d.qpFactor ∧
    d'.currentGopSize = d.currentGopSize ∧ d'.sliceType = d.sliceType ∧
    d'.references = d.references := by
  unfold Docket.written at h
  cases d
  cases d'
  simp only [Docket.mk.injEq] at h
  simp only
  tauto

theorem Sound.shift {front : Int} {k r : Nat} {d d' : Docket} (h : Sound front (k + r) d)
    (hw : d'.written = d.written) : Sound (front + (r : Int)) k d' := by
  obtain ⟨h1, h2, -, -, h5, h6, -⟩ := written_fields hw
  obtain ⟨s1, s2, s3, s4⟩ := h
  refine ⟨?_, ?_, ?_, ?_⟩
  · rw [h1, s1]; push_cast; omega
  · rw [h6, h2]; exact s2
  · rw [h1, h2, h5]; exact s3
  · rw [h6, h1, h2]; exact s4

theorem Sound.classed {front : Int} {k : Nat} {d D : Docket} (h : Sound front k d)
    (hw : D.written = d.written) : Classed D := by
  obtain ⟨h1, h2, -, -, h5, h6, -⟩ := written_fields hw
  obtain ⟨-, s2, s3, s4⟩ := h
  refine ⟨?_, ?_, ?_⟩
  · rw [h6, h2]; exact s2
  · rw [h1, h2, h5]; exact s3
  · rw [h6, h1, h2]; exact s4

theorem drop_eq_cons {α : Type} {l : List α} {n : Nat} {a : α} {r : List α}
    (h : l.drop n = a :: r) : l.drop (n + 1) = r ∧ l.take (n + 1) = l.take n ++ [a] := by
  have hlt : n < l.length := by
    by_contra hn
    rw [List.drop_eq_nil_of_le (by omega)] at h
    cases h
  have hd := List.drop_eq_getElem_cons hlt
  rw [hd] at h
  simp only [List.cons.injEq] at h
  refine ⟨h.2, ?_⟩
  rw [List.take_succ, List.getElem?_eq_getElem hlt, h.1]
  rfl

theorem viewRefsDone_true {vs : List View} {i : Nat} {refs : List Int}
    (h : viewRefsDone vs i refs = some true) :
    ∀ delta ∈ refs, 0 ≤ (i : Int) + delta ∧
      ∃ w, vs[((i : Int) + delta).toNat]? = some w ∧ w.done = true := by
  induction refs with
  | nil => intro delta hd; cases hd
  | cons r rs ih =>
    unfold viewRefsDone at h
    by_cases h0 : 0 ≤ (i : Int) + r
    · rw [if_pos h0] at h
      cases hk : vs[((i : Int) + r).toNat]? with
      | none => simp [hk] at h
      | some w =>
        cases hr : viewRefsDone vs i rs with
        | none => simp [hk, hr] at h
        | some b =>
          simp only [hk, hr, Option.some.injEq, Bool.and_eq_true] at h
          intro delta hd
          rcases List.mem_cons.mp hd with hd | hd
          · subst hd
            exact ⟨h0, w, hk, h.1⟩
          · rw [h.2] at hr
            exact ih hr delta hd
    · rw [if_neg h0] at h
      cases h

theorem view_positive {p : Piece} {d : Docket} {v : View} (hd : p.docket = some d)
    (hv : p.view = some v) : v.positive = d.references.positive := by
  unfold Piece.view at hv
  simp only [hd, Option.map_some', Option.some.injEq] at hv
  rw [← hv]

theorem view_docket {p : Piece} {v : View} (hv : p.view = some v) : ∃ d, p.docket = some d := by
  unfold Piece.view at hv
  cases hd : p.docket with
  | none => simp [hd] at hv
  | some d => exact ⟨d, rfl⟩

theorem Trace.idle {q q' : InputQueue} {out : List Docket} {acc : List PictureWrapper}
    {planned unplanned : List Piece} {vs : List View} (h : Trace q out acc planned unplanned vs)
    (hidle : Idle q q' planned unplanned) (hwin : Window q'.state planned unplanned vs) :
    Trace q' out acc planned unplanned vs := by
  have hk := hidle.keeps
  refine ⟨hwin, ?_, ?_, h.dts, ?_, ?_, h.attached, ?_, h.released, h.order, h.classes, h.first,
    ?_, ?_⟩
  · rw [hk.count]; exact h.count
  · rw [hk.timestamps]; exact h.stamps
  · intro hne; rw [hk.finish]; exact h.started hne
  · rw [hk.pictures, hk.pre]; exact h.pictures
  · rw [hk.front]; exact h.pocs
  · intro ho; rw [hk.front]; exact h.fresh ho
  · intro hf
    rw [hk.front] at hf
    exact hk.origin hf (h.origin hf)

theorem Trace.afterRelease {q q' : InputQueue} {out : List Docket} {acc : List PictureWrapper}
    {planned unplanned : List Piece} {vs : List View} {D : Docket} {s2 : State}
    {planned0 unplanned0 : List Piece} {vs0 vs' : List View} {i : Nat} {p : Piece} {d : Docket}
    {t : Timestamp} {ts : List Timestamp} (h : Trace q out acc planned unplanned vs)
    (hrel : Released q q' D planned unplanned s2 planned0 unplanned0 vs0 vs' i p d t ts)
    (hstart : 2 ≤ acc.length ∨ q.state.finish = true) :
    Trace q' (out ++ [D]) acc (afterPull planned0 i t.timestamp) unplanned0 vs' := by
  have hk := hrel.staged.kept h.shape
  obtain ⟨hs_pocs, hs_rel, hs_fresh⟩ := hrel.staged.sound h
  have hafter := hrel.after
  have hqueue := hrel.queue
  have hentry := hrel.entry
  have hdocket := hrel.docket
  have hD := hrel.result
  have hstamps := hrel.stamps
  obtain ⟨x, hx⟩ : ∃ x, p.picture = some x := by
    have := hrel.undone
    unfold Piece.done at this
    cases hp : p.picture with
    | none => simp [hp] at this
    | some x => exact ⟨x, rfl⟩
  have hDw : D.written = d.written := by rw [hD]; rfl
  obtain ⟨hDpoc, -, -, -, -, -, hDrefs⟩ := written_fields hDw
  have hsd := hs_pocs i p d hentry hdocket
  -- the state of the queue after the call
  have hE : q'.state.entries = afterPull planned0 i t.timestamp ++ unplanned0 := by rw [hqueue]
  have hF : q'.state.sequenceFront = s2.sequenceFront + (retiredBy planned0 i : Int) := by
    rw [hqueue]
  have hI : q'.state.sequenceIdr = s2.sequenceIdr := by rw [hqueue]
  have hT : q'.state.timestamps = ts := by rw [hqueue]
  have hC : q'.state.pictureInputCount = s2.pictureInputCount := by rw [hqueue]
  have hP : q'.state.entriesPreanalysis = s2.entriesPreanalysis := by rw [hqueue]
  have hFin : q'.state.finish = s2.finish := by rw [hqueue]
  have hdrop : (slotValues acc).drop out.length = t.timestamp :: ts.map Timestamp.timestamp := by
    rw [← h.stamps, ← hk.timestamps, hstamps]
    rfl
  obtain ⟨hdrop1, htake1⟩ := drop_eq_cons hdrop
  refine ⟨hafter, ?_, ?_, ?_, ?_, ?_, ?_, ?_, ?_, ?_, ?_, ?_, ?_, ?_⟩
  · rw [hC, hk.count]; exact h.count
  · rw [hT, List.length_append, List.length_singleton, hdrop1]
  · rw [List.map_append, h.dts, List.length_append, List.length_singleton, htake1, hD]
    rfl
  · intro _
    rw [hFin, hk.finish]
    exact hstart
  · rw [hE, hP, hk.pre]
    have hbefore := h.pictures
    rw [← hk.pictures, hrel.before.window] at hbefore
    simp only [List.filterMap_append] at hbefore ⊢
    have hDp : [D].filterMap Docket.picture = [x] := by
      rw [hD]
      simp [List.filterMap_cons, hx]
    rw [hDp]
    have hperm := afterPull_pictures planned0 i t.timestamp p x hentry hx
    refine List.Perm.trans ?_ hbefore
    rw [List.append_assoc, List.append_assoc, List.append_assoc]
    apply List.Perm.append_left
    simp only [List.singleton_append]
    exact (List.Perm.append_right _ hperm).symm
  · intro E hEm
    rcases List.mem_append.mp hEm with hEm | hEm
    · exact h.attached E hEm
    · rw [List.mem_singleton] at hEm
      rw [hEm, hD]
      simp [hx]
  · intro k p' d' hkp hd'
    rw [afterPull_getElem?] at hkp
    cases hp0 : planned0[k + retiredBy planned0 i]? with
    | none => simp [hp0] at hkp
    | some p0 =>
      simp only [hp0, Option.map_some', Option.some.injEq] at hkp
      rw [← hkp] at hd'
      obtain ⟨d0, hd0, hw⟩ := pulled_docket _ _ _ _ _ hd'
      rw [hF]
      exact (hs_pocs _ p0 d0 hp0 hd0).shift hw
  · intro k p' d' hkp hd' hdone
    rw [afterPull_getElem?] at hkp
    cases hp0 : planned0[k + retiredBy planned0 i]? with
    | none => simp [hp0] at hkp
    | some p0 =>
      simp only [hp0, Option.map_some', Option.some.injEq] at hkp
      rw [← hkp] at hd' hdone
      obtain ⟨d0, hd0, hw⟩ := pulled_docket _ _ _ _ _ hd'
      obtain ⟨hpoc, -⟩ := written_fields hw
      rcases pulled_done _ _ _ _ hdone with h1 | h1
      · obtain ⟨E, hEm, hEp⟩ := hs_rel _ p0 d0 hp0 hd0 h1
        exact ⟨E, List.mem_append_left _ hEm, by rw [hEp, hpoc]⟩
      · rw [← h1, hentry] at hp0
        simp only [Option.some.injEq] at hp0
        subst hp0
        rw [hdocket] at hd0
        simp only [Option.some.injEq] at hd0
        subst hd0
        exact ⟨D, List.mem_append_right _ (List.mem_singleton.mpr rfl), by rw [hDpoc, hpoc]⟩
  · intro j E hj delta hdelta
    by_cases hjl : j < out.length
    · rw [List.getElem?_append_left hjl] at hj
      obtain ⟨j', E', h1, h2, h3⟩ := h.order j E hj delta hdelta
      exact ⟨j', E', h1, by rw [List.getElem?_append_left (by omega)]; exact h2, h3⟩
    · have hje : j = out.length := by
        have := (List.getElem?_eq_some.mp hj).1
        simp only [List.length_append, List.length_singleton] at this
        omega
      subst hje
      rw [List.getElem?_append_right (le_refl _)] at hj
      simp only [Nat.sub_self, List.getElem?_cons_zero, Option.some.injEq] at hj
      subst hj
      obtain ⟨-, v, hvi, -, hrefs, -⟩ := viewStep_some hrel.step
      obtain ⟨pv, hpv, hview⟩ := view_getElem? hrel.before.views hvi
      rw [hentry] at hpv
      simp only [Option.some.injEq] at hpv
      subst hpv
      rw [view_positive hdocket hview] at hrefs
      rw [hDrefs] at hdelta
      obtain ⟨h0, w, hw, hwd⟩ := viewRefsDone_true hrefs delta hdelta
      obtain ⟨p1, hp1, hv1⟩ := view_getElem? hrel.before.views hw
      obtain ⟨d1, hd1⟩ := view_docket hv1
      have hdone1 : p1.done = true := by rw [view_done hv1]; exact hwd
      obtain ⟨E, hEm, hEp⟩ := hs_rel _ p1 d1 hp1 hd1 hdone1
      obtain ⟨j', hj'⟩ := List.getElem?_of_mem hEm
      have hj'l := (List.getElem?_eq_some.mp hj').1
      refine ⟨j', E, hj'l, by rw [List.getElem?_append_left hj'l]; exact hj', ?_⟩
      have s1 := (hs_pocs _ p1 d1 hp1 hd1).1
      have s0 := hsd.1
      rw [hEp, s1, hDpoc, s0]
      omega
  · intro E hEm
    rcases List.mem_append.mp hEm with hEm | hEm
    · exact h.classes E hEm
    · rw [List.mem_singleton] at hEm
      subst hEm
      exact hsd.classed hDw
  · intro E hE0
    cases hout : out with
    | nil =>
      rw [hout] at hE0
      simp only [List.nil_append, List.head?_cons, Option.some.injEq] at hE0
      subst hE0
      obtain ⟨hf0, hl1⟩ := hs_fresh hout
      have hil := (List.getElem?_eq_some.mp hentry).1
      have s0 := hsd.1
      rw [hDpoc, s0, hf0]
      simp only [zero_add, Nat.cast_eq_zero]
      omega
    | cons o os =>
      rw [hout] at hE0
      apply h.first
      rw [hout]
      exact hE0
  · intro ho
    simp at ho
  · intro hf0
    rw [hF] at hf0
    rw [hI]
    have hfront := hrel.before.front
    have hf2 : s2.sequenceFront = 0 := by omega
    rw [hk.front] at hf2
    exact hk.origin hf2 (h.origin hf2)

theorem Trace.afterGetDocket {q q' : InputQueue} {out : List Docket} {acc : List PictureWrapper}
    {planned unplanned : List Piece} {vs : List View} {od : Option Docket}
    (h : Trace q out acc planned unplanned vs) (hg : q.getDocket = .ok (q', od)) :
    ∃ planned' unplanned' vs', Trace q' (out ++ od.toList) acc planned' unplanned' vs' := by
  rcases getDocket_spec h.shape hg with ⟨hod, hidle, hwin⟩ |
    ⟨D, s2, planned0, unplanned0, vs0, vs', i, p, d, t, ts, hod, hrel⟩
  · subst hod
    simp only [Option.toList, List.append_nil]
    exact ⟨planned, unplanned, vs, h.idle hidle hwin⟩
  · subst hod
    refine ⟨_, _, _, h.afterRelease hrel ?_⟩
    -- the call was not deferred
    rw [getDocket_eq] at hg
    split_ifs at hg with hdefer
    · simp at hg
    · have hcount := h.count
      -- a picture was in the window, so one has been accepted
      have hpos : 0 < acc.length := by
        have hk := hrel.staged.kept h.shape
        have hbefore := h.pictures
        rw [← hk.pictures, hrel.before.window] at hbefore
        obtain ⟨x, hx⟩ : ∃ x, p.picture = some x := by
          have := hrel.undone
          unfold Piece.done at this
          cases hp : p.picture with
          | none => simp [hp] at this
          | some x => exact ⟨x, rfl⟩
        have hmem : x ∈ acc := by
          apply hbefore.subset
          apply List.mem_append_right
          apply List.mem_append_left
          rw [List.filterMap_append]
          apply List.mem_append_left
          rw [List.mem_filterMap]
          exact ⟨p, List.getElem?_mem hrel.entry, hx⟩
        exact List.length_pos_of_mem hmem
      by_cases h2 : 2 ≤ acc.length
      · exact Or.inl h2
      · right
        have h1 : q.state.pictureInputCount = 1 := by omega
        cases hf : q.state.finish with
        | true => rfl
        | false => exact absurd ⟨h1, hf⟩ hdefer

theorem SameConfig.refl (q : InputQueue) : SameConfig q q :=
  ⟨rfl, rfl, rfl, rfl, fun h => h⟩

theorem SameConfig.trans {q q' q'' : InputQueue} (h : SameConfig q q') (h' : SameConfig q' q'') :
    SameConfig q q'' :=
  ⟨h'.1.trans h.1, h'.2.1.trans h.2.1, h'.2.2.1.trans h.2.2.1, h'.2.2.2.1.trans h.2.2.2.1,
    fun hf => h'.2.2.2.2 (h.2.2.2.2 hf)⟩

theorem Kept.sameConfig {q q' : InputQueue} (h : Kept q.state q'.state) : SameConfig q q' :=
  ⟨h.config.1, h.config.2.1, h.config.2.2.1, h.config.2.2.2, fun hf => by rw [h.finish]; exact hf⟩

/-- One call keeps the invariant of runs. -/
theorem Reach.step {q q' : InputQueue} {out : List Docket} {acc : List PictureWrapper}
    {op : Op} {od : Option Docket} (h : Reach q out acc) (hs : q.step op = .ok (q', od)) :
    Reach q' (out ++ od.toList) (acc ++ accepted [op]) ∧ SameConfig q q' := by
  obtain ⟨planned, unplanned, vs, ht⟩ := h
  cases op with
  | append x aq =>
    simp only [InputQueue.step, bind, Except.bind, pure, Except.pure] at hs
    cases hq : q.append x aq with
    | error e => rw [hq] at hs; cases hs
    | ok q1 =>
      rw [hq] at hs
      simp only [Except.ok.injEq, Prod.mk.injEq] at hs
      obtain ⟨h1, h2⟩ := hs
      subst h1 h2
      refine ⟨⟨planned, unplanned, vs, ?_⟩, ?_⟩
      · simpa [accepted] using ht.append x aq hq
      · rw [append_eq] at hq
        split_ifs at hq with hf hc
        · cases hts : q.state.timestamps with
          | nil => rw [hts] at hq; cases hq
          | cons t rest =>
            rw [hts] at hq
            simp only [Except.ok.injEq] at hq
            subst hq
            exact ⟨rfl, rfl, rfl, rfl, fun h => h⟩
        · simp only [Except.ok.injEq] at hq
          subst hq
          exact ⟨rfl, rfl, rfl, rfl, fun h => h⟩
  | endOfInput =>
    simp only [InputQueue.step, pure, Except.pure, Except.ok.injEq, Prod.mk.injEq] at hs
    obtain ⟨h1, h2⟩ := hs
    subst h1 h2
    refine ⟨⟨planned, unplanned, vs, ?_⟩, ⟨rfl, rfl, rfl, rfl, fun _ => rfl⟩⟩
    simpa [accepted] using ht.endOfInput
  | preanalyse =>
    simp only [InputQueue.step, bind, Except.bind, pure, Except.pure] at hs
    cases hq : q.preanalyse with
    | error e => rw [hq] at hs; cases hs
    | ok q1 =>
      rw [hq] at hs
      simp only [Except.ok.injEq, Prod.mk.injEq] at hs
      obtain ⟨h1, h2⟩ := hs
      subst h1 h2
      obtain ⟨unplanned', ht'⟩ := ht.preanalyse hq
      refine ⟨⟨planned, unplanned', vs, ?_⟩, ?_⟩
      · simpa [accepted] using ht'
      · rw [preanalyse_eq q (fun p hp => (ht.shape.pre p hp).2)] at hq
        simp only [Except.ok.injEq] at hq
        split_ifs at hq <;> subst hq <;> exact ⟨rfl, rfl, rfl, rfl, fun h => h⟩
  | getDocket =>
    simp only [InputQueue.step] at hs
    obtain ⟨planned', unplanned', vs', ht'⟩ := ht.afterGetDocket hs
    refine ⟨⟨planned', unplanned', vs', ?_⟩, ?_⟩
    · simpa [accepted] using ht'
    · rcases getDocket_spec ht.shape hs with ⟨-, hidle, -⟩ |
        ⟨D, s2, planned0, unplanned0, vs0, vs1, i, p, d, t, ts, -, hrel⟩
      · exact hidle.keeps.sameConfig
      · have hk := hrel.staged.kept ht.shape
        have hq := hrel.queue
        subst hq
        exact ⟨hk.config.1, hk.config.2.1, hk.config.2.2.1, hk.config.2.2.2,
          fun hf => by show s2.finish = true; rw [hk.finish]; exact hf⟩
  | shotChanges list =>
    simp only [InputQueue.step, pure, Except.pure, Except.ok.injEq, Prod.mk.injEq] at hs
    obtain ⟨h1, h2⟩ := hs
    subst h1 h2
    refine ⟨⟨planned, unplanned, vs, ?_⟩, ⟨rfl, rfl, rfl, rfl, fun h => h⟩⟩
    simpa [accepted] using ht.shotChanges list

theorem accepted_cons (op : Op) (ops : List Op) :
    accepted (op :: ops) = accepted [op] ++ accepted ops := by
  cases op <;> simp [accepted]

/-- Every run keeps the invariant. -/
theorem Reach.run {q q' : InputQueue} {out outs : List Docket} {acc : List PictureWrapper}
    {ops : List Op} (h : Reach q out acc) (hr : q.run ops = .ok (q', outs)) :
    Reach q' (out ++ outs) (acc ++ accepted ops) ∧ SameConfig q q' := by
  induction ops generalizing q out acc outs with
  | nil =>
    simp only [InputQueue.run, pure, Except.pure, Except.ok.injEq, Prod.mk.injEq] at hr
    obtain ⟨h1, h2⟩ := hr
    subst h1 h2
    simpa [accepted] using And.intro h (SameConfig.refl q)
  | cons op ops ih =>
    simp only [InputQueue.run, bind, Except.bind, pure, Except.pure] at hr
    cases hs : q.step op with
    | error e => rw [hs] at hr; cases hr
    | ok r =>
      obtain ⟨q1, od⟩ := r
      rw [hs] at hr
      simp only at hr
      cases hrest : q1.run ops with
      | error e => rw [hrest] at hr; cases hr
      | ok r' =>
        obtain ⟨q2, ds⟩ := r'
        rw [hrest] at hr
        simp only [Except.ok.injEq, Prod.mk.injEq] at hr
        obtain ⟨h1, h2⟩ := hr
        subst h1 h2
        obtain ⟨hreach, hcfg⟩ := h.step hs
        obtain ⟨hreach', hcfg'⟩ := ih hreach hrest
        refine ⟨?_, hcfg.trans hcfg'⟩
        rw [accepted_cons, ← List.append_assoc, ← List.append_assoc]
        exact hreach'

/-- Every run from a new queue ends in a state of the invariant. -/
theorem reach_of_run {maxGopN maxGopM : Int} {fieldCoding shotChange : Bool} {ops : List Op}
    {q : InputQueue} {out : List Docket}
    (hr : (InputQueue.new maxGopN maxGopM fieldCoding shotChange).run ops = .ok (q, out)) :
    Reach q out (accepted ops) ∧
      SameConfig (InputQueue.new maxGopN maxGopM fieldCoding shotChange) q := by
  have := (reach_new maxGopN maxGopM fieldCoding shotChange).run hr
  simpa using this

/-- Claim C3: in every run in which at least two pictures are accepted, with `a0` and
`a1` the first two accepted pictures and `p = a1.pts - a0.pts`, the `k`-th docket that
`getDocket` returns (counting from 0) has `dts = a0.pts - (3 - k) * p` for `k < 3`,
and for `k ≥ 3` its `dts` is the presentation timestamp of the `(k - 3)`-th accepted
picture. -/
theorem decode_timestamps (maxGopN maxGopM : Int) (fieldCoding shotChange : Bool)
    (ops : List Op) (q : InputQueue) (out : List Docket) (a0 a1 : PictureWrapper)
    (rest : List PictureWrapper)
    (hrun : (InputQueue.new maxGopN maxGopM fieldCoding shotChange).run ops = .ok (q, out))
    (hacc : accepted ops = a0 :: a1 :: rest) (k : Nat) (D : Docket) (hk : out[k]? = some D) :
    (k < 3 → D.dts = a0.pts - (3 - (k : Int)) * (a1.pts - a0.pts)) ∧
    (3 ≤ k → ∃ a, (accepted ops)[k - 3]? = some a ∧ D.dts = a.pts) := by
  obtain ⟨⟨planned, unplanned, vs, ht⟩, -⟩ := reach_of_run hrun
  have hd := ht.dts
  have hlt : k < out.length := (List.getElem?_eq_some.mp hk).1
  have hval : (slotValues (accepted ops))[k]? = some D.dts := by
    have h1 : (out.map Docket.dts)[k]? = some D.dts := by
      rw [List.getElem?_map, hk]; rfl
    rw [hd, List.getElem?_take_of_lt hlt] at h1
    exact h1
  rw [hacc] at hval ⊢
  simp only [slotValues] at hval
  constructor
  · intro h3
    match k, h3, hval with
    | 0, _, hval =>
      simp only [List.cons_append, List.getElem?_cons_zero, Option.some.injEq] at hval
      rw [← hval]; push_cast; ring
    | 1, _, hval =>
      simp only [List.cons_append, List.getElem?_cons_succ, List.getElem?_cons_zero,
        Option.some.injEq] at hval
      rw [← hval]; push_cast; ring
    | 2, _, hval =>
      simp only [List.cons_append, List.getElem?_cons_succ, List.getElem?_cons_zero,
        Option.some.injEq] at hval
      rw [← hval]; push_cast; ring
  · intro h3
    rw [List.getElem?_append_right (by simpa using h3)] at hval
    simp only [List.length_cons, List.length_nil, Nat.zero_add, Nat.reduceAdd,
      List.getElem?_map] at hval
    cases ha : (a0 :: a1 :: rest)[k - 3]? with
    | none => simp [ha] at hval
    | some a =>
      simp only [ha, Option.map_some', Option.some.injEq] at hval
      exact ⟨a, rfl, hval.symm⟩

theorem witnessRun :
    (InputQueue.new 100 8 false false).run witnessOps = .ok (witnessQueue, witnessOut) := by
  decide

theorem decode_timestamps_witness :
    (InputQueue.new 100 8 false false).run witnessOps = .ok (witnessQueue, witnessOut) ∧
    accepted witnessOps = witnessPicture 0 :: witnessPicture 1 ::
      (List.range 7).map (fun k => witnessPicture (k + 2)) ∧
    (witnessOut[5]?).map Docket.dts = some 27 ∧
    ((5 < 3 → (27 : Int) = (witnessPicture 0).pts - (3 - ((5 : Nat) : Int)) *
        ((witnessPicture 1).pts - (witnessPicture 0).pts)) ∧
      (3 ≤ 5 → ∃ a, (accepted witnessOps)[5 - 3]? = some a ∧ (27 : Int) = a.pts)) :=
  ⟨by decide, by decide, by decide,
    decode_timestamps 100 8 false false witnessOps witnessQueue witnessOut (witnessPicture 0)
      (witnessPicture 1) ((List.range 7).map (fun k => witnessPicture (k + 2)))
      (by decide) (by decide) 5 witnessDocket (by decide)⟩

/-- Claim C2: in every run, every positive delta of a returned docket points at the
POC of a docket returned by an earlier call; and whenever the next call of `getDocket`
returns a docket, it is taken from an entry at some index `i` of the window that
`process` leaves, and for every positive delta of the docket the window entry at index
`i + delta` exists, is already released (its picture pointer is null) and its docket
was returned by an earlier call. -/
theorem dependency_order (maxGopN maxGopM : Int) (fieldCoding shotChange : Bool)
    (ops : List Op) (q : InputQueue) (out : List Docket)
    (hrun : (InputQueue.new maxGopN maxGopM fieldCoding shotChange).run ops = .ok (q, out)) :
    DependencyOrder out ∧
    ∀ (q' : InputQueue) (D : Docket), q.getDocket = .ok (q', some D) →
      ∃ (s : State) (i : Nat) (p : Piece) (d : Docket),
        q.swapped.process = .ok s ∧ s.entries[i]? = some p ∧ p.docket = some d ∧
        p.done = false ∧
        D = { d with picture := p.picture, aqInfo := p.aqInfo, dts := D.dts } ∧
        ∀ delta ∈ D.references.positive, 0 ≤ (i : Int) + delta ∧
          ∃ p1, s.entries[((i : Int) + delta).toNat]? = some p1 ∧ p1.done = true ∧
            ∃ E ∈ out, E.poc = D.poc + delta := by
  obtain ⟨⟨planned, unplanned, vs, ht⟩, -⟩ := reach_of_run hrun
  refine ⟨ht.order, ?_⟩
  intro q' D hg
  rcases getDocket_spec ht.shape hg with ⟨hod, -, -⟩ |
    ⟨D', s2, planned0, unplanned0, vs0, vs', i, p, d, t, ts, hod, hrel⟩
  · cases hod
  · simp only [Option.some.injEq] at hod
    subst hod
    obtain ⟨hs_pocs, hs_rel, -⟩ := hrel.staged.sound ht
    have hentry := hrel.entry
    have hdocket := hrel.docket
    have hD := hrel.result
    have hwin := hrel.before.window
    have hDw : D.written = d.written := by rw [hD]; rfl
    obtain ⟨hDpoc, -, -, -, -, -, hDrefs⟩ := written_fields hDw
    have hil := (List.getElem?_eq_some.mp hentry).1
    refine ⟨s2, i, p, d, hrel.processed, ?_, hdocket, hrel.undone, ?_, ?_⟩
    · rw [hwin, List.getElem?_append_left hil]; exact hentry
    · rw [hD]
    · intro delta hdelta
      obtain ⟨-, v, hvi, -, hrefs, -⟩ := viewStep_some hrel.step
      obtain ⟨pv, hpv, hview⟩ := view_getElem? hrel.before.views hvi
      rw [hentry] at hpv
      simp only [Option.some.injEq] at hpv
      subst hpv
      rw [view_positive hdocket hview] at hrefs
      rw [hDrefs] at hdelta
      obtain ⟨h0, w, hw, hwd⟩ := viewRefsDone_true hrefs delta hdelta
      obtain ⟨p1, hp1, hv1⟩ := view_getElem? hrel.before.views hw
      obtain ⟨d1, hd1⟩ := view_docket hv1
      have hdone1 : p1.done = true := by rw [view_done hv1]; exact hwd
      obtain ⟨E, hEm, hEp⟩ := hs_rel _ p1 d1 hp1 hd1 hdone1
      have hl1 := (List.getElem?_eq_some.mp hp1).1
      refine ⟨h0, p1, ?_, hdone1, E, hEm, ?_⟩
      · rw [hwin, List.getElem?_append_left hl1]; exact hp1
      · have s1 := (hs_pocs _ p1 d1 hp1 hd1).1
        have s0 := (hs_pocs i p d hentry hdocket).1
        rw [hEp, s1, hDpoc, s0]
        omega

theorem dependency_order_witness :
    (InputQueue.new 100 8 false false).run witnessPrefix =
      .ok (witnessPrefixQueue, witnessPrefixOut) ∧
    witnessPrefixOut.map Docket.poc = [0, 8, 4, 2] ∧
    (witnessPrefixQueue.getDocket.toOption.map
      (fun r => r.2.map (fun D => (D.poc, D.references.positive)))) = some (some (1, [1, 3, 7])) ∧
    (DependencyOrder witnessPrefixOut ∧
      ∀ (q' : InputQueue) (D : Docket), witnessPrefixQueue.getDocket = .ok (q', some D) →
        ∃ (s : State) (i : Nat) (p : Piece) (d : Docket),
          witnessPrefixQueue.swapped.process = .ok s ∧ s.entries[i]? = some p ∧
          p.docket = some d ∧ p.done = false ∧
          D = { d with picture := p.picture, aqInfo := p.aqInfo, dts := D.dts } ∧
          ∀ delta ∈ D.references.positive, 0 ≤ (i : Int) + delta ∧
            ∃ p1, s.entries[((i : Int) + delta).toNat]? = some p1 ∧ p1.done = true ∧
              ∃ E ∈ witnessPrefixOut, E.poc = D.poc + delta) :=
  ⟨by decide, by decide, by decide,
    dependency_order 100 8 false false witnessPrefix witnessPrefixQueue witnessPrefixOut
      (by decide)⟩

/-- Claim C9: in every run the first docket that `getDocket` returns is the docket
of POC 0, an intra docket of class `IDR_N_LP` in a group of size 1; and every docket
created so far (returned, or still in the window) with POC 0 has class `IDR_N_LP` and
group size 1, every other intra docket has class `CRA_NUT`, and the slice type is `I`
exactly when the NAL class is an intra random access class, and `B` otherwise. -/
theorem intra_classes (maxGopN maxGopM : Int) (fieldCoding shotChange : Bool)
    (ops : List Op) (q : InputQueue) (out : List Docket)
    (hrun : (InputQueue.new maxGopN maxGopM fieldCoding shotChange).run ops = .ok (q, out)) :
    (∀ D : Docket, out.head? = some D →
      D.poc = 0 ∧ D.nut = IDR_N_LP ∧ D.currentGopSize = 1 ∧ D.sliceType = SliceType.I) ∧
    (∀ D : Docket, (D ∈ out ∨ ∃ p ∈ q.state.entries, p.docket = some D) →
      (D.poc = 0 → D.nut = IDR_N_LP ∧ D.currentGopSize = 1) ∧
      (D.sliceType = SliceType.I → D.poc ≠ 0 → D.nut = CRA_NUT) ∧
      (D.sliceType = SliceType.I ↔ isIrap D.nut = true) ∧
      (D.sliceType ≠ SliceType.I → D.sliceType = SliceType.B)) := by
  obtain ⟨⟨planned, unplanned, vs, ht⟩, -⟩ := reach_of_run hrun
  have hclassed : ∀ D : Docket, Classed D →
      (D.poc = 0 → D.nut = IDR_N_LP ∧ D.currentGopSize = 1) ∧
      (D.sliceType = SliceType.I → D.poc ≠ 0 → D.nut = CRA_NUT) ∧
      (D.sliceType = SliceType.I ↔ isIrap D.nut = true) ∧
      (D.sliceType ≠ SliceType.I → D.sliceType = SliceType.B) := by
    intro D ⟨h1, h2, h3⟩
    refine ⟨h2, h3, ?_, ?_⟩
    · rw [h1]
      cases isIrap D.nut <;> simp
    · rw [h1]
      cases isIrap D.nut <;> simp
  constructor
  · intro D hD
    have hm : D ∈ out := List.mem_of_mem_head? hD
    have hp := ht.first D hD
    obtain ⟨h1, h2, -⟩ := ht.classes D hm
    obtain ⟨hn, hg⟩ := h2 hp
    refine ⟨hp, hn, hg, ?_⟩
    rw [h1, hn]
    rfl
  · intro D hD
    apply hclassed
    rcases hD with hD | ⟨p, hp, hd⟩
    · exact ht.classes D hD
    · rw [ht.shape.window] at hp
      rcases List.mem_append.mp hp with hp | hp
      · obtain ⟨k, hk⟩ := List.getElem?_of_mem hp
        exact (ht.pocs k p D hk hd).classed rfl
      · have := (ht.shape.unplanned p hp).1
        rw [this] at hd
        cases hd

theorem intra_classes_witness :
    (InputQueue.new 100 8 false false).run witnessPrefix =
      .ok (witnessPrefixQueue, witnessPrefixOut) ∧
    witnessPrefixOut.map (fun D => (D.poc, D.nut, D.sliceType)) =
      [(0, IDR_N_LP, SliceType.I), (8, TRAIL_R, SliceType.B), (4, TRAIL_R, SliceType.B),
       (2, TRAIL_R, SliceType.B)] ∧
    ((∀ D : Docket, witnessPrefixOut.head? = some D →
      D.poc = 0 ∧ D.nut = IDR_N_LP ∧ D.currentGopSize = 1 ∧ D.sliceType = SliceType.I) ∧
    (∀ D : Docket,
      (D ∈ witnessPrefixOut ∨ ∃ p ∈ witnessPrefixQueue.state.entries, p.docket = some D) →
      (D.poc = 0 → D.nut = IDR_N_LP ∧ D.currentGopSize = 1) ∧
      (D.sliceType = SliceType.I → D.poc ≠ 0 → D.nut = CRA_NUT) ∧
      (D.sliceType = SliceType.I ↔ isIrap D.nut = true) ∧
      (D.sliceType ≠ SliceType.I → D.sliceType = SliceType.B))) :=
  ⟨by decide, by decide,
    intra_classes 100 8 false false witnessPrefix witnessPrefixQueue witnessPrefixOut
      (by decide)⟩

/-! ## Progress at the end of the stream -/

theorem computeNextIdr_ge (s : State) (f D : Int) (fc : Bool) (hf : 0 ≤ f) (hD : f ≤ D) :
    f ≤ s.computeNextIdr f D fc := by
  unfold State.computeNextIdr
  rcases computeNextIdrLoop_spec s.m_shotChangeList fc D (D - f).toNat f hf (le_refl _) with
    ⟨⟨h, -⟩, -⟩ | ⟨h, -⟩
  · exact h
  · rw [h]; exact hD

/-- With an intra period of at least 1, the next intra picture is not behind the
front of the window after the intra-refresh decision. -/
theorem decideIdr_ge (s : State) (hn : 1 ≤ s.maxGopN) (hf : 0 ≤ s.sequenceFront)
    (hidr : 0 ≤ s.sequenceIdr - s.sequenceFront + 1) :
    s.decideIdr.sequenceFront ≤ s.decideIdr.sequenceIdr := by
  unfold State.decideIdr
  split_ifs with h1 h2 h2
  · show s.sequenceFront ≤ s.computeNextIdr s.sequenceFront (s.sequenceIdr + s.maxGopN) s.fieldCoding
    exact computeNextIdr_ge s _ _ _ hf (by omega)
  · show s.sequenceFront ≤ s.sequenceIdr
    omega
  · show s.sequenceFront ≤ s.sequenceIdr + s.maxGopN
    omega
  · show s.sequenceFront ≤ s.sequenceIdr
    omega

theorem Window.pending {s : State} {planned unplanned : List Piece} {vs : List View}
    (h : Window s planned unplanned vs) (hne : s.entries ≠ []) :
    0 < (s.entries.filterMap Piece.picture).length := by
  have hmem : ∃ p ∈ s.entries, p.done = false := by
    by_cases hp : planned = []
    · subst hp
      rw [h.window] at hne ⊢
      simp only [List.nil_append] at hne ⊢
      cases unplanned with
      | nil => exact absurd rfl hne
      | cons p ps => exact ⟨p, List.mem_cons_self _ _, (h.unplanned p (List.mem_cons_self _ _)).2⟩
    · obtain ⟨n, hn⟩ := h.drains
      have hvne : vs ≠ [] := by
        intro hv
        have := view_length h.views
        rw [hv] at this
        exact hp (List.length_eq_zero.mp this)
      obtain ⟨i, vs', hstep, -⟩ := viewDrains_step hn hvne
      obtain ⟨-, v, hvi, hvd, -, -⟩ := viewStep_some hstep
      obtain ⟨p, hpi, hpv⟩ := view_getElem? h.views hvi
      refine ⟨p, ?_, by rw [view_done hpv]; exact hvd⟩
      rw [h.window]
      exact List.mem_append_left _ (List.getElem?_mem hpi)
  obtain ⟨p, hp, hd⟩ := hmem
  unfold Piece.done at hd
  cases hx : p.picture with
  | none => simp [hx] at hd
  | some x =>
    apply List.length_pos_of_mem (a := x)
    rw [List.mem_filterMap]
    exact ⟨p, hp, hx⟩

theorem filterMap_attached (out : List Docket) (h : ∀ D ∈ out, D.picture.isSome = true) :
    (out.filterMap Docket.picture).map some = out.map Docket.picture := by
  induction out with
  | nil => rfl
  | cons D ds ih =>
    have hD := h D (List.mem_cons_self _ _)
    cases hp : D.picture with
    | none => simp [hp] at hD
    | some x =>
      simp [List.filterMap_cons, hp, ih (fun E hE => h E (List.mem_cons_of_mem _ hE))]

/-- The pictures still in the queue are those accepted and not yet returned. -/
theorem Trace.balance {q : InputQueue} {out : List Docket} {acc : List PictureWrapper}
    {planned unplanned : List Piece} {vs : List View} (h : Trace q out acc planned unplanned vs) :
    out.length + ((q.state.entries.filterMap Piece.picture).length +
      (q.state.entriesPreanalysis.filterMap Piece.picture).length) = acc.length := by
  have hl := h.pictures.length_eq
  have ha := congrArg List.length (filterMap_attached out h.attached)
  simp only [List.length_map, List.length_append] at hl ha
  omega

theorem Trace.stamp {q : InputQueue} {out : List Docket} {acc : List PictureWrapper}
    {planned unplanned : List Piece} {vs : List View} (h : Trace q out acc planned unplanned vs)
    (hne : q.state.entries ≠ []) : ∃ t ts, q.state.timestamps = t :: ts := by
  have hb := h.balance
  have hp := h.shape.pending hne
  have hsv : acc.length ≤ (slotValues acc).length := by
    match acc with
    | [] => simp [slotValues]
    | [a] => simp [slotValues]
    | a :: b :: r => simp [slotValues]
  have hst := congrArg List.length h.stamps
  simp only [List.length_map, List.length_drop] at hst
  cases hts : q.state.timestamps with
  | nil => rw [hts] at hst; simp only [List.length_nil] at hst; omega
  | cons t ts => exact ⟨t, ts, rfl⟩

/-- Once the end of the input has been signalled, `getDocket` returns a docket
whenever the window is not empty (base GOP size 1 or 8, intra period at least 1). -/
theorem Trace.progress {q : InputQueue} {out : List Docket} {acc : List PictureWrapper}
    {planned unplanned : List Piece} {vs : List View} (h : Trace q out acc planned unplanned vs)
    (hfin : q.state.finish = true) (hm : q.state.maxGopM = 1 ∨ q.state.maxGopM = 8)
    (hn : 1 ≤ q.state.maxGopN) (hne : q.state.entries ≠ []) :
    ∃ q' D, q.getDocket = .ok (q', some D) := by
  obtain ⟨t, ts, hts⟩ := h.stamp hne
  obtain ⟨e1, -, e3, -, e5, e6, e7, e8, e9, -⟩ := swapped_fields q
  have h0 := h.shape.swapped
  rw [getDocket_eq, if_neg (by simp [hfin])]
  by_cases hp : planned = []
  · subst hp
    have hvs : vs = [] := by
      have := view_length h.shape.views
      exact List.length_eq_zero.mp this.symm
    subst hvs
    have hw : q.swapped.entries = unplanned := by rw [h0.window]; rfl
    have hun : unplanned ≠ [] := by rw [← hw, e1]; exact hne
    have hblank : Blank q.swapped.entries := by
      rw [hw]; exact fun p hp => (h0.unplanned p hp).1
    have hidr := decideIdr_ge q.swapped (by rw [e9]; exact hn) h0.front (by
      have := h0.idr
      simpa using this)
    have hproc := process_planning q.swapped (by rw [hw]; exact hun) hblank
      (by rw [e8]; exact hm) hidr
    obtain ⟨g, hg, hfeas, hoff, hfit⟩ := effective_feasible q.swapped.decideIdr
      (by rw [(decideIdr_fields q.swapped).2.1, e8]; exact hm)
      (by rw [decideIdr_entries]; exact List.length_pos.mpr (by rw [hw]; exact hun)) hidr
    have hfit' := hfit (by rw [(decideIdr_fields q.swapped).2.2.1, e5]; exact hfin)
    rw [decideIdr_entries] at hfit'
    rw [if_neg (by rw [hg]; omega)] at hproc
    rw [hproc]
    simp only
    obtain ⟨-, hplan⟩ := h0.plan hun (by rw [e8]; exact hm) hproc
    rcases hplan with ⟨-, -, hf, -⟩ | ⟨g', hg'1, hg'2, hg'3, -, hs2, hwin⟩
    · rw [e5, hfin] at hf; cases hf
    · have hne0 : overlay q.swapped.decideIdr.plan (unplanned.take g') ≠ [] := by
        intro hx
        have := congrArg List.length hx
        rw [overlay_length, List.length_take] at this
        simp only [List.length_nil] at this
        omega
      have hts2 : ({ q.swapped.decideIdr with
          gopSize := q.swapped.decideIdr.effective.1
          entries := overlay q.swapped.decideIdr.plan q.swapped.entries } : State).timestamps
          = t :: ts := by
        show q.swapped.decideIdr.timestamps = _
        rw [(decideIdr_fields q.swapped).2.2.2.2.1, e3, hts]
      obtain ⟨i, vs', p, d, -, -, -, -, -, hpl, -⟩ := hwin.pull hne0 t ts hts2
      rw [hpl]
      exact ⟨_, _, rfl⟩
  · have hts0 : q.swapped.timestamps = t :: ts := by rw [e3, hts]
    obtain ⟨i, vs', p, d, -, -, -, -, hproc, hpl, -⟩ := h0.pull hp t ts hts0
    rw [hproc]
    simp only
    rw [hpl]
    exact ⟨_, _, rfl⟩

theorem getDocket_empty {q : InputQueue} (he : q.state.entries = []) :
    ∃ q', q.getDocket = .ok (q', none) ∧ q'.state.entries = [] ∧
      q'.state.entriesPreanalysis = q.state.entriesPreanalysis := by
  rw [getDocket_eq]
  split_ifs with hd
  · exact ⟨q, rfl, he, rfl⟩
  · obtain ⟨e1, e2, -⟩ := swapped_fields q
    have he' : q.swapped.entries = [] := by rw [e1, he]
    rw [process_noop q.swapped (Or.inl he')]
    simp only
    rw [pull_unplanned q.swapped (by rw [he']; intro p hp; cases hp)]
    exact ⟨_, rfl, he', e2⟩

/-- At the end of the stream the driver loop returns every picture still in the
queue and then stops (base GOP size 1 or 8, intra period at least 1). -/
theorem drain_spec (fuel : Nat) {q : InputQueue} {out : List Docket}
    {acc : List PictureWrapper} (h : Reach q out acc) (hfin : q.state.finish = true)
    (hm : q.state.maxGopM = 1 ∨ q.state.maxGopM = 8) (hn : 1 ≤ q.state.maxGopN)
    (hfuel : acc.length < out.length + fuel) :
    ∃ q' outs, q.drain fuel = .ok (q', outs, true) ∧ Reach q' (out ++ outs) acc ∧
      q'.state.entries = [] ∧ q'.state.entriesPreanalysis = [] := by
  induction fuel generalizing q out with
  | zero =>
    obtain ⟨planned, unplanned, vs, ht⟩ := h
    have := ht.balance
    omega
  | succ n ih =>
    have hpic : ∀ p ∈ q.state.entriesPreanalysis, p.done = false := by
      obtain ⟨planned, unplanned, vs, ht⟩ := h
      exact fun p hp => (ht.shape.pre p hp).2
    have hstep : q.step Op.preanalyse = .ok
        ((if q.state.entriesPreanalysis.length ≥ 10 ∨ q.state.finish = true then
          { q with state := { q.state with
              entriesPreanalysis :=
                q.state.entriesPreanalysis.drop (min q.state.entriesPreanalysis.length 10)
              entries := q.state.entries ++
                q.state.entriesPreanalysis.take (min q.state.entriesPreanalysis.length 10) } }
        else q), none) := by
      simp only [InputQueue.step, preanalyse_eq q hpic, bind, Except.bind, pure, Except.pure]
    rw [if_pos (Or.inr hfin)] at hstep
    obtain ⟨hreach1, hcfg1⟩ := h.step hstep
    simp only [Option.toList, List.append_nil, accepted] at hreach1
    have hpre : q.preanalyse = .ok { q with state := { q.state with
        entriesPreanalysis :=
          q.state.entriesPreanalysis.drop (min q.state.entriesPreanalysis.length 10)
        entries := q.state.entries ++
          q.state.entriesPreanalysis.take (min q.state.entriesPreanalysis.length 10) } } := by
      rw [preanalyse_eq q hpic, if_pos (Or.inr hfin)]
    generalize hq1 : ({ q with state := { q.state with
        entriesPreanalysis :=
          q.state.entriesPreanalysis.drop (min q.state.entriesPreanalysis.length 10)
        entries := q.state.entries ++
          q.state.entriesPreanalysis.take (min q.state.entriesPreanalysis.length 10) } } :
        InputQueue) = q1 at hreach1 hcfg1 hpre
    have hfin1 : q1.state.finish = true := hcfg1.2.2.2.2 hfin
    have hm1 : q1.state.maxGopM = 1 ∨ q1.state.maxGopM = 8 := by rw [hcfg1.2.1]; exact hm
    have hn1 : 1 ≤ q1.state.maxGopN := by rw [hcfg1.1]; exact hn
    obtain ⟨planned, unplanned, vs, ht1⟩ := hreach1
    unfold InputQueue.drain
    simp only [hpre, bind, Except.bind]
    by_cases he : q1.state.entries = []
    · obtain ⟨q2, hg, he2, hp2⟩ := getDocket_empty he
      rw [hg]
      simp only [pure, Except.pure]
      refine ⟨q2, [], rfl, ?_, he2, ?_⟩
      · obtain ⟨p', u', v', ht2⟩ := ht1.afterGetDocket hg
        exact ⟨p', u', v', by simpa using ht2⟩
      · rw [hp2, ← hq1]
        rw [← hq1] at he
        have he' : q.state.entries ++
            q.state.entriesPreanalysis.take (min q.state.entriesPreanalysis.length 10) = [] := he
        have htake := (List.append_eq_nil.mp he').2
        show q.state.entriesPreanalysis.drop (min q.state.entriesPreanalysis.length 10) = []
        have hlen := congrArg List.length htake
        simp only [List.length_take, List.length_nil] at hlen
        apply List.drop_eq_nil_of_le
        omega
    · obtain ⟨q2, D, hg⟩ := ht1.progress hfin1 hm1 hn1 he
      rw [hg]
      simp only
      have hstep2 : q1.step Op.getDocket = .ok (q2, some D) := hg
      have hreach1' : Reach q1 out acc := ⟨planned, unplanned, vs, ht1⟩
      obtain ⟨hreach2, hcfg2⟩ := Reach.step hreach1' hstep2
      simp only [Option.toList, accepted, List.append_nil] at hreach2
      have hbal : (out ++ [D]).length ≤ acc.length := by
        obtain ⟨p', u', v', ht2⟩ := hreach2
        have := ht2.balance
        omega
      obtain ⟨q3, outs, hdr, hreach3, he3, hp3⟩ := ih hreach2 (hcfg2.2.2.2.2 hfin1)
        (by rw [hcfg2.2.1]; exact hm1) (by rw [hcfg2.1]; exact hn1) (by
          simp only [List.length_append, List.length_singleton] at hbal ⊢
          omega)
      rw [hdr]
      simp only [pure, Except.pure]
      refine ⟨q3, D :: outs, rfl, ?_, he3, hp3⟩
      simpa using hreach3

/-- Claim C1: for base GOP size 1 or 8 and intra period at least 1, after every run,
once `endOfInput` is signalled and the driver repeats `preanalyse` followed by
`getDocket`, `getDocket` returns null within as many rounds as pictures were accepted
plus one; the dockets returned in total are as many as the pictures accepted, and their
pictures are the accepted pictures, each attached once and none empty. -/
theorem no_loss_no_duplication (maxGopN maxGopM : Int) (fieldCoding shotChange : Bool)
    (hn : 1 ≤ maxGopN) (hm : maxGopM = 1 ∨ maxGopM = 8) (ops : List Op) (q : InputQueue)
    (out : List Docket)
    (hrun : (InputQueue.new maxGopN maxGopM fieldCoding shotChange).run ops = .ok (q, out))
    (fuel : Nat) (hfuel : (accepted ops).length < fuel) :
    ∃ q' outs, q.endOfInput.drain fuel = .ok (q', outs, true) ∧
      (out ++ outs).length = (accepted ops).length ∧
      ((out ++ outs).map Docket.picture).Perm ((accepted ops).map some) := by
  obtain ⟨hreach, hcfg⟩ := reach_of_run hrun
  have hstep : q.step Op.endOfInput = .ok (q.endOfInput, none) := rfl
  obtain ⟨hreach1, -⟩ := hreach.step hstep
  simp only [Option.toList, List.append_nil, accepted] at hreach1
  obtain ⟨q', outs, hdr, hreach', he, hp⟩ := drain_spec fuel hreach1 rfl
    (by show q.state.maxGopM = 1 ∨ q.state.maxGopM = 8; rw [hcfg.2.1]; exact hm)
    (by show 1 ≤ q.state.maxGopN; rw [hcfg.1]; exact hn) (by omega)
  refine ⟨q', outs, hdr, ?_, ?_⟩
  · obtain ⟨p', u', v', ht⟩ := hreach'
    have := ht.balance
    rw [he, hp] at this
    simpa using this
  · obtain ⟨p', u', v', ht⟩ := hreach'
    have hpic := ht.pictures
    rw [he, hp] at hpic
    simp only [List.filterMap_nil, List.append_nil] at hpic
    rw [← filterMap_attached _ ht.attached]
    exact hpic.map some

theorem no_loss_no_duplication_witness :
    (1 : Int) ≤ 100 ∧ ((8 : Int) = 1 ∨ (8 : Int) = 8) ∧
    (InputQueue.new 100 8 false false).run witnessPrefix =
      .ok (witnessPrefixQueue, witnessPrefixOut) ∧
    (accepted witnessPrefix).length < 10 ∧
    ∃ q' outs, witnessPrefixQueue.endOfInput.drain 10 = .ok (q', outs, true) ∧
      (witnessPrefixOut ++ outs).length = (accepted witnessPrefix).length ∧
      ((witnessPrefixOut ++ outs).map Docket.picture).Perm ((accepted witnessPrefix).map some) :=
  ⟨by decide, by decide, by decide, by decide,
    no_loss_no_duplication 100 8 false false (by decide) (by decide) witnessPrefix
      witnessPrefixQueue witnessPrefixOut (by decide) 10 (by decide)⟩

theorem Window.handOver {q : InputQueue} {s : State} {planned unplanned : List Piece}
    {vs : List View} (hproc : q.swapped.process = .ok s) (h : Window s planned unplanned vs)
    (hne : planned ≠ [])
    (hdefer : ¬ (q.state.pictureInputCount = 1 ∧ q.state.finish = false))
    (t : Timestamp) (ts : List Timestamp) (ht : s.timestamps = t :: ts) :
    ∃ i vs' p, viewStep vs = some (i, vs') ∧ planned[i]? = some p ∧ p.done = false ∧
      ∃ D, p.handOver t = some D ∧
      q.getDocket = .ok (q.pulled s planned unplanned i t ts, some D) ∧
      Window (q.pulled s planned unplanned i t ts).state (afterPull planned i t.timestamp)
        unplanned vs' := by
  obtain ⟨i, vs', p, d, hstep, hp, hd, hpd, -, hpl, hwin⟩ := h.pull hne t ts ht
  refine ⟨i, vs', p, hstep, hp, hpd,
    { d with picture := p.picture, aqInfo := p.aqInfo, dts := t.timestamp }, ?_, ?_, hwin⟩
  · unfold Piece.handOver
    rw [hd]
    rfl
  · rw [getDocket_eq, if_neg hdefer, hproc]
    simp only
    rw [hpl]
    rfl

theorem afterPull_undone (planned : List Piece) (i : Nat) (dts : Int) (j : Nat) (p : Piece)
    (h : (afterPull planned i dts)[j]? = some p) (hd : p.done = false) :
    planned[j + retiredBy planned i]? = some p := by
  rw [afterPull_getElem?] at h
  cases hp0 : planned[j + retiredBy planned i]? with
  | none => simp [hp0] at h
  | some p0 =>
    simp only [hp0, Option.map_some', Option.some.injEq] at h
    unfold pulled at h
    split_ifs at h with hi
    · rw [← h] at hd
      simp [Piece.done, Piece.release] at hd
    · rw [h]

theorem process_pulled {q : InputQueue} {s : State} {planned unplanned : List Piece}
    {vs' : List View} {i : Nat} {t : Timestamp} {ts : List Timestamp}
    (hwin : Window (q.pulled s planned unplanned i t ts).state (afterPull planned i t.timestamp)
      unplanned vs')
    (hne : afterPull planned i t.timestamp ≠ []) :
    (q.pulled s planned unplanned i t ts).swapped.process =
      .ok (q.pulled s planned unplanned i t ts).swapped := by
  apply process_noop
  right
  rw [hwin.swapped.window]
  exact front_docket_of_views hwin.views hne

/-- Successive calls of `getDocket` release the entries of the planned part in the
order that the view steps give: the dockets returned are those of the entries of the
group as it was planned (`base`), each with the picture of its entry and the next
timestamp slot. -/
theorem release_order (n : Nat) {q : InputQueue} {s : State}
    {planned unplanned : List Piece} {vs : List View} (offset : Nat) (base : List Piece)
    (order : List Nat) (stamps ts : List Timestamp)
    (hproc : q.swapped.process = .ok s) (h : Window s planned unplanned vs)
    (hbase : ∀ (j : Nat) (p : Piece), planned[j]? = some p → p.done = false →
      base[j + offset]? = some p)
    (horder : viewOrder n offset vs = some order)
    (hdefer : ¬ (q.state.pictureInputCount = 1 ∧ q.state.finish = false))
    (hcount : s.pictureInputCount = q.state.pictureInputCount ∧ s.finish = q.state.finish)
    (hts : s.timestamps = stamps ++ ts) (hlen : stamps.length = n) :
    ∃ q' Ds, q.run (List.replicate n Op.getDocket) = .ok (q', Ds) ∧
      Ds.map some = List.zipWith (fun o t => (base[o]?).bind (fun p => p.handOver t))
        order stamps := by
  induction n generalizing q s planned vs offset order stamps with
  | zero =>
    simp only [viewOrder, Option.some.injEq] at horder
    subst horder
    exact ⟨q, [], rfl, rfl⟩
  | succ n ih =>
    unfold viewOrder at horder
    cases hstep : viewStep vs with
    | none => rw [hstep] at horder; cases horder
    | some r =>
      obtain ⟨i, vs'⟩ := r
      rw [hstep] at horder
      simp only at horder
      cases hrec : viewOrder n (offset + (vs.length - vs'.length)) vs' with
      | none => rw [hrec] at horder; cases horder
      | some rest =>
        rw [hrec] at horder
        simp only [Option.map_some', Option.some.injEq] at horder
        subst horder
        match stamps, hlen, hts with
        | t :: stamps', hlen, hts =>
          simp only [List.length_cons, Nat.add_right_cancel_iff] at hlen
          have hne : planned ≠ [] := by
            intro hp
            subst hp
            have := view_length h.views
            have hv : vs = [] := List.length_eq_zero.mp this.symm
            subst hv
            simp [viewStep, viewSelect] at hstep
          obtain ⟨i', vs'', p, hstep', hp, hpd, D, hD, hg, hwin⟩ :=
            h.handOver hproc hne hdefer t (stamps' ++ ts) hts
          rw [hstep] at hstep'
          simp only [Option.some.injEq, Prod.mk.injEq] at hstep'
          obtain ⟨hi, hv⟩ := hstep'
          subst hi hv
          have hr : vs.length - vs'.length = retiredBy planned i := by
            have h1 := afterPull_length planned i t.timestamp
            have h2 := view_length hwin.views
            have h3 := view_length h.views
            omega
          have hbase' : ∀ (j : Nat) (p' : Piece),
              (afterPull planned i t.timestamp)[j]? = some p' → p'.done = false →
              base[j + (offset + (vs.length - vs'.length))]? = some p' := by
            intro j p' hj hd
            have := hbase _ p' (afterPull_undone planned i t.timestamp j p' hj hd) hd
            rw [hr, ← this]
            congr 1
            omega
          have hdefer' : ¬ ((q.pulled s planned unplanned i t (stamps' ++ ts)).state.pictureInputCount
              = 1 ∧ (q.pulled s planned unplanned i t (stamps' ++ ts)).state.finish = false) := by
            show ¬ (s.pictureInputCount = 1 ∧ s.finish = false)
            rw [hcount.1, hcount.2]
            exact hdefer
          have hrest : ∃ q' Ds, (q.pulled s planned unplanned i t (stamps' ++ ts)).run
              (List.replicate n Op.getDocket) = .ok (q', Ds) ∧
              Ds.map some = List.zipWith (fun o t => (base[o]?).bind (fun p => p.handOver t))
                rest stamps' := by
            cases n with
            | zero =>
              simp only [viewOrder, Option.some.injEq] at hrec
              subst hrec
              exact ⟨_, [], rfl, rfl⟩
            | succ m =>
              have hne' : afterPull planned i t.timestamp ≠ [] := by
                intro hp
                have := view_length hwin.views
                rw [hp] at this
                have hv : vs' = [] := List.length_eq_zero.mp this.symm
                subst hv
                simp [viewOrder, viewStep, viewSelect] at hrec
              have hproc' := process_pulled hwin hne'
              obtain ⟨e1, e2, e3, e4, e5, -⟩ :=
                swapped_fields (q.pulled s planned unplanned i t (stamps' ++ ts))
              exact ih (offset + (vs.length - vs'.length)) rest stamps' hproc' hwin.swapped
                hbase' hrec hdefer' ⟨e4, e5⟩ (by rw [e3]; rfl) hlen
          obtain ⟨q', Ds, hrun, hDs⟩ := hrest
          refine ⟨q', D :: Ds, ?_, ?_⟩
          · simp only [List.replicate_succ, InputQueue.run, InputQueue.step, hg, hrun, bind,
              Except.bind, pure, Except.pure, Option.toList, List.singleton_append]
          · simp only [List.map_cons, List.zipWith_cons_cons, hDs, hbase i p hp hpd]
            rw [← hD]
            rfl

theorem pyramid_plan (f : Int) (finish : Bool) :
    slotSynthesise f 8 finish LastPicture.P (List.replicate 8 none) = (pyramid f).map some := by
  cases finish <;> rfl

theorem effective_P {s : State} {g : Int} (h : s.effective = (g, LastPicture.P)) :
    s.maxGopM = g ∧ g < s.sequenceIdr - s.sequenceFront + 1 ∧
      ¬ (s.finish ∧ (s.entries.length : Int) < s.maxGopM) := by
  unfold State.effective at h
  simp only at h
  split_ifs at h with h1 h2 h2
  · cases h
  · cases h
  · cases h
  · simp only [Prod.mk.injEq, and_true] at h
    refine ⟨h, ?_, h1⟩
    simp only at h2
    omega

theorem pyramid_views (f : Int) :
    freshViews (((pyramid f).map some).map slotView) = pyramidViews := by
  rfl

theorem pyramid_drains : viewDrains 8 pyramidViews = true := by
  decide

theorem pyramid_order : viewOrder 8 0 pyramidViews = some [7, 3, 1, 0, 2, 5, 4, 6] := by
  decide

theorem pyramid_release (f : Int) (p1 p2 p3 p4 p5 p6 p7 p8 : Piece)
    (t1 t2 t3 t4 t5 t6 t7 t8 : Timestamp) :
    List.zipWith
      (fun o t => ((overlay ((pyramid f).map some) [p1, p2, p3, p4, p5, p6, p7, p8])[o]?).bind
        (fun p => p.handOver t))
      [7, 3, 1, 0, 2, 5, 4, 6] [t1, t2, t3, t4, t5, t6, t7, t8] =
    List.zipWith (pyramidRelease f [p1, p2, p3, p4, p5, p6, p7, p8])
      [8, 4, 2, 1, 3, 6, 5, 7] [t1, t2, t3, t4, t5, t6, t7, t8] := by
  rfl

theorem length_eight {α : Type} (l : List α) (h : l.length = 8) :
    ∃ a1 a2 a3 a4 a5 a6 a7 a8, l = [a1, a2, a3, a4, a5, a6, a7, a8] := by
  rcases l with _ | ⟨a1, _ | ⟨a2, _ | ⟨a3, _ | ⟨a4, _ | ⟨a5, _ | ⟨a6, _ | ⟨a7, _ |
    ⟨a8, _ | ⟨a9, l⟩⟩⟩⟩⟩⟩⟩⟩⟩
  all_goals first
    | exact ⟨_, _, _, _, _, _, _, _, rfl⟩
    | (exfalso; simp only [List.length_cons, List.length_nil] at h; omega)

/-- Claim C4: with base GOP size 8, whenever `getDocket` is called on a window without
dockets and the planner (`process`) commits a group of effective size 8 that is not
terminated by an intra picture, the dockets written to the positions 1..8 of the group
are exactly those of the steady-state pyramid (P8 TRAIL_R qp 1 {-8}; P4 TRAIL_R qp 2
{-4,+4}; P2 TRAIL_R qp 3 {-2,+2,+6}; P1 TRAIL_N qp 4 {-1,+1,+3,+7}; P3 TRAIL_N qp 4
{-3,-1,+1,+5}; P6 TRAIL_R qp 3 {-6,-2,+2}; P5 TRAIL_N qp 4 {-5,-1,+1,+3}; P7 TRAIL_N
qp 4 {-7,-1,+1}; all of slice type B) and eight successive calls of `getDocket` return
the positions 8, 4, 2, 1, 3, 6, 5, 7 in this order, each with the picture of its
window entry and the next decode timestamp. -/
theorem steady_state_pyramid (q : InputQueue) (group rest : List Piece)
    (stamps ts : List Timestamp)
    (hm : q.state.maxGopM = 8)
    (hw : q.state.entries = group ++ rest) (hlen : group.length = 8)
    (hun : Unplanned q.state.entries) (hpre : Unplanned q.state.entriesPreanalysis)
    (hfront : 0 ≤ q.state.sequenceFront)
    (heff : q.swapped.decideIdr.effective = (8, LastPicture.P))
    (hdefer : ¬ (q.state.pictureInputCount = 1 ∧ q.state.finish = false))
    (hts : q.state.timestamps = stamps ++ ts) (hsl : stamps.length = 8) :
    (∃ s, q.swapped.process = .ok s ∧
      s.entries = overlay ((pyramid q.state.sequenceFront).map some) group ++ rest) ∧
    ∃ q' Ds, q.run (List.replicate 8 Op.getDocket) = .ok (q', Ds) ∧
      Ds.map some = List.zipWith (pyramidRelease q.state.sequenceFront group)
        [8, 4, 2, 1, 3, 6, 5, 7] stamps := by
  obtain ⟨e1, e2, e3, e4, e5, e6, e7, e8, -⟩ := swapped_fields q
  obtain ⟨hF, hM, hfin, hpre', hts', hcnt, -⟩ := decideIdr_fields q.swapped
  obtain ⟨-, hgt, -⟩ := effective_P heff
  have hne : q.swapped.entries ≠ [] := by
    rw [e1, hw]
    intro h0
    have := congrArg List.length h0
    simp [hlen] at this
  have hblank : Blank q.swapped.entries := by
    rw [e1]; exact fun p hp => (hun p hp).1
  have hplan : q.swapped.decideIdr.plan = (pyramid q.state.sequenceFront).map some := by
    unfold State.plan
    rw [heff, hF, e6]
    exact pyramid_plan _ _
  have hproc := process_planning q.swapped hne hblank (Or.inr (by rw [e8]; exact hm))
    (by omega)
  have hge : ¬ ((q.swapped.entries.length : Int) < q.swapped.decideIdr.effective.1) := by
    rw [heff, e1, hw]
    simp only [List.length_append, hlen]
    push_cast
    omega
  rw [if_neg hge, hplan, e1, hw] at hproc
  have hsplit : overlay ((pyramid q.state.sequenceFront).map some) (group ++ rest) =
      overlay ((pyramid q.state.sequenceFront).map some) group ++ rest := by
    have := overlay_split ((pyramid q.state.sequenceFront).map some) (group ++ rest)
      (by simp [pyramid, hlen])
    have h8 : ((pyramid q.state.sequenceFront).map some).length = group.length := by
      simp [pyramid, hlen]
    rw [h8, List.take_left, List.drop_left] at this
    exact this
  refine ⟨⟨_, hproc, hsplit⟩, ?_⟩
  have hview : (overlay ((pyramid q.state.sequenceFront).map some) group).map Piece.view =
      (freshViews (((pyramid q.state.sequenceFront).map some).map slotView)).map some := by
    apply overlay_view
    · simp [pyramid, hlen]
    · intro p hp
      exact (hun p (by rw [hw]; exact List.mem_append_left _ hp)).2
    · rfl
  have hwin : Window
      { q.swapped.decideIdr with
          gopSize := q.swapped.decideIdr.effective.1
          entries := overlay ((pyramid q.state.sequenceFront).map some) (group ++ rest) }
      (overlay ((pyramid q.state.sequenceFront).map some) group) rest
      pyramidViews := by
    refine ⟨hsplit, ?_, ?_, ?_, ⟨8, pyramid_drains⟩, ?_, ?_⟩
    · rw [hview, pyramid_views]
    · intro p hp
      exact hun p (by rw [hw]; exact List.mem_append_right _ hp)
    · show Unplanned q.swapped.decideIdr.entriesPreanalysis
      rw [hpre', e2]; exact hpre
    · show ((overlay ((pyramid q.state.sequenceFront).map some) group).length : Int) ≤
        q.swapped.decideIdr.sequenceIdr - q.swapped.decideIdr.sequenceFront + 1
      rw [overlay_length, hlen]
      push_cast
      omega
    · show 0 ≤ q.swapped.decideIdr.sequenceFront
      rw [hF, e6]; exact hfront
  obtain ⟨q', Ds, hrun, hDs⟩ := release_order 8 0
    (overlay ((pyramid q.state.sequenceFront).map some) group) [7, 3, 1, 0, 2, 5, 4, 6]
    stamps ts hproc hwin (fun j p hj _ => hj) pyramid_order hdefer
    ⟨by show q.swapped.decideIdr.pictureInputCount = _; rw [hcnt, e4],
     by show q.swapped.decideIdr.finish = _; rw [hfin, e5]⟩
    (by show q.swapped.decideIdr.timestamps = _; rw [hts', e3, hts]) hsl
  refine ⟨q', Ds, hrun, ?_⟩
  rw [hDs]
  obtain ⟨p1, p2, p3, p4, p5, p6, p7, p8, rfl⟩ := length_eight group hlen
  obtain ⟨t1, t2, t3, t4, t5, t6, t7, t8, rfl⟩ := length_eight stamps hsl
  exact pyramid_release _ _ _ _ _ _ _ _ _ _ _ _ _ _ _ _ _

theorem steady_state_pyramid_witness :
    pyramidQueue.state.entries.length = 8 ∧
    pyramidQueue.swapped.decideIdr.effective = (8, LastPicture.P) ∧
    (∃ s, pyramidQueue.swapped.process = .ok s ∧
      s.entries = overlay ((pyramid pyramidQueue.state.sequenceFront).map some)
        (pyramidQueue.state.entries.take 8) ++ pyramidQueue.state.entries.drop 8) ∧
    ∃ q' Ds, pyramidQueue.run (List.replicate 8 Op.getDocket) = .ok (q', Ds) ∧
      Ds.map some = List.zipWith
        (pyramidRelease pyramidQueue.state.sequenceFront (pyramidQueue.state.entries.take 8))
        [8, 4, 2, 1, 3, 6, 5, 7] (pyramidQueue.state.timestamps.take 8) :=
  ⟨by decide, by decide,
    steady_state_pyramid pyramidQueue (pyramidQueue.state.entries.take 8)
      (pyramidQueue.state.entries.drop 8) (pyramidQueue.state.timestamps.take 8)
      (pyramidQueue.state.timestamps.drop 8) (by decide) (by decide) (by decide)
      (by unfold Unplanned; decide) (by unfold Unplanned; decide) (by decide) (by decide)
      (by decide) (by decide) (by decide)⟩

/-! ## The configuration error -/

theorem bind_configuration {α β : Type} (x : Except Failure α) (f : α → Except Failure β)
    (hx : x ≠ .error Failure.configuration)
    (hf : ∀ a, f a ≠ .error Failure.configuration) :
    (x >>= f) ≠ .error Failure.configuration := by
  cases x with
  | error e =>
    intro h
    apply hx
    simpa [bind, Except.bind] using h
  | ok a => exact hf a

theorem ite_configuration {α : Type} (c : Prop) [Decidable c] (x y : Except Failure α)
    (hx : c → x ≠ .error Failure.configuration) (hy : ¬ c → y ≠ .error Failure.configuration) :
    (if c then x else y) ≠ .error Failure.configuration := by
  by_cases h : c
  · rw [if_pos h]; exact hx h
  · rw [if_neg h]; exact hy h

theorem pure_configuration {α : Type} (a : α) :
    (pure a : Except Failure α) ≠ .error Failure.configuration := by
  intro h
  cases h

theorem atE_configuration (es : List Piece) (k : Int) :
    atE es k ≠ .error Failure.configuration := by
  unfold atE
  refine ite_configuration _ _ _ (fun _ => ?_) (fun _ => ?_)
  · cases es[k.toNat]? with
    | none => intro h; cases h
    | some p => intro h; cases h
  · intro h; cases h

theorem isValidReference_configuration (s : State) (i delta : Int) :
    s.isValidReference i delta ≠ .error Failure.configuration := by
  unfold State.isValidReference
  refine ite_configuration _ _ _ (fun _ => ?_) (fun _ => ?_)
  · intro h; cases h
  refine ite_configuration _ _ _ (fun _ => pure_configuration _) (fun _ => ?_)
  refine ite_configuration _ _ _ (fun _ => pure_configuration _) (fun _ => ?_)
  refine ite_configuration _ _ _ (fun _ => pure_configuration _) (fun _ => ?_)
  exact bind_configuration _ _ (atE_configuration _ _) (fun p => pure_configuration _)

theorem createDocket_configuration (s : State) (max i nut qpOffset : Int) (qpFactor : Nat)
    (ref1 ref2 ref3 ref4 : Int) :
    s.createDocket max i nut qpOffset qpFactor ref1 ref2 ref3 ref4 ≠
      .error Failure.configuration := by
  unfold State.createDocket
  refine ite_configuration _ _ _ (fun _ => ?_) (fun _ => ?_)
  · intro h; cases h
  refine ite_configuration _ _ _ (fun _ => ?_) (fun _ => pure_configuration _)
  refine bind_configuration _ _ (isValidReference_configuration _ _ _) (fun v1 => ?_)
  refine bind_configuration _ _ (isValidReference_configuration _ _ _) (fun v2 => ?_)
  refine bind_configuration _ _ (isValidReference_configuration _ _ _) (fun v3 => ?_)
  refine bind_configuration _ _ (isValidReference_configuration _ _ _) (fun v4 => ?_)
  exact bind_configuration _ _ (atE_configuration _ _) (fun p => pure_configuration _)

theorem applyRows_configuration (max nutR nutN : Int) (rows : List Row) (s : State) :
    s.applyRows max nutR nutN rows ≠ .error Failure.configuration := by
  induction rows generalizing s with
  | nil => exact pure_configuration _
  | cons r rows ih =>
    unfold State.applyRows
    exact bind_configuration _ _ (createDocket_configuration _ _ _ _ _ _ _ _ _ _) (fun s' => ih s')

theorem synthesise_configuration (s : State) (lastPicture : LastPicture) :
    s.synthesise lastPicture ≠ .error Failure.configuration := by
  rw [synthesise_eq]
  refine bind_configuration _ _ ?_ (fun r => applyRows_configuration _ _ _ _ _)
  unfold State.lastDocket
  cases lastPicture with
  | P =>
    exact bind_configuration _ _ (createDocket_configuration _ _ _ _ _ _ _ _ _ _)
      (fun s' => pure_configuration _)
  | zero => exact pure_configuration _
  | I =>
    exact bind_configuration _ _ (createDocket_configuration _ _ _ _ _ _ _ _ _ _)
      (fun s' => pure_configuration _)

theorem canEncodeRefs_configuration (es : List Piece) (i : Int) (refs : List Int) :
    canEncodeRefs es i refs ≠ .error Failure.configuration := by
  induction refs with
  | nil => exact pure_configuration _
  | cons d rest ih =>
    unfold canEncodeRefs
    exact bind_configuration _ _ (atE_configuration _ _)
      (fun p => bind_configuration _ _ ih (fun r => pure_configuration _))

theorem selectLoop_configuration (es : List Piece) (isIntraFrame : Option Nat)
    (rest : List Piece) (i : Nat) (last : Selection) :
    selectLoop es isIntraFrame rest i last ≠ .error Failure.configuration := by
  induction rest generalizing i last with
  | nil => exact pure_configuration _
  | cons p rest ih =>
    unfold selectLoop
    cases p.docket with
    | none => exact pure_configuration _
    | some d =>
      exact bind_configuration _ _ (canEncodeRefs_configuration _ _ _)
        (fun c => ite_configuration _ _ _ (fun _ => pure_configuration _) (fun _ => ih _ _))

theorem pull_configuration (s : State) : s.pull ≠ .error Failure.configuration := by
  unfold State.pull
  refine bind_configuration _ _ (selectLoop_configuration _ _ _ _ _) (fun sel => ?_)
  simp only
  split
  · split
    · intro h; cases h
    · exact pure_configuration _
  · exact pure_configuration _

theorem process_configuration (s : State) (hm : s.maxGopM = 1 ∨ s.maxGopM = 8) :
    s.process ≠ .error Failure.configuration := by
  by_cases h : s.entries.isEmpty = true ∨ (s.entries.head?.bind Piece.docket).isSome = true
  · unfold State.process
    rw [if_pos h]
    exact pure_configuration _
  · have hne : s.entries ≠ [] := by
      intro h0
      apply h
      left
      simp [h0]
    have hfront : (s.entries.head?.bind Piece.docket) = none := by
      cases hd : s.entries.head?.bind Piece.docket with
      | none => rfl
      | some d =>
        exfalso
        apply h
        right
        simp [hd]
    rw [process_unfold s hne hfront hm]
    exact ite_configuration _ _ _ (fun _ => by intro h; cases h)
      (fun _ => synthesise_configuration _ _)

theorem process_throws (s : State) (h1 : s.maxGopM ≠ 1) (h8 : s.maxGopM ≠ 8)
    (hne : s.entries ≠ []) (hfront : (s.entries.head?.bind Piece.docket) = none) :
    s.process = .error Failure.configuration := by
  unfold State.process
  have h : ¬ (s.entries.isEmpty = true ∨ (s.entries.head?.bind Piece.docket).isSome = true) := by
    rw [hfront]
    simp [hne]
  rw [if_neg h]
  have hM : s.decideIdr.maxGopM = s.maxGopM := (decideIdr_fields s).2.1
  simp only [pure_bind, hM]
  rw [if_pos ⟨h1, h8⟩]
  rfl

/-- Claim C8: for a base GOP size other than 1 and 8, `process` raises the configuration
error whenever it is called on a non-empty window whose front entry has no docket, and so
does `getDocket` unless it returns early without calling the planner; the error is raised
after the intra-refresh decision, which leaves the window and the preanalysis queue as they
were, and before any docket is created.  For a base GOP size of 1 or 8 neither `process`
nor `getDocket` ever raises this error. -/
theorem fatal_configuration (q : InputQueue) :
    (q.state.maxGopM ≠ 1 → q.state.maxGopM ≠ 8 → q.state.entries ≠ [] →
      (q.state.entries.head?.bind Piece.docket) = none →
        q.state.process = .error Failure.configuration ∧
        q.swapped.process = .error Failure.configuration ∧
        q.state.decideIdr.entries = q.state.entries ∧
        q.swapped.decideIdr.entries = q.state.entries ∧
        (¬ (q.state.pictureInputCount = 1 ∧ q.state.finish = false) →
          q.getDocket = .error Failure.configuration)) ∧
    (q.state.maxGopM = 1 ∨ q.state.maxGopM = 8 →
      q.state.process ≠ .error Failure.configuration ∧
      q.getDocket ≠ .error Failure.configuration) := by
  obtain ⟨e1, -, -, -, -, -, -, e8, -⟩ := swapped_fields q
  refine ⟨fun h1 h8 hne hfront => ⟨process_throws _ h1 h8 hne hfront, ?_, decideIdr_entries _, ?_,
    fun hd => ?_⟩, fun hm => ⟨process_configuration _ hm, ?_⟩⟩
  · exact process_throws _ (by rw [e8]; exact h1) (by rw [e8]; exact h8) (by rw [e1]; exact hne)
      (by rw [e1]; exact hfront)
  · rw [decideIdr_entries, e1]
  · rw [getDocket_eq, if_neg hd,
      process_throws _ (by rw [e8]; exact h1) (by rw [e8]; exact h8) (by rw [e1]; exact hne)
        (by rw [e1]; exact hfront)]
  · rw [getDocket_eq]
    refine ite_configuration _ _ _ (fun _ => by intro h; cases h) (fun _ => ?_)
    have hp := process_configuration q.swapped (by rw [e8]; exact hm)
    cases hs : q.swapped.process with
    | error e =>
      rw [hs] at hp
      intro h
      apply hp
      simpa using h
    | ok s =>
      simp only
      have hq := pull_configuration s
      cases hl : s.pull with
      | error e =>
        rw [hl] at hq
        intro h
        apply hq
        simpa using h
      | ok r =>
        intro h
        cases h

theorem fatal_configuration_witness :
    configQueue.state.maxGopM = 3 ∧ configQueue.state.entries.length = 2 ∧
    configQueue.state.process = .error Failure.configuration ∧
    configQueue.getDocket = .error Failure.configuration ∧
    pyramidQueue.state.maxGopM = 8 ∧
    pyramidQueue.getDocket ≠ .error Failure.configuration :=
  ⟨by decide, by decide,
    ((fatal_configuration configQueue).1 (by decide) (by decide) (by decide) (by decide)).1,
    ((fatal_configuration configQueue).1 (by decide) (by decide) (by decide)
      (by decide)).2.2.2.2 (by decide),
    by decide, ((fatal_configuration pyramidQueue).2 (by decide)).2⟩

/-! ## Scene cuts -/

/-- Claim C6: for every baseline `f >= 0`, `computeNextIdr f D fieldCoding` is the least
position `i` with `f <= i < D` that is a multiple of the stride, whose index
`i >> (fieldCoding ? 1 : 0)` lies inside the flag list with a non-zero flag, and before
which no scanned position has an index outside the list (`cutAt`); it is `D` when there is
no such position.  In scene-cut mode, when the next intra picture lies behind the baseline
`sequenceFront` and the periodic default `sequenceIdr + maxGopN` does not, `process` on a
window without dockets returns with `sequenceIdr` set to that value: if a cut is flagged
before the periodic default, it is the first flagged position and not the default. -/
theorem scene_cut_placement (s : State) (f D : Int) (fc : Bool) (hf : 0 ≤ f) :
    ((cutAt s.m_shotChangeList fc f D (s.computeNextIdr f D fc) ∧
        ∀ j, cutAt s.m_shotChangeList fc f D j → s.computeNextIdr f D fc ≤ j) ∨
      (s.computeNextIdr f D fc = D ∧ ∀ j, ¬ cutAt s.m_shotChangeList fc f D j)) ∧
    (s.shotChange = true → s.sequenceFront = f → s.sequenceIdr + s.maxGopN = D →
      s.fieldCoding = fc → s.sequenceIdr < f → f ≤ D →
      s.entries ≠ [] → Blank s.entries → s.maxGopM = 1 ∨ s.maxGopM = 8 →
      ∃ s', s.process = .ok s' ∧ s'.sequenceIdr = s.computeNextIdr f D fc ∧
        ((∃ c, cutAt s.m_shotChangeList fc f D c) →
          cutAt s.m_shotChangeList fc f D s'.sequenceIdr ∧ s'.sequenceIdr < D ∧
          ∀ j, cutAt s.m_shotChangeList fc f D j → s'.sequenceIdr ≤ j)) := by
  have hspec := computeNextIdrLoop_spec s.m_shotChangeList fc D (D - f).toNat f hf (le_refl _)
  have hspec' : (cutAt s.m_shotChangeList fc f D (s.computeNextIdr f D fc) ∧
        ∀ j, cutAt s.m_shotChangeList fc f D j → s.computeNextIdr f D fc ≤ j) ∨
      (s.computeNextIdr f D fc = D ∧ ∀ j, ¬ cutAt s.m_shotChangeList fc f D j) := hspec
  refine ⟨hspec', ?_⟩
  intro hsc hfront hD hfc hlt hle hne hblank hm
  subst hfront hD hfc
  have hdec : s.decideIdr.sequenceIdr =
      s.computeNextIdr s.sequenceFront (s.sequenceIdr + s.maxGopN) s.fieldCoding := by
    unfold State.decideIdr
    rw [if_pos hsc, if_pos (by omega)]
  have hidr : s.decideIdr.sequenceFront ≤ s.decideIdr.sequenceIdr := by
    rw [hdec, (decideIdr_fields s).1]
    exact computeNextIdr_ge s _ _ _ hf hle
  have hproc := process_planning s hne hblank hm hidr
  have hres : ∃ s', s.process = .ok s' ∧ s'.sequenceIdr =
      s.computeNextIdr s.sequenceFront (s.sequenceIdr + s.maxGopN) s.fieldCoding := by
    split_ifs at hproc
    · exact ⟨_, hproc, hdec⟩
    · exact ⟨_, hproc, hdec⟩
  obtain ⟨s', hs', hval⟩ := hres
  refine ⟨s', hs', hval, ?_⟩
  rintro ⟨c, hc⟩
  rw [hval]
  rcases hspec' with ⟨h1, h2⟩ | ⟨-, h2⟩
  · exact ⟨h1, h1.2.1, h2⟩
  · exact absurd hc (h2 c)

theorem scene_cut_placement_witness :
    sceneQueue.state.sequenceFront = 1 ∧ sceneQueue.state.sequenceIdr = 0 ∧
    sceneQueue.state.computeNextIdr 1 100 false = 3 ∧
    ∃ s', sceneQueue.state.process = .ok s' ∧
      s'.sequenceIdr = sceneQueue.state.computeNextIdr 1 100 false ∧
      ((∃ c, cutAt sceneQueue.state.m_shotChangeList false 1 100 c) →
        cutAt sceneQueue.state.m_shotChangeList false 1 100 s'.sequenceIdr ∧
        s'.sequenceIdr < 100 ∧
        ∀ j, cutAt sceneQueue.state.m_shotChangeList false 1 100 j → s'.sequenceIdr ≤ j) :=
  ⟨by decide, by decide, by decide,
    (scene_cut_placement sceneQueue.state 1 100 false (by decide)).2 (by decide) (by decide)
      (by decide) (by decide) (by decide) (by decide) (by decide) (by unfold Blank; decide)
      (by decide)⟩

/-- Claim C7, counterexample: in the scenario the first docket returned is an intra
docket, but it is the docket of position 1 of a group of effective size 1 (POC 0, planned
at the baseline 0), not of position 8; the docket of POC 8, which is position 8 of the
group planned next at the baseline 1, is returned second and is not intra. -/
theorem scenario_first_position :
    (InputQueue.new 100 8 false false).run scenarioOps = .ok (scenarioQueue, scenarioOut) ∧
    scenarioOut.head?.map (fun d => (d.sliceType, d.currentGopSize, d.position 0)) =
      some (SliceType.I, 1, 1) ∧
    ¬ (∃ d, scenarioOut.head? = some d ∧ d.sliceType = SliceType.I ∧ d.position 0 = 8) ∧
    (scenarioOut[1]?).map (fun d => (d.sliceType, d.currentGopSize, d.position 1)) =
      some (SliceType.B, 8, 8) := by
  refine ⟨by decide, by decide, ?_, by decide⟩
  rintro ⟨d, hd, -, hp⟩
  have h : scenarioOut.head?.map (fun d => d.position 0) = some 1 := by decide
  rw [hd] at h
  simp only [Option.map_some', Option.some.injEq] at h
  omega

/-- Claim C7, amended: in the scenario nine dockets are returned.  The first is the intra
docket (IDR_N_LP, slice type I) of POC 0, the only position of a group of effective size
1; it is followed by the dockets of the positions 8, 4, 2, 1, 3, 6, 5, 7 of the group of
effective size 8 planned at the baseline 1 (POCs 8, 4, 2, 1, 3, 6, 5, 7), all of slice
type B; each docket carries the picture whose presentation timestamp equals its POC. -/
theorem scenario_release_order :
    (InputQueue.new 100 8 false false).run scenarioOps = .ok (scenarioQueue, scenarioOut) ∧
    scenarioOut.map (fun d => (d.poc, d.nut, d.sliceType, d.currentGopSize)) =
      [(0, IDR_N_LP, SliceType.I, 1), (8, TRAIL_R, SliceType.B, 8),
        (4, TRAIL_R, SliceType.B, 8), (2, TRAIL_R, SliceType.B, 8),
        (1, TRAIL_N, SliceType.B, 8), (3, TRAIL_N, SliceType.B, 8),
        (6, TRAIL_R, SliceType.B, 8), (5, TRAIL_N, SliceType.B, 8),
        (7, TRAIL_N, SliceType.B, 8)] ∧
    scenarioOut.map (fun d => d.position (if d.poc = 0 then 0 else 1)) =
      [1, 8, 4, 2, 1, 3, 6, 5, 7] ∧
    scenarioOut.map (fun d => d.picture.map PictureWrapper.pts) =
      [some 0, some 8, some 4, some 2, some 1, some 3, some 6, some 5, some 7] := by
  refine ⟨by decide, by decide, by decide, by decide⟩

theorem truncated_plan (f : Int) (n : Nat) (hn1 : 1 ≤ n) (hn7 : n ≤ 7) :
    slotSynthesise f (n : Int) true LastPicture.zero (List.replicate n none) =
      (truncatedPyramid f n).map some := by
  interval_cases n <;> rfl

/-- Claim C5, amended: with base GOP size 8, once the end of the input has been signalled
and `n` pictures (1 <= n <= 7) without docket remain in the window, the next intra picture
being beyond them, `process` commits one group of effective size `n`.  Its dockets are
those of the positions 1..n of the pattern of 8 (same NAL classes, qp offsets and negative
deltas), with the positive deltas that point beyond position `n` dropped; no docket of a
last position is created.  For `n = 1` it is the single docket TRAIL_N, qp offset 4,
references {-1}. -/
theorem truncated_terminal_group (s : State) (n : Nat) (hm : s.maxGopM = 8)
    (hfin : s.finish = true) (hn1 : 1 ≤ n) (hn7 : n ≤ 7) (hlen : s.entries.length = n)
    (hblank : Blank s.entries) (hfar : s.sequenceFront + (n : Int) ≤ s.decideIdr.sequenceIdr) :
    s.process =
      .ok { s.decideIdr with
            gopSize := (n : Int)
            entries := overlay ((truncatedPyramid s.sequenceFront n).map some) s.entries } ∧
    (n = 1 → truncatedPyramid s.sequenceFront n =
      [{ poc := s.sequenceFront, nut := TRAIL_N, qpOffset := 4, qpFactor := 6800,
         currentGopSize := 1, sliceType := SliceType.B,
         references := { negative := [-1], positive := [] } }]) := by
  obtain ⟨hF, hM, hfin', -⟩ := decideIdr_fields s
  have hne : s.entries ≠ [] := by
    intro h0
    rw [h0] at hlen
    simp at hlen
    omega
  have hidr : s.decideIdr.sequenceFront ≤ s.decideIdr.sequenceIdr := by
    rw [hF]; omega
  have heff : s.decideIdr.effective = ((n : Int), LastPicture.zero) := by
    unfold State.effective
    rw [decideIdr_entries, hfin', hM, hF, hlen, hfin, hm]
    have h1 : (true = true ∧ ((n : Nat) : Int) < 8) := ⟨rfl, by omega⟩
    rw [if_pos h1]
    simp only
    rw [if_neg (by omega)]
  have hplan : s.decideIdr.plan = (truncatedPyramid s.sequenceFront n).map some := by
    unfold State.plan
    rw [heff, hF, hfin', hfin]
    simp only [Int.toNat_ofNat]
    exact truncated_plan _ n hn1 hn7
  refine ⟨?_, ?_⟩
  · rw [process_planning s hne hblank (Or.inr hm) hidr, heff, hplan, hlen]
    simp only [lt_self_iff_false, if_false]
  · intro h1
    subst h1
    simp [truncatedPyramid, truncatedDocket]

theorem truncated_terminal_group_witness :
    truncatedQueue.state.finish = true ∧ truncatedQueue.state.entries.length = 5 ∧
    truncatedQueue.state.process =
      .ok { truncatedQueue.state.decideIdr with
            gopSize := ((5 : Nat) : Int)
            entries := overlay ((truncatedPyramid truncatedQueue.state.sequenceFront 5).map some)
              truncatedQueue.state.entries } :=
  ⟨by decide, by decide,
    (truncated_terminal_group truncatedQueue.state 5 (by decide) (by decide) (by decide)
      (by decide) (by decide) (by unfold Blank; decide) (by decide)).1⟩

/-- Claim C5, counterexample: with five pictures left in the window at the end of the
input (base GOP size 8, next intra picture at POC 100), `process` commits a group of
effective size 5 whose docket at position 3 is TRAIL_N with qp offset 4 and references
{-3,-1,+1}, and whose position 5 has a docket (TRAIL_N, qp offset 4, references {-5,-1});
the branch `gopSize == 5` of the size patterns gives position 3 the class TRAIL_R, the qp
offset 2 and the deltas -3 and +2, and has no call for position 5. -/
theorem truncated_group_not_size_pattern :
    truncatedQueue.state.finish = true ∧ truncatedQueue.state.maxGopM = 8 ∧
    truncatedQueue.state.entries.length = 5 ∧
    truncatedQueue.state.process = .ok truncatedPlanned ∧
    truncatedPlanned.gopSize = 5 ∧
    ((truncatedPlanned.entries[2]?).bind Piece.docket).map
        (fun d => (d.nut, d.qpOffset, d.references.negative, d.references.positive)) =
      some (TRAIL_N, 4, [-3, -1], [1]) ∧
    ((truncatedPlanned.entries[4]?).bind Piece.docket).map
        (fun d => (d.nut, d.qpOffset, d.references.negative, d.references.positive)) =
      some (TRAIL_N, 4, [-5, -1], []) ∧
    (sizeRows 5).filter (fun r => decide (r.i = 3)) = [⟨3, true, 2, 3536, -3, 2, 0, 0⟩] ∧
    (sizeRows 5).filter (fun r => decide (r.i = 5)) = [] := by
  refine ⟨by decide, by decide, by decide, by decide, by decide, by decide, by decide,
    by decide, by decide⟩

theorem preanalyse_batching_witness :
    batchQueue.state.entriesPreanalysis.length = 9 ∧ batchQueue.state.finish = true ∧
    (∀ p ∈ batchQueue.state.entriesPreanalysis, p.done = false) ∧
    ∃ q', batchQueue.preanalyse = .ok q' ∧
      (batchQueue.state.entriesPreanalysis.length < 10 ∧ batchQueue.state.finish = false →
        q' = batchQueue) ∧
      (¬ (batchQueue.state.entriesPreanalysis.length < 10 ∧ batchQueue.state.finish = false) →
        q' = { batchQueue with state := { batchQueue.state with
          entriesPreanalysis :=
            batchQueue.state.entriesPreanalysis.drop
              (min batchQueue.state.entriesPreanalysis.length 10)
          entries :=
            batchQueue.state.entries ++
              batchQueue.state.entriesPreanalysis.take
                (min batchQueue.state.entriesPreanalysis.length 10) } }) ∧
      q'.state.entries ++ q'.state.entriesPreanalysis
        = batchQueue.state.entries ++ batchQueue.state.entriesPreanalysis :=
  ⟨by decide, by decide, by decide, preanalyse_batching batchQueue (by decide)⟩

/-! ## Deferral -/

theorem getDocket_nothing {q : InputQueue} (he : q.state.entries = []) :
    q.getDocket = .ok (q, none) ∨
      q.getDocket = .ok ({ state := q.swapped, m_shotChangeList := q.outer }, none) := by
  rw [getDocket_eq]
  split_ifs with hd
  · left; rfl
  · right
    obtain ⟨e1, -⟩ := swapped_fields q
    have he' : q.swapped.entries = [] := by rw [e1, he]
    rw [process_noop q.swapped (Or.inl he')]
    simp only
    rw [pull_unplanned q.swapped (by rw [he']; intro p hp; cases hp)]

theorem Trace.nothing_accepted {q : InputQueue} {out : List Docket}
    {planned unplanned : List Piece} {vs : List View}
    (h : Trace q out [] planned unplanned vs) :
    out = [] ∧ q.state.entries = [] ∧ q.state.entriesPreanalysis = [] := by
  have hb := h.balance
  simp only [List.length_nil] at hb
  have hout : out = [] := List.length_eq_zero.mp (by omega)
  obtain ⟨hpl, -⟩ := h.fresh hout
  have hun : unplanned = [] := by
    cases hu : unplanned with
    | nil => rfl
    | cons p ps =>
      exfalso
      have hw := h.shape.window
      rw [hpl, hu] at hw
      have hp := (h.shape.unplanned p (by rw [hu]; exact List.mem_cons_self _ _)).2
      have : 0 < (q.state.entries.filterMap Piece.picture).length := by
        rw [hw]
        simp only [List.nil_append]
        cases hpp : p.picture with
        | none => simp [Piece.done, hpp] at hp
        | some w => simp [List.filterMap_cons, hpp]
      omega
  have hpre : q.state.entriesPreanalysis = [] := by
    cases hu : q.state.entriesPreanalysis with
    | nil => rfl
    | cons p ps =>
      exfalso
      have hp := (h.shape.pre p (by rw [hu]; exact List.mem_cons_self _ _)).2
      have : 0 < (q.state.entriesPreanalysis.filterMap Piece.picture).length := by
        rw [hu]
        cases hpp : p.picture with
        | none => simp [Piece.done, hpp] at hp
        | some w => simp [List.filterMap_cons, hpp]
      omega
  refine ⟨hout, ?_, hpre⟩
  rw [h.shape.window, hpl, hun]
  rfl

/-- Claim C11: in every state in which exactly one picture has been accepted and the end
of the input has not been signalled, `getDocket` returns null and leaves the queue as it
is; and after every run in which fewer than two pictures have been accepted and the end of
the input has not been signalled, `getDocket` returns null, and the window, the
preanalysis queue, the timestamp queue, the two baseline counters and the picture count
are left unchanged: no picture is released, no docket is created and no timestamp slot is
popped. -/
theorem deferral (maxGopN maxGopM : Int) (fieldCoding shotChange : Bool)
    (ops : List Op) (q : InputQueue) (out : List Docket)
    (hrun : (InputQueue.new maxGopN maxGopM fieldCoding shotChange).run ops = .ok (q, out))
    (hfew : (accepted ops).length < 2) (hfin : q.state.finish = false) :
    (∀ q0 : InputQueue, q0.state.pictureInputCount = 1 → q0.state.finish = false →
      q0.getDocket = .ok (q0, none)) ∧
    ∃ q', q.getDocket = .ok (q', none) ∧
      q'.state.entries = q.state.entries ∧
      q'.state.entriesPreanalysis = q.state.entriesPreanalysis ∧
      q'.state.timestamps = q.state.timestamps ∧
      q'.state.sequenceFront = q.state.sequenceFront ∧
      q'.state.sequenceIdr = q.state.sequenceIdr ∧
      q'.state.pictureInputCount = q.state.pictureInputCount ∧
      q'.state.finish = false := by
  have hone : ∀ q0 : InputQueue, q0.state.pictureInputCount = 1 → q0.state.finish = false →
      q0.getDocket = .ok (q0, none) := by
    intro q0 h1 h2
    rw [getDocket_eq, if_pos ⟨h1, h2⟩]
  refine ⟨hone, ?_⟩
  obtain ⟨⟨planned, unplanned, vs, ht⟩, -⟩ := reach_of_run hrun
  have hc := ht.count
  by_cases h1 : (accepted ops).length = 1
  · exact ⟨q, hone q (by rw [hc, h1]) hfin, rfl, rfl, rfl, rfl, rfl, rfl, hfin⟩
  · have h0 : accepted ops = [] := List.length_eq_zero.mp (by omega)
    rw [h0] at ht
    obtain ⟨-, he, -⟩ := ht.nothing_accepted
    obtain ⟨e1, e2, e3, e4, e5, e6, e7, -⟩ := swapped_fields q
    rcases getDocket_nothing he with hg | hg
    · exact ⟨q, hg, rfl, rfl, rfl, rfl, rfl, rfl, hfin⟩
    · exact ⟨_, hg, e1, e2, e3, e6, e7, e4, by show q.swapped.finish = false; rw [e5, hfin]⟩

theorem deferral_witness :
    (InputQueue.new 100 8 false false).run (witnessOps.take 1) = .ok (deferQueue, []) ∧
    (accepted (witnessOps.take 1)).length < 2 ∧ deferQueue.state.finish = false ∧
    ∃ q', deferQueue.getDocket = .ok (q', none) ∧
      q'.state.entries = deferQueue.state.entries ∧
      q'.state.entriesPreanalysis = deferQueue.state.entriesPreanalysis ∧
      q'.state.timestamps = deferQueue.state.timestamps ∧
      q'.state.sequenceFront = deferQueue.state.sequenceFront ∧
      q'.state.sequenceIdr = deferQueue.state.sequenceIdr ∧
      q'.state.pictureInputCount = deferQueue.state.pictureInputCount ∧
      q'.state.finish = false :=
  ⟨by decide, by decide, by decide,
    (deferral 100 8 false false (witnessOps.take 1) deferQueue [] (by decide) (by decide)
      (by decide)).2⟩

theorem size_plan (f : Int) (n : Nat) (hn2 : 2 ≤ n) (hn7 : n ≤ 7) :
    slotSynthesise f (n : Int) false LastPicture.I (List.replicate n none) = sizePlan f n := by
  unfold slotSynthesise sizePlan intraDocket
  by_cases hf : f = 0
  · subst hf
    interval_cases n <;> rfl
  · simp only [ne_eq, hf, not_false_eq_true, if_true]
    interval_cases n <;> rfl

theorem effective_size {s : State} {n : Nat} (hm : s.maxGopM = 8) (hfin : s.finish = false)
    (hn7 : n ≤ 7) (heff : s.effective.1 = (n : Int)) :
    s.effective = ((n : Int), LastPicture.I) ∧ s.sequenceIdr - s.sequenceFront + 1 = (n : Int) := by
  unfold State.effective at heff ⊢
  have h1 : ¬ (s.finish = true ∧ (s.entries.length : Int) < s.maxGopM) := by
    rw [hfin]; simp
  rw [if_neg h1] at heff ⊢
  simp only at heff ⊢
  rw [hm] at heff ⊢
  by_cases h2 : s.sequenceIdr - s.sequenceFront + 1 ≤ 8
  · rw [if_pos h2] at heff ⊢
    simp only at heff
    exact ⟨by rw [heff], heff⟩
  · rw [if_neg h2] at heff
    simp only at heff
    omega

theorem finished_plan (f : Int) (n : Nat) (hn2 : 2 ≤ n) (hn7 : n ≤ 7) :
    slotSynthesise f (n : Int) true LastPicture.I (List.replicate n none) =
      finishedPlan f n := by
  unfold slotSynthesise finishedPlan intraDocket
  by_cases hf : f = 0
  · subst hf
    interval_cases n <;> rfl
  · simp only [ne_eq, hf, not_false_eq_true, if_true]
    interval_cases n <;> rfl

theorem effective_last {s : State} (h : s.effective.2 = LastPicture.I) :
    s.effective.1 = s.sequenceIdr - s.sequenceFront + 1 := by
  unfold State.effective at h ⊢
  by_cases h2 : s.sequenceIdr - s.sequenceFront + 1 ≤
      (if s.finish ∧ (s.entries.length : Int) < s.maxGopM then
        ((s.entries.length : Int), LastPicture.zero) else (s.maxGopM, LastPicture.P)).1
  · rw [if_pos h2]
  · rw [if_neg h2] at h
    split_ifs at h

/-- Claim C12, amended: for every group of effective size `n` in 2..7 that the planner
commits (base GOP size 8).  While the end of the input has not been signalled, the group is
terminated by an intra picture and the positions 1..n-1 receive the dockets of the size-n
pattern, every delta of the pattern kept; for `n = 4` these are position 1 RASL_N, qp
offset 3, references {-1,+1,+3}; position 2 RASL_R, qp offset 2, references {-2,+2};
position 3 RASL_N, qp offset 3, references {-1,+1}.  Once the end of the input has been
signalled, a group terminated by an intra picture receives instead, at the positions
1..n-1, the dockets of the rows of the pattern of 8 for these positions, with the classes
RASL_R and RASL_N and with the deltas that point beyond position `n` dropped; for `n = 4`
these are position 1 RASL_N, qp offset 4, references {-1,+1,+3}; position 2 RASL_R, qp
offset 3, references {-2,+2}; position 3 RASL_N, qp offset 4, references {-3,-1,+1}. -/
theorem size_patterns (s : State) (n : Nat) (hm : s.maxGopM = 8)
    (hn2 : 2 ≤ n) (hn7 : n ≤ 7) (hblank : Blank s.entries) (hlen : n ≤ s.entries.length)
    (heff : s.decideIdr.effective.1 = (n : Int)) :
    (s.finish = false →
      s.decideIdr.effective.2 = LastPicture.I ∧
      s.process =
        .ok { s.decideIdr with
              gopSize := (n : Int)
              entries := overlay (sizePlan s.sequenceFront n) s.entries }) ∧
    (s.finish = true → s.decideIdr.effective.2 = LastPicture.I →
      s.process =
        .ok { s.decideIdr with
              gopSize := (n : Int)
              entries := overlay (finishedPlan s.sequenceFront n) s.entries }) ∧
    sizePlan s.sequenceFront 4 =
      [some (groupDocket s.sequenceFront 4 1 RASL_N 3 6800 [-1] [1, 3]),
        some (groupDocket s.sequenceFront 4 2 RASL_R 2 3536 [-2] [2]),
        some (groupDocket s.sequenceFront 4 3 RASL_N 3 6800 [-1] [1]),
        some (intraDocket s.sequenceFront 4)] ∧
    finishedPlan s.sequenceFront 4 =
      [some (groupDocket s.sequenceFront 4 1 RASL_N 4 6800 [-1] [1, 3]),
        some (groupDocket s.sequenceFront 4 2 RASL_R 3 3536 [-2] [2]),
        some (groupDocket s.sequenceFront 4 3 RASL_N 4 6800 [-3, -1] [1]),
        some (intraDocket s.sequenceFront 4)] := by
  obtain ⟨hF, hM, hfin', -⟩ := decideIdr_fields s
  have hne : s.entries ≠ [] := by
    intro h0
    rw [h0] at hlen
    simp at hlen
    omega
  refine ⟨?_, ?_, rfl, rfl⟩
  · intro hfin
    obtain ⟨heff', hoff⟩ := effective_size (by rw [hM]; exact hm) (by rw [hfin']; exact hfin)
      hn7 heff
    have hidr : s.decideIdr.sequenceFront ≤ s.decideIdr.sequenceIdr := by omega
    have hplan : s.decideIdr.plan = sizePlan s.sequenceFront n := by
      unfold State.plan
      rw [heff', hF, hfin', hfin]
      simp only [Int.toNat_ofNat]
      exact size_plan _ n hn2 hn7
    refine ⟨by rw [heff'], ?_⟩
    rw [process_planning s hne hblank (Or.inr hm) hidr, heff', hplan]
    simp only
    rw [if_neg (by omega)]
  · intro hfin hlast
    have hoff := effective_last hlast
    rw [heff] at hoff
    have heff' : s.decideIdr.effective = ((n : Int), LastPicture.I) := by
      rw [← heff, ← hlast]
    have hidr : s.decideIdr.sequenceFront ≤ s.decideIdr.sequenceIdr := by omega
    have hplan : s.decideIdr.plan = finishedPlan s.sequenceFront n := by
      unfold State.plan
      rw [heff', hF, hfin', hfin]
      simp only [Int.toNat_ofNat]
      exact finished_plan _ n hn2 hn7
    rw [process_planning s hne hblank (Or.inr hm) hidr, heff', hplan]
    simp only
    rw [if_neg (by omega)]

theorem size_patterns_witness :
    (sizeQueue.state.finish = false ∧ sizeQueue.state.entries.length = 9 ∧
      sizeQueue.state.decideIdr.effective = (((4 : Nat) : Int), LastPicture.I) ∧
      sizeQueue.state.process =
        .ok { sizeQueue.state.decideIdr with
              gopSize := ((4 : Nat) : Int)
              entries := overlay (sizePlan sizeQueue.state.sequenceFront 4)
                sizeQueue.state.entries }) ∧
    (finishedQueue.state.finish = true ∧ finishedQueue.state.entries.length = 8 ∧
      finishedQueue.state.decideIdr.effective = (((4 : Nat) : Int), LastPicture.I) ∧
      finishedQueue.state.process =
        .ok { finishedQueue.state.decideIdr with
              gopSize := ((4 : Nat) : Int)
              entries := overlay (finishedPlan finishedQueue.state.sequenceFront 4)
                finishedQueue.state.entries }) :=
  ⟨⟨by decide, by decide, by decide,
    ((size_patterns sizeQueue.state 4 (by decide) (by decide) (by decide)
      (by unfold Blank; decide) (by decide) (by decide)).1 (by decide)).2⟩,
   ⟨by decide, by decide, by decide,
    (size_patterns finishedQueue.state 4 (by decide) (by decide) (by decide)
      (by unfold Blank; decide) (by decide) (by decide)).2.1 (by decide) (by decide)⟩⟩

/-- Claim C12, counterexample: with intra period 4 and eight pictures left in the window
after the end of the input has been signalled, `process` commits a group of effective size
4 that ends with the intra docket of POC 4 and is not the last group; its position 1 is
RASL_N with qp offset 4, its position 2 is RASL_R with qp offset 3 and its position 3 is
RASL_N with qp offset 4 and references {-3,-1,+1}, where the size-4 pattern has qp offset
3 for position 1, qp offset 2 for position 2 and qp offset 3 and the deltas -1, +1 for
position 3. -/
theorem finished_group_not_size_pattern :
    finishedQueue.state.finish = true ∧ finishedQueue.state.entries.length = 8 ∧
    finishedQueue.state.process = .ok finishedPlanned ∧
    finishedPlanned.gopSize = 4 ∧
    ((finishedPlanned.entries[3]?).bind Piece.docket).map
        (fun d => (d.poc, d.sliceType, d.currentGopSize)) = some (4, SliceType.I, 4) ∧
    ((finishedPlanned.entries[0]?).bind Piece.docket).map
        (fun d => (d.nut, d.qpOffset, d.references.negative, d.references.positive)) =
      some (RASL_N, 4, [-1], [1, 3]) ∧
    ((finishedPlanned.entries[1]?).bind Piece.docket).map
        (fun d => (d.nut, d.qpOffset, d.references.negative, d.references.positive)) =
      some (RASL_R, 3, [-2], [2]) ∧
    ((finishedPlanned.entries[2]?).bind Piece.docket).map
        (fun d => (d.nut, d.qpOffset, d.references.negative, d.references.positive)) =
      some (RASL_N, 4, [-3, -1], [1]) ∧
    (sizeRows 4).filter (fun r => decide (r.i = 1)) = [⟨1, false, 3, 6800, -1, 3, 1, 0⟩] ∧
    (sizeRows 4).filter (fun r => decide (r.i = 2)) = [⟨2, true, 2, 3536, -2, 2, 0, 0⟩] ∧
    (sizeRows 4).filter (fun r => decide (r.i = 3)) = [⟨3, false, 3, 6800, -1, 1, 0, 0⟩] := by
  refine ⟨by decide, by decide, by decide, by decide, by decide, by decide, by decide,
    by decide, by decide, by decide, by decide⟩

set_option maxRecDepth 100000 in
theorem keepsDeltas_all :
    ∀ g ∈ List.range 9, ∀ lastPicture ∈ [LastPicture.I, LastPicture.P, LastPicture.zero],
      feasible g false lastPicture = true → keepsDeltas g lastPicture = true := by
  decide

theorem keepsDeltas_of_feasible (g : Nat) (lastPicture : LastPicture)
    (h : feasible g false lastPicture = true) : keepsDeltas g lastPicture = true := by
  have hg : 1 ≤ g ∧ g ≤ 8 := by
    unfold feasible at h
    simp only [Bool.and_eq_true, decide_eq_true_eq] at h
    exact h.1
  apply keepsDeltas_all g (List.mem_range.mpr (by omega)) lastPicture _ h
  cases lastPicture <;> simp

/-- On a window without dockets, before the end of the input, the group that `process`
commits keeps every positive delta of its pattern. -/
theorem process_keeps_deltas (s : State) (hm : s.maxGopM = 1 ∨ s.maxGopM = 8)
    (hfin : s.finish = false) (hne : s.entries ≠ []) (hblank : Blank s.entries)
    (hidr : s.decideIdr.sequenceFront ≤ s.decideIdr.sequenceIdr)
    (hfit : s.decideIdr.effective.1 ≤ (s.entries.length : Int)) :
    ∃ s', s.process = .ok s' ∧ s'.gopSize = s.decideIdr.effective.1 ∧
      ∀ r ∈ patternRows s.finish s.decideIdr.effective.1,
        0 < r.i ∧ r.i < s.decideIdr.effective.1 ∧
        ∃ p d, s'.entries[(r.i - 1).toNat]? = some p ∧ p.docket = some d ∧
          ∀ delta ∈ r.deltas, 0 < delta → delta ∈ d.references.positive := by
  obtain ⟨hF, hM, hfin', -⟩ := decideIdr_fields s
  have hproc := process_planning s hne hblank hm hidr
  rw [if_neg (by omega)] at hproc
  refine ⟨_, hproc, rfl, ?_⟩
  obtain ⟨g, hg, hfeas, -, -⟩ := effective_feasible s.decideIdr (by rw [hM]; exact hm)
    (by rw [decideIdr_entries]; exact List.length_pos.mpr hne) hidr
  rw [hfin', hfin] at hfeas
  have hk := keepsDeltas_of_feasible g _ hfeas
  have hview := plan_view s.decideIdr g hg
  rw [hfin', hfin] at hview
  intro r hr
  rw [hfin, hg] at hr
  unfold keepsDeltas at hk
  rw [List.all_eq_true] at hk
  have hkr := hk r hr
  simp only [Bool.and_eq_true, decide_eq_true_eq] at hkr
  obtain ⟨⟨h0, hlt⟩, hrest⟩ := hkr
  rw [← hview] at hrest
  have hlenp : s.decideIdr.plan.length = g := by rw [plan_length, hg]; simp
  have hkl : (r.i - 1).toNat < g := by omega
  have hge : (g : Int) ≤ (s.entries.length : Int) := by rw [← hg]; exact hfit
  obtain ⟨p0, hp0⟩ : ∃ p0, s.entries[(r.i - 1).toNat]? = some p0 :=
    ⟨_, List.getElem?_eq_getElem (by omega)⟩
  rw [List.getElem?_map] at hrest
  cases hslot : s.decideIdr.plan[(r.i - 1).toNat]? with
  | none =>
    rw [hslot] at hrest
    cases hrest
  | some od =>
    cases od with
    | none =>
      rw [hslot] at hrest
      cases hrest
    | some d =>
      simp only [hslot, Option.map_some', slotView] at hrest
      rw [List.all_eq_true] at hrest
      refine ⟨h0, by rw [hg]; exact hlt, { p0 with docket := some d }, d, ?_, rfl, ?_⟩
      · show (overlay s.decideIdr.plan s.entries)[(r.i - 1).toNat]? = _
        rw [overlay_getElem?, hp0, Option.map_some', if_pos (by rw [hlenp]; exact hkl)]
        unfold slotAt
        rw [hslot]
        rfl
      · intro delta hd hpos
        have := hrest delta hd
        simp only [decide_eq_true_eq] at this
        exact this hpos

/-- In a reachable state whose window starts with an entry without docket, no entry of
the window has a docket. -/
theorem Trace.blank {q : InputQueue} {out : List Docket} {acc : List PictureWrapper}
    {planned unplanned : List Piece} {vs : List View} (h : Trace q out acc planned unplanned vs)
    (hfront : (q.state.entries.head?.bind Piece.docket) = none) :
    planned = [] ∧ vs = [] ∧ q.state.entries = unplanned ∧ Blank q.state.entries := by
  have hp : planned = [] := by
    by_contra hne
    have := @front_docket_of_views planned unplanned vs h.shape.views hne
    rw [← h.shape.window, hfront] at this
    cases this
  subst hp
  have hvs : vs = [] := by
    have := view_length h.shape.views
    exact List.length_eq_zero.mp this.symm
  have hw : q.state.entries = unplanned := by rw [h.shape.window]; rfl
  refine ⟨rfl, hvs, hw, ?_⟩
  rw [hw]
  exact fun p hp => (h.shape.unplanned p hp).1

/-- Claim C15: after every run (base GOP size 1 or 8, intra period at least 1), when
the end of the input has not been signalled and the planner commits a group (the window starts
with an entry without docket and holds at least as many entries as the effective size),
`process` returns, every call of the applied pattern creates a docket, and every positive
delta named by the call is in the positive reference set of that docket: its guarded
`addReference` ran, so the delta passed `isValidReference` and none is dropped. -/
theorem no_reference_drop (maxGopN maxGopM : Int) (fieldCoding shotChange : Bool)
    (hn : 1 ≤ maxGopN) (hm : maxGopM = 1 ∨ maxGopM = 8) (ops : List Op) (q : InputQueue)
    (out : List Docket)
    (hrun : (InputQueue.new maxGopN maxGopM fieldCoding shotChange).run ops = .ok (q, out))
    (hfin : q.state.finish = false) (hne : q.state.entries ≠ [])
    (hfront : (q.state.entries.head?.bind Piece.docket) = none)
    (hfit : q.swapped.decideIdr.effective.1 ≤ (q.state.entries.length : Int)) :
    ∃ s', q.swapped.process = .ok s' ∧ s'.gopSize = q.swapped.decideIdr.effective.1 ∧
      ∀ r ∈ patternRows q.state.finish q.swapped.decideIdr.effective.1,
        0 < r.i ∧ r.i < q.swapped.decideIdr.effective.1 ∧
        ∃ p d, s'.entries[(r.i - 1).toNat]? = some p ∧ p.docket = some d ∧
          ∀ delta ∈ r.deltas, 0 < delta → delta ∈ d.references.positive := by
  obtain ⟨⟨planned, unplanned, vs, ht⟩, hcfg⟩ := reach_of_run hrun
  obtain ⟨hp, -, -, hblank⟩ := ht.blank hfront
  subst hp
  obtain ⟨e1, -, -, -, e5, e6, e7, e8, e9, -⟩ := swapped_fields q
  have h0 := ht.shape.swapped
  have hidr := decideIdr_ge q.swapped (by rw [e9, hcfg.1]; exact hn) h0.front (by
    have := h0.idr
    simpa using this)
  have := process_keeps_deltas q.swapped (by rw [e8, hcfg.2.1]; exact hm) (by rw [e5]; exact hfin)
    (by rw [e1]; exact hne) (by rw [e1]; exact hblank) hidr (by rw [e1]; exact hfit)
  rw [e5] at this
  exact this

theorem no_reference_drop_witness :
    (InputQueue.new 4 8 false false).run sizeOps = .ok (sizeQueue, [witnessFirst]) ∧
    sizeQueue.state.finish = false ∧
    ∃ s', sizeQueue.swapped.process = .ok s' ∧
      s'.gopSize = sizeQueue.swapped.decideIdr.effective.1 ∧
      ∀ r ∈ patternRows sizeQueue.state.finish sizeQueue.swapped.decideIdr.effective.1,
        0 < r.i ∧ r.i < sizeQueue.swapped.decideIdr.effective.1 ∧
        ∃ p d, s'.entries[(r.i - 1).toNat]? = some p ∧ p.docket = some d ∧
          ∀ delta ∈ r.deltas, 0 < delta → delta ∈ d.references.positive :=
  ⟨by decide, by decide,
    no_reference_drop 4 8 false false (by decide) (by decide) sizeOps sizeQueue [witnessFirst]
      (by decide) (by decide) (by decide) (by decide) (by decide)⟩

/-! ## The baseline counters -/

/-- The calls other than `getDocket` return no docket and leave the baseline counters
as they are; they add entries without docket at the tail of the window (`preanalyse`) or
of the preanalysis queue (`append`). -/
theorem step_passive {q q' : InputQueue} {op : Op} {od : Option Docket}
    (hpic : ∀ p ∈ q.state.entriesPreanalysis, p.done = false)
    (hs : q.step op = .ok (q', od)) (hop : op ≠ Op.getDocket) :
    od = none ∧ q'.state.sequenceFront = q.state.sequenceFront ∧
    q'.state.sequenceIdr = q.state.sequenceIdr ∧
    ∃ moved fresh, q'.state.entries = q.state.entries ++ moved ∧
      moved ++ q'.state.entriesPreanalysis = q.state.entriesPreanalysis ++ fresh ∧
      fresh.map Piece.picture = (accepted [op]).map some ∧
      (∀ p ∈ fresh, p.docket = none) := by
  cases op with
  | append x aq =>
    simp only [InputQueue.step, bind, Except.bind, pure, Except.pure] at hs
    cases hq : q.append x aq with
    | error e => rw [hq] at hs; cases hs
    | ok q1 =>
      rw [hq] at hs
      simp only [Except.ok.injEq, Prod.mk.injEq] at hs
      obtain ⟨h1, h2⟩ := hs
      subst h1 h2
      have key : ∀ ts, q1 = appended q x aq ts →
          none = (none : Option Docket) ∧ q1.state.sequenceFront = q.state.sequenceFront ∧
          q1.state.sequenceIdr = q.state.sequenceIdr ∧
          ∃ moved fresh, q1.state.entries = q.state.entries ++ moved ∧
            moved ++ q1.state.entriesPreanalysis = q.state.entriesPreanalysis ++ fresh ∧
            fresh.map Piece.picture = (accepted [Op.append x aq]).map some ∧
            (∀ p ∈ fresh, p.docket = none) := by
        intro ts h
        subst h
        refine ⟨rfl, rfl, rfl, [], [{ picture := some x, aqInfo := aq }], ?_, rfl, rfl, ?_⟩
        · simp [appended]
        · intro p hp
          simp only [List.mem_singleton] at hp
          subst hp
          rfl
      rw [append_eq] at hq
      split_ifs at hq with hf hc
      · cases hts : q.state.timestamps with
        | nil => rw [hts] at hq; cases hq
        | cons t rest =>
          rw [hts] at hq
          simp only [Except.ok.injEq] at hq
          exact key _ hq.symm
      · simp only [Except.ok.injEq] at hq
        exact key _ hq.symm
  | endOfInput =>
    simp only [InputQueue.step, pure, Except.pure, Except.ok.injEq, Prod.mk.injEq] at hs
    obtain ⟨h1, h2⟩ := hs
    subst h1 h2
    exact ⟨rfl, rfl, rfl, [], [], by simp [InputQueue.endOfInput], by simp [InputQueue.endOfInput],
      rfl, by simp⟩
  | preanalyse =>
    simp only [InputQueue.step, bind, Except.bind, pure, Except.pure] at hs
    cases hq : q.preanalyse with
    | error e => rw [hq] at hs; cases hs
    | ok q1 =>
      rw [hq] at hs
      simp only [Except.ok.injEq, Prod.mk.injEq] at hs
      obtain ⟨h1, h2⟩ := hs
      subst h1 h2
      rw [preanalyse_eq q hpic] at hq
      simp only [Except.ok.injEq] at hq
      split_ifs at hq
      · subst hq
        exact ⟨rfl, rfl, rfl,
          q.state.entriesPreanalysis.take (min q.state.entriesPreanalysis.length 10), [], rfl,
          by simp, rfl, by simp⟩
      · subst hq
        exact ⟨rfl, rfl, rfl, [], [], by simp, by simp, rfl, by simp⟩
  | getDocket => exact absurd rfl hop
  | shotChanges list =>
    simp only [InputQueue.step, pure, Except.pure, Except.ok.injEq, Prod.mk.injEq] at hs
    obtain ⟨h1, h2⟩ := hs
    subst h1 h2
    exact ⟨rfl, rfl, rfl, [], [], by simp, by simp, rfl, by simp⟩

theorem computeNextIdrLoop_range (list : List Int) (fc : Bool) (D : Int) (fuel : Nat) (i : Int) :
    computeNextIdrLoop list fc D fuel i = D ∨
      (i ≤ computeNextIdrLoop list fc D fuel i ∧ computeNextIdrLoop list fc D fuel i < D) := by
  induction fuel generalizing i with
  | zero => left; rfl
  | succ fuel ih =>
    unfold computeNextIdrLoop
    by_cases hlt : i < D
    · rw [if_pos hlt]
      simp only
      have hnext : computeNextIdrLoop list fc D fuel (i + 1) = D ∨
          (i ≤ computeNextIdrLoop list fc D fuel (i + 1) ∧
            computeNextIdrLoop list fc D fuel (i + 1) < D) := by
        rcases ih (i + 1) with h | ⟨h1, h2⟩
        · left; exact h
        · right; exact ⟨by omega, h2⟩
      split_ifs
      all_goals first
        | exact Or.inl rfl
        | exact Or.inr ⟨le_refl _, hlt⟩
        | exact hnext
    · rw [if_neg hlt]
      left; rfl

/-- The intra-refresh decision never moves the next intra position backwards (intra
period at least 1), and it moves it only when it lies behind the front. -/
theorem decideIdr_mono (s : State) (hn : 1 ≤ s.maxGopN) :
    s.sequenceIdr ≤ s.decideIdr.sequenceIdr ∧
    (s.decideIdr.sequenceIdr ≠ s.sequenceIdr → s.sequenceIdr < s.sequenceFront) := by
  unfold State.decideIdr
  split_ifs with h1 h2 h2
  · have hr := computeNextIdrLoop_range s.m_shotChangeList s.fieldCoding
      (s.sequenceIdr + s.maxGopN) (s.sequenceIdr + s.maxGopN - s.sequenceFront).toNat
      s.sequenceFront
    show s.sequenceIdr ≤ computeNextIdrLoop s.m_shotChangeList s.fieldCoding
        (s.sequenceIdr + s.maxGopN) (s.sequenceIdr + s.maxGopN - s.sequenceFront).toNat
        s.sequenceFront ∧ _
    constructor
    · rcases hr with h | ⟨h3, -⟩ <;> omega
    · intro _; omega
  · exact ⟨le_refl _, fun h => absurd rfl h⟩
  · show s.sequenceIdr ≤ s.sequenceIdr + s.maxGopN ∧ _
    constructor
    · omega
    · intro _; omega
  · exact ⟨le_refl _, fun h => absurd rfl h⟩

/-- What `getDocket` does to the baseline counters in a reachable state: the front
advances by the number of entries retired from the window, and the next intra position
is kept or set by the intra-refresh decision of the planner. -/
theorem Trace.getDocket_baseline {q q' : InputQueue} {out : List Docket}
    {acc : List PictureWrapper} {planned unplanned : List Piece} {vs : List View}
    {od : Option Docket} (h : Trace q out acc planned unplanned vs)
    (hg : q.getDocket = .ok (q', od)) :
    q'.state.sequenceFront + (q'.state.entries.length : Int) =
      q.state.sequenceFront + (q.state.entries.length : Int) ∧
    q'.state.entries.length ≤ q.state.entries.length ∧
    (q'.state.sequenceIdr = q.state.sequenceIdr ∨
      (q'.state.sequenceIdr = q.swapped.decideIdr.sequenceIdr ∧ q.state.entries ≠ [] ∧
        (q.state.entries.head?.bind Piece.docket) = none)) := by
  obtain ⟨e1, -, -, -, -, e6, e7, -⟩ := swapped_fields q
  obtain ⟨hF, -⟩ := decideIdr_fields q.swapped
  have hblank : planned = [] → unplanned ≠ [] →
      q.state.entries ≠ [] ∧ (q.state.entries.head?.bind Piece.docket) = none := by
    intro hp hu
    rw [h.shape.window, hp]
    simp only [List.nil_append]
    refine ⟨hu, ?_⟩
    cases hun : unplanned with
    | nil => exact absurd hun hu
    | cons p ps =>
      have := (h.shape.unplanned p (by rw [hun]; exact List.mem_cons_self _ _)).1
      simp [this]
  rcases getDocket_spec h.shape hg with ⟨-, hidle, -⟩ |
    ⟨D, s2, planned0, unplanned0, vs0, vs1, i, p, d, t, ts, -, hrel⟩
  · rcases hidle with hq | ⟨hp, hq | ⟨hu, -, -, -, hq⟩⟩
    · subst hq
      exact ⟨rfl, le_refl _, Or.inl rfl⟩
    · subst hq
      refine ⟨?_, ?_, Or.inl e7⟩
      · show q.swapped.sequenceFront + (q.swapped.entries.length : Int) = _
        rw [e1, e6]
      · show q.swapped.entries.length ≤ _
        rw [e1]
    · subst hq
      refine ⟨?_, ?_, Or.inr ⟨rfl, hblank hp hu⟩⟩
      · show q.swapped.decideIdr.sequenceFront + (q.swapped.decideIdr.entries.length : Int) = _
        rw [decideIdr_entries, hF, e1, e6]
      · show q.swapped.decideIdr.entries.length ≤ _
        rw [decideIdr_entries, e1]
  · have hq := hrel.queue
    have hl := afterPull_length planned0 i t.timestamp
    have hw := h.shape.window
    rcases hrel.staged with ⟨-, hs2, hp0, hu0⟩ | ⟨hp, -, g, -, hg1, hgn, -, hs2, hp0, hu0⟩
    · subst hs2 hp0 hu0 hq
      have hlen : q.state.entries.length = planned0.length + unplanned0.length := by
        rw [hw, List.length_append]
      refine ⟨?_, ?_, Or.inl e7⟩
      · show q.swapped.sequenceFront + (retiredBy planned0 i : Int) +
          ((afterPull planned0 i t.timestamp ++ unplanned0).length : Int) = _
        rw [e6, List.length_append, hlen]
        push_cast
        omega
      · show (afterPull planned0 i t.timestamp ++ unplanned0).length ≤ _
        rw [List.length_append, hlen]
        omega
    · subst hp
      have hlen : q.state.entries.length = unplanned.length := by
        rw [hw]; rfl
      have hlp : planned0.length = g := by
        rw [hp0, overlay_length, List.length_take]
        omega
      have hlu : unplanned0.length = unplanned.length - g := by
        rw [hu0, List.length_drop]
      have hne : unplanned ≠ [] := by
        intro h0
        rw [h0] at hgn
        simp at hgn
        omega
      subst hq
      refine ⟨?_, ?_, Or.inr ⟨by rw [hs2], hblank rfl hne⟩⟩
      · show s2.sequenceFront + (retiredBy planned0 i : Int) +
          ((afterPull planned0 i t.timestamp ++ unplanned0).length : Int) = _
        rw [hs2]
        show q.swapped.decideIdr.sequenceFront + _ + _ = _
        rw [hF, e6, List.length_append, hlen]
        push_cast
        omega
      · show (afterPull planned0 i t.timestamp ++ unplanned0).length ≤ _
        rw [List.length_append, hlen]
        omega

/-- Claim C16: after every run (intra period at least 1, periodic or scene-cut mode),
no call makes a baseline counter smaller.  `append`, `preanalyse`, `endOfInput` and the
refresh of the shot change list leave both counters as they are; `getDocket` advances
`sequenceFront` by exactly the number of entries that leave the window, and changes
`sequenceIdr` only by the intra-refresh decision of the planner, which is made on a
window whose first entry has no docket and only when `sequenceIdr` lies behind
`sequenceFront`, and which makes it larger. -/
theorem baseline_monotone (maxGopN maxGopM : Int) (fieldCoding shotChange : Bool)
    (hn : 1 ≤ maxGopN) (ops : List Op) (q : InputQueue) (out : List Docket)
    (hrun : (InputQueue.new maxGopN maxGopM fieldCoding shotChange).run ops = .ok (q, out))
    (op : Op) (q' : InputQueue) (od : Option Docket) (hstep : q.step op = .ok (q', od)) :
    q.state.sequenceFront ≤ q'.state.sequenceFront ∧
    q.state.sequenceIdr ≤ q'.state.sequenceIdr ∧
    (op ≠ Op.getDocket → q'.state.sequenceFront = q.state.sequenceFront ∧
      q'.state.sequenceIdr = q.state.sequenceIdr) ∧
    (op = Op.getDocket → q'.state.entries.length ≤ q.state.entries.length ∧
      q'.state.sequenceFront = q.state.sequenceFront +
        ((q.state.entries.length : Int) - (q'.state.entries.length : Int))) ∧
    (q'.state.sequenceIdr ≠ q.state.sequenceIdr →
      op = Op.getDocket ∧ q.state.sequenceIdr < q.state.sequenceFront ∧
      q'.state.sequenceIdr = q.swapped.decideIdr.sequenceIdr ∧
      q.state.entries ≠ [] ∧ (q.state.entries.head?.bind Piece.docket) = none) := by
  obtain ⟨⟨planned, unplanned, vs, ht⟩, hcfg⟩ := reach_of_run hrun
  by_cases hop : op = Op.getDocket
  · subst hop
    obtain ⟨e1, -, -, -, -, e6, e7, -, e9, -⟩ := swapped_fields q
    obtain ⟨hmono, hdec⟩ := decideIdr_mono q.swapped (by rw [e9, hcfg.1]; exact hn)
    rw [e7] at hmono hdec
    rw [e6] at hdec
    obtain ⟨hsum, hle, hidr⟩ := ht.getDocket_baseline hstep
    have hle' : (q'.state.entries.length : Int) ≤ (q.state.entries.length : Int) := by
      exact_mod_cast hle
    refine ⟨by omega, ?_, fun h => absurd rfl h, fun _ => ⟨hle, by omega⟩, ?_⟩
    · rcases hidr with h | ⟨h, -⟩
      · rw [h]
      · rw [h]; exact hmono
    · intro hne
      rcases hidr with h | ⟨h, h2, h3⟩
      · exact absurd h hne
      · exact ⟨rfl, hdec (by rw [← h]; exact hne), h, h2, h3⟩
  · obtain ⟨-, hf, hi, -⟩ := step_passive (fun p hp => (ht.shape.pre p hp).2) hstep hop
    exact ⟨by rw [hf], by rw [hi], fun _ => ⟨hf, hi⟩, fun h => absurd h hop,
      fun h => absurd hi h⟩

theorem baseline_monotone_witness :
    (InputQueue.new 100 8 false false).run (witnessOps.take 12) =
      .ok (pyramidQueue, [witnessFirst]) ∧
    pyramidQueue.step Op.getDocket = .ok (pyramidStep.1, pyramidStep.2) ∧
    pyramidQueue.state.sequenceFront ≤ pyramidStep.1.state.sequenceFront ∧
    pyramidQueue.state.sequenceIdr ≤ pyramidStep.1.state.sequenceIdr ∧
    pyramidStep.1.state.sequenceIdr = 100 :=
  ⟨by decide, by decide,
    (baseline_monotone 100 8 false false (by decide) (witnessOps.take 12) pyramidQueue
      [witnessFirst] (by decide) Op.getDocket pyramidStep.1 pyramidStep.2 (by decide)).1,
    (baseline_monotone 100 8 false false (by decide) (witnessOps.take 12) pyramidQueue
      [witnessFirst] (by decide) Op.getDocket pyramidStep.1 pyramidStep.2 (by decide)).2.1,
    by decide⟩

/-! ## Progress at the end of the input -/

/-- In a call of `getDocket` that returns a docket in a reachable state, the second loop
leaves at `canEncode` with the entry whose docket is returned, and that entry was in the
window with its picture before the call. -/
theorem Released.selected {q q' : InputQueue} {D : Docket} {planned unplanned : List Piece}
    {vs : List View} {s2 : State} {planned0 unplanned0 : List Piece} {vs0 vs' : List View}
    {i : Nat} {p : Piece} {d : Docket} {t : Timestamp} {ts : List Timestamp}
    (hw : Window q.state planned unplanned vs)
    (hrel : Released q q' D planned unplanned s2 planned0 unplanned0 vs0 vs' i p d t ts) :
    selectLoop s2.entries
        (intraScan s2.entries (if s2.entries.length > 8 then 8 else s2.entries.length) 0 none)
        s2.entries 0 Selection.null = .ok (Selection.selected i) ∧
    s2.entries[i]? = some p ∧
    ∃ p0, q.state.entries[i]? = some p0 ∧ p0.picture = p.picture := by
  have hb := hrel.before
  obtain ⟨hsel, -⟩ := viewStep_some hrel.step
  have hilt : i < planned0.length := (List.getElem?_eq_some.mp hrel.entry).1
  have hscan : intraScan (planned0 ++ unplanned0)
      (if (planned0 ++ unplanned0).length > 8 then 8 else (planned0 ++ unplanned0).length) 0 none
      = viewIntraScan vs0 0 none := by
    rw [intraScan_size, intraScan_view planned0 unplanned0 vs0 hb.views hb.unplanned]
    split_ifs with h8
    · left; rfl
    · right; omega
  have hloop := selectLoop_view hb.views unplanned0 (viewIntraScan vs0 0 none) planned0 vs0
    hb.views unplanned0 0 Selection.null i hsel
  have hentry : (planned0 ++ unplanned0)[i]? = some p := by
    rw [List.getElem?_append_left hilt, hrel.entry]
  refine ⟨by rw [hb.window, hscan, hloop], by rw [hb.window, hentry], ?_⟩
  obtain ⟨e1, -⟩ := swapped_fields q
  rcases hrel.staged with ⟨-, hs2, hp0, hu0⟩ | ⟨hp, -, g, heff, hg1, hgn, -, hs2, hp0, hu0⟩
  · subst hs2 hp0 hu0
    refine ⟨p, ?_, rfl⟩
    rw [hw.window, hentry]
  · subst hp
    have hwq : q.state.entries = unplanned := by rw [hw.window]; rfl
    have hpl : q.swapped.decideIdr.plan.length = (unplanned.take g).length := by
      rw [plan_length, heff, List.length_take, Nat.min_eq_left hgn]
      simp
    rw [hp0] at hrel
    obtain ⟨p0, hp0e, -, hpic⟩ := overlay_entry _ _ i p hpl hrel.entry
    refine ⟨p0, ?_, hpic.symm⟩
    rw [hwq]
    rw [List.getElem?_take] at hp0e
    split_ifs at hp0e with hi
    exact hp0e

/-- Claim C17: after every run (base GOP size 1 or 8, intra period at least 1), when
the end of the input has been signalled and the window is not empty, `getDocket` returns a
docket.  The second loop of `getDocket` leaves at `canEncode` with the entry whose docket
is returned (it does not run to the end and return the docket of an entry that was not
selected), and that entry was in the window before the call, not yet released: its
picture is not null and is the picture of the returned docket. -/
theorem progress_at_end (maxGopN maxGopM : Int) (fieldCoding shotChange : Bool)
    (hn : 1 ≤ maxGopN) (hm : maxGopM = 1 ∨ maxGopM = 8) (ops : List Op) (q : InputQueue)
    (out : List Docket)
    (hrun : (InputQueue.new maxGopN maxGopM fieldCoding shotChange).run ops = .ok (q, out))
    (hfin : q.state.finish = true) (hne : q.state.entries ≠ []) :
    ∃ (q' : InputQueue) (D : Docket) (s : State) (i : Nat) (p p0 : Piece) (d : Docket),
      q.getDocket = .ok (q', some D) ∧ q.swapped.process = .ok s ∧
      selectLoop s.entries
        (intraScan s.entries (if s.entries.length > 8 then 8 else s.entries.length) 0 none)
        s.entries 0 Selection.null = .ok (Selection.selected i) ∧
      s.entries[i]? = some p ∧ p.docket = some d ∧
      D = { d with picture := p.picture, aqInfo := p.aqInfo, dts := D.dts } ∧
      q.state.entries[i]? = some p0 ∧ p0.done = false ∧ p0.picture = D.picture ∧
      D.picture.isSome = true := by
  obtain ⟨⟨planned, unplanned, vs, ht⟩, hcfg⟩ := reach_of_run hrun
  obtain ⟨q', D, hg⟩ := ht.progress hfin (by rw [hcfg.2.1]; exact hm) (by rw [hcfg.1]; exact hn)
    hne
  rcases getDocket_spec ht.shape hg with ⟨hod, -, -⟩ |
    ⟨D', s2, planned0, unplanned0, vs0, vs1, i, p, d, t, ts, hod, hrel⟩
  · cases hod
  · simp only [Option.some.injEq] at hod
    subst hod
    obtain ⟨hsel, hentry, p0, hp0, hpic⟩ := hrel.selected ht.shape
    have hD := hrel.result
    have hDp : D.picture = p.picture := by rw [hD]
    have hund := hrel.undone
    refine ⟨q', D, s2, i, p, p0, d, hg, hrel.processed, hsel, hentry, hrel.docket, ?_, hp0, ?_,
      by rw [hpic, hDp], ?_⟩
    · rw [hD]
    · unfold Piece.done at hund ⊢
      rw [hpic]; exact hund
    · rw [hDp]
      unfold Piece.done at hund
      cases hpp : p.picture with
      | none => simp [hpp] at hund
      | some w => rfl

theorem progress_at_end_witness :
    (InputQueue.new 100 8 false false).run (witnessOps.take 12) =
      .ok (pyramidQueue, [witnessFirst]) ∧
    pyramidQueue.state.finish = true ∧ pyramidQueue.state.entries.length = 8 ∧
    ∃ (q' : InputQueue) (D : Docket) (s : State) (i : Nat) (p p0 : Piece) (d : Docket),
      pyramidQueue.getDocket = .ok (q', some D) ∧ pyramidQueue.swapped.process = .ok s ∧
      selectLoop s.entries
        (intraScan s.entries (if s.entries.length > 8 then 8 else s.entries.length) 0 none)
        s.entries 0 Selection.null = .ok (Selection.selected i) ∧
      s.entries[i]? = some p ∧ p.docket = some d ∧
      D = { d with picture := p.picture, aqInfo := p.aqInfo, dts := D.dts } ∧
      pyramidQueue.state.entries[i]? = some p0 ∧ p0.done = false ∧ p0.picture = D.picture ∧
      D.picture.isSome = true :=
  ⟨by decide, by decide, by decide,
    progress_at_end 100 8 false false (by decide) (by decide) (witnessOps.take 12) pyramidQueue
      [witnessFirst] (by decide) (by decide) (by decide)⟩

theorem filterMap_of_map_some {α β : Type} (f : α → Option β) (l : List α) (vs : List β)
    (h : l.map f = vs.map some) : l.filterMap f = vs := by
  induction l generalizing vs with
  | nil =>
    cases vs with
    | nil => rfl
    | cons v vs => simp at h
  | cons a l ih =>
    cases vs with
    | nil => simp at h
    | cons v vs =>
      simp only [List.map_cons, List.cons.injEq] at h
      rw [List.filterMap_cons, h.1]
      simp only
      rw [ih vs h.2]

theorem views_unplanned (es : List Piece) (h : ∀ p ∈ es, p.docket = none) :
    es.filterMap Piece.view = [] := by
  induction es with
  | nil => rfl
  | cons p ps ih =>
    have hp := h p (List.mem_cons_self _ _)
    rw [List.filterMap_cons]
    have : p.view = none := by
      unfold Piece.view
      rw [hp]
      rfl
    rw [this]
    exact ih (fun p' hp' => h p' (List.mem_cons_of_mem _ hp'))

theorem Window.views_eq {s : State} {planned unplanned : List Piece} {vs : List View}
    (h : Window s planned unplanned vs) : s.views = vs := by
  unfold State.views
  rw [h.window, List.filterMap_append, filterMap_of_map_some _ _ _ h.views,
    views_unplanned unplanned (fun p hp => (h.unplanned p hp).1), List.append_nil]

theorem map_some_injective {α : Type} {l1 l2 : List α} (h : l1.map some = l2.map some) :
    l1 = l2 := by
  induction l1 generalizing l2 with
  | nil =>
    cases l2 with
    | nil => rfl
    | cons b l2 => simp at h
  | cons a l1 ih =>
    cases l2 with
    | nil => simp at h
    | cons b l2 =>
      simp only [List.map_cons, List.cons.injEq, Option.some.injEq] at h
      rw [h.1, ih h.2]

/-- Induction over the calls of a run, with the invariant of runs at hand. -/
theorem run_induction (P : InputQueue → List Docket → List PictureWrapper → Prop)
    (hstep : ∀ (q q' : InputQueue) (out : List Docket) (acc : List PictureWrapper) (op : Op)
      (od : Option Docket), Reach q out acc → P q out acc → q.step op = .ok (q', od) →
      P q' (out ++ od.toList) (acc ++ accepted [op]))
    {q q' : InputQueue} {out outs : List Docket} {acc : List PictureWrapper} {ops : List Op}
    (h : Reach q out acc) (hp : P q out acc) (hr : q.run ops = .ok (q', outs)) :
    P q' (out ++ outs) (acc ++ accepted ops) := by
  induction ops generalizing q out acc outs with
  | nil =>
    simp only [InputQueue.run, pure, Except.pure, Except.ok.injEq, Prod.mk.injEq] at hr
    obtain ⟨h1, h2⟩ := hr
    subst h1 h2
    simpa [accepted] using hp
  | cons op ops ih =>
    simp only [InputQueue.run, bind, Except.bind, pure, Except.pure] at hr
    cases hs : q.step op with
    | error e => rw [hs] at hr; cases hr
    | ok r =>
      obtain ⟨q1, od⟩ := r
      rw [hs] at hr
      simp only at hr
      cases hrest : q1.run ops with
      | error e => rw [hrest] at hr; cases hr
      | ok r' =>
        obtain ⟨q2, ds⟩ := r'
        rw [hrest] at hr
        simp only [Except.ok.injEq, Prod.mk.injEq] at hr
        obtain ⟨h1, h2⟩ := hr
        subst h1 h2
        obtain ⟨hreach, -⟩ := h.step hs
        have := ih hreach (hstep q q1 out acc op od h hp hs) hrest
        rw [accepted_cons, ← List.append_assoc, ← List.append_assoc]
        exact this

/-- The views in a call of `getDocket` that returns a docket: the views before the pull
are those of the state before the call, or those of a freshly planned group; the pull is
one step on them, which releases the entry of the returned docket. -/
theorem Released.views {q q' : InputQueue} {out : List Docket} {acc : List PictureWrapper}
    {D : Docket} {planned unplanned : List Piece}
    {vs : List View} {s2 : State} {planned0 unplanned0 : List Piece} {vs0 vs' : List View}
    {i : Nat} {p : Piece} {d : Docket} {t : Timestamp} {ts : List Timestamp}
    (ht : Trace q out acc planned unplanned vs)
    (hrel : Released q q' D planned unplanned s2 planned0 unplanned0 vs0 vs' i p d t ts) :
    ((vs0 = vs ∧ vs ≠ []) ∨
      (vs = [] ∧ ∃ (g : Nat) (lastPicture : LastPicture),
        feasible g q.state.finish lastPicture = true ∧
        vs0 = freshViews (viewSynthesise (g : Int) q.state.finish lastPicture
          (List.replicate g none)))) ∧
    q.state.views = vs ∧ s2.views = vs0 ∧ q'.state.views = vs' ∧
    viewStep vs0 = some (i, vs') ∧
    vs0[i]? = some { positive := D.references.positive
                     intra := decide (D.sliceType = SliceType.I)
                     done := false } ∧
    D.poc = q.state.sequenceFront + (i : Int) := by
  have hb := hrel.before
  obtain ⟨hsound, -, -⟩ := hrel.staged.sound ht
  have hk := hrel.staged.kept ht.shape
  have hD := hrel.result
  have hpoc : D.poc = q.state.sequenceFront + (i : Int) := by
    have := (hsound i p d hrel.entry hrel.docket).1
    rw [hD, ← hk.front]
    exact this
  have hvi : vs0[i]? = some { positive := D.references.positive
                              intra := decide (D.sliceType = SliceType.I)
                              done := false } := by
    have h1 := congrArg (fun l => l[i]?) hb.views
    simp only [List.getElem?_map, hrel.entry, Option.map_some'] at h1
    unfold Piece.view at h1
    rw [hrel.docket, hrel.undone] at h1
    simp only [Option.map_some'] at h1
    cases hv : vs0[i]? with
    | none => rw [hv] at h1; cases h1
    | some v =>
      rw [hv] at h1
      simp only [Option.map_some', Option.some.injEq] at h1
      rw [← h1, hD]
  refine ⟨?_, ht.shape.views_eq, hb.views_eq, hrel.after.views_eq, hrel.step, hvi, hpoc⟩
  obtain ⟨-, -, -, -, e5, -⟩ := swapped_fields q
  rcases hrel.staged with ⟨hne, hs2, hp0, hu0⟩ | ⟨hp, hidr, g, heff, hg1, hgn, hfeas, hs2, hp0, hu0⟩
  · left
    subst hp0
    have h1 := hb.views
    rw [ht.shape.views] at h1
    refine ⟨(map_some_injective h1).symm, ?_⟩
    intro hv
    have := view_length ht.shape.views
    rw [hv] at this
    exact hne (List.length_eq_zero.mp this)
  · right
    subst hp
    have hvs : vs = [] := by
      have := view_length ht.shape.views
      exact List.length_eq_zero.mp this.symm
    refine ⟨hvs, g, q.swapped.decideIdr.effective.2, ?_, ?_⟩
    · rw [← e5]; exact hfeas
    · have hpl : q.swapped.decideIdr.plan.length = g := by
        rw [plan_length, heff]; simp
      have hdr := groupDrains_of_feasible g q.swapped.finish _ hfeas
      unfold groupDrains at hdr
      simp only [Bool.and_eq_true] at hdr
      have hviews := plan_view q.swapped.decideIdr g heff
      rw [(decideIdr_fields q.swapped).2.2.1] at hviews
      have h1 := hb.views
      rw [hp0, overlay_view _ _ (by rw [hpl, List.length_take]; omega)
        (fun p hp => (ht.shape.unplanned p (List.mem_of_mem_take hp)).2)
        (by rw [hviews]; exact hdr.1), hviews, e5] at h1
      exact (map_some_injective h1).symm

/-- A call in a reachable state either returns no docket and leaves the views and the
front of the window as they are, or is a call of `getDocket` that returns a docket. -/
theorem Trace.step_views {q q' : InputQueue} {out : List Docket} {acc : List PictureWrapper}
    {planned unplanned : List Piece} {vs : List View} {op : Op} {od : Option Docket}
    (ht : Trace q out acc planned unplanned vs) (hs : q.step op = .ok (q', od)) :
    (od = none ∧ q'.state.views = q.state.views ∧
      q'.state.sequenceFront = q.state.sequenceFront) ∨
    (∃ D s2 planned0 unplanned0 vs0 vs' i p d t ts, op = Op.getDocket ∧ od = some D ∧
      Released q q' D planned unplanned s2 planned0 unplanned0 vs0 vs' i p d t ts) := by
  by_cases hop : op = Op.getDocket
  · subst hop
    rcases getDocket_spec ht.shape hs with ⟨hod, hidle, hwin⟩ |
      ⟨D, s2, planned0, unplanned0, vs0, vs1, i, p, d, t, ts, hod, hrel⟩
    · left
      refine ⟨hod, ?_, hidle.keeps.front⟩
      rw [hwin.views_eq, ht.shape.views_eq]
    · right
      exact ⟨D, s2, planned0, unplanned0, vs0, vs1, i, p, d, t, ts, rfl, hod, hrel⟩
  · left
    obtain ⟨hod, hf, -, moved, fresh, he, hm, -, hfresh⟩ :=
      step_passive (fun p hp => (ht.shape.pre p hp).2) hs hop
    refine ⟨hod, ?_, hf⟩
    unfold State.views
    rw [he, List.filterMap_append]
    have hmoved : ∀ p ∈ moved, p.docket = none := by
      intro p hp
      have hmem : p ∈ q.state.entriesPreanalysis ++ fresh := by
        rw [← hm]; exact List.mem_append_left _ hp
      rcases List.mem_append.mp hmem with h1 | h1
      · exact (ht.shape.pre p h1).1
      · exact hfresh p h1
    rw [views_unplanned moved hmoved, List.append_nil]

/-! ## Calls of `getDocket` return in reachable states -/

/-- In a reachable state the pull of `getDocket` returns whenever `process` does. -/
theorem Trace.returns {q : InputQueue} {out : List Docket} {acc : List PictureWrapper}
    {planned unplanned : List Piece} {vs : List View} (ht : Trace q out acc planned unplanned vs)
    (s : State) (hproc : q.swapped.process = .ok s) :
    ∃ q' od, q.getDocket = .ok (q', od) := by
  rw [getDocket_eq]
  split_ifs with hdefer
  · exact ⟨_, _, rfl⟩
  rw [hproc]
  simp only
  obtain ⟨e1, -, e3, -, -, -, -, e8, -⟩ := swapped_fields q
  have h0 := ht.shape.swapped
  have hstamp : q.state.entries ≠ [] → ∃ t ts, q.swapped.timestamps = t :: ts := by
    intro hne
    obtain ⟨t, ts, hts⟩ := ht.stamp hne
    exact ⟨t, ts, by rw [e3, hts]⟩
  by_cases hp : planned = []
  · subst hp
    have hvs : vs = [] := by
      have := view_length h0.views
      exact List.length_eq_zero.mp this.symm
    subst hvs
    have hw : q.swapped.entries = unplanned := by rw [h0.window]; rfl
    by_cases hun : unplanned = []
    · rw [process_noop q.swapped (Or.inl (by rw [hw, hun]))] at hproc
      simp only [Except.ok.injEq] at hproc
      subst hproc
      rw [pull_unplanned q.swapped (by rw [hw]; exact h0.unplanned)]
      exact ⟨_, _, rfl⟩
    · have hfront : (q.swapped.entries.head?.bind Piece.docket) = none := by
        rw [hw]
        cases hu : unplanned with
        | nil => exact absurd hu hun
        | cons p ps =>
          have := (h0.unplanned p (by rw [hu]; exact List.mem_cons_self _ _)).1
          simp [this]
      have hm : q.swapped.maxGopM = 1 ∨ q.swapped.maxGopM = 8 := by
        by_contra hm
        rw [not_or] at hm
        rw [process_throws q.swapped hm.1 hm.2 (by rw [hw]; exact hun) hfront] at hproc
        cases hproc
      obtain ⟨-, hplan⟩ := h0.plan hun hm hproc
      rcases hplan with ⟨-, -, -, hwin⟩ | ⟨g, hg1, hg2, hg3, -, hs2, hwin⟩
      · rw [pull_unplanned s (by rw [hwin.window]; exact hwin.unplanned)]
        exact ⟨_, _, rfl⟩
      · have hne0 : overlay q.swapped.decideIdr.plan (unplanned.take g) ≠ [] := by
          intro h
          have := congrArg List.length h
          rw [overlay_length, List.length_take] at this
          simp only [List.length_nil] at this
          omega
        obtain ⟨t, ts, hts⟩ := hstamp (by rw [← e1, hw]; exact hun)
        have hts2 : s.timestamps = t :: ts := by
          rw [hs2]
          show q.swapped.decideIdr.timestamps = _
          rw [(decideIdr_fields q.swapped).2.2.2.2.1, hts]
        obtain ⟨i, vs', p, d, -, -, -, -, -, hpl, -⟩ := hwin.pull hne0 t ts hts2
        rw [hpl]
        exact ⟨_, _, rfl⟩
  · have hne : q.state.entries ≠ [] := by
      rw [ht.shape.window]
      intro h
      exact hp (List.append_eq_nil.mp h).1
    obtain ⟨t, ts, hts⟩ := hstamp hne
    obtain ⟨i, vs', p, d, -, -, -, -, hproc', hpl, -⟩ := h0.pull hp t ts hts
    rw [hproc'] at hproc
    simp only [Except.ok.injEq] at hproc
    subst hproc
    rw [hpl]
    exact ⟨_, _, rfl⟩

/-- In a reachable state `process` returns (base GOP size 1 or 8, intra period at least
1). -/
theorem Trace.process_total {q : InputQueue} {out : List Docket} {acc : List PictureWrapper}
    {planned unplanned : List Piece} {vs : List View} (ht : Trace q out acc planned unplanned vs)
    (hm : q.state.maxGopM = 1 ∨ q.state.maxGopM = 8) (hn : 1 ≤ q.state.maxGopN) :
    ∃ s, q.swapped.process = .ok s := by
  obtain ⟨e1, -, -, -, -, -, -, e8, e9, -⟩ := swapped_fields q
  have h0 := ht.shape.swapped
  by_cases hp : planned = []
  · subst hp
    have hw : q.swapped.entries = unplanned := by rw [h0.window]; rfl
    by_cases hun : unplanned = []
    · exact ⟨_, process_noop q.swapped (Or.inl (by rw [hw, hun]))⟩
    · have hblank : Blank q.swapped.entries := by
        rw [hw]; exact fun p hp => (h0.unplanned p hp).1
      have hidr := decideIdr_ge q.swapped (by rw [e9]; exact hn) h0.front (by
        have := h0.idr
        simpa using this)
      have hproc := process_planning q.swapped (by rw [hw]; exact hun) hblank
        (by rw [e8]; exact hm) hidr
      split_ifs at hproc
      · exact ⟨_, hproc⟩
      · exact ⟨_, hproc⟩
  · exact ⟨_, process_noop q.swapped (Or.inr (by
      rw [h0.window]; exact front_docket_of_views h0.views hp))⟩

set_option maxRecDepth 100000 in
theorem intraFirst_all :
    ∀ g ∈ List.range 9, ∀ finish ∈ [false, true],
      ∀ lastPicture ∈ [LastPicture.I, LastPicture.P, LastPicture.zero],
        feasible g finish lastPicture = true → intraFirst g finish lastPicture = true := by
  decide

theorem intraFirst_of_feasible (g : Nat) (finish : Bool) (lastPicture : LastPicture)
    (h : feasible g finish lastPicture = true) : intraFirst g finish lastPicture = true := by
  have hg : 1 ≤ g ∧ g ≤ 8 := by
    unfold feasible at h
    simp only [Bool.and_eq_true, decide_eq_true_eq] at h
    exact h.1
  apply intraFirst_all g (List.mem_range.mpr (by omega)) finish _ lastPicture _ h
  · cases finish <;> simp
  · cases lastPicture <;> simp

theorem noPendingIntra_step {vs vs' : List View} {i : Nat} (h : noPendingIntra vs = true)
    (hstep : viewStep vs = some (i, vs')) : noPendingIntra vs' = true := by
  obtain ⟨-, v, hv, -, -, hvs'⟩ := viewStep_some hstep
  unfold noPendingIntra at h ⊢
  rw [List.all_eq_true] at h ⊢
  intro x hx
  rw [hvs'] at hx
  have hx' := (List.dropWhile_sublist _).subset hx
  rcases List.mem_or_eq_of_mem_set hx' with h1 | h1
  · exact h x h1
  · rw [h1]
    simp

/-- Between calls no intra picture of the window is pending. -/
theorem Reach.intra_released {maxGopN maxGopM : Int} {fieldCoding shotChange : Bool}
    {ops : List Op} {q : InputQueue} {out : List Docket}
    (hrun : (InputQueue.new maxGopN maxGopM fieldCoding shotChange).run ops = .ok (q, out)) :
    noPendingIntra q.state.views = true := by
  have := run_induction (fun q _ _ => noPendingIntra q.state.views = true)
    (by
      intro q q' out acc op od hreach hp hs
      obtain ⟨planned, unplanned, vs, ht⟩ := hreach
      rcases ht.step_views hs with ⟨-, hv, -⟩ |
        ⟨D, s2, planned0, unplanned0, vs0, vs1, i, p, d, t, ts, -, -, hrel⟩
      · show noPendingIntra q'.state.views = true
        rw [hv]; exact hp
      · obtain ⟨hcase, hqv, -, hq'v, hstep, -, -⟩ := hrel.views ht
        show noPendingIntra q'.state.views = true
        rw [hq'v]
        rcases hcase with ⟨h0, -⟩ | ⟨-, g, lp, hfeas, h0⟩
        · subst h0
          rw [hqv] at hp
          exact noPendingIntra_step hp hstep
        · have hi := intraFirst_of_feasible g _ lp hfeas
          unfold intraFirst at hi
          simp only at hi
          rw [← h0, hstep] at hi
          simp only [Bool.and_eq_true] at hi
          exact hi.1.1)
    (reach_new maxGopN maxGopM fieldCoding shotChange) (by rfl) hrun
  exact this

/-- The calls other than `getDocket` do not reset the end of the input, and they move
pictures to the window only at the end of the input or in a batch of ten. -/
theorem step_moved {q q' : InputQueue} {op : Op} {od : Option Docket}
    (hpic : ∀ p ∈ q.state.entriesPreanalysis, p.done = false)
    (hs : q.step op = .ok (q', od)) (hop : op ≠ Op.getDocket) :
    (q'.state.finish = false → q.state.finish = false) ∧
    (q'.state.entries = q.state.entries ∨
      q.state.finish = true ∨ 10 ≤ q.state.entriesPreanalysis.length) ∧
    q'.state.entriesPreanalysis.length ≤
      q.state.entriesPreanalysis.length + (accepted [op]).length := by
  cases op with
  | append x aq =>
    simp only [InputQueue.step, bind, Except.bind, pure, Except.pure] at hs
    cases hq : q.append x aq with
    | error e => rw [hq] at hs; cases hs
    | ok q1 =>
      rw [hq] at hs
      simp only [Except.ok.injEq, Prod.mk.injEq] at hs
      obtain ⟨h1, h2⟩ := hs
      subst h1 h2
      have key : ∀ ts, q1 = appended q x aq ts →
          (q1.state.finish = false → q.state.finish = false) ∧
          (q1.state.entries = q.state.entries ∨
            q.state.finish = true ∨ 10 ≤ q.state.entriesPreanalysis.length) ∧
          q1.state.entriesPreanalysis.length ≤
            q.state.entriesPreanalysis.length + (accepted [Op.append x aq]).length := by
        intro ts h
        subst h
        refine ⟨fun h => h, Or.inl rfl, ?_⟩
        simp [appended, accepted]
      rw [append_eq] at hq
      split_ifs at hq with hf hc
      · cases hts : q.state.timestamps with
        | nil => rw [hts] at hq; cases hq
        | cons t rest =>
          rw [hts] at hq
          simp only [Except.ok.injEq] at hq
          exact key _ hq.symm
      · simp only [Except.ok.injEq] at hq
        exact key _ hq.symm
  | endOfInput =>
    simp only [InputQueue.step, pure, Except.pure, Except.ok.injEq, Prod.mk.injEq] at hs
    obtain ⟨h1, h2⟩ := hs
    subst h1 h2
    refine ⟨fun h => ?_, Or.inl rfl, by simp [InputQueue.endOfInput]⟩
    simp [InputQueue.endOfInput] at h
  | preanalyse =>
    simp only [InputQueue.step, bind, Except.bind, pure, Except.pure] at hs
    cases hq : q.preanalyse with
    | error e => rw [hq] at hs; cases hs
    | ok q1 =>
      rw [hq] at hs
      simp only [Except.ok.injEq, Prod.mk.injEq] at hs
      obtain ⟨h1, h2⟩ := hs
      subst h1 h2
      rw [preanalyse_eq q hpic] at hq
      simp only [Except.ok.injEq] at hq
      split_ifs at hq with hc
      · subst hq
        refine ⟨fun h => h, Or.inr ?_, ?_⟩
        · rcases hc with hc | hc
          · right; exact hc
          · left; exact hc
        · show (q.state.entriesPreanalysis.drop _).length ≤ _
          rw [List.length_drop]
          omega
      · subst hq
        exact ⟨fun h => h, Or.inl rfl, by simp⟩
  | getDocket => exact absurd rfl hop
  | shotChanges list =>
    simp only [InputQueue.step, pure, Except.pure, Except.ok.injEq, Prod.mk.injEq] at hs
    obtain ⟨h1, h2⟩ := hs
    subst h1 h2
    exact ⟨fun h => h, Or.inl rfl, by simp⟩

/-- Before the end of the input the window stays empty until ten pictures have been
accepted. -/
theorem Reach.early {maxGopN maxGopM : Int} {fieldCoding shotChange : Bool}
    {ops : List Op} {q : InputQueue} {out : List Docket}
    (hrun : (InputQueue.new maxGopN maxGopM fieldCoding shotChange).run ops = .ok (q, out)) :
    q.state.entriesPreanalysis.length ≤ (accepted ops).length ∧
    (q.state.finish = false → (accepted ops).length < 10 → q.state.entries = []) := by
  have := run_induction (fun q _ acc => q.state.entriesPreanalysis.length ≤ acc.length ∧
      (q.state.finish = false → acc.length < 10 → q.state.entries = []))
    (by
      intro q q' out acc op od hreach hp hs
      obtain ⟨planned, unplanned, vs, ht⟩ := hreach
      obtain ⟨hlen, hearly⟩ := hp
      show q'.state.entriesPreanalysis.length ≤ (acc ++ accepted [op]).length ∧
        (q'.state.finish = false → (acc ++ accepted [op]).length < 10 → q'.state.entries = [])
      rw [List.length_append]
      by_cases hop : op = Op.getDocket
      · subst hop
        simp only [accepted, List.length_nil, Nat.add_zero]
        rcases getDocket_spec ht.shape hs with ⟨-, hidle, hwin⟩ |
          ⟨D, s2, planned0, unplanned0, vs0, vs1, i, p, d, t, ts, -, hrel⟩
        · have hk := hidle.keeps
          refine ⟨by rw [hk.pre]; exact hlen, ?_⟩
          intro hf ha
          rw [hk.finish] at hf
          have he := hearly hf ha
          rw [hwin.window]
          rw [ht.shape.window] at he
          exact he
        · have hk := hrel.staged.kept ht.shape
          have hq := hrel.queue
          obtain ⟨-, -, p0, hp0, -⟩ := hrel.selected ht.shape
          constructor
          · rw [hq]
            show s2.entriesPreanalysis.length ≤ _
            rw [hk.pre]; exact hlen
          · intro hf ha
            exfalso
            rw [hq] at hf
            have hf' : s2.finish = false := hf
            rw [hk.finish] at hf'
            rw [hearly hf' ha] at hp0
            cases hp0
      · obtain ⟨hfin, hent, hpre⟩ := step_moved (fun p hp => (ht.shape.pre p hp).2) hs hop
        refine ⟨by omega, ?_⟩
        intro hf ha
        have hf0 := hfin hf
        rcases hent with h | h | h
        · rw [h]; exact hearly hf0 (by omega)
        · rw [hf0] at h; cases h
        · omega)
    (reach_new maxGopN maxGopM fieldCoding shotChange) (by exact ⟨le_refl _, fun _ _ => rfl⟩) hrun
  simpa using this

/-- In a reachable state, after `process` the window has no docket at all, or it is
staged for the pull with a planned part that is not empty. -/
theorem Trace.staged {q : InputQueue} {out : List Docket} {acc : List PictureWrapper}
    {planned unplanned : List Piece} {vs : List View} (ht : Trace q out acc planned unplanned vs)
    {s : State} (hproc : q.swapped.process = .ok s) :
    Blank s.entries ∨
    ∃ planned0 unplanned0 vs0, Staged q.swapped s planned unplanned planned0 unplanned0 ∧
      Window s planned0 unplanned0 vs0 ∧ planned0 ≠ [] ∧ q.state.entries ≠ [] := by
  obtain ⟨e1, -⟩ := swapped_fields q
  have h0 := ht.shape.swapped
  by_cases hp : planned = []
  · subst hp
    have hvs : vs = [] := by
      have := view_length h0.views
      exact List.length_eq_zero.mp this.symm
    subst hvs
    have hw : q.swapped.entries = unplanned := by rw [h0.window]; rfl
    by_cases hun : unplanned = []
    · left
      rw [process_noop q.swapped (Or.inl (by rw [hw, hun]))] at hproc
      simp only [Except.ok.injEq] at hproc
      subst hproc
      rw [hw, hun]
      intro p hp
      cases hp
    · have hfront : (q.swapped.entries.head?.bind Piece.docket) = none := by
        rw [hw]
        cases hu : unplanned with
        | nil => exact absurd hu hun
        | cons p ps =>
          have := (h0.unplanned p (by rw [hu]; exact List.mem_cons_self _ _)).1
          simp [this]
      have hm : q.swapped.maxGopM = 1 ∨ q.swapped.maxGopM = 8 := by
        by_contra hm
        rw [not_or] at hm
        rw [process_throws q.swapped hm.1 hm.2 (by rw [hw]; exact hun) hfront] at hproc
        cases hproc
      obtain ⟨hidr, hplan⟩ := h0.plan hun hm hproc
      rcases hplan with ⟨-, -, -, hwin⟩ | ⟨g, hg1, hg2, hg3, hfeas, hs2, hwin⟩
      · left
        rw [hwin.window]
        exact fun p hp => (hwin.unplanned p hp).1
      · right
        refine ⟨_, _, _, Or.inr ⟨rfl, hidr, g, hg1, hg2, hg3, hfeas, hs2, rfl, rfl⟩, hwin, ?_, ?_⟩
        · intro h
          have := congrArg List.length h
          rw [overlay_length, List.length_take] at this
          simp only [List.length_nil] at this
          omega
        · rw [← e1, hw]; exact hun
  · right
    have hproc' := process_noop q.swapped (Or.inr (by
      rw [h0.window]; exact front_docket_of_views h0.views hp))
    rw [hproc'] at hproc
    simp only [Except.ok.injEq] at hproc
    subst hproc
    refine ⟨planned, unplanned, vs, Or.inl ⟨hp, rfl, rfl, rfl⟩, h0, hp, ?_⟩
    rw [ht.shape.window]
    intro h
    exact hp (List.append_eq_nil.mp h).1

/-- An entry of the window with a docket lies in the planned part, and its view is among
the views. -/
theorem Window.docketed {s : State} {planned unplanned : List Piece} {vs : List View}
    (h : Window s planned unplanned vs) {k : Nat} {p : Piece} {d : Docket}
    (hentry : s.entries[k]? = some p) (hd : p.docket = some d) :
    planned[k]? = some p ∧
    vs[k]? = some { positive := d.references.positive
                    intra := decide (d.sliceType = SliceType.I)
                    done := p.done } := by
  rw [h.window] at hentry
  have hk : k < planned.length := by
    by_contra hge
    rw [List.getElem?_append_right (by omega)] at hentry
    have := (h.unplanned p (List.getElem?_mem hentry)).1
    rw [hd] at this
    cases this
  rw [List.getElem?_append_left hk] at hentry
  refine ⟨hentry, ?_⟩
  have h1 := congrArg (fun l => l[k]?) h.views
  simp only [List.getElem?_map, hentry, Option.map_some'] at h1
  unfold Piece.view at h1
  rw [hd] at h1
  simp only [Option.map_some'] at h1
  cases hv : vs[k]? with
  | none => rw [hv] at h1; cases h1
  | some v =>
    rw [hv] at h1
    simp only [Option.map_some', Option.some.injEq] at h1
    rw [← h1]

/-- Claim C13: after every run, if the window that `process` leaves in a call of
`getDocket` has at a position `k` an intra docket (slice type `I`) whose entry is not yet
released, then `k` is among the first 8 positions, the first loop of `getDocket` sets
`isIntraFrame` to `k`, the second loop leaves at `canEncode` with the entry `k` and with no
other, whatever the positive deltas of the entries are, and `getDocket` returns exactly
that docket, with the picture of the entry. -/
theorem intra_priority (maxGopN maxGopM : Int) (fieldCoding shotChange : Bool)
    (ops : List Op) (q : InputQueue) (out : List Docket)
    (hrun : (InputQueue.new maxGopN maxGopM fieldCoding shotChange).run ops = .ok (q, out))
    (s : State) (hproc : q.swapped.process = .ok s) (k : Nat) (p : Piece) (d : Docket)
    (hentry : s.entries[k]? = some p) (hd : p.docket = some d)
    (hintra : d.sliceType = SliceType.I) (hundone : p.done = false) :
    k < 8 ∧
    intraScan s.entries (if s.entries.length > 8 then 8 else s.entries.length) 0 none = some k ∧
    selectLoop s.entries (some k) s.entries 0 Selection.null = .ok (Selection.selected k) ∧
    ∃ q' D, q.getDocket = .ok (q', some D) ∧
      D = { d with picture := p.picture, aqInfo := p.aqInfo, dts := D.dts } := by
  obtain ⟨⟨planned, unplanned, vs, ht⟩, -⟩ := reach_of_run hrun
  obtain ⟨e1, -, e3, -⟩ := swapped_fields q
  have hpending := Reach.intra_released hrun
  -- the call is not deferred
  have hdefer : ¬ (q.state.pictureInputCount = 1 ∧ q.state.finish = false) := by
    rintro ⟨hc, hf⟩
    have he := (Reach.early hrun).2 hf (by rw [← ht.count, hc]; decide)
    rw [process_noop q.swapped (Or.inl (by rw [e1, he]))] at hproc
    simp only [Except.ok.injEq] at hproc
    subst hproc
    rw [e1, he] at hentry
    cases hentry
  rcases ht.staged hproc with hblank | ⟨planned0, unplanned0, vs0, hst, hwin, hne0, hqne⟩
  · have := hblank p (List.getElem?_mem hentry)
    rw [hd] at this
    cases this
  obtain ⟨t, ts, hts⟩ := ht.stamp hqne
  have hts2 : s.timestamps = t :: ts := by
    rw [(hst.kept ht.shape).timestamps, hts]
  obtain ⟨i1, vs1, p1, -, -, -, D, -, hget, -⟩ := hwin.handOver hproc hne0 hdefer t ts hts2
  rcases getDocket_spec ht.shape hget with ⟨hod, -, -⟩ |
    ⟨D', s2, pl0, un0, w0, w1, i, p', d', t', ts', hod, hrel⟩
  · cases hod
  simp only [Option.some.injEq] at hod
  subst hod
  have hs2 : s2 = s := by
    have := hrel.processed
    rw [hproc] at this
    simp only [Except.ok.injEq] at this
    exact this.symm
  subst hs2
  obtain ⟨hcase, hqv, hsv, -, hstep, hvi, -⟩ := hrel.views ht
  obtain ⟨hsel, hentry', -⟩ := hrel.selected ht.shape
  obtain ⟨hpk, hvk⟩ := hrel.before.docketed hentry hd
  rw [hintra, hundone] at hvk
  simp only [decide_True] at hvk
  have hscan : intraScan s2.entries (if s2.entries.length > 8 then 8 else s2.entries.length)
      0 none = viewIntraScan w0 0 none := by
    rw [hrel.before.window, intraScan_size,
      intraScan_view pl0 un0 w0 hrel.before.views hrel.before.unplanned]
    split_ifs with h8
    · left; rfl
    · right; omega
  have hfacts : k = i ∧ viewIntraScan w0 0 none = some k ∧ k < 8 := by
    rcases hcase with ⟨h0, -⟩ | ⟨-, g, lp, hfeas, h0⟩
    · exfalso
      rw [hqv, ← h0] at hpending
      unfold noPendingIntra at hpending
      rw [List.all_eq_true] at hpending
      have := hpending _ (List.getElem?_mem hvk)
      simp at this
    · have hi := intraFirst_of_feasible g _ lp hfeas
      unfold intraFirst at hi
      simp only at hi
      rw [← h0, hstep] at hi
      simp only [Bool.and_eq_true, List.all_eq_true, List.mem_range] at hi
      have hklt : k < w0.length := (List.getElem?_eq_some.mp hvk).1
      have := hi.2 k hklt
      rw [hvk] at this
      simp only [Bool.not_true, Bool.false_or, Bool.and_eq_true, decide_eq_true_eq] at this
      have hl8 := hi.1.2
      simp only [decide_eq_true_eq] at hl8
      exact ⟨this.1, this.2, by omega⟩
  obtain ⟨hki, hscank, hk8⟩ := hfacts
  subst hki
  refine ⟨hk8, by rw [hscan, hscank], ?_, _, D, hget, ?_⟩
  · rw [hscan, hscank] at hsel
    exact hsel
  · have hD := hrel.result
    have hpp : p' = p := by
      have := hrel.entry
      rw [hpk] at this
      simp only [Option.some.injEq] at this
      exact this.symm
    subst hpp
    have hdd : d' = d := by
      have := hrel.docket
      rw [hd] at this
      simp only [Option.some.injEq] at this
      exact this.symm
    subst hdd
    rw [hD]

theorem intra_priority_witness :
    (InputQueue.new 100 8 false false).run (witnessOps.take 11) = .ok (intraQueue, []) ∧
    intraQueue.swapped.process = .ok intraPlanned ∧
    intraPlanned.entries[0]? = some intraPiece ∧
    (0 < 8 ∧
      intraScan intraPlanned.entries
        (if intraPlanned.entries.length > 8 then 8 else intraPlanned.entries.length) 0 none
        = some 0 ∧
      selectLoop intraPlanned.entries (some 0) intraPlanned.entries 0 Selection.null =
        .ok (Selection.selected 0) ∧
      ∃ q' D, intraQueue.getDocket = .ok (q', some D) ∧
        D = { intraPlannedDocket with
              picture := intraPiece.picture, aqInfo := intraPiece.aqInfo, dts := D.dts }) :=
  ⟨by decide, by decide, by decide,
    intra_priority 100 8 false false (witnessOps.take 11) intraQueue [] (by decide) intraPlanned
      (by decide) 0 intraPiece intraPlannedDocket (by decide) (by decide) (by decide)
      (by decide)⟩

set_option maxRecDepth 100000 in
theorem refsInside_all :
    ∀ g ∈ List.range 9, ∀ finish ∈ [false, true],
      ∀ lastPicture ∈ [LastPicture.I, LastPicture.P, LastPicture.zero],
        feasible g finish lastPicture = true → refsInside g finish lastPicture = true := by
  decide

theorem refsInside_of_feasible (g : Nat) (finish : Bool) (lastPicture : LastPicture)
    (h : feasible g finish lastPicture = true) :
    RefsInside (freshViews (viewSynthesise (g : Int) finish lastPicture
      (List.replicate g none))) := by
  have hg : 1 ≤ g ∧ g ≤ 8 := by
    unfold feasible at h
    simp only [Bool.and_eq_true, decide_eq_true_eq] at h
    exact h.1
  have hall := refsInside_all g (List.mem_range.mpr (by omega)) finish
    (by cases finish <;> simp) lastPicture (by cases lastPicture <;> simp) h
  unfold refsInside at hall
  simp only [List.all_eq_true, List.mem_range] at hall
  intro k v hv delta hd
  have hk : k < (freshViews (viewSynthesise (g : Int) finish lastPicture
      (List.replicate g none))).length := (List.getElem?_eq_some.mp hv).1
  have := hall k hk
  rw [hv] at this
  simp only [List.all_eq_true, decide_eq_true_eq] at this
  exact this delta hd

theorem RefsInside.afterStep {vs vs' : List View} {i : Nat} (h : RefsInside vs)
    (hstep : viewStep vs = some (i, vs')) : RefsInside vs' := by
  obtain ⟨-, v, hv, -, -, hvs'⟩ := viewStep_some hstep
  rw [dropWhile_eq_drop] at hvs'
  intro k w hw delta hd
  rw [hvs', List.getElem?_drop, List.getElem?_set] at hw
  have hlen : vs'.length =
      vs.length - ((vs.set i { v with done := true }).takeWhile View.done).length := by
    rw [hvs', List.length_drop, List.length_set]
  have hr : ((vs.set i { v with done := true }).takeWhile View.done).length ≤ vs.length := by
    have := (List.takeWhile_sublist View.done (l := vs.set i { v with done := true })).length_le
    rw [List.length_set] at this
    exact this
  generalize ((vs.set i { v with done := true }).takeWhile View.done).length = r at hw hlen hr
  have key : ∀ w0, vs[r + k]? = some w0 → w0.positive = w.positive →
      0 < delta ∧ (k : Int) + delta < (vs'.length : Int) := by
    intro w0 hw0 hpos
    have := h (r + k) w0 hw0 delta (by rw [hpos]; exact hd)
    rw [hlen]
    push_cast at this ⊢
    omega
  by_cases hik : i = r + k
  · rw [if_pos hik] at hw
    split_ifs at hw with hilt
    simp only [Option.some.injEq] at hw
    exact key v (by rw [← hik]; exact hv) (by rw [← hw])
  · rw [if_neg hik] at hw
    exact key w hw rfl

/-- In every reachable state the positive deltas of the views stay inside the views. -/
theorem Reach.refs_inside {maxGopN maxGopM : Int} {fieldCoding shotChange : Bool}
    {ops : List Op} {q : InputQueue} {out : List Docket}
    (hrun : (InputQueue.new maxGopN maxGopM fieldCoding shotChange).run ops = .ok (q, out)) :
    RefsInside q.state.views := by
  have := run_induction (fun q _ _ => RefsInside q.state.views)
    (by
      intro q q' out acc op od hreach hp hs
      obtain ⟨planned, unplanned, vs, ht⟩ := hreach
      rcases ht.step_views hs with ⟨-, hv, -⟩ |
        ⟨D, s2, planned0, unplanned0, vs0, vs1, i, p, d, t, ts, -, -, hrel⟩
      · show RefsInside q'.state.views
        rw [hv]; exact hp
      · obtain ⟨hcase, hqv, -, hq'v, hstep, -, -⟩ := hrel.views ht
        show RefsInside q'.state.views
        rw [hq'v]
        rcases hcase with ⟨h0, -⟩ | ⟨-, g, lp, hfeas, h0⟩
        · subst h0
          rw [hqv] at hp
          exact hp.afterStep hstep
        · have := refsInside_of_feasible g _ lp hfeas
          rw [← h0] at this
          exact this.afterStep hstep)
    (reach_new maxGopN maxGopM fieldCoding shotChange)
    (by
      intro k v hv
      simp [State.views, InputQueue.new] at hv) hrun
  exact this

/-- The views of the window that `process` stages for the pull. -/
theorem Staged.stagedViews {q : InputQueue} {out : List Docket} {acc : List PictureWrapper}
    {planned unplanned planned0 unplanned0 : List Piece} {vs vs0 : List View} {s : State}
    (ht : Trace q out acc planned unplanned vs)
    (hst : Staged q.swapped s planned unplanned planned0 unplanned0)
    (hwin : Window s planned0 unplanned0 vs0) :
    (vs0 = vs ∧ vs ≠ []) ∨
      (vs = [] ∧ ∃ (g : Nat) (lastPicture : LastPicture),
        feasible g q.state.finish lastPicture = true ∧
        vs0 = freshViews (viewSynthesise (g : Int) q.state.finish lastPicture
          (List.replicate g none))) := by
  obtain ⟨-, -, -, -, e5, -⟩ := swapped_fields q
  rcases hst with ⟨hne, hs2, hp0, hu0⟩ | ⟨hp, hidr, g, heff, hg1, hgn, hfeas, hs2, hp0, hu0⟩
  · left
    subst hp0
    have h1 := hwin.views
    rw [ht.shape.views] at h1
    refine ⟨(map_some_injective h1).symm, ?_⟩
    intro hv
    have := view_length ht.shape.views
    rw [hv] at this
    exact hne (List.length_eq_zero.mp this)
  · right
    subst hp
    have hvs : vs = [] := by
      have := view_length ht.shape.views
      exact List.length_eq_zero.mp this.symm
    refine ⟨hvs, g, q.swapped.decideIdr.effective.2, ?_, ?_⟩
    · rw [← e5]; exact hfeas
    · have hpl : q.swapped.decideIdr.plan.length = g := by
        rw [plan_length, heff]; simp
      have hdr := groupDrains_of_feasible g q.swapped.finish _ hfeas
      unfold groupDrains at hdr
      simp only [Bool.and_eq_true] at hdr
      have hviews := plan_view q.swapped.decideIdr g heff
      rw [(decideIdr_fields q.swapped).2.2.1] at hviews
      have h1 := hwin.views
      rw [hp0, overlay_view _ _ (by rw [hpl, List.length_take]; omega)
        (fun p hp => (ht.shape.unplanned p (List.mem_of_mem_take hp)).2)
        (by rw [hviews]; exact hdr.1), hviews, e5] at h1
      exact (map_some_injective h1).symm

/-- On a window of the reachable shape whose views keep their positive deltas inside,
every positive delta of a docket points at an entry of the window that has a docket. -/
theorem Window.references_inside {s : State} {planned unplanned : List Piece} {vs : List View}
    (h : Window s planned unplanned vs) (hin : RefsInside vs) (k : Nat) (p : Piece) (d : Docket)
    (hentry : s.entries[k]? = some p) (hd : p.docket = some d) :
    ∀ delta ∈ d.references.positive, 0 < delta ∧
      (k : Int) + delta < (s.entries.length : Int) ∧
      ∃ p1 d1, s.entries[((k : Int) + delta).toNat]? = some p1 ∧ p1.docket = some d1 := by
  intro delta hdelta
  obtain ⟨-, hvk⟩ := h.docketed hentry hd
  obtain ⟨hpos, hlt⟩ := hin k _ hvk delta hdelta
  have hlen := view_length h.views
  have hlt' : ((k : Int) + delta).toNat < vs.length := by omega
  obtain ⟨v1, hv1⟩ : ∃ v1, vs[((k : Int) + delta).toNat]? = some v1 :=
    ⟨_, List.getElem?_eq_getElem hlt'⟩
  obtain ⟨p1, hp1, hpv⟩ := view_getElem? h.views hv1
  obtain ⟨d1, hd1⟩ := view_docket hpv
  refine ⟨hpos, ?_, p1, d1, ?_, hd1⟩
  · rw [h.window, List.length_append]
    push_cast
    omega
  · rw [h.window, List.getElem?_append_left (by rw [hlen]; exact hlt'), hp1]

/-- `isValidReference` never reads outside the window. -/
theorem isValidReference_in_range (s : State) (i delta : Int) :
    s.isValidReference i delta ≠ .error Failure.outOfRange := by
  unfold State.isValidReference
  by_cases h1 : ¬ (i > 0)
  · rw [if_pos h1]; intro h; cases h
  rw [if_neg h1]
  by_cases h2 : delta < 0
  · rw [if_pos h2]; intro h; cases h
  rw [if_neg h2]
  by_cases h3 : delta = 0
  · rw [if_pos h3]; intro h; cases h
  rw [if_neg h3]
  simp only
  by_cases h4 : i - 1 + delta ≥
      (if 0 ≤ s.sequenceIdr - s.sequenceFront + 1 ∧
          (s.entries.length : Int) > s.sequenceIdr - s.sequenceFront + 1
        then s.sequenceIdr - s.sequenceFront + 1 else (s.entries.length : Int))
  · rw [if_pos h4]; intro h; cases h
  rw [if_neg h4]
  have hlt : i - 1 + delta < (s.entries.length : Int) := by
    split_ifs at h4 with h5
    · omega
    · omega
  have hnn : 0 ≤ i - 1 + delta := by omega
  unfold atE
  rw [if_pos hnn]
  have : (i - 1 + delta).toNat < s.entries.length := by omega
  rw [List.getElem?_eq_getElem this]
  intro h
  cases h

/-- In a reachable state `process` can only fail with the configuration error or a failed
assertion. -/
theorem Trace.process_error {q : InputQueue} {out : List Docket} {acc : List PictureWrapper}
    {planned unplanned : List Piece} {vs : List View} (ht : Trace q out acc planned unplanned vs)
    {e : Failure} (he : q.swapped.process = .error e) :
    e = Failure.configuration ∨ e = Failure.assertion := by
  have h0 := ht.shape.swapped
  by_cases hp : planned = []
  · subst hp
    have hw : q.swapped.entries = unplanned := by rw [h0.window]; rfl
    by_cases hun : unplanned = []
    · rw [process_noop q.swapped (Or.inl (by rw [hw, hun]))] at he
      cases he
    · have hblank : Blank q.swapped.entries := by
        rw [hw]; exact fun p hp => (h0.unplanned p hp).1
      have hfront : (q.swapped.entries.head?.bind Piece.docket) = none := by
        rw [hw]
        cases hu : unplanned with
        | nil => exact absurd hu hun
        | cons p ps =>
          have := (h0.unplanned p (by rw [hu]; exact List.mem_cons_self _ _)).1
          simp [this]
      by_cases hm : q.swapped.maxGopM = 1 ∨ q.swapped.maxGopM = 8
      · by_cases hidr : q.swapped.decideIdr.sequenceFront ≤ q.swapped.decideIdr.sequenceIdr
        · have hproc := process_planning q.swapped (by rw [hw]; exact hun) hblank hm hidr
          rw [he] at hproc
          split_ifs at hproc
        · rw [process_assertion q.swapped (by rw [hw]; exact hun) hblank hm (by omega)] at he
          simp only [Except.error.injEq] at he
          right; exact he.symm
      · rw [not_or] at hm
        rw [process_throws q.swapped hm.1 hm.2 (by rw [hw]; exact hun) hfront] at he
        simp only [Except.error.injEq] at he
        left; exact he.symm
  · rw [process_noop q.swapped (Or.inr (by
      rw [h0.window]; exact front_docket_of_views h0.views hp))] at he
    cases he

/-- Claim C14: after every run, for every window entry at an index `k` that carries a
docket and every delta in the positive reference set of the docket, the delta is positive,
`k + delta` is smaller than the window size and the entry at `k + delta` carries a docket;
the same holds of the window that `process` leaves inside `getDocket`.  Consequently
`getDocket` never fails with the range error of `entries.at`, and `isValidReference`
never does in any state. -/
theorem positive_deltas_inside (maxGopN maxGopM : Int) (fieldCoding shotChange : Bool)
    (ops : List Op) (q : InputQueue) (out : List Docket)
    (hrun : (InputQueue.new maxGopN maxGopM fieldCoding shotChange).run ops = .ok (q, out)) :
    (∀ (k : Nat) (p : Piece) (d : Docket), q.state.entries[k]? = some p → p.docket = some d →
      ∀ delta ∈ d.references.positive, 0 < delta ∧
        (k : Int) + delta < (q.state.entries.length : Int) ∧
        ∃ p1 d1, q.state.entries[((k : Int) + delta).toNat]? = some p1 ∧
          p1.docket = some d1) ∧
    (∀ (s : State), q.swapped.process = .ok s →
      ∀ (k : Nat) (p : Piece) (d : Docket), s.entries[k]? = some p → p.docket = some d →
        ∀ delta ∈ d.references.positive, 0 < delta ∧
          (k : Int) + delta < (s.entries.length : Int) ∧
          ∃ p1 d1, s.entries[((k : Int) + delta).toNat]? = some p1 ∧ p1.docket = some d1) ∧
    q.getDocket ≠ .error Failure.outOfRange ∧
    (∀ (s : State) (i delta : Int), s.isValidReference i delta ≠ .error Failure.outOfRange) := by
  obtain ⟨⟨planned, unplanned, vs, ht⟩, -⟩ := reach_of_run hrun
  have hin := Reach.refs_inside hrun
  rw [ht.shape.views_eq] at hin
  refine ⟨ht.shape.references_inside hin, ?_, ?_, isValidReference_in_range⟩
  · intro s hproc k p d hentry hd
    rcases ht.staged hproc with hblank | ⟨planned0, unplanned0, vs0, hst, hwin, -, -⟩
    · have := hblank p (List.getElem?_mem hentry)
      rw [hd] at this
      cases this
    · have hin0 : RefsInside vs0 := by
        rcases hst.stagedViews ht hwin with ⟨h0, -⟩ | ⟨-, g, lp, hfeas, h0⟩
        · rw [h0]; exact hin
        · rw [h0]; exact refsInside_of_feasible g _ lp hfeas
      exact hwin.references_inside hin0 k p d hentry hd
  · intro herr
    cases hproc : q.swapped.process with
    | ok s =>
      obtain ⟨q', od, hg⟩ := ht.returns s hproc
      rw [hg] at herr
      cases herr
    | error e =>
      rw [getDocket_eq] at herr
      split_ifs at herr
      rw [hproc] at herr
      simp only [Except.error.injEq] at herr
      rcases ht.process_error hproc with h | h
      · rw [h] at herr; cases herr
      · rw [h] at herr; cases herr

theorem positive_deltas_inside_witness :
    (InputQueue.new 100 8 false false).run (witnessOps.take 13) =
      .ok (pyramidStep.1, [witnessFirst] ++ pyramidStep.2.toList) ∧
    pyramidStep.1.state.entries.length = 8 ∧
    (∀ (k : Nat) (p : Piece) (d : Docket), pyramidStep.1.state.entries[k]? = some p →
      p.docket = some d → ∀ delta ∈ d.references.positive, 0 < delta ∧
        (k : Int) + delta < (pyramidStep.1.state.entries.length : Int) ∧
        ∃ p1 d1, pyramidStep.1.state.entries[((k : Int) + delta).toNat]? = some p1 ∧
          p1.docket = some d1) :=
  ⟨by decide, by decide,
    (positive_deltas_inside 100 8 false false (witnessOps.take 13) pyramidStep.1
      ([witnessFirst] ++ pyramidStep.2.toList) (by decide)).1⟩

theorem held_of_undone {p : Piece} (h : p.done = false) : p.held = p.picture := by
  unfold Piece.held
  cases hp : p.picture with
  | none => simp [Piece.done, hp] at h
  | some x => rfl

theorem map_held_undone (ps : List Piece) (h : ∀ p ∈ ps, p.done = false) :
    ps.map Piece.held = ps.map Piece.picture := by
  apply List.map_congr_left
  intro p hp
  exact held_of_undone (h p hp)

theorem overlay_held (ds : List (Option Docket)) (ps : List Piece)
    (h : ∀ p ∈ ps, p.done = false) : (overlay ds ps).map Piece.held = ps.map Piece.held := by
  induction ds generalizing ps with
  | nil => rfl
  | cons d ds ih =>
    cases ps with
    | nil => rfl
    | cons p ps =>
      have hp := h p (List.mem_cons_self _ _)
      simp only [overlay, List.map_cons, List.cons.injEq]
      refine ⟨?_, ih ps (fun p' hp' => h p' (List.mem_cons_of_mem _ hp'))⟩
      rw [held_of_undone hp]
      exact held_of_undone (p := { p with docket := d }) hp

theorem pulled_held (i k : Nat) (dts : Int) (p : Piece) (d : Docket)
    (hd : i = k → p.docket = some d ∧ p.done = false) : (pulled i k dts p).held = p.held := by
  unfold pulled
  split_ifs with hik
  · obtain ⟨h1, h2⟩ := hd hik
    rw [held_of_undone h2]
    unfold Piece.held Piece.release
    simp [h1]
  · rfl

theorem afterPull_held (planned : List Piece) (i : Nat) (dts : Int) (p : Piece) (d : Docket)
    (hp : planned[i]? = some p) (hd : p.docket = some d) (hu : p.done = false) :
    (afterPull planned i dts).map Piece.held =
      (planned.map Piece.held).drop (retiredBy planned i) := by
  apply List.ext_getElem?
  intro k
  rw [List.getElem?_map, afterPull_getElem?, List.getElem?_drop, List.getElem?_map,
    Nat.add_comm (retiredBy planned i) k]
  cases hk : planned[k + retiredBy planned i]? with
  | none => rfl
  | some p' =>
    simp only [Option.map_some', Option.some.injEq]
    apply pulled_held i _ dts p' d
    intro hik
    rw [← hik, hp] at hk
    simp only [Option.some.injEq] at hk
    subst hk
    exact ⟨hd, hu⟩

theorem Timeline.passive {q q' : InputQueue} {out : List Docket} {acc : List PictureWrapper}
    {planned unplanned : List Piece} {vs : List View} {op : Op} {od : Option Docket}
    (ht : Trace q out acc planned unplanned vs) (h : Timeline q out acc)
    (hs : q.step op = .ok (q', od)) (hop : op ≠ Op.getDocket) :
    Timeline q' (out ++ od.toList) (acc ++ accepted [op]) := by
  obtain ⟨hcount, htl, hout⟩ := h
  obtain ⟨hod, hf, -, moved, fresh, he, hm, hfresh, -⟩ :=
    step_passive (fun p hp => (ht.shape.pre p hp).2) hs hop
  subst hod
  have hlen := congrArg List.length hm
  have hfl := congrArg List.length hfresh
  simp only [List.length_append, List.length_map] at hlen hfl
  have hfu : ∀ p ∈ fresh, p.done = false := by
    intro p hp
    have hmem : p.picture ∈ fresh.map Piece.picture := List.mem_map_of_mem _ hp
    rw [hfresh] at hmem
    obtain ⟨x, -, hx⟩ := List.mem_map.mp hmem
    unfold Piece.done
    rw [← hx]
    rfl
  have hmu : ∀ p ∈ moved, p.done = false := by
    intro p hp
    have hmem : p ∈ q.state.entriesPreanalysis ++ fresh := by
      rw [← hm]; exact List.mem_append_left _ hp
    rcases List.mem_append.mp hmem with h1 | h1
    · exact (ht.shape.pre p h1).2
    · exact hfu p h1
  refine ⟨?_, ?_, ?_⟩
  · rw [hf, he, List.length_append, List.length_append]
    omega
  · unfold InputQueue.timeline at htl ⊢
    rw [hf, he, List.map_append, List.map_append, List.drop_append_of_le_length
      (by rw [List.length_map]; omega), htl, map_held_undone moved hmu, List.append_assoc,
      List.append_assoc, ← List.map_append, hm, List.map_append, hfresh]
  · simp only [Option.toList, List.append_nil]
    intro D hD
    obtain ⟨h0, hpic⟩ := hout D hD
    refine ⟨h0, ?_⟩
    have hsome := ht.attached D hD
    have hlt : D.poc.toNat < acc.length := by
      by_contra hge
      rw [List.getElem?_eq_none (by omega)] at hpic
      rw [← hpic] at hsome
      cases hsome
    rw [List.getElem?_append_left hlt, hpic]

theorem Timeline.released {q q' : InputQueue} {out : List Docket} {acc : List PictureWrapper}
    {D : Docket} {planned unplanned : List Piece}
    {vs : List View} {s2 : State} {planned0 unplanned0 : List Piece} {vs0 vs' : List View}
    {i : Nat} {p : Piece} {d : Docket} {t : Timestamp} {ts : List Timestamp}
    (ht : Trace q out acc planned unplanned vs) (h : Timeline q out acc)
    (hrel : Released q q' D planned unplanned s2 planned0 unplanned0 vs0 vs' i p d t ts) :
    Timeline q' (out ++ [D]) acc ∧ acc[D.poc.toNat]? = p.picture := by
  obtain ⟨hcount, htl, hout⟩ := h
  have hk := hrel.staged.kept ht.shape
  have hfront := ht.shape.front
  have hq := hrel.queue
  have hl := afterPull_length planned0 i t.timestamp
  obtain ⟨-, -, -, -, -, -, hpoc⟩ := hrel.views ht
  obtain ⟨e1, -⟩ := swapped_fields q
  -- the pictures of the window staged for the pull are those of the window before the call
  have hheld : (planned0 ++ unplanned0).map Piece.held = q.state.entries.map Piece.held := by
    rcases hrel.staged with ⟨-, hs2, hp0, hu0⟩ | ⟨hp, -, g, heff, hg1, hgn, -, hs2, hp0, hu0⟩
    · subst hp0 hu0
      rw [ht.shape.window]
    · subst hp
      have hw : q.state.entries = unplanned := by rw [ht.shape.window]; rfl
      rw [hp0, hu0, List.map_append, overlay_held _ _
        (fun p hp => (ht.shape.unplanned p (List.mem_of_mem_take hp)).2), ← List.map_append,
        List.take_append_drop, hw]
  have hlen0 : planned0.length + unplanned0.length = q.state.entries.length := by
    have := congrArg List.length hheld
    simpa using this
  have hilt : i < planned0.length := (List.getElem?_eq_some.mp hrel.entry).1
  have hpic : acc[D.poc.toNat]? = p.picture := by
    have h1 := congrArg (fun l => l[i]?) htl
    simp only at h1
    unfold InputQueue.timeline at h1
    rw [List.getElem?_drop, List.getElem?_append_left (by rw [List.length_map]; omega),
      ← hheld, List.getElem?_map, List.getElem?_map,
      List.getElem?_append_left hilt, hrel.entry] at h1
    simp only [Option.map_some'] at h1
    rw [held_of_undone hrel.undone] at h1
    have hidx : D.poc.toNat = q.state.sequenceFront.toNat + i := by
      rw [hpoc]; omega
    rw [hidx]
    cases ha : acc[q.state.sequenceFront.toNat + i]? with
    | none => rw [ha] at h1; simp at h1
    | some x =>
      rw [ha] at h1
      simp only [Option.map_some', Option.some.injEq] at h1
      rw [← h1]
  refine ⟨⟨?_, ?_, ?_⟩, hpic⟩
  · rw [hq]
    show (s2.sequenceFront + (retiredBy planned0 i : Int)).toNat +
      (afterPull planned0 i t.timestamp ++ unplanned0).length + s2.entriesPreanalysis.length = _
    rw [hk.front, hk.pre, List.length_append]
    omega
  · unfold InputQueue.timeline at htl ⊢
    rw [hq]
    show (acc.map some).drop (s2.sequenceFront + (retiredBy planned0 i : Int)).toNat =
      (afterPull planned0 i t.timestamp ++ unplanned0).map Piece.held ++
        s2.entriesPreanalysis.map Piece.picture
    rw [hk.front, hk.pre]
    have hnat : (q.state.sequenceFront + (retiredBy planned0 i : Int)).toNat =
        q.state.sequenceFront.toNat + retiredBy planned0 i := by omega
    rw [hnat, ← List.drop_drop, htl, ← hheld, List.map_append, List.map_append,
      afterPull_held planned0 i t.timestamp p d hrel.entry hrel.docket hrel.undone,
      List.append_assoc, List.append_assoc,
      List.drop_append_of_le_length (by rw [List.length_map]; omega)]
  · intro E hE
    rcases List.mem_append.mp hE with h1 | h1
    · exact hout E h1
    · simp only [List.mem_singleton] at h1
      subst h1
      refine ⟨by rw [hpoc]; omega, ?_⟩
      rw [hpic, hrel.result]

theorem Timeline.unmoved {q q' : InputQueue} {out : List Docket} {acc : List PictureWrapper}
    {planned unplanned : List Piece} {vs : List View}
    (ht : Trace q out acc planned unplanned vs) (h : Timeline q out acc)
    (hidle : Idle q q' planned unplanned) (hwin : Window q'.state planned unplanned vs) :
    Timeline q' out acc := by
  obtain ⟨hcount, htl, hout⟩ := h
  have hk := hidle.keeps
  have he : q'.state.entries = q.state.entries := by
    rw [hwin.window, ht.shape.window]
  unfold Timeline InputQueue.timeline at *
  rw [hk.front, hk.pre, he]
  exact ⟨hcount, htl, hout⟩

/-- Every run keeps the accepted pictures in line with the queue. -/
theorem Reach.timeline {maxGopN maxGopM : Int} {fieldCoding shotChange : Bool}
    {ops : List Op} {q : InputQueue} {out : List Docket}
    (hrun : (InputQueue.new maxGopN maxGopM fieldCoding shotChange).run ops = .ok (q, out)) :
    Timeline q out (accepted ops) := by
  have := run_induction Timeline
    (by
      intro q q' out acc op od hreach hp hs
      obtain ⟨planned, unplanned, vs, ht⟩ := hreach
      by_cases hop : op = Op.getDocket
      · subst hop
        simp only [accepted, List.append_nil]
        rcases getDocket_spec ht.shape hs with ⟨hod, hidle, hwin⟩ |
          ⟨D, s2, planned0, unplanned0, vs0, vs1, i, p, d, t, ts, hod, hrel⟩
        · subst hod
          simp only [Option.toList, List.append_nil]
          exact Timeline.unmoved ht hp hidle hwin
        · subst hod
          exact (Timeline.released ht hp hrel).1
      · exact Timeline.passive ht hp hs hop)
    (reach_new maxGopN maxGopM fieldCoding shotChange)
    (by
      refine ⟨rfl, rfl, ?_⟩
      intro D hD
      cases hD) hrun
  simpa using this

/-- The pictures of the window that `process` stages for the pull are those of the window
before the call. -/
theorem Staged.held {q : InputQueue} {out : List Docket} {acc : List PictureWrapper}
    {planned unplanned planned0 unplanned0 : List Piece} {vs vs0 : List View} {s : State}
    (ht : Trace q out acc planned unplanned vs)
    (hst : Staged q.swapped s planned unplanned planned0 unplanned0)
    (hwin : Window s planned0 unplanned0 vs0) :
    s.entries.map Piece.held = q.state.entries.map Piece.held := by
  rw [hwin.window]
  rcases hst with ⟨-, hs2, hp0, hu0⟩ | ⟨hp, -, g, heff, hg1, hgn, -, hs2, hp0, hu0⟩
  · subst hp0 hu0
    rw [ht.shape.window]
  · subst hp
    have hw : q.state.entries = unplanned := by rw [ht.shape.window]; rfl
    rw [hp0, hu0, List.map_append, overlay_held _ _
      (fun p hp => (ht.shape.unplanned p (List.mem_of_mem_take hp)).2), ← List.map_append,
      List.take_append_drop, hw]

/-- On a window in line with the accepted pictures, the entry at index `k` holds the
accepted picture of index `sequenceFront + k`. -/
theorem timeline_entry {acc : List PictureWrapper} {front : Int} {es : List Piece}
    {rest : List (Option PictureWrapper)} (hfront : 0 ≤ front)
    (htl : (acc.map some).drop front.toNat = es.map Piece.held ++ rest) {k : Nat} {p : Piece}
    (hentry : es[k]? = some p) :
    acc[(front + (k : Int)).toNat]? = p.held ∧ p.held.isSome = true := by
  have hk : k < es.length := (List.getElem?_eq_some.mp hentry).1
  have h1 := congrArg (fun l => l[k]?) htl
  simp only at h1
  rw [List.getElem?_drop, List.getElem?_append_left (by rw [List.length_map]; exact hk),
    List.getElem?_map, List.getElem?_map, hentry] at h1
  simp only [Option.map_some'] at h1
  have hidx : (front + (k : Int)).toNat = front.toNat + k := by omega
  rw [hidx]
  cases ha : acc[front.toNat + k]? with
  | none => rw [ha] at h1; simp at h1
  | some x =>
    rw [ha] at h1
    simp only [Option.map_some', Option.some.injEq] at h1
    rw [← h1]
    exact ⟨rfl, rfl⟩

/-- Claim C19: after every run, `sequenceFront` is the number of accepted pictures that
are no longer in the window or the preanalysis queue (the entries retired so far).  Every
docket attached to a window entry, between calls and right after `process` has created it,
has as POC the index of the entry counted from `sequenceFront`, which is the 0-based
acceptance index of the picture of that entry; and every returned docket carries the
accepted picture whose index is its POC. -/
theorem poc_is_display_index (maxGopN maxGopM : Int) (fieldCoding shotChange : Bool)
    (ops : List Op) (q : InputQueue) (out : List Docket)
    (hrun : (InputQueue.new maxGopN maxGopM fieldCoding shotChange).run ops = .ok (q, out)) :
    0 ≤ q.state.sequenceFront ∧
    q.state.sequenceFront + (q.state.entries.length : Int) +
      (q.state.entriesPreanalysis.length : Int) = ((accepted ops).length : Int) ∧
    (∀ (k : Nat) (p : Piece) (d : Docket), q.state.entries[k]? = some p → p.docket = some d →
      d.poc = q.state.sequenceFront + (k : Int) ∧
      (accepted ops)[d.poc.toNat]? = p.held ∧ p.held.isSome = true ∧
      (p.done = false → (accepted ops)[d.poc.toNat]? = p.picture)) ∧
    (∀ (s : State), q.swapped.process = .ok s →
      ∀ (k : Nat) (p : Piece) (d : Docket), s.entries[k]? = some p → p.docket = some d →
        d.poc = q.state.sequenceFront + (k : Int) ∧
        (accepted ops)[d.poc.toNat]? = p.held ∧ p.held.isSome = true ∧
        (p.done = false → (accepted ops)[d.poc.toNat]? = p.picture)) ∧
    (∀ D ∈ out, 0 ≤ D.poc ∧ (accepted ops)[D.poc.toNat]? = D.picture ∧
      D.picture.isSome = true) := by
  obtain ⟨⟨planned, unplanned, vs, ht⟩, -⟩ := reach_of_run hrun
  obtain ⟨hcount, htl, hout⟩ := Reach.timeline hrun
  have hfront := ht.shape.front
  unfold InputQueue.timeline at htl
  refine ⟨hfront, by omega, ?_, ?_, ?_⟩
  · intro k p d hentry hd
    obtain ⟨hpk, -⟩ := ht.shape.docketed hentry hd
    have hpoc := (ht.pocs k p d hpk hd).1
    obtain ⟨h1, h2⟩ := timeline_entry hfront htl hentry
    rw [hpoc]
    exact ⟨rfl, h1, h2, fun hu => by rw [h1, held_of_undone hu]⟩
  · intro s hproc k p d hentry hd
    rcases ht.staged hproc with hblank | ⟨planned0, unplanned0, vs0, hst, hwin, -, -⟩
    · have := hblank p (List.getElem?_mem hentry)
      rw [hd] at this
      cases this
    · obtain ⟨hpk, -⟩ := hwin.docketed hentry hd
      obtain ⟨hsound, -, -⟩ := hst.sound ht
      have hpoc := (hsound k p d hpk hd).1
      rw [(hst.kept ht.shape).front] at hpoc
      rw [← hst.held ht hwin] at htl
      obtain ⟨h1, h2⟩ := timeline_entry hfront htl hentry
      rw [hpoc]
      exact ⟨rfl, h1, h2, fun hu => by rw [h1, held_of_undone hu]⟩
  · intro D hD
    obtain ⟨h1, h2⟩ := hout D hD
    exact ⟨h1, h2, ht.attached D hD⟩

theorem poc_is_display_index_witness :
    (InputQueue.new 100 8 false false).run witnessPrefix =
      .ok (witnessPrefixQueue, witnessPrefixOut) ∧
    witnessPrefixQueue.state.sequenceFront = 1 ∧
    witnessPrefixOut.length = 4 ∧
    (∀ D ∈ witnessPrefixOut, 0 ≤ D.poc ∧ (accepted witnessPrefix)[D.poc.toNat]? = D.picture ∧
      D.picture.isSome = true) :=
  ⟨by decide, by decide, by decide,
    (poc_is_display_index 100 8 false false witnessPrefix witnessPrefixQueue witnessPrefixOut
      (by decide)).2.2.2.2⟩

set_option maxRecDepth 100000 in
theorem groupDelay_all :
    ∀ g ∈ List.range 9, ∀ finish ∈ [false, true],
      ∀ lastPicture ∈ [LastPicture.I, LastPicture.P, LastPicture.zero],
        feasible g finish lastPicture = true → groupDelay g finish lastPicture = true := by
  decide

theorem groupDelay_of_feasible (g : Nat) (finish : Bool) (lastPicture : LastPicture)
    (h : feasible g finish lastPicture = true) :
    viewDelay g (freshViews (viewSynthesise (g : Int) finish lastPicture
      (List.replicate g none))) = true := by
  have hg : 1 ≤ g ∧ g ≤ 8 := by
    unfold feasible at h
    simp only [Bool.and_eq_true, decide_eq_true_eq] at h
    exact h.1
  exact groupDelay_all g (List.mem_range.mpr (by omega)) finish
    (by cases finish <;> simp) lastPicture (by cases lastPicture <;> simp) h

theorem viewDelay_step {n : Nat} {vs vs' : List View} {i : Nat}
    (h : viewDelay n vs = true) (hstep : viewStep vs = some (i, vs')) :
    doneCount vs ≤ i + 3 ∧ ∃ m, viewDelay m vs' = true := by
  cases n with
  | zero =>
    unfold viewDelay at h
    have hv : vs = [] := List.isEmpty_iff.mp h
    subst hv
    simp [viewStep, viewSelect] at hstep
  | succ n =>
    unfold viewDelay at h
    rw [hstep] at h
    simp only [Bool.and_eq_true, decide_eq_true_eq] at h
    exact ⟨h.1, n, h.2⟩

theorem doneCount_set (vs : List View) (i : Nat) (v : View) (hv : vs[i]? = some v)
    (hd : v.done = false) :
    doneCount (vs.set i { v with done := true }) = doneCount vs + 1 := by
  induction vs generalizing i with
  | nil => simp at hv
  | cons a rest ih =>
    cases i with
    | zero =>
      simp only [List.getElem?_cons_zero, Option.some.injEq] at hv
      subst hv
      simp [doneCount, List.filter_cons, hd]
    | succ i =>
      simp only [List.getElem?_cons_succ] at hv
      have := ih i hv
      unfold doneCount at this ⊢
      simp only [List.set_cons_succ, List.filter_cons]
      cases a.done <;> simp [this]

theorem doneCount_dropWhile (vs : List View) :
    doneCount (vs.dropWhile View.done) + (vs.takeWhile View.done).length = doneCount vs := by
  induction vs with
  | nil => rfl
  | cons a rest ih =>
    unfold doneCount at ih ⊢
    cases ha : a.done
    · simp [List.dropWhile_cons, List.takeWhile_cons, ha]
    · simp [List.dropWhile_cons, List.takeWhile_cons, List.filter_cons, ha]
      omega

/-- A pull on views releases one entry and retires the released entries at the front. -/
theorem viewStep_count {vs vs' : List View} {i : Nat} (hstep : viewStep vs = some (i, vs')) :
    vs'.length ≤ vs.length ∧ doneCount vs' + (vs.length - vs'.length) = doneCount vs + 1 := by
  unfold viewStep at hstep
  cases hsel : viewSelect vs (viewIntraScan vs 0 none) vs 0 with
  | none => rw [hsel] at hstep; cases hstep
  | some j =>
    rw [hsel] at hstep
    simp only at hstep
    cases hv : vs[j]? with
    | none => rw [hv] at hstep; cases hstep
    | some v =>
      rw [hv] at hstep
      simp only at hstep
      by_cases hc : v.done = true ∨ viewRefsDone vs j v.positive ≠ some true
      · rw [if_pos hc] at hstep; cases hstep
      · rw [if_neg hc] at hstep
        simp only [Option.some.injEq, Prod.mk.injEq] at hstep
        obtain ⟨-, h2⟩ := hstep
        have hd : v.done = false := by
          cases hvd : v.done with
          | false => rfl
          | true => exact absurd (Or.inl hvd) hc
        have h3 := doneCount_set vs j v hv hd
        have h4 := doneCount_dropWhile (vs.set j { v with done := true })
        have h5 := congrArg List.length
          (List.takeWhile_append_dropWhile View.done (vs.set j { v with done := true }))
        simp only [List.length_append, List.length_set] at h5
        rw [← h2]
        omega

/-- The number of dockets returned so far is the front of the window plus the number of
released entries still in the window; every pull to come respects the delay of 3; and
every docket returned so far was returned when at most its POC plus 3 dockets had been
returned. -/
theorem Reach.delay {maxGopN maxGopM : Int} {fieldCoding shotChange : Bool}
    {ops : List Op} {q : InputQueue} {out : List Docket}
    (hrun : (InputQueue.new maxGopN maxGopM fieldCoding shotChange).run ops = .ok (q, out)) :
    (out.length : Int) = q.state.sequenceFront + (doneCount q.state.views : Int) ∧
    (∃ n, viewDelay n q.state.views = true) ∧
    ∀ (k : Nat) (D : Docket), out[k]? = some D → (k : Int) ≤ D.poc + 3 := by
  have := run_induction (fun q out _ =>
      (out.length : Int) = q.state.sequenceFront + (doneCount q.state.views : Int) ∧
      (∃ n, viewDelay n q.state.views = true) ∧
      ∀ (k : Nat) (D : Docket), out[k]? = some D → (k : Int) ≤ D.poc + 3)
    (by
      intro q q' out acc op od hreach hp hs
      obtain ⟨hlen, ⟨n, hn⟩, hout⟩ := hp
      obtain ⟨planned, unplanned, vs, ht⟩ := hreach
      rcases ht.step_views hs with ⟨hod, hv, hf⟩ |
        ⟨D, s2, planned0, unplanned0, vs0, vs1, i, p, d, t, ts, -, hod, hrel⟩
      · subst hod
        simp only [Option.toList, List.append_nil]
        rw [hv, hf]
        exact ⟨hlen, ⟨n, hn⟩, hout⟩
      · subst hod
        obtain ⟨hcase, hqv, -, hq'v, hstep, -, hpoc⟩ := hrel.views ht
        have hk := hrel.staged.kept ht.shape
        have hfront : q'.state.sequenceFront =
            q.state.sequenceFront + (retiredBy planned0 i : Int) := by
          rw [hrel.queue]
          show s2.sequenceFront + (retiredBy planned0 i : Int) = _
          rw [hk.front]
        have hl0 := view_length hrel.before.views
        have hl1 := view_length hrel.after.views
        have hl2 := afterPull_length planned0 i t.timestamp
        obtain ⟨hle, hcount⟩ := viewStep_count hstep
        have hd0 : doneCount vs0 = doneCount q.state.views ∧ ∃ m, viewDelay m vs0 = true := by
          rcases hcase with ⟨h0, -⟩ | ⟨h0, g, lp, hfeas, h1⟩
          · rw [h0, hqv]
            exact ⟨rfl, n, by rw [← hqv]; exact hn⟩
          · refine ⟨?_, g, ?_⟩
            · rw [hqv, h0, h1]
              unfold doneCount freshViews
              simp only [List.filter_nil, List.length_nil]
              rw [List.length_eq_zero, List.filter_eq_nil_iff]
              intro v hv
              rw [List.mem_filterMap] at hv
              obtain ⟨a, -, ha⟩ := hv
              cases a with
              | none => cases ha
              | some x =>
                simp only [Option.map_some', Option.some.injEq] at ha
                rw [← ha]
                simp
            · rw [h1]
              exact groupDelay_of_feasible g _ lp hfeas
        obtain ⟨hc0, m, hm⟩ := hd0
        obtain ⟨hdelay, hnext⟩ := viewDelay_step hm hstep
        simp only [Option.toList, List.length_append, List.length_singleton]
        rw [hq'v, hfront]
        refine ⟨?_, hnext, ?_⟩
        · push_cast
          omega
        · intro k E hE
          by_cases hko : k < out.length
          · rw [List.getElem?_append_left hko] at hE
            exact hout k E hE
          · have hk0 : k = out.length := by
              have := (List.getElem?_eq_some.mp hE).1
              simp only [List.length_append, List.length_singleton] at this
              omega
            subst hk0
            rw [List.getElem?_append_right (Nat.le_refl _)] at hE
            simp only [Nat.sub_self, List.getElem?_cons_zero, Option.some.injEq] at hE
            subst hE
            rw [hpoc]
            omega)
    (reach_new maxGopN maxGopM fieldCoding shotChange)
    (by
      refine ⟨by simp [State.views, InputQueue.new, doneCount], ⟨0, ?_⟩, ?_⟩
      · simp [State.views, InputQueue.new, viewDelay]
      · intro k D hD
        simp at hD) hrun
  simpa using this

/-- The decode timestamp slot of index `k` when the presentation timestamps form an
arithmetic progression and two pictures have been accepted. -/
theorem slotValues_progression {acc : List PictureWrapper} {base period : Int}
    (hprog : Progression acc base period) (h2 : 2 ≤ acc.length) (k : Nat) (v : Int)
    (hv : (slotValues acc)[k]? = some v) : v = base + ((k : Int) - 3) * period := by
  match acc, h2 with
  | a0 :: a1 :: rest, _ =>
    have h0 := hprog 0 a0 (by simp)
    have h1 := hprog 1 a1 (by simp)
    simp only [Nat.cast_zero, Nat.cast_one] at h0 h1
    unfold slotValues at hv
    match k with
    | 0 =>
      simp only [List.cons_append, List.getElem?_cons_zero, Option.some.injEq] at hv
      rw [← hv, h0, h1]; push_cast; ring
    | 1 =>
      simp only [List.cons_append, List.getElem?_cons_succ, List.getElem?_cons_zero,
        Option.some.injEq] at hv
      rw [← hv, h0, h1]; push_cast; ring
    | 2 =>
      simp only [List.cons_append, List.getElem?_cons_succ, List.getElem?_cons_zero,
        Option.some.injEq] at hv
      rw [← hv, h0, h1]; push_cast; ring
    | j + 3 =>
      simp only [List.cons_append, List.getElem?_cons_succ, List.nil_append,
        List.getElem?_map] at hv
      cases hx : (a0 :: a1 :: rest)[j]? with
      | none => rw [hx] at hv; cases hv
      | some x =>
        rw [hx] at hv
        simp only [Option.map_some', Option.some.injEq] at hv
        rw [← hv, hprog j x hx]
        push_cast
        ring

/-- The pictures of the witness run have the presentation timestamps `7, 17, 27, ...`. -/
theorem witness_progression : Progression (accepted witnessPrefix) 7 10 := by
  intro j x hx
  have hj : j < 9 := (List.getElem?_eq_some.mp hx).1
  interval_cases j <;>
    · simp only [witnessPrefix, witnessOps, accepted] at hx
      cases hx
      rfl

/-- Claim C18: in every run (in particular with base GOP size 1 or 8 and intra period at
least 1), the docket returned at position `k`, counted from 0, has a POC of at least
`k - 3`: at most POC plus 3 dockets were returned before it.  Hence, when the presentation
timestamps of the accepted pictures form an arithmetic progression with positive period,
the decode timestamp of every returned docket is at most the presentation timestamp of
the picture it carries. -/
theorem reorder_delay (maxGopN maxGopM : Int) (fieldCoding shotChange : Bool)
    (ops : List Op) (q : InputQueue) (out : List Docket)
    (hrun : (InputQueue.new maxGopN maxGopM fieldCoding shotChange).run ops = .ok (q, out)) :
    (∀ (k : Nat) (D : Docket), out[k]? = some D → (k : Int) ≤ D.poc + 3) ∧
    (∀ (base period : Int), 0 < period → Progression (accepted ops) base period →
      ∀ D ∈ out, ∃ x, D.picture = some x ∧ D.dts ≤ x.pts) := by
  obtain ⟨-, -, hdelay⟩ := Reach.delay hrun
  refine ⟨hdelay, ?_⟩
  intro base period hpos hprog D hD
  obtain ⟨⟨planned, unplanned, vs, ht⟩, -⟩ := reach_of_run hrun
  obtain ⟨-, -, hout⟩ := Reach.timeline hrun
  obtain ⟨hpoc0, hpic⟩ := hout D hD
  obtain ⟨k, hk⟩ := List.getElem?_of_mem hD
  have hko : k < out.length := (List.getElem?_eq_some.mp hk).1
  have hkd := hdelay k D hk
  cases hx : D.picture with
  | none =>
    have := ht.attached D hD
    rw [hx] at this
    cases this
  | some x =>
    refine ⟨x, rfl, ?_⟩
    rw [hx] at hpic
    have hxp := hprog _ x hpic
    have hnat : ((D.poc.toNat : Nat) : Int) = D.poc := Int.toNat_of_nonneg hpoc0
    rw [hnat] at hxp
    have hdts : (slotValues (accepted ops))[k]? = some D.dts := by
      have h1 := congrArg (fun l => l[k]?) ht.dts
      simp only [List.getElem?_map, hk, Option.map_some', List.getElem?_take, hko,
        if_true] at h1
      exact h1.symm
    by_cases h2 : 2 ≤ (accepted ops).length
    · rw [slotValues_progression hprog h2 k D.dts hdts, hxp]
      have : (k : Int) - 3 ≤ D.poc := by omega
      have := mul_le_mul_of_nonneg_right this (le_of_lt hpos)
      omega
    · have hsv : slotValues (accepted ops) = (accepted ops).map PictureWrapper.pts := by
        match accepted ops, h2 with
        | [], _ => rfl
        | [a], _ => rfl
        | a :: b :: r, h => simp at h
      rw [hsv, List.getElem?_map] at hdts
      have hlt : D.poc.toNat < (accepted ops).length := (List.getElem?_eq_some.mp hpic).1
      cases hy : (accepted ops)[k]? with
      | none => rw [hy] at hdts; cases hdts
      | some y =>
        have hky : k < (accepted ops).length := (List.getElem?_eq_some.mp hy).1
        have hk0 : D.poc.toNat = k := by omega
        rw [hk0, hy] at hpic
        rw [hy] at hdts
        simp only [Option.map_some', Option.some.injEq] at hdts hpic
        rw [← hdts, hpic]

theorem reorder_delay_witness :
    (InputQueue.new 100 8 false false).run witnessPrefix =
      .ok (witnessPrefixQueue, witnessPrefixOut) ∧
    witnessPrefixOut.map Docket.poc = [0, 8, 4, 2] ∧
    (∀ (k : Nat) (D : Docket), witnessPrefixOut[k]? = some D → (k : Int) ≤ D.poc + 3) ∧
    (∀ D ∈ witnessPrefixOut, ∃ x, D.picture = some x ∧ D.dts ≤ x.pts) :=
  ⟨by decide, by decide,
    (reorder_delay 100 8 false false witnessPrefix witnessPrefixQueue witnessPrefixOut
      (by decide)).1,
    (reorder_delay 100 8 false false witnessPrefix witnessPrefixQueue witnessPrefixOut
      (by decide)).2 7 10 (by decide) witness_progression⟩

set_option maxRecDepth 100000 in
theorem intraLast_all :
    ∀ g ∈ List.range 9, ∀ finish ∈ [false, true],
      ∀ lastPicture ∈ [LastPicture.I, LastPicture.P, LastPicture.zero],
        feasible g finish lastPicture = true → intraLast g finish lastPicture = true := by
  decide

theorem intraLast_of_feasible (g : Nat) (finish : Bool) (lastPicture : LastPicture)
    (h : feasible g finish lastPicture = true) (k : Nat) (v : View)
    (hv : (freshViews (viewSynthesise (g : Int) finish lastPicture
      (List.replicate g none)))[k]? = some v) :
    k < g ∧ (v.intra = true ↔ lastPicture = LastPicture.I ∧ k + 1 = g) := by
  have hg : 1 ≤ g ∧ g ≤ 8 := by
    unfold feasible at h
    simp only [Bool.and_eq_true, decide_eq_true_eq] at h
    exact h.1
  have hall := intraLast_all g (List.mem_range.mpr (by omega)) finish
    (by cases finish <;> simp) lastPicture (by cases lastPicture <;> simp) h
  unfold intraLast at hall
  simp only [Bool.and_eq_true, decide_eq_true_eq, List.all_eq_true, List.mem_range] at hall
  obtain ⟨hlen, hall⟩ := hall
  have hk : k < g := by
    have := (List.getElem?_eq_some.mp hv).1
    omega
  refine ⟨hk, ?_⟩
  have := hall k hk
  rw [hv] at this
  simp only [beq_iff_eq] at this
  rw [this]
  cases lastPicture <;> simp [LastPicture.isIntra]

/-- Between the multiple of the period before the next intra position and that position,
the only multiple of the period is the position itself. -/
theorem periodic_dvd {period idr x : Int} (hn : 1 ≤ period) (hd : period ∣ idr)
    (hlo : idr - period < x) (hhi : x ≤ idr) : period ∣ x ↔ x = idr := by
  constructor
  · intro hx
    obtain ⟨a, rfl⟩ := hd
    obtain ⟨b, rfl⟩ := hx
    have hpos : 0 < period := by omega
    have h1 : b ≤ a := le_of_mul_le_mul_left hhi hpos
    have h2 : a - 1 < b := by
      have : period * (a - 1) < period * b := by rw [mul_sub, mul_one]; exact hlo
      exact lt_of_mul_lt_mul_left this (le_of_lt hpos)
    have : b = a := by omega
    rw [this]
  · intro h
    rw [h]
    exact hd

/-- The kind of the last picture of the group and the effective GOP size: a group ends on
an intra picture exactly when it ends at the next intra position. -/
theorem effective_intra (s : State) :
    (s.effective.2 = LastPicture.I ∧ s.effective.1 = s.sequenceIdr - s.sequenceFront + 1) ∨
    (s.effective.2 ≠ LastPicture.I ∧ s.effective.1 < s.sequenceIdr - s.sequenceFront + 1) := by
  unfold State.effective
  by_cases h1 : s.finish ∧ (s.entries.length : Int) < s.maxGopM
  · simp only [if_pos h1]
    by_cases h2 : s.sequenceIdr - s.sequenceFront + 1 ≤ (s.entries.length : Int)
    · rw [if_pos h2]; exact Or.inl ⟨rfl, rfl⟩
    · rw [if_neg h2]
      right
      refine ⟨(by intro h; cases h), ?_⟩
      show (s.entries.length : Int) < _
      omega
  · simp only [if_neg h1]
    by_cases h2 : s.sequenceIdr - s.sequenceFront + 1 ≤ s.maxGopM
    · rw [if_pos h2]; exact Or.inl ⟨rfl, rfl⟩
    · rw [if_neg h2]
      right
      refine ⟨(by intro h; cases h), ?_⟩
      show s.maxGopM < _
      omega

theorem Periodic.afterDecision {s : State} (h : Periodic s) (hsc : s.shotChange = false) :
    Periodic s.decideIdr := by
  obtain ⟨h1, h2⟩ := h
  unfold State.decideIdr
  rw [hsc]
  simp only [Bool.false_eq_true, if_false]
  by_cases hlt : s.sequenceIdr - s.sequenceFront < 0
  · rw [if_pos hlt]
    refine ⟨?_, ?_⟩
    · show s.maxGopN ∣ s.sequenceIdr + s.maxGopN
      exact dvd_add h1 (dvd_refl _)
    · show s.sequenceIdr + s.maxGopN - s.maxGopN < s.sequenceFront
      omega
  · rw [if_neg hlt]
    exact ⟨h1, h2⟩

/-- A pull keeps the intra views at the multiples of the period. -/
theorem IntraAt.pulled {period front : Int} {vs vs' : List View} {i : Nat}
    (h : IntraAt period front vs) (hstep : viewStep vs = some (i, vs')) :
    IntraAt period (front + ((vs.length - vs'.length : Nat) : Int)) vs' := by
  obtain ⟨-, v, hv, -, -, hvs'⟩ := viewStep_some hstep
  rw [dropWhile_eq_drop] at hvs'
  have hlen : vs'.length =
      vs.length - ((vs.set i { v with done := true }).takeWhile View.done).length := by
    rw [hvs', List.length_drop, List.length_set]
  have hr : ((vs.set i { v with done := true }).takeWhile View.done).length ≤ vs.length := by
    have := (List.takeWhile_sublist View.done (l := vs.set i { v with done := true })).length_le
    rw [List.length_set] at this
    exact this
  intro k w hw
  rw [hvs', List.getElem?_drop, List.getElem?_set] at hw
  generalize ((vs.set i { v with done := true }).takeWhile View.done).length = r at hw hlen hr
  have hsub : vs.length - vs'.length = r := by omega
  rw [hsub]
  have key : ∀ w0, vs[r + k]? = some w0 → w0.intra = w.intra →
      (w.intra = true ↔ period ∣ front + (r : Int) + (k : Int)) := by
    intro w0 hw0 hin
    have := h (r + k) w0 hw0
    rw [hin] at this
    push_cast at this
    rw [this, add_assoc]
  by_cases hik : i = r + k
  · rw [if_pos hik] at hw
    split_ifs at hw with hilt
    simp only [Option.some.injEq] at hw
    exact key v (by rw [← hik]; exact hv) (by rw [← hw])
  · rw [if_neg hik] at hw
    exact key w hw rfl

/-- In periodic mode, on the window that `process` stages for the pull the next intra
position is still a multiple of the period, and the intra views are those at the multiples
of the period. -/
theorem Staged.intra {q : InputQueue} {out : List Docket} {acc : List PictureWrapper}
    {planned unplanned planned0 unplanned0 : List Piece} {vs vs0 : List View} {s : State}
    (ht : Trace q out acc planned unplanned vs)
    (hst : Staged q.swapped s planned unplanned planned0 unplanned0)
    (hwin : Window s planned0 unplanned0 vs0)
    (hsc : q.state.shotChange = false) (hn : 1 ≤ q.state.maxGopN)
    (hper : Periodic q.state)
    (hia : IntraAt q.state.maxGopN q.state.sequenceFront vs) :
    Periodic s ∧ s.maxGopN = q.state.maxGopN ∧ s.sequenceFront = q.state.sequenceFront ∧
    IntraAt q.state.maxGopN q.state.sequenceFront vs0 := by
  obtain ⟨-, -, -, -, e5, e6, e7, -, e9, e10, -⟩ := swapped_fields q
  have hps : Periodic q.swapped := by
    unfold Periodic
    rw [e6, e7, e9]
    exact hper
  have hk := hst.kept ht.shape
  rcases hst with ⟨hne, hs2, hp0, hu0⟩ | ⟨hp, hidr, g, heff, hg1, hgn, hfeas, hs2, hp0, hu0⟩
  · subst hp0 hs2
    have h1 := hwin.views
    rw [ht.shape.views] at h1
    rw [map_some_injective h1] at hia
    exact ⟨hps, e9, e6, hia⟩
  · have hpd := hps.afterDecision (by rw [e10]; exact hsc)
    obtain ⟨d1, -, -, -, -, -, d7, -⟩ := decideIdr_fields q.swapped
    refine ⟨?_, ?_, hk.front, ?_⟩
    · rw [hs2]
      exact hpd
    · rw [hk.config.1]
    · subst hp
      have hpl : q.swapped.decideIdr.plan.length = g := by
        rw [plan_length, heff]; simp
      have hdr := groupDrains_of_feasible g q.swapped.finish _ hfeas
      unfold groupDrains at hdr
      simp only [Bool.and_eq_true] at hdr
      have hviews := plan_view q.swapped.decideIdr g heff
      rw [(decideIdr_fields q.swapped).2.2.1] at hviews
      have h1 := hwin.views
      rw [hp0, overlay_view _ _ (by rw [hpl, List.length_take]; omega)
        (fun p hp => (ht.shape.unplanned p (List.mem_of_mem_take hp)).2)
        (by rw [hviews]; exact hdr.1), hviews] at h1
      have hvs0 := (map_some_injective h1).symm
      intro k v hv
      rw [hvs0] at hv
      obtain ⟨hkg, hin⟩ := intraLast_of_feasible g _ _ hfeas k v hv
      rw [hin]
      obtain ⟨hpd1, hpd2⟩ := hpd
      rw [d1, d7, e6, e9] at hpd2
      rw [d7, e9] at hpd1
      rw [d1, e6] at hidr
      have heffI := effective_intra q.swapped.decideIdr
      rw [heff, d1, e6] at heffI
      rcases heffI with ⟨hI, hgI⟩ | ⟨hI, hgI⟩
      · rw [periodic_dvd hn hpd1 (by omega) (by omega)]
        constructor
        · rintro ⟨-, h⟩; omega
        · intro h; exact ⟨hI, by omega⟩
      · rw [periodic_dvd hn hpd1 (by omega) (by omega)]
        constructor
        · rintro ⟨h, -⟩; exact absurd h hI
        · intro h; omega

/-- In periodic mode with an intra period of at least 1, after every run the next intra
position is a multiple of the period with no other multiple between the front and it, the
intra views of the window are those at the multiples of the period, and so are the
returned dockets of slice type `I`. -/
theorem Reach.periodic {maxGopN maxGopM : Int} {fieldCoding : Bool}
    {ops : List Op} {q : InputQueue} {out : List Docket} (hn : 1 ≤ maxGopN)
    (hrun : (InputQueue.new maxGopN maxGopM fieldCoding false).run ops = .ok (q, out)) :
    q.state.maxGopN = maxGopN ∧ q.state.shotChange = false ∧ Periodic q.state ∧
    IntraAt maxGopN q.state.sequenceFront q.state.views ∧
    ∀ D ∈ out, (D.sliceType = SliceType.I ↔ maxGopN ∣ D.poc) := by
  have := run_induction (fun q out _ =>
      q.state.maxGopN = maxGopN ∧ q.state.shotChange = false ∧ Periodic q.state ∧
      IntraAt maxGopN q.state.sequenceFront q.state.views ∧
      ∀ D ∈ out, (D.sliceType = SliceType.I ↔ maxGopN ∣ D.poc))
    (by
      intro q q' out acc op od hreach hp hs
      obtain ⟨hN, hsc, hper, hia, hout⟩ := hp
      obtain ⟨-, hcfg⟩ := hreach.step hs
      obtain ⟨planned, unplanned, vs, ht⟩ := hreach
      have hN' : q'.state.maxGopN = maxGopN := by rw [hcfg.1, hN]
      have hsc' : q'.state.shotChange = false := by rw [hcfg.2.2.2.1, hsc]
      refine ⟨hN', hsc', ?_⟩
      by_cases hop : op = Op.getDocket
      · subst hop
        rcases getDocket_spec ht.shape hs with ⟨hod, hidle, hwin⟩ |
          ⟨D, s2, planned0, unplanned0, vs0, vs1, i, p, d, t, ts, hod, hrel⟩
        · subst hod
          simp only [Option.toList, List.append_nil]
          have hf := hidle.keeps.front
          refine ⟨?_, ?_, hout⟩
          · obtain ⟨-, -, -, -, -, e6, e7, -, e9, e10, -⟩ := swapped_fields q
            have hps : Periodic q.swapped := by
              unfold Periodic
              rw [e6, e7, e9]
              exact hper
            rcases hidle with h | ⟨-, h | ⟨-, -, -, -, h⟩⟩
            · rw [h]; exact hper
            · rw [h]; exact hps
            · rw [h]
              exact hps.afterDecision (by rw [e10]; exact hsc)
          · rw [hf, hwin.views_eq, ← ht.shape.views_eq]
            exact hia
        · subst hod
          obtain ⟨-, hqv, -, hq'v, hstep, hvi, hpoc⟩ := hrel.views ht
          rw [hqv, ← hN] at hia
          obtain ⟨hps2, hN2, hf2, hia0⟩ :=
            hrel.staged.intra ht hrel.before hsc (by rw [hN]; exact hn) hper hia
          rw [hN] at hia0
          have hfront : q'.state.sequenceFront =
              q.state.sequenceFront + (retiredBy planned0 i : Int) := by
            rw [hrel.queue]
            show s2.sequenceFront + (retiredBy planned0 i : Int) = _
            rw [hf2]
          have hl0 := view_length hrel.before.views
          have hl1 := view_length hrel.after.views
          have hl2 := afterPull_length planned0 i t.timestamp
          have hret : retiredBy planned0 i = vs0.length - vs1.length := by omega
          refine ⟨?_, ?_, ?_⟩
          · obtain ⟨h1, h2⟩ := hps2
            unfold Periodic
            rw [hrel.queue]
            show s2.maxGopN ∣ s2.sequenceIdr ∧
              s2.sequenceIdr - s2.maxGopN < s2.sequenceFront + (retiredBy planned0 i : Int)
            exact ⟨h1, by omega⟩
          · rw [hfront, hq'v, hret]
            exact hia0.pulled hstep
          · intro E hE
            rw [List.mem_append] at hE
            rcases hE with hE | hE
            · exact hout E hE
            · simp only [Option.toList, List.mem_singleton] at hE
              subst hE
              have := hia0 i _ hvi
              simp only [decide_eq_true_eq] at this
              rw [this, hpoc]
      · obtain ⟨hod, hf, hidr, -⟩ :=
          step_passive (fun p hp => (ht.shape.pre p hp).2) hs hop
        subst hod
        simp only [Option.toList, List.append_nil]
        rcases ht.step_views hs with ⟨-, hv, -⟩ | ⟨D, _, _, _, _, _, _, _, _, _, _, -, h, -⟩
        · refine ⟨?_, ?_, hout⟩
          · unfold Periodic
            rw [hN', hf, hidr, ← hN]
            exact hper
          · rw [hf, hv]
            exact hia
        · cases h)
    (reach_new maxGopN maxGopM fieldCoding false)
    (by
      refine ⟨rfl, rfl, ?_, ?_, ?_⟩
      · show maxGopN ∣ 0 ∧ (0 : Int) - maxGopN < 0
        exact ⟨dvd_zero _, by omega⟩
      · intro k v hv
        simp [State.views, InputQueue.new] at hv
      · intro D hD
        cases hD) hrun
  simpa using this

/-- Claim C20: in periodic mode (scene-cut detection disabled) with an intra period `N` of
at least 1, after every run, every docket the planner has created has slice type `I` if
and only if its POC is a multiple of `N`: the dockets returned so far, the dockets attached
to the entries of the window, and the dockets on the window right after a call of
`process`.  This holds for every base GOP size for which the run succeeds (1 and 8),
whether or not the end of the input has been signalled, and for every effective size of
the groups. -/
theorem periodic_intra (maxGopN maxGopM : Int) (fieldCoding : Bool)
    (ops : List Op) (q : InputQueue) (out : List Docket) (hn : 1 ≤ maxGopN)
    (hrun : (InputQueue.new maxGopN maxGopM fieldCoding false).run ops = .ok (q, out)) :
    (∀ D ∈ out, (D.sliceType = SliceType.I ↔ maxGopN ∣ D.poc)) ∧
    (∀ (k : Nat) (p : Piece) (d : Docket), q.state.entries[k]? = some p → p.docket = some d →
      (d.sliceType = SliceType.I ↔ maxGopN ∣ d.poc)) ∧
    (∀ (s : State), q.swapped.process = .ok s →
      ∀ (k : Nat) (p : Piece) (d : Docket), s.entries[k]? = some p → p.docket = some d →
        (d.sliceType = SliceType.I ↔ maxGopN ∣ d.poc)) := by
  obtain ⟨hN, hsc, hper, hia, hout⟩ := Reach.periodic hn hrun
  obtain ⟨⟨planned, unplanned, vs, ht⟩, -⟩ := reach_of_run hrun
  refine ⟨hout, ?_, ?_⟩
  · intro k p d hentry hd
    obtain ⟨hpk, hvk⟩ := ht.shape.docketed hentry hd
    have hpoc := (ht.pocs k p d hpk hd).1
    rw [ht.shape.views_eq] at hia
    have := hia k _ hvk
    simp only [decide_eq_true_eq] at this
    rw [this, hpoc]
  · intro s hproc k p d hentry hd
    rcases ht.staged hproc with hblank | ⟨planned0, unplanned0, vs0, hst, hwin, -, -⟩
    · have := hblank p (List.getElem?_mem hentry)
      rw [hd] at this
      cases this
    · obtain ⟨hpk, hvk⟩ := hwin.docketed hentry hd
      obtain ⟨hsound, -, -⟩ := hst.sound ht
      have hpoc := (hsound k p d hpk hd).1
      rw [ht.shape.views_eq, ← hN] at hia
      obtain ⟨-, -, hf, hia0⟩ := hst.intra ht hwin hsc (by rw [hN]; exact hn) hper hia
      rw [hN] at hia0
      have := hia0 k _ hvk
      simp only [decide_eq_true_eq] at this
      rw [this, hpoc, hf]

theorem periodic_intra_witness :
    (InputQueue.new 4 8 false false).run witnessOps = .ok (periodicRun.1, periodicRun.2) ∧
    periodicRun.2.map (fun D => (D.poc, decide (D.sliceType = SliceType.I))) =
      [(0, true), (4, true), (2, false), (1, false), (3, false), (8, true), (6, false),
        (5, false), (7, false)] ∧
    (∀ D ∈ periodicRun.2, (D.sliceType = SliceType.I ↔ (4 : Int) ∣ D.poc)) :=
  ⟨by decide, by decide,
    (periodic_intra 4 8 false witnessOps periodicRun.1 periodicRun.2 (by decide)
      (by decide)).1⟩

/-! ## The effective group size -/

/-- With the next intra picture not behind the front of a non-empty window, the effective
GOP size is at least 1 and at most the base GOP size. -/
theorem effective_bounds (s : State) (hm : 1 ≤ s.maxGopM) (hlen : 0 < s.entries.length)
    (hidr : s.sequenceFront ≤ s.sequenceIdr) :
    1 ≤ s.effective.1 ∧ s.effective.1 ≤ s.maxGopM := by
  unfold State.effective
  by_cases h1 : s.finish ∧ (s.entries.length : Int) < s.maxGopM
  · simp only [if_pos h1]
    by_cases h2 : s.sequenceIdr - s.sequenceFront + 1 ≤ (s.entries.length : Int)
    · rw [if_pos h2]
      show 1 ≤ s.sequenceIdr - s.sequenceFront + 1 ∧ s.sequenceIdr - s.sequenceFront + 1 ≤ _
      omega
    · rw [if_neg h2]
      show 1 ≤ (s.entries.length : Int) ∧ (s.entries.length : Int) ≤ _
      omega
  · simp only [if_neg h1]
    by_cases h2 : s.sequenceIdr - s.sequenceFront + 1 ≤ s.maxGopM
    · rw [if_pos h2]
      show 1 ≤ s.sequenceIdr - s.sequenceFront + 1 ∧ s.sequenceIdr - s.sequenceFront + 1 ≤ _
      omega
    · rw [if_neg h2]
      show 1 ≤ s.maxGopM ∧ s.maxGopM ≤ s.maxGopM
      omega

/-- Claim C21: after every run with an intra period of at least 1 and a base GOP size `m`
of 1 or 8, when the planner gets past its no-op check (the window is not empty and its
first entry has no docket), the next intra position is not behind the front of the window
after the intra-refresh decision, and the effective GOP size is at least 1 and at most
`m`.  `process` returns, with no failed assertion in `createDocket` or `isValidReference`
and no access out of range, and stores the effective GOP size: either the window is
smaller than the effective size and is left as it is, or a group is committed, and then the
effective size is at most the size of the window, the docket of the last position and the
dockets of the pattern are written over the first entries, and every call of
`createDocket` has a position `i > 0` whose entry `i - 1`, when `i` is within the group,
is in the window. -/
theorem effective_group_size (maxGopN maxGopM : Int) (fieldCoding shotChange : Bool)
    (hn : 1 ≤ maxGopN) (hm : maxGopM = 1 ∨ maxGopM = 8) (ops : List Op) (q : InputQueue)
    (out : List Docket)
    (hrun : (InputQueue.new maxGopN maxGopM fieldCoding shotChange).run ops = .ok (q, out))
    (hne : q.state.entries ≠ [])
    (hfront : (q.state.entries.head?.bind Piece.docket) = none) :
    q.swapped.decideIdr.sequenceFront ≤ q.swapped.decideIdr.sequenceIdr ∧
    1 ≤ q.swapped.decideIdr.effective.1 ∧ q.swapped.decideIdr.effective.1 ≤ maxGopM ∧
    ∃ s', q.swapped.process = .ok s' ∧ s'.gopSize = q.swapped.decideIdr.effective.1 ∧
      s'.sequenceFront = q.swapped.decideIdr.sequenceFront ∧
      s'.sequenceIdr = q.swapped.decideIdr.sequenceIdr ∧
      (((q.state.entries.length : Int) < s'.gopSize ∧ s'.entries = q.state.entries) ∨
       (s'.gopSize ≤ (q.state.entries.length : Int) ∧
        s'.entries = overlay q.swapped.decideIdr.plan q.state.entries ∧
        s'.entries.length = q.state.entries.length ∧
        0 < s'.gopSize ∧ s'.gopSize - 1 < (s'.entries.length : Int) ∧
        ∀ r ∈ patternRows q.state.finish s'.gopSize,
          0 < r.i ∧ (r.i ≤ s'.gopSize → r.i - 1 < (s'.entries.length : Int)))) := by
  obtain ⟨⟨planned, unplanned, vs, ht⟩, hcfg⟩ := reach_of_run hrun
  obtain ⟨hp, -, -, hblank⟩ := ht.blank hfront
  subst hp
  obtain ⟨e1, -, -, -, e5, e6, e7, e8, e9, -⟩ := swapped_fields q
  have h0 := ht.shape.swapped
  have hM : q.swapped.maxGopM = maxGopM := by rw [e8, hcfg.2.1]; rfl
  have hidr := decideIdr_ge q.swapped (by rw [e9, hcfg.1]; exact hn) h0.front (by
    have := h0.idr
    simpa using this)
  have hlen : 0 < q.state.entries.length := List.length_pos.mpr hne
  obtain ⟨hlo, hhi⟩ := effective_bounds q.swapped.decideIdr
    (by rw [(decideIdr_fields q.swapped).2.1, hM]; omega)
    (by rw [decideIdr_entries, e1]; exact hlen) hidr
  rw [(decideIdr_fields q.swapped).2.1, hM] at hhi
  refine ⟨hidr, hlo, hhi, ?_⟩
  have hproc := process_planning q.swapped (by rw [e1]; exact hne) (by rw [e1]; exact hblank)
    (by rw [hM]; exact hm) hidr
  rw [e1] at hproc
  by_cases hlt : (q.state.entries.length : Int) < q.swapped.decideIdr.effective.1
  · rw [if_pos hlt] at hproc
    refine ⟨_, hproc, rfl, rfl, rfl, Or.inl ⟨hlt, ?_⟩⟩
    show q.swapped.decideIdr.entries = _
    rw [decideIdr_entries, e1]
  · rw [if_neg hlt] at hproc
    refine ⟨_, hproc, rfl, rfl, rfl, Or.inr ⟨?_, rfl, ?_, hlo, ?_, ?_⟩⟩
    · show q.swapped.decideIdr.effective.1 ≤ (q.state.entries.length : Int)
      omega
    · exact overlay_length _ _
    · show q.swapped.decideIdr.effective.1 - 1 <
        ((overlay q.swapped.decideIdr.plan q.state.entries).length : Int)
      rw [overlay_length]
      omega
    · intro r hr
      refine ⟨patternRows_pos _ _ r hr, ?_⟩
      intro hle
      show r.i - 1 < ((overlay q.swapped.decideIdr.plan q.state.entries).length : Int)
      rw [overlay_length]
      have : r.i ≤ q.swapped.decideIdr.effective.1 := hle
      omega

theorem effective_group_size_witness :
    (InputQueue.new 4 8 false false).run sizeOps = .ok (sizeQueue, [witnessFirst]) ∧
    sizeQueue.state.entries.length = 9 ∧
    sizeQueue.swapped.decideIdr.sequenceFront = 1 ∧
    sizeQueue.swapped.decideIdr.sequenceIdr = 4 ∧
    sizeQueue.swapped.decideIdr.effective.1 = 4 ∧
    ∃ s', sizeQueue.swapped.process = .ok s' ∧
      s'.gopSize = sizeQueue.swapped.decideIdr.effective.1 ∧
      s'.sequenceFront = sizeQueue.swapped.decideIdr.sequenceFront ∧
      s'.sequenceIdr = sizeQueue.swapped.decideIdr.sequenceIdr ∧
      (((sizeQueue.state.entries.length : Int) < s'.gopSize ∧
          s'.entries = sizeQueue.state.entries) ∨
       (s'.gopSize ≤ (sizeQueue.state.entries.length : Int) ∧
        s'.entries = overlay sizeQueue.swapped.decideIdr.plan sizeQueue.state.entries ∧
        s'.entries.length = sizeQueue.state.entries.length ∧
        0 < s'.gopSize ∧ s'.gopSize - 1 < (s'.entries.length : Int) ∧
        ∀ r ∈ patternRows sizeQueue.state.finish s'.gopSize,
          0 < r.i ∧ (r.i ≤ s'.gopSize → r.i - 1 < (s'.entries.length : Int)))) :=
  ⟨by decide, by decide, by decide, by decide, by decide,
    (effective_group_size 4 8 false false (by decide) (by decide) sizeOps sizeQueue
      [witnessFirst] (by decide) (by decide) (by decide)).2.2.2⟩

end Turing
